import Mathlib

/-! Verification of the diff applier (`src/applyDiff.js`, class `DiffApplier`).

A shallow embedding of the parser, the line normalizer, the context/anchor
locator, the hunk applier and the per-file orchestration, followed by the
theorems about them.

Modelling conventions.

* A JavaScript string is modelled by the list of its characters (`Str`).  All
  characters the code inspects individually (`+`, `-`, space, `@`, digits,
  punctuation, white space) are in the Basic Multilingual Plane, so indexing by
  character and by UTF-16 code unit agree wherever the code indexes.
* An array of lines is a `List Str`; `[...fileLines]` (a copy) is the list itself.
* `console.log` calls are diagnostics only and are left out.
* A `lineNumber` is absent (`undefined`) or a number.  The numbers that `parseInt`
  returns on a run of digits are the doubles that are non-negative integers, and
  `Infinity`; they are carried as natural numbers, `Infinity` as `2^1024` (the
  value that rounding reaches before the exponent range is applied), see
  `toDouble`.  The comparator of `sortHunksByLineNumber` has the same sign on the
  carried values as on the numbers (`Infinity - Infinity` is `NaN`, which `sort`
  reads as zero).
* Buffer offsets are natural numbers.  The only place where the source can
  produce a negative offset (`Math.min(fileLines.length - 1, ...)` on an empty
  buffer) is computed over `Int`, see `searchPositions`.
-/

namespace DiffApplier

/-- A JavaScript string, as the list of its characters. -/
abbrev Str := List Char

/-! ## String primitives of the host language -/

/-- The characters matched by `\s` in a regular expression and stripped by
`String.prototype.trim`: ECMAScript WhiteSpace and LineTerminator. -/
def isWhiteSpace (c : Char) : Bool :=
  c.toNat = 0x09 || c.toNat = 0x0A || c.toNat = 0x0B || c.toNat = 0x0C || c.toNat = 0x0D ||
  c.toNat = 0x20 || c.toNat = 0xA0 || c.toNat = 0x1680 ||
  (0x2000 ≤ c.toNat && c.toNat ≤ 0x200A) ||
  c.toNat = 0x2028 || c.toNat = 0x2029 || c.toNat = 0x202F || c.toNat = 0x205F ||
  c.toNat = 0x3000 || c.toNat = 0xFEFF

/-- The characters that `.` in a regular expression does not match:
ECMAScript LineTerminator. -/
def isLineTerminator (c : Char) : Bool :=
  c.toNat = 0x0A || c.toNat = 0x0D || c.toNat = 0x2028 || c.toNat = 0x2029

/-- The characters matched by `\d`. -/
def isDigit (c : Char) : Bool := 0x30 ≤ c.toNat && c.toNat ≤ 0x39

/-- Embeds `s.trimStart()`. -/
def trimStart (s : Str) : Str := s.dropWhile isWhiteSpace

/-- Embeds `s.trimEnd()`. -/
def trimEnd (s : Str) : Str := (s.reverse.dropWhile isWhiteSpace).reverse

/-- Embeds `s.trim()`. -/
def trim (s : Str) : Str := trimEnd (trimStart s)

/-- Embeds `s.startsWith(p)`. -/
def startsWith (p s : Str) : Bool := p == s.take p.length

/-- Embeds `s.endsWith(p)`. -/
def endsWith (p s : Str) : Bool := startsWith p.reverse s.reverse

/-- Embeds `s.includes(p)`: `p` occurs in `s` as a contiguous substring. -/
def includes (p : Str) : Str → Bool
  | [] => p.isEmpty
  | c :: cs => startsWith p (c :: cs) || includes p cs

/-- Embeds `text.split('\n')`. -/
def splitLines : Str → List Str
  | [] => [[]]
  | c :: cs =>
    if c = '\n' then [] :: splitLines cs
    else
      match splitLines cs with
      | l :: ls => (c :: l) :: ls
      | [] => [[c]]

/-- Embeds `lines.join('\n')`. -/
def joinLines : List Str → Str
  | [] => []
  | [l] => l
  | l :: l2 :: ls => l ++ '\n' :: joinLines (l2 :: ls)

/-- Embeds `arr.splice(pos, 0, x)` for a non-negative `pos`: insert `x` at index `pos`,
or at the end when `pos` exceeds the length. -/
def spliceInsert (arr : List Str) (pos : Nat) (x : Str) : List Str :=
  arr.take pos ++ x :: arr.drop pos

/-- Embeds `arr.splice(pos, 1)` for a non-negative `pos`: delete the element at index `pos`. -/
def spliceRemove (arr : List Str) (pos : Nat) : List Str :=
  arr.take pos ++ arr.drop (pos + 1)

/-- The first `i` with `lo ≤ i < hi` that satisfies `p`: the result of
`for (let i = lo; i < hi; i++) if (p(i)) break`. -/
def firstInRange (lo hi : Nat) (p : Nat → Bool) : Option Nat :=
  (List.range' lo (hi - lo)).find? p

/-! ## Data model -/

/-- The tag of an operation (`operation.type`). -/
inductive OpType where
  | context
  | add
  | remove
  deriving DecidableEq, Repr

/-- One operation of a hunk: `{ type, line }`. -/
structure Operation where
  type : OpType
  line : Str
  deriving DecidableEq, Repr

/-- One hunk: `{ operations, headerContext, lineNumber }`; `headerContext` is
`null` or a string, `lineNumber` is `undefined` or the parsed number (`Infinity`
carried as `2^1024`). -/
structure Hunk where
  operations : List Operation
  headerContext : Option Str
  lineNumber : Option Nat
  deriving DecidableEq, Repr

/-- One file of a diff: `{ filename, hunks, isNewFile }`. -/
structure FileChange where
  filename : Str
  hunks : List Hunk
  isNewFile : Bool
  deriving DecidableEq, Repr

/-- A candidate offset: `{ startPos, contextLines, removeMatches, totalOperations }`. -/
structure Match where
  startPos : Nat
  contextLines : Nat
  removeMatches : Nat
  totalOperations : Nat
  deriving DecidableEq, Repr

/-- The value returned by `attemptApplyHunk`: `{ result, success, errorReason }`. -/
structure AttemptResult where
  result : List Str
  success : Bool
  errorReason : Option Str
  deriving DecidableEq, Repr

/-- The value returned by `applyHunk`: `{ result, success, skipped, errorReason }`. -/
structure ApplyOutcome where
  result : List Str
  success : Bool
  skipped : Bool
  errorReason : Option Str
  deriving DecidableEq, Repr

/-! ## Line normalizer -/

/-- The punctuation class `[{}();,]`. -/
def isPunct (c : Char) : Bool :=
  c = '{' || c = '}' || c = '(' || c = ')' || c = ';' || c = ','

/-- Embeds `s.replace(/\s+/g, ' ')`; the flag records that the previous character was
white space, i.e. that the current run has already been replaced. -/
def collapseWhiteSpace : Bool → Str → Str
  | _, [] => []
  | inRun, c :: cs =>
    if isWhiteSpace c then
      if inRun then collapseWhiteSpace true cs else ' ' :: collapseWhiteSpace true cs
    else c :: collapseWhiteSpace false cs

/-- Embeds `s.replace(/\s*([{}();,])\s*/g, '$1')`, scanning left to right.  `afterPunct`
records that the scan is inside the trailing `\s*` of a match (white space is
dropped); `pending` is the white-space run read so far, which is dropped when a
punctuation character follows it and kept otherwise. -/
def stripAroundPunct : Bool → Str → Str → Str
  | _, pending, [] => pending
  | afterPunct, pending, c :: cs =>
    if isPunct c then c :: stripAroundPunct true [] cs
    else if isWhiteSpace c then
      if afterPunct then stripAroundPunct true [] cs
      else stripAroundPunct false (pending ++ [c]) cs
    else pending ++ c :: stripAroundPunct false [] cs

/-- Embeds `normalizeLineForMatching(line)`. -/
def normalizeLineForMatching (line : Str) : Str :=
  if (trim line).length < 1 then []
  else stripAroundPunct false [] (collapseWhiteSpace false (trim line))

/-! ## Context/anchor locator -/

/-- Embeds `Math.floor(n * 0.7)` in IEEE double arithmetic, for an array length `n`.
The double nearest to `0.7` is `6305039478318694 / 2^53`; the exact product is
rounded to 53 significant bits (ties to even) and then floored. -/
def floorTimes07 (n : Nat) : Nat :=
  let p := n * 6305039478318694
  let s := ((List.range (n + 1)).find? (fun s => decide (p / 2 ^ s < 2 ^ 53))).getD 0
  let q := p / 2 ^ s
  let r := p % 2 ^ s
  let q1 := if 2 ^ s < 2 * r ∨ (2 * r = 2 ^ s ∧ q % 2 = 1) then q + 1 else q
  q1 * 2 ^ s / 2 ^ 53

/-- The inner loops shared by `countRemovalMatchesInFile` and `countRemovalMatches`:
for each removal key, the first index `j` in `[lo, hi)` that is not used yet,
holds a truthy (non-empty) line and normalizes to the key is counted and marked used. -/
def countRemovalLoop (fileLines : List Str) (lo hi : Nat) :
    List Str → List Nat → Nat → Nat
  | [], _, matchCount => matchCount
  | removeLine :: rest, usedIndices, matchCount =>
    match firstInRange lo hi (fun j =>
        !usedIndices.contains j &&
        (match fileLines[j]? with
         | some l => !l.isEmpty && normalizeLineForMatching l == removeLine
         | none => false)) with
    | some j => countRemovalLoop fileLines lo hi rest (j :: usedIndices) (matchCount + 1)
    | none => countRemovalLoop fileLines lo hi rest usedIndices matchCount

/-- Embeds `countRemovalMatchesInFile(fileLines, removeLines)`. -/
def countRemovalMatchesInFile (fileLines : List Str) (removeLines : List Str) : Nat :=
  if removeLines.length = 0 then 0
  else countRemovalLoop fileLines 0 fileLines.length removeLines [] 0

/-- Embeds `countRemovalMatches(fileLines, removeLines, centerPos, searchRange)`;
`centerPos` is an integer because one caller can pass `-1`. -/
def countRemovalMatches (fileLines : List Str) (removeLines : List Str)
    (centerPos : Int) (searchRange : Int) : Nat :=
  if removeLines.length = 0 then 0
  else
    let searchStart := (max 0 (centerPos - searchRange)).toNat
    let searchEnd := (min (fileLines.length : Int) (centerPos + searchRange)).toNat
    countRemovalLoop fileLines searchStart searchEnd removeLines [] 0

/-- The `while` loop of `findContextSequenceAt`: advance `fileIndex` to the next
line that normalizes to `contextLine`, or to `fileLines.length`. -/
def skipToContext (fileLines : List Str) (contextLine : Str) (fileIndex : Nat) : Nat :=
  fileIndex + ((fileLines.drop fileIndex).takeWhile
    (fun l => normalizeLineForMatching l != contextLine)).length

/-- The `for` loop of `findContextSequenceAt`, returning `(found, endPos)`. -/
def findContextSequenceLoop (fileLines : List Str) : List Str → Nat → Bool × Nat
  | [], fileIndex => (true, fileIndex)
  | contextLine :: rest, fileIndex =>
    let fileIndex1 := skipToContext fileLines contextLine fileIndex
    if fileIndex1 ≥ fileLines.length then (false, fileIndex1)
    else findContextSequenceLoop fileLines rest (fileIndex1 + 1)

/-- Embeds `findContextSequenceAt(fileLines, contextLines, startPos)` as `(found, endPos)`. -/
def findContextSequenceAt (fileLines : List Str) (contextLines : List Str)
    (startPos : Nat) : Bool × Nat :=
  if contextLines.length = 0 then (true, startPos)
  else findContextSequenceLoop fileLines contextLines startPos

/-- The comparator of `matches.sort`: `a` goes before `b` exactly when its score
`removeMatches + contextLines` is strictly larger. -/
def matchScore (m : Match) : Nat := m.removeMatches + m.contextLines

/-- Insertion of one candidate behind all candidates whose score is at least its own. -/
def insertMatch (m : Match) : List Match → List Match
  | [] => [m]
  | x :: xs => if matchScore x ≥ matchScore m then x :: insertMatch m xs else m :: x :: xs

/-- Embeds `matches.sort((a, b) => scoreB - scoreA)`: `Array.prototype.sort` is stable, so
the result is the insertion of the candidates, in discovery order, each behind
the candidates of at least its score. -/
def sortMatches (ms : List Match) : List Match :=
  ms.foldl (fun acc m => insertMatch m acc) []

/-- The five probe centers of the removal-based fallback, in the source's order.
The last two are `-1` on an empty buffer, hence integers. -/
def searchPositions (fileLines : List Str) (startSearchPos : Nat) : List Int :=
  [ (startSearchPos : Int),
    max 0 ((startSearchPos : Int) - 5),
    max 0 ((startSearchPos : Int) - 10),
    min ((fileLines.length : Int) - 1) ((startSearchPos : Int) + 5),
    min ((fileLines.length : Int) - 1) ((startSearchPos : Int) + 10) ]

/-- The normalized keys of the context operations (`contextLines` in the source). -/
def contextKeys (operations : List Operation) : List Str :=
  (operations.filter (fun op => op.type = OpType.context)).map
    (fun op => normalizeLineForMatching op.line)

/-- The normalized keys of the remove operations (`removeLines` in the source). -/
def removeKeys (operations : List Operation) : List Str :=
  (operations.filter (fun op => op.type = OpType.remove)).map
    (fun op => normalizeLineForMatching op.line)

/-- The branch `if (contextLines.length > 0)` of `findAllContextMatches`: the scan
`for (i = startSearchPos; i <= fileLines.length - contextLines.length; i++)`. -/
def contextScan (fileLines : List Str) (operations : List Operation)
    (startSearchPos : Nat) : List Match :=
  let contextLines := contextKeys operations
  let removeLines := removeKeys operations
  (List.range' startSearchPos
      (fileLines.length + 1 - contextLines.length - startSearchPos)).filterMap
    (fun i =>
      if (findContextSequenceAt fileLines contextLines i).1 then
        let isValidMatch : Bool :=
          if removeLines.length = 0 then true
          else decide (countRemovalMatchesInFile fileLines removeLines
                ≥ floorTimes07 removeLines.length)
        if isValidMatch then
          some { startPos := i, contextLines := contextLines.length,
                 removeMatches :=
                   if removeLines.length = 0 then 0
                   else countRemovalMatchesInFile fileLines removeLines,
                 totalOperations := operations.length }
        else none
      else none)

/-- The `else` branch of `findAllContextMatches`: removal-based matching around the
anchor.  A probe center is only recorded when all removal keys were found around
it, which a negative center never achieves (`removalProbe_center_nonneg`), so
`toNat` loses nothing. -/
def removalProbe (fileLines : List Str) (operations : List Operation)
    (startSearchPos : Nat) : List Match :=
  let removeLines := removeKeys operations
  (searchPositions fileLines startSearchPos).filterMap
    (fun pos =>
      let removeMatches := countRemovalMatches fileLines removeLines pos 10
      if removeMatches = removeLines.length then
        some { startPos := pos.toNat, contextLines := 0, removeMatches := removeMatches,
               totalOperations := operations.length }
      else none)

/-- Embeds `findAllContextMatches(fileLines, operations, startSearchPos)`. -/
def findAllContextMatches (fileLines : List Str) (operations : List Operation)
    (startSearchPos : Nat) : List Match :=
  let contextLines := contextKeys operations
  let removeLines := removeKeys operations
  if contextLines.length = 0 ∧ removeLines.length = 0 then
    [{ startPos := startSearchPos, contextLines := 0, removeMatches := 0,
       totalOperations := operations.length }]
  else
    sortMatches
      (if contextLines.length > 0 then contextScan fileLines operations startSearchPos
       else removalProbe fileLines operations startSearchPos)

/-- Embeds `findAnchor(fileLines, headerContext)`; `!headerContext` holds for `null` and for
the empty string. -/
def findAnchor (fileLines : List Str) (headerContext : Option Str) : Nat :=
  match headerContext with
  | none => 0
  | some h =>
    if h.isEmpty then 0
    else
      let normalizedContext := normalizeLineForMatching h
      match firstInRange 0 fileLines.length (fun i =>
          match fileLines[i]? with
          | some l => normalizeLineForMatching l == normalizedContext
          | none => false) with
      | some i => i + 1
      | none =>
        match firstInRange 0 fileLines.length (fun i =>
            match fileLines[i]? with
            | some l => includes normalizedContext (normalizeLineForMatching l)
            | none => false) with
        | some i => i + 1
        | none => 0

/-- Embeds `isContextOnlyHunk(operations)`. -/
def isContextOnlyHunk (operations : List Operation) : Bool :=
  operations.all (fun op => op.type = OpType.context)

/-! ## Hunk applier -/

/-- The forward search of `attemptApplyHunk`: the first `searchPos` with
`currentPos ≤ searchPos < Math.min(result.length, currentPos + window)` whose line
(any string, the empty one included) normalizes to `expectedLine`. -/
def searchForward (result : List Str) (expectedLine : Str) (currentPos window : Nat) :
    Option Nat :=
  firstInRange currentPos (min result.length (currentPos + window)) (fun searchPos =>
    match result[searchPos]? with
    | some l => normalizeLineForMatching l == expectedLine
    | none => false)

/-- The backward search of `attemptApplyHunk`: the first `searchPos` with
`Math.max(0, currentPos - window) ≤ searchPos < currentPos` whose line is truthy
(defined and non-empty) and normalizes to `expectedLine`. -/
def searchBackward (result : List Str) (expectedLine : Str) (currentPos window : Nat) :
    Option Nat :=
  firstInRange (currentPos - window) currentPos (fun searchPos =>
    match result[searchPos]? with
    | some l => !l.isEmpty && normalizeLineForMatching l == expectedLine
    | none => false)

/-- The text of `Context line not found: "${operation.line.trim()}"`. -/
def contextNotFound (line : Str) : Str :=
  "Context line not found: \"".toList ++ trim line ++ "\"".toList

/-- The text of `Line to remove not found: "${operation.line.trim()}"`. -/
def removeNotFound (line : Str) : Str :=
  "Line to remove not found: \"".toList ++ trim line ++ "\"".toList

/-- The `for` loop of `attemptApplyHunk` over the operations still to process, with
the loop state `result`, `currentPos`, `appliedChanges`; `fileLines` is the
caller's buffer, returned untouched on failure. -/
def attemptLoop (fileLines : List Str) :
    List Operation → List Str → Nat → Nat → AttemptResult
  | [], result, _, appliedChanges =>
    { result := result, success := decide (appliedChanges > 0), errorReason := none }
  | operation :: rest, result, currentPos, appliedChanges =>
    match operation.type with
    | OpType.context =>
      let expectedLine := normalizeLineForMatching operation.line
      match searchForward result expectedLine currentPos 10 with
      | some searchPos => attemptLoop fileLines rest result (searchPos + 1) appliedChanges
      | none =>
        match searchBackward result expectedLine currentPos 3 with
        | some searchPos => attemptLoop fileLines rest result (searchPos + 1) appliedChanges
        | none =>
          { result := fileLines, success := false,
            errorReason := some (contextNotFound operation.line) }
    | OpType.remove =>
      let expectedLine := normalizeLineForMatching operation.line
      match searchForward result expectedLine currentPos 5 with
      | some searchPos =>
        attemptLoop fileLines rest (spliceRemove result searchPos) searchPos (appliedChanges + 1)
      | none =>
        match searchBackward result expectedLine currentPos 2 with
        | some searchPos =>
          attemptLoop fileLines rest (spliceRemove result searchPos) searchPos
            (appliedChanges + 1)
        | none =>
          { result := fileLines, success := false,
            errorReason := some (removeNotFound operation.line) }
    | OpType.add =>
      attemptLoop fileLines rest (spliceInsert result currentPos operation.line)
        (currentPos + 1) (appliedChanges + 1)

/-- Embeds `attemptApplyHunk(fileLines, operations, startPos)`. -/
def attemptApplyHunk (fileLines : List Str) (operations : List Operation) (startPos : Nat) :
    AttemptResult :=
  attemptLoop fileLines operations fileLines startPos 0

/-- The candidate loop of `applyHunk`: the best match first, then the others in
order; the first successful attempt is returned with `skipped: false`. -/
def tryMatches (result : List Str) (operations : List Operation) :
    List Match → ApplyOutcome
  | [] =>
    { result := result, success := false, skipped := false,
      errorReason := some "All context matches failed during application".toList }
  | m :: rest =>
    let attemptResult := attemptApplyHunk result operations m.startPos
    if attemptResult.success then
      { result := attemptResult.result, success := attemptResult.success, skipped := false,
        errorReason := attemptResult.errorReason }
    else tryMatches result operations rest

/-- Embeds `applyHunk(fileLines, hunk)`. -/
def applyHunk (fileLines : List Str) (hunk : Hunk) : ApplyOutcome :=
  let result := fileLines
  if isContextOnlyHunk hunk.operations then
    { result := result, success := true, skipped := true, errorReason := none }
  else
    let anchorPos := findAnchor result hunk.headerContext
    let contextOperations := hunk.operations.filter (fun op => op.type = OpType.context)
    let addOperations := hunk.operations.filter (fun op => op.type = OpType.add)
    let removeOperations := hunk.operations.filter (fun op => op.type = OpType.remove)
    if contextOperations.length = 0 ∧ removeOperations.length = 0 ∧ addOperations.length > 0 then
      { result := addOperations.reverse.foldl
          (fun res op => spliceInsert res anchorPos op.line) result,
        success := true, skipped := false, errorReason := none }
    else
      let found := findAllContextMatches result hunk.operations anchorPos
      if found.length = 0 then
        { result := result, success := false, skipped := false,
          errorReason := some "No context matches found".toList }
      else tryMatches result hunk.operations found

/-! ## File orchestrator: ordering and new files -/

/-- The comparator of `sortHunksByLineNumber`: negative when `a` goes first,
positive when `b` goes first, zero when they compare equal. -/
def compareHunks (a b : Hunk) : Int :=
  match a.lineNumber, b.lineNumber with
  | none, none => 0
  | none, some _ => 1
  | some _, none => -1
  | some x, some y => (y : Int) - (x : Int)

/-- Insertion of one hunk behind all hunks that sort before it or compare equal to it. -/
def insertHunk (h : Hunk) : List Hunk → List Hunk
  | [] => [h]
  | x :: xs => if compareHunks x h ≤ 0 then x :: insertHunk h xs else h :: x :: xs

/-- Embeds `sortHunksByLineNumber(hunks)`: `[...hunks].sort(comparator)`.  `Array.prototype.sort`
is stable, so the result is the insertion of the hunks, in input order, each
behind the hunks that do not sort after it. -/
def sortHunksByLineNumber (hunks : List Hunk) : List Hunk :=
  hunks.foldl (fun acc h => insertHunk h acc) []

/-- Embeds `createNewFile(fileLines, hunks)` as `(result, success)`: the loop pushes the line
of every `add` operation and counts it in `appliedChanges`. -/
def createNewFile (hunks : List Hunk) : List Str × Bool :=
  let result := hunks.foldl (fun res hunk =>
    hunk.operations.foldl (fun res operation =>
      if operation.type = OpType.add then res ++ [operation.line] else res) res) []
  let appliedChanges := hunks.foldl (fun n hunk =>
    hunk.operations.foldl (fun n operation =>
      if operation.type = OpType.add then n + 1 else n) n) (0 : Nat)
  (result, decide (appliedChanges > (0 : Nat)))

/-! ## Diff parser -/

/-- Embeds `line.replace(/^\++/, '')`: the line without its leading run of `+`. -/
def stripPlusRun (s : Str) : Str := s.dropWhile (fun c => c = '+')

/-- The length of the leading run of `+`. -/
def plusRunLength (s : Str) : Nat := (s.takeWhile (fun c => c = '+')).length

/-- The regular expression `^\++` followed by the literal `lit` (which may itself
begin with `+`, as in `^\++\+\+ b\/`), matched at the start of `s`; the value is
the text behind the match.  The run of `+` in `s` must supply the pluses of the
literal and at least one more, and the rest of the literal must follow the run. -/
def afterPlusRun (lit : Str) (s : Str) : Option Str :=
  if plusRunLength s ≥ 1 + plusRunLength lit ∧ startsWith (stripPlusRun lit) (stripPlusRun s)
  then some ((stripPlusRun s).drop (stripPlusRun lit).length)
  else none

/-- The group `(.+)` matched greedily at the start of `s` with nothing required
behind it: the longest run of characters other than line terminators, which
must not be empty. -/
def dotPlus (s : Str) : Option Str :=
  let g := s.takeWhile (fun c => !isLineTerminator c)
  if g.isEmpty then none else some g

/-- An unanchored pattern `lit(.+)`: the group of the first position of `s` at which
the literal `lit` is followed by a non-empty `(.+)`. -/
def searchLiteralGroup (lit : Str) : Str → Option Str
  | [] => none
  | c :: cs =>
    match (if startsWith lit (c :: cs) then dotPlus ((c :: cs).drop lit.length) else none) with
    | some g => some g
    | none => searchLiteralGroup lit cs

/-- The pattern `(.+)sep(.+)` on a run `s` without line terminators, both groups
greedy: `s = g1 ++ sep ++ g2` with `g1`, `g2` non-empty and `g1` as long as possible. -/
def lastSplit (sep : Str) : Str → Option (Str × Str)
  | [] => none
  | c :: cs =>
    match lastSplit sep cs with
    | some (g1, g2) => some (c :: g1, g2)
    | none =>
      if startsWith sep cs && !(cs.drop sep.length).isEmpty then
        some ([c], cs.drop sep.length)
      else none

/-- Embeds `line.match(/diff --git a\/(.+) b\/(.+)/)`, unanchored, as the two groups. -/
def matchDiffGit : Str → Option (Str × Str)
  | [] => none
  | c :: cs =>
    match (if startsWith "diff --git a/".toList (c :: cs) then
        lastSplit " b/".toList
          (((c :: cs).drop "diff --git a/".toList.length).takeWhile
            (fun d => !isLineTerminator d))
      else none) with
    | some g => some g
    | none => matchDiffGit cs

/-- The integer that a run of decimal digits denotes. -/
def decimalValue (digits : Str) : Nat :=
  digits.foldl (fun n c => 10 * n + (c.toNat - 0x30)) 0

/-- The number of binary digits of `n`; `fuel` bounds the number of halvings. -/
def bitLength : Nat → Nat → Nat
  | 0, _ => 0
  | fuel + 1, n => if n = 0 then 0 else bitLength fuel (n / 2) + 1

/-- The power `2^e`. -/
def pow2 : Nat → Nat
  | 0 => 1
  | e + 1 => 2 * pow2 e

/-- The quotient `x / 2^e` rounded to the nearest integer, a tie to the even one. -/
def roundShift (x e : Nat) : Nat :=
  if 2 * (x % pow2 e) < pow2 e then x / pow2 e
  else if 2 * (x % pow2 e) = pow2 e ∧ (x / pow2 e) % 2 = 0 then x / pow2 e
  else x / pow2 e + 1

/-- The value `2^1024` that stands for the number `Infinity`. -/
def infinity : Nat := (2 ^ 256) ^ 4

/-- The Number value of the integer `x` (IEEE 754 binary64, round to nearest, ties
to even): `x` is rounded to 53 significant binary digits, and a result of `2^1024`
or more is `Infinity`, carried as `infinity`. -/
def toDouble (x : Nat) : Nat :=
  if roundShift x (bitLength x x - 53) * pow2 (bitLength x x - 53) < infinity then
    roundShift x (bitLength x x - 53) * pow2 (bitLength x x - 53)
  else infinity

/-- Embeds `parseInt(digits, 10)` for a non-empty run of decimal digits: the Number
value of the integer that the digits denote. -/
def parseInt (digits : Str) : Nat := toDouble (decimalValue digits)

/-- The part `(\d+),?\d*` of the hunk-header pattern, matched at the start of `s`:
the group and the text behind the match.  The pattern continues with a space, so
backtracking cannot help: the group is the whole run of digits, then an optional
comma and a further run of digits are consumed. -/
def matchRange (s : Str) : Option (Str × Str) :=
  let d := s.takeWhile isDigit
  if d.isEmpty then none
  else
    let r := s.dropWhile isDigit
    match r with
    | ',' :: r1 => some (d, r1.dropWhile isDigit)
    | _ => some (d, r)

/-- The pattern `@@ -(\d+),?\d* \+(\d+),?\d* @@\s*(.+)?` matched at the start of `s`:
groups 1 and 3.  The greedy `\s*` takes the whole run of white space (line
terminators included), behind which `(.+)` takes the characters up to the next
line terminator; group 3 is `undefined` when nothing is left for it. -/
def matchHunkHeaderAt (s : Str) : Option (Str × Option Str) :=
  if startsWith "@@ -".toList s then
    match matchRange (s.drop 4) with
    | none => none
    | some (g1, r1) =>
      if startsWith " +".toList r1 then
        match matchRange (r1.drop 2) with
        | none => none
        | some (_, r2) =>
          if startsWith " @@".toList r2 then
            some (g1, dotPlus ((r2.drop 3).dropWhile isWhiteSpace))
          else none
      else none
  else none

/-- Embeds `cleanedHeaderLine.match(/@@ -(\d+),?\d* \+(\d+),?\d* @@\s*(.+)?/)`, unanchored. -/
def matchHunkHeader : Str → Option (Str × Option Str)
  | [] => none
  | c :: cs =>
    match matchHunkHeaderAt (c :: cs) with
    | some g => some g
    | none => matchHunkHeader cs

/-- The variables of the parsing loop. -/
structure ParseState where
  files : List FileChange
  currentFile : Option FileChange
  currentOperations : List Operation
  currentHeaderContext : Option Str
  currentLineNumber : Option Nat
  isNewFile : Bool
  deriving DecidableEq, Repr

/-- Embeds `finishCurrentHunk(currentFile, operations, headerContext, lineNumber)`: the
current file after the call. -/
def finishCurrentHunk (currentFile : Option FileChange) (operations : List Operation)
    (headerContext : Option Str) (lineNumber : Option Nat) : Option FileChange :=
  match currentFile with
  | some f =>
    if operations.length > 0 then
      some { f with hunks := f.hunks ++
        [{ operations := operations, headerContext := headerContext, lineNumber := lineNumber }] }
    else some f
  | none => none

/-- Embeds `finishCurrentFile(files, currentFile)`: the file list after the call. -/
def finishCurrentFile (files : List FileChange) (currentFile : Option FileChange) :
    List FileChange :=
  match currentFile with
  | some f => if f.hunks.length > 0 then files ++ [f] else files
  | none => files

/-- The test of the first branch of the loop: a file header, well-formed or with a
run of `+` in front. -/
def isFileHeader (line : Str) : Bool :=
  startsWith "diff --git".toList line ||
  startsWith "--- a/".toList line ||
  startsWith "--- /dev/null".toList line ||
  (afterPlusRun "--- a/".toList line).isSome ||
  (afterPlusRun "--- /dev/null".toList line).isSome

/-- The `filename` and `isNewFile` computed in the first branch of the loop. -/
def fileHeaderInfo (line : Str) : Str × Bool :=
  if startsWith "diff --git".toList line then
    (match matchDiffGit line with
     | some (_, g2) => g2
     | none => "unknown".toList, false)
  else if startsWith "--- a/".toList line then
    ((searchLiteralGroup "--- a/".toList line).getD "unknown".toList, false)
  else if startsWith "--- /dev/null".toList line then ("unknown".toList, true)
  else if (afterPlusRun "--- a/".toList line).isSome then
    (((afterPlusRun "--- a/".toList line).bind dotPlus).getD "unknown".toList, false)
  else if (afterPlusRun "--- /dev/null".toList line).isSome then ("unknown".toList, true)
  else ("unknown".toList, false)

/-- The body of the parsing loop behind `const line = lines[i].trimEnd()`. -/
def processLine (st : ParseState) (line : Str) : ParseState :=
  if isFileHeader line then
    let currentFile := finishCurrentHunk st.currentFile st.currentOperations
      st.currentHeaderContext st.currentLineNumber
    let files := finishCurrentFile st.files currentFile
    let info := fileHeaderInfo line
    { files := files,
      currentFile := some { filename := info.1, hunks := [], isNewFile := info.2 },
      currentOperations := [],
      currentHeaderContext := none,
      currentLineNumber := none,
      isNewFile := info.2 }
  else if startsWith "+++ b/".toList line || (afterPlusRun "++ b/".toList line).isSome then
    let m :=
      if startsWith "+++ b/".toList line then searchLiteralGroup "+++ b/".toList line
      else (afterPlusRun "++ b/".toList line).bind dotPlus
    match m, st.currentFile with
    | some g, some f => { st with currentFile := some { f with filename := g } }
    | _, _ => st
  else if startsWith "new file mode".toList line then
    match st.currentFile with
    | some f => { st with currentFile := some { f with isNewFile := true }, isNewFile := true }
    | none => st
  else if startsWith "@@".toList line || startsWith "+@@".toList line then
    let currentFile := finishCurrentHunk st.currentFile st.currentOperations
      st.currentHeaderContext st.currentLineNumber
    let cleanedHeaderLine := stripPlusRun line
    match matchHunkHeader cleanedHeaderLine with
    | some (g1, g3) =>
      { st with currentFile := currentFile, currentOperations := [],
                currentLineNumber := some (parseInt g1),
                currentHeaderContext := g3.map trim }
    | none =>
      { st with currentFile := currentFile, currentOperations := [],
                currentHeaderContext := none, currentLineNumber := none }
  else if startsWith "index ".toList line || line.isEmpty then st
  else if startsWith " ".toList line || startsWith "+".toList line ||
      startsWith "-".toList line then
    if startsWith "+@@".toList line ||
       startsWith "--- a/".toList line ||
       startsWith "--- /dev/null".toList line ||
       startsWith "+++ b/".toList line ||
       (afterPlusRun "--- ".toList line).isSome ||
       (afterPlusRun "++ ".toList line).isSome then st
    else
      match line with
      | ' ' :: content =>
        { st with currentOperations := st.currentOperations ++ [⟨OpType.context, content⟩] }
      | '+' :: content =>
        { st with currentOperations := st.currentOperations ++ [⟨OpType.add, content⟩] }
      | '-' :: content =>
        { st with currentOperations := st.currentOperations ++ [⟨OpType.remove, content⟩] }
      | _ => st
  else st

/-- The body of the parsing loop for one element of `lines`. -/
def parseLine (st : ParseState) (rawLine : Str) : ParseState :=
  processLine st (trimEnd rawLine)

/-- The state before the first line. -/
def initialParseState : ParseState :=
  { files := [], currentFile := none, currentOperations := [], currentHeaderContext := none,
    currentLineNumber := none, isNewFile := false }

/-- The two calls behind the loop, and the returned `files`. -/
def finishParse (st : ParseState) : List FileChange :=
  finishCurrentFile st.files
    (finishCurrentHunk st.currentFile st.currentOperations st.currentHeaderContext
      st.currentLineNumber)

/-- Embeds `l.replace(/\xa0/g, ' ')`. -/
def replaceNbsp (l : Str) : Str := l.map (fun c => if c.toNat = 0xA0 then ' ' else c)

/-- The lines of `parseDiff`: `diffText.split('\n').map(l => l.replace(/\xa0/g, ' '))`. -/
def diffLines (diffText : Str) : List Str := (splitLines diffText).map replaceNbsp

/-- Embeds `parseDiff(diffText)`. -/
def parseDiff (diffText : Str) : List FileChange :=
  finishParse ((diffLines diffText).foldl parseLine initialParseState)

/-! ## File orchestrator: one file of `applyDiff`

The model takes the file content that `applyDiff` reads and returns the content it
writes (`none` when it does not write) together with the result record it
pushes.  The fields `filename` and `targetPath` of the record come from path
resolution and are not part of the model; file-system exceptions are not modelled. -/

/-- The `status` of a result record. -/
inductive FileStatus where
  | SUCCESS
  | CREATED
  | FAILED
  deriving DecidableEq, Repr

/-- An element of `failedHunkDetails`. -/
structure FailedHunkDetail where
  hunkIndex : Nat
  lineNumber : Option Nat
  headerContext : Option Str
  reason : Str
  deriving DecidableEq, Repr

/-- A result record pushed to `results` (without `filename` and `targetPath`). -/
structure FileResult where
  status : FileStatus
  hunksApplied : Nat
  totalHunks : Nat
  hunksSkipped : Nat
  error : Option Str
  failedHunks : Option (List FailedHunkDetail)
  deriving DecidableEq, Repr

/-- The branch `if (isNewFile)` of `applyDiff`. -/
def processNewFile (hunks : List Hunk) : Option Str × FileResult :=
  let created := createNewFile hunks
  if created.2 ∧ created.1.length > 0 then
    (some (joinLines created.1 ++ ['\n']),
     { status := FileStatus.CREATED, hunksApplied := hunks.length, totalHunks := hunks.length,
       hunksSkipped := 0, error := none, failedHunks := none })
  else
    (none,
     { status := FileStatus.FAILED, hunksApplied := 0, totalHunks := hunks.length,
       hunksSkipped := 0, error := some "No content to write".toList, failedHunks := none })

/-- The variables of the hunk loop of `applyDiff`. -/
structure HunkLoopState where
  fileLines : List Str
  successfulHunks : Nat
  failedHunks : Nat
  skippedHunks : Nat
  failedHunkDetails : List FailedHunkDetail
  deriving DecidableEq, Repr

/-- The body of the hunk loop for `sortedHunks[i]`. -/
def hunkLoopStep (st : HunkLoopState) (i : Nat) (hunk : Hunk) : HunkLoopState :=
  let outcome := applyHunk st.fileLines hunk
  if outcome.skipped then { st with skippedHunks := st.skippedHunks + 1 }
  else if outcome.success then
    { st with fileLines := outcome.result, successfulHunks := st.successfulHunks + 1 }
  else
    { st with
      failedHunks := st.failedHunks + 1,
      failedHunkDetails := st.failedHunkDetails ++
        [{ hunkIndex := i, lineNumber := hunk.lineNumber, headerContext := hunk.headerContext,
           reason := match outcome.errorReason with
             | some r => if r.isEmpty then "Unknown error".toList else r
             | none => "Unknown error".toList }] }

/-- The hunk loop `for (let i = 0; i < sortedHunks.length; i++)`, from index `i` on. -/
def hunkLoop : List Hunk → Nat → HunkLoopState → HunkLoopState
  | [], _, st => st
  | hunk :: rest, i, st => hunkLoop rest (i + 1) (hunkLoopStep st i hunk)

/-- The branch for an existing file of `applyDiff`, from `readFileSync` to the push of
the result record: the content written (if any) and the record. -/
def processExistingFile (originalContent : Str) (hunks : List Hunk) :
    Option Str × FileResult :=
  let fileLines := splitLines originalContent
  let sortedHunks := sortHunksByLineNumber hunks
  let st := hunkLoop sortedHunks 0
    { fileLines := fileLines, successfulHunks := 0, failedHunks := 0, skippedHunks := 0,
      failedHunkDetails := [] }
  if st.failedHunks = 0 ∧ (st.successfulHunks > 0 ∨ st.skippedHunks > 0) then
    let hasTrailingNewline := endsWith ['\n'] originalContent
    (some (joinLines st.fileLines ++ (if hasTrailingNewline then ['\n'] else [])),
     { status := FileStatus.SUCCESS, hunksApplied := st.successfulHunks,
       totalHunks := hunks.length, hunksSkipped := st.skippedHunks, error := none,
       failedHunks := none })
  else if st.failedHunks > 0 then
    (none,
     { status := FileStatus.FAILED, hunksApplied := st.successfulHunks,
       totalHunks := hunks.length, hunksSkipped := st.skippedHunks,
       error := some ((Nat.repr st.failedHunks).toList ++ " hunk(s) failed to apply".toList),
       failedHunks := some st.failedHunkDetails })
  else
    (none,
     { status := FileStatus.FAILED, hunksApplied := 0, totalHunks := hunks.length,
       hunksSkipped := st.skippedHunks, error := some "No changes applied".toList,
       failedHunks := none })

/-! ## Vocabulary of the specification -/

/-- An outcome of `applyHunk` counts as a failure when it is neither skipped nor
successful (the last branch of the hunk loop). -/
def ApplyOutcome.failed (o : ApplyOutcome) : Bool := !o.skipped && !o.success

/-- The outcomes of `applyHunk` for the hunks in the given order, each against the
buffer left by the hunks before it (only an applied hunk replaces the buffer). -/
def hunkOutcomes : List Hunk → List Str → List ApplyOutcome
  | [], _ => []
  | hunk :: rest, buffer =>
    let o := applyHunk buffer hunk
    o :: hunkOutcomes rest (if !o.skipped && o.success then o.result else buffer)

/-- The buffer that the hunks leave, each applied to the buffer left by the hunks
before it: an applied hunk replaces the buffer by its result, a skipped or failed
hunk leaves it as it is. -/
def patchedLines : List Hunk → List Str → List Str
  | [], buffer => buffer
  | hunk :: rest, buffer =>
    let o := applyHunk buffer hunk
    patchedLines rest (if !o.skipped && o.success then o.result else buffer)

/-- The lines of the `add` operations of a hunk, in order. -/
def addLines (hunk : Hunk) : List Str :=
  (hunk.operations.filter (fun op => op.type = OpType.add)).map (fun op => op.line)

/-- The order the specification asks of two hunks `a`, `b` with `a` before `b`:
a defined line number before an undefined one, defined line numbers
non-increasing. -/
def HunkOrdered (a b : Hunk) : Prop :=
  match a.lineNumber, b.lineNumber with
  | some x, some y => y ≤ x
  | some _, none => True
  | none, some _ => False
  | none, none => True

/-- A line of one of the well-formed header forms `--- a/X`, `--- /dev/null`,
`+++ b/Y` and `@@ ...`. -/
def isPlainHeader (l : Str) : Bool :=
  startsWith "--- a/".toList l || startsWith "--- /dev/null".toList l ||
  startsWith "+++ b/".toList l || startsWith "@@".toList l

/-- The diff text in which every line of a well-formed header form has got a
single `+` in front. -/
def plusHeaders (diffText : Str) : Str :=
  joinLines ((splitLines diffText).map (fun l => if isPlainHeader l then '+' :: l else l))

/-- In a header line `--- a/X` or `+++ b/Y`, the name `X` or `Y`, trailing white space
aside, is empty or begins with a character other than a line terminator. -/
def nameStartOk (l : Str) : Bool :=
  if startsWith "--- a/".toList l || startsWith "+++ b/".toList l then
    match trimEnd (l.drop 6) with
    | [] => true
    | c :: _ => !isLineTerminator c
  else true

end DiffApplier

namespace DiffApplier

/-! ## Vocabulary of the specification: lines of a diff, whitespace variants -/

/-- The parser run on the lines of a text (after `split` and the replacement of
non-breaking spaces): `parseDiff t = parseLines (diffLines t)`. -/
def parseLines (ls : List Str) : List FileChange :=
  finishParse (ls.foldl parseLine initialParseState)

/-- The test of the second branch of the parsing loop: a `+++ b/` line, well-formed
or with a run of `+` in front. -/
def isPlusFileLine (line : Str) : Bool :=
  startsWith "+++ b/".toList line || (afterPlusRun "++ b/".toList line).isSome

/-- The test of the fourth branch of the parsing loop: a hunk header `@@` or `+@@`. -/
def isHunkHeaderLine (line : Str) : Bool :=
  startsWith "@@".toList line || startsWith "+@@".toList line

/-- The lines that the parser does not read as content although they begin with a
marker character: the lines taken by the branches for file headers, `+++ b/` lines
and hunk headers, and the lines matching `^\++--- ` or `^\++\+\+ `, which the content
branch skips. -/
def isNotContent (line : Str) : Bool :=
  isFileHeader line || isPlusFileLine line || isHunkHeaderLine line ||
  (afterPlusRun "--- ".toList line).isSome || (afterPlusRun "++ ".toList line).isSome

/-- The header forms of the specification: `diff --git`, `--- a/`, `--- /dev/null`,
`+++ b/` and `@@`, each also with a run of `+` in front. -/
def isHeaderForm (line : Str) : Bool :=
  isFileHeader line || isPlusFileLine line ||
  startsWith "@@".toList (stripPlusRun line) ||
  startsWith "diff --git".toList (stripPlusRun line)

/-- The two patterns `^\++--- ` and `^\++\+\+ ` of the skip list of the content branch:
a run of `+` followed by `--- ` or by `++ `. -/
def isSkipPattern (line : Str) : Bool :=
  (afterPlusRun "--- ".toList line).isSome || (afterPlusRun "++ ".toList line).isSome

/-- The operation type that a marker character stands for. -/
def markerType (m : Char) : OpType :=
  if m = ' ' then OpType.context else if m = '+' then OpType.add else OpType.remove

/-- The marker character of an operation type. -/
def markerChar : OpType → Char
  | OpType.context => ' '
  | OpType.add => '+'
  | OpType.remove => '-'

/-- The operation that a line (as the parser reads it) stands for: the line begins
with a marker character and is not a header form. -/
def lineOperation (line : Str) : Option Operation :=
  match line with
  | [] => none
  | m :: content =>
    if (m = ' ' ∨ m = '+' ∨ m = '-') ∧ isNotContent (m :: content) = false then
      some ⟨markerType m, content⟩
    else none

/-- The line (as the parser reads it) is a content line that stands for the
operation `op`: it begins with a marker character, is not a header form and not a
run of `+` followed by `--- ` or `++ `; the marker gives the type of `op`, the rest of
the line its text. -/
def ContentLine (line : Str) (op : Operation) : Prop :=
  ∃ (m : Char) (content : Str), (m = ' ' ∨ m = '+' ∨ m = '-') ∧
    line = m :: content ∧ isHeaderForm line = false ∧ isSkipPattern line = false ∧
    op = ⟨markerType m, content⟩

/-- Two operation lists that differ only by incidental whitespace: equal length,
pairwise the same type and pairwise the same matching key. -/
def SameUpToWhiteSpace (ops1 ops2 : List Operation) : Prop :=
  List.Forall₂ (fun a b => a.type = b.type ∧
    normalizeLineForMatching a.line = normalizeLineForMatching b.line) ops1 ops2

/-- Two operation lists that differ only by whitespace that matching ignores:
pairwise the same type and the same matching key, and `add` operations (whose
text is inserted as it stands) pairwise with the same text. -/
def SameUpToMatchedWhiteSpace (ops1 ops2 : List Operation) : Prop :=
  List.Forall₂ (fun a b => a.type = b.type ∧
    normalizeLineForMatching a.line = normalizeLineForMatching b.line ∧
    (a.type = OpType.add → a.line = b.line)) ops1 ops2

end DiffApplier

namespace DiffApplier

/-! ## Vocabulary of the specification: the parsing step by kind of line -/

/-- The file name that a `+++ b/` line (well-formed or with a run of `+` in front)
carries, if the pattern with its group `(.+)` matches. -/
def plusFileName (line : Str) : Option Str :=
  if startsWith "+++ b/".toList line then searchLiteralGroup "+++ b/".toList line
  else (afterPlusRun "++ b/".toList line).bind dotPlus

/-- The line number and header context that a hunk-header line carries: both are
absent when the pattern `@@ -a[,b] +c[,d] @@` occurs nowhere in the line. -/
def hunkHeaderInfo (line : Str) : Option Nat × Option Str :=
  match matchHunkHeader (stripPlusRun line) with
  | some (g1, g3) => (some (parseInt g1), g3.map trim)
  | none => (none, none)

/-- An optional count `[,b]` of a hunk header: nothing, or a comma and digits. -/
def IsOptionalCount (bs : Str) : Prop :=
  bs = [] ∨ ∃ b, bs = ',' :: b ∧ ∀ x ∈ b, isDigit x = true

/-- The text `s` has the form `@@ -a[,b] +c[,d] @@text` of a hunk header, with the
digits `a` and the text `text` behind the second `@@`. -/
def HunkHeaderForm (s a text : Str) : Prop :=
  ∃ bs c ds : Str,
    a ≠ [] ∧ (∀ x ∈ a, isDigit x = true) ∧ IsOptionalCount bs ∧
    c ≠ [] ∧ (∀ x ∈ c, isDigit x = true) ∧ IsOptionalCount ds ∧
    s = "@@ -".toList ++ a ++ bs ++ " +".toList ++ c ++ ds ++ " @@".toList ++ text

/-- The parsing step, written by kind of line: file header, `+++ b/` line,
`new file mode`, hunk header, operation, anything else
(`processLine_eq_stepByKind` shows that it is the body of the loop). -/
def stepByKind (st : ParseState) (line : Str) : ParseState :=
  if isFileHeader line then
    { files := finishParse st,
      currentFile := some { filename := (fileHeaderInfo line).1, hunks := [],
                            isNewFile := (fileHeaderInfo line).2 },
      currentOperations := [],
      currentHeaderContext := none,
      currentLineNumber := none,
      isNewFile := (fileHeaderInfo line).2 }
  else if isPlusFileLine line then
    match plusFileName line, st.currentFile with
    | some g, some f => { st with currentFile := some { f with filename := g } }
    | _, _ => st
  else if startsWith "new file mode".toList line then
    match st.currentFile with
    | some f => { st with currentFile := some { f with isNewFile := true }, isNewFile := true }
    | none => st
  else if isHunkHeaderLine line then
    { st with
      currentFile := finishCurrentHunk st.currentFile st.currentOperations
        st.currentHeaderContext st.currentLineNumber,
      currentOperations := [],
      currentLineNumber := (hunkHeaderInfo line).1,
      currentHeaderContext := (hunkHeaderInfo line).2 }
  else
    match lineOperation line with
    | some op => { st with currentOperations := st.currentOperations ++ [op] }
    | none => st

end DiffApplier

namespace DiffApplier

/-- Every hunk of the file has at least one operation. -/
def HunksNonEmpty (f : FileChange) : Prop := ∀ h ∈ f.hunks, h.operations ≠ []

/-- The invariant of the parsing loop behind C12: recorded files have hunks, and
recorded hunks (of recorded files and of the file in progress) have operations. -/
def RecordsNonEmpty (st : ParseState) : Prop :=
  (∀ f ∈ st.files, f.hunks ≠ [] ∧ HunksNonEmpty f) ∧
  (∀ f, st.currentFile = some f → HunksNonEmpty f)

end DiffApplier

namespace DiffApplier

/-- The string contains no non-breaking space (U+00A0). -/
def NoNbsp (s : Str) : Prop := ∀ c ∈ s, c.toNat ≠ 0xA0

/-- No file name, header context or operation line of the file change contains a
non-breaking space. -/
def FileNoNbsp (f : FileChange) : Prop :=
  NoNbsp f.filename ∧
  ∀ h ∈ f.hunks, (∀ c, h.headerContext = some c → NoNbsp c) ∧
    ∀ op ∈ h.operations, NoNbsp op.line

/-- The invariant of the parsing loop behind C17: nothing recorded or in progress
contains a non-breaking space. -/
def StateNoNbsp (st : ParseState) : Prop :=
  (∀ f ∈ st.files, FileNoNbsp f) ∧
  (∀ f, st.currentFile = some f → FileNoNbsp f) ∧
  (∀ op ∈ st.currentOperations, NoNbsp op.line) ∧
  (∀ c, st.currentHeaderContext = some c → NoNbsp c)

end DiffApplier

namespace DiffApplier

/-- The state of the parser inside a file section: the files recorded so far are
`files`, a file named `name` is in progress, it is marked as new if `isNew` is
set, and, if `hasOps` is set, it has a recorded hunk or a pending operation. -/
def InSection (st : ParseState) (files : List FileChange) (name : Str) (isNew hasOps : Bool) :
    Prop :=
  st.files = files ∧
  ∃ f, st.currentFile = some f ∧ f.filename = name ∧
    (isNew = true → f.isNewFile = true) ∧
    (hasOps = true → (st.currentOperations ≠ [] ∨ f.hunks ≠ []))

/-- A line inside a file section that neither starts a file nor names it. -/
def isSectionLine (line : Str) : Bool := !isFileHeader line && !isPlusFileLine line

end DiffApplier

namespace DiffApplier

/-! ## Vocabulary of the specification: the matching key in the spec's words -/

/-- The non-whitespace characters of a line, in order, each with the flag that
white space stands directly in front of it (`gap` is the flag for the next
character to come). -/
def lineTokens : Bool → Str → List (Bool × Char)
  | _, [] => []
  | gap, c :: cs =>
    if isWhiteSpace c then lineTokens true cs else (gap, c) :: lineTokens false cs

/-- The characters behind `prev`: one space separates two characters exactly when
white space separated them in the line and neither of them is one of the
punctuation characters `{ } ( ) ; ,`. -/
def renderTokens (prev : Char) : List (Bool × Char) → Str
  | [] => []
  | (gap, c) :: rest =>
    (if gap && !isPunct prev && !isPunct c then [' ', c] else [c]) ++ renderTokens c rest

/-- The matching key in the words of the specification: the line trimmed (white
space in front of the first and behind the last character is ignored), every run
of white space collapsed to one space, and white space next to a punctuation
character removed. -/
def normalizeSpec (s : Str) : Str :=
  match lineTokens false s with
  | [] => []
  | (_, c) :: rest => c :: renderTokens c rest

end DiffApplier

namespace DiffApplier

/-- Embeds what the claim asks of two neighbours in the key: not both white space,
and no white space beside one of the punctuation characters. -/
def KeyNeighbours (a b : Char) : Prop :=
  ¬ (isWhiteSpace a = true ∧ isWhiteSpace b = true) ∧
  (isPunct a = true → isWhiteSpace b = false) ∧
  (isPunct b = true → isWhiteSpace a = false)

end DiffApplier

namespace DiffApplier

/-! ## Vocabulary of the specification: writing a parsed diff back as text -/

/-- The decimal digit for a number below ten. -/
def digitChar : Nat → Char
  | 0 => '0' | 1 => '1' | 2 => '2' | 3 => '3' | 4 => '4'
  | 5 => '5' | 6 => '6' | 7 => '7' | 8 => '8' | _ => '9'

/-- The decimal digits of `n` in front of `acc`; `fuel` bounds the number of digits. -/
def showNatAux : Nat → Nat → Str → Str
  | 0, _, acc => acc
  | fuel + 1, n, acc =>
    if n < 10 then digitChar n :: acc
    else showNatAux fuel (n / 10) (digitChar (n % 10) :: acc)

/-- The decimal numeral of `n`. -/
def showNat (n : Nat) : Str := showNatAux (n + 1) n []

/-- An operation written as a line: its marker character, then its text. -/
def serializeOperation (op : Operation) : Str := markerChar op.type :: op.line

/-- The header line of a hunk: its line number as both ranges, then its header
context; a bare marker when the hunk has no line number.  The line number is
written as the decimal numeral of the value that carries it; for `Infinity` that is
the numeral of `2^1024`, which `parseInt` reads as `Infinity` again. -/
def serializeHunkHeader (h : Hunk) : Str :=
  match h.lineNumber with
  | some n =>
    "@@ -".toList ++ showNat n ++ " +".toList ++ showNat n ++ " @@".toList ++
      (match h.headerContext with
       | some c => ' ' :: c
       | none => [])
  | none => "@@".toList

/-- A hunk written as lines: its header, then its operations in order. -/
def serializeHunk (h : Hunk) : List Str :=
  serializeHunkHeader h :: h.operations.map serializeOperation

/-- The first header line of a file. -/
def serializeOldHeader (f : FileChange) : Str :=
  if f.isNewFile then "--- /dev/null".toList else "--- a/".toList ++ f.filename

/-- A file written as lines: the two header lines, then its hunks in order. -/
def serializeFile (f : FileChange) : List Str :=
  serializeOldHeader f :: ("+++ b/".toList ++ f.filename) ::
    (f.hunks.map serializeHunk).flatten

/-- The lines of a list of files, in order. -/
def serializeLines (fs : List FileChange) : List Str := (fs.map serializeFile).flatten

/-- The text of a list of files. -/
def serialize (fs : List FileChange) : Str := joinLines (serializeLines fs)

/-- A diff text in which every line that starts a file or names it (also one with
a run of `+` in front) has, trailing white space aside, no line terminator
inside. -/
def headersOnOneLine (t : Str) : Bool :=
  (diffLines t).all (fun l =>
    !(isFileHeader (trimEnd l) || isPlusFileLine (trimEnd l)) ||
      (trimEnd l).all (fun c => !isLineTerminator c))

/-- A header line in one of the standard forms `diff --git ...`, `--- a/X`,
`--- /dev/null`, `+++ b/Y`, `@@ ...`, without a `+` in front, and, as one line of
text, without a line terminator inside. -/
def isStandardHeader (line : Str) : Bool :=
  (startsWith "diff --git".toList line || startsWith "--- a/".toList line ||
    startsWith "--- /dev/null".toList line || startsWith "+++ b/".toList line ||
    startsWith "@@".toList line) &&
  line.all (fun c => !isLineTerminator c)

/-- A diff text containing only well-formed headers: every line that the parser
reads as a header (trailing white space aside) is a standard header. -/
def wellFormedHeaders (t : Str) : Bool :=
  (diffLines t).all (fun l =>
    !(isFileHeader (trimEnd l) || isPlusFileLine (trimEnd l) || isHunkHeaderLine (trimEnd l)) ||
      isStandardHeader (trimEnd l))

/-- A file name that a header line can carry: not empty, without line terminators,
not ending in white space. -/
def NameOk (s : Str) : Prop :=
  s ≠ [] ∧ (∀ c ∈ s, isLineTerminator c = false) ∧ trimEnd s = s

/-- A header context that a hunk header can carry: not empty, without line
terminators, trimmed. -/
def ContextOk (c : Str) : Prop :=
  c ≠ [] ∧ (∀ x ∈ c, isLineTerminator x = false) ∧ trimStart c = c ∧ trimEnd c = c

/-- An operation that its own line stands for. -/
def OperationOk (op : Operation) : Prop :=
  lineOperation (serializeOperation op) = some op ∧
  trimEnd (serializeOperation op) = serializeOperation op ∧
  '\n' ∉ op.line

/-- A hunk whose header and operations can be written and read back; its line
number is a Number value. -/
def HunkOk (h : Hunk) : Prop :=
  (h.lineNumber = none → h.headerContext = none) ∧
  (∀ c, h.headerContext = some c → ContextOk c) ∧
  (∀ op ∈ h.operations, OperationOk op) ∧
  (∀ n, h.lineNumber = some n → toDouble n = n)

/-- A file whose name and hunks can be written and read back. -/
def FileOk (f : FileChange) : Prop := NameOk f.filename ∧ ∀ h ∈ f.hunks, HunkOk h

/-- The invariant of the parsing loop behind C16: everything recorded or in
progress can be written and read back. -/
def StateOk (st : ParseState) : Prop :=
  (∀ f ∈ st.files, FileOk f) ∧
  (∀ f, st.currentFile = some f → FileOk f) ∧
  (∀ op ∈ st.currentOperations, OperationOk op) ∧
  (st.currentLineNumber = none → st.currentHeaderContext = none) ∧
  (∀ c, st.currentHeaderContext = some c → ContextOk c) ∧
  (∀ n, st.currentLineNumber = some n → toDouble n = n)

/-- The state of the parser with `files` recorded and the file `f` in progress,
the pending operations counted in as its last hunk. -/
def Pending (st : ParseState) (files : List FileChange) (f : FileChange) : Prop :=
  st.files = files ∧
  finishCurrentHunk st.currentFile st.currentOperations st.currentHeaderContext
    st.currentLineNumber = some f

end DiffApplier

namespace DiffApplier

/-! ## Vocabulary of the specification: positions in a buffer -/

/-- The index `i` is the smallest index of a line of `B` with the property `P`. -/
def FirstLineAt (P : Str → Prop) (B : List Str) (i : Nat) : Prop :=
  (∃ l, B[i]? = some l ∧ P l) ∧ ∀ j < i, ∀ l, B[j]? = some l → ¬ P l

end DiffApplier

namespace DiffApplier

/-- The test `q` on the line at index `i` of `B`; false outside the buffer. -/
def lineTest (B : List Str) (q : Str → Bool) (i : Nat) : Bool :=
  match B[i]? with
  | some l => q l
  | none => false

end DiffApplier

namespace DiffApplier

/-! ## Vocabulary of the specification: strict patching -/

/-- The strict replay of the operations with the cursor `q`: a context operation
requires the line at `q` to have the operation's key and advances `q`; a remove
operation requires the same and deletes the line at `q`; an add operation
inserts its line at `q` and advances `q`.  The value is the buffer behind the
last operation, or nothing when a requirement fails. -/
def strictReplay : List Operation → List Str → Nat → Option (List Str)
  | [], buffer, _ => some buffer
  | op :: rest, buffer, q =>
    match op.type with
    | OpType.context =>
      match buffer[q]? with
      | some l =>
        if normalizeLineForMatching l = normalizeLineForMatching op.line then
          strictReplay rest buffer (q + 1)
        else none
      | none => none
    | OpType.remove =>
      match buffer[q]? with
      | some l =>
        if normalizeLineForMatching l = normalizeLineForMatching op.line then
          strictReplay rest (spliceRemove buffer q) q
        else none
      | none => none
    | OpType.add => strictReplay rest (spliceInsert buffer q op.line) (q + 1)

end DiffApplier

namespace DiffApplier

/-! ## Vocabulary of the specification: lines with a given key -/

/-- The buffer has a line at index `j`, and its matching key is `key`. -/
def HasKeyAt (B : List Str) (key : Str) (j : Nat) : Prop :=
  ∃ l, B[j]? = some l ∧ normalizeLineForMatching l = key

/-- The buffer has a line at index `j` that is not the empty text, and its matching
key is `key`. -/
def HasKeyNonEmptyAt (B : List Str) (key : Str) (j : Nat) : Prop :=
  ∃ l, B[j]? = some l ∧ l ≠ [] ∧ normalizeLineForMatching l = key

end DiffApplier

namespace DiffApplier

/-! ## Vocabulary of the specification: counting removal keys -/

/-- The test of the removal loops on the line at index `j`: the line exists, is not
the empty text, and has the key `key`. -/
def removalTest (B : List Str) (key : Str) (j : Nat) : Bool :=
  match B[j]? with
  | some l => !l.isEmpty && normalizeLineForMatching l == key
  | none => false

/-- The number of indices from `lo` up to `hi` (excluded) that are not used yet and
hold a non-empty line with the key `v`. -/
def available (B : List Str) (lo hi : Nat) (used : List Nat) (v : Str) : Nat :=
  (List.range' lo (hi - lo)).countP (fun j => !used.contains j && removalTest B v j)

/-- The number of non-empty lines of `B` with the key `v`. -/
def linesWithKey (B : List Str) (v : Str) : Nat :=
  B.countP (fun l => !l.isEmpty && normalizeLineForMatching l == v)

/-- The number of keys that can be matched: for each distinct key value, as many
as there are keys of that value or lines for it, whichever is less. -/
def matchedCount (keys : List Str) (lines : Str → Nat) : Nat :=
  (keys.dedup.map (fun v => min (keys.count v) (lines v))).sum

/-- An assignment of the keys to distinct indices from `lo` up to `hi` (excluded),
each holding a non-empty line with the key assigned to it. -/
def MatchedTo (B : List Str) (lo hi : Nat) (keys : List Str) (js : List Nat) : Prop :=
  js.Nodup ∧ List.Forall₂ (fun k j => lo ≤ j ∧ j < hi ∧ HasKeyNonEmptyAt B k j) keys js

end DiffApplier

namespace DiffApplier

/-! ## Ranking -/

theorem insertMatch_of_score_ge (m : Match) (acc : List Match)
    (h : ∀ x ∈ acc, matchScore x ≥ matchScore m) : insertMatch m acc = acc ++ [m] := by
  induction acc with
  | nil => rfl
  | cons x xs ih =>
    have hx : matchScore x ≥ matchScore m := h x (List.mem_cons_self _ _)
    have hxs : ∀ y ∈ xs, matchScore y ≥ matchScore m :=
      fun y hy => h y (List.mem_cons_of_mem _ hy)
    simp [insertMatch, hx, ih hxs]

theorem foldl_insertMatch_of_const_score (k : Nat) (ms acc : List Match)
    (hacc : ∀ x ∈ acc, matchScore x = k) (hms : ∀ x ∈ ms, matchScore x = k) :
    ms.foldl (fun acc m => insertMatch m acc) acc = acc ++ ms := by
  induction ms generalizing acc with
  | nil => simp
  | cons m rest ih =>
    have hm : matchScore m = k := hms m (List.mem_cons_self _ _)
    have hins : insertMatch m acc = acc ++ [m] :=
      insertMatch_of_score_ge m acc (fun x hx => by rw [hacc x hx, hm])
    simp only [List.foldl_cons, hins]
    rw [ih (acc ++ [m])]
    · simp
    · intro x hx
      rcases List.mem_append.mp hx with h | h
      · exact hacc x h
      · simp at h; rw [h]; exact hm
    · exact fun x hx => hms x (List.mem_cons_of_mem _ hx)

theorem sortMatches_of_const_score (k : Nat) (ms : List Match)
    (hms : ∀ x ∈ ms, matchScore x = k) : sortMatches ms = ms := by
  unfold sortMatches
  rw [foldl_insertMatch_of_const_score k ms [] (by simp) hms]
  simp

theorem contextScan_score (fileLines : List Str) (operations : List Operation) (s : Nat) :
    ∀ m ∈ contextScan fileLines operations s,
      matchScore m =
        (if (removeKeys operations).length = 0 then 0
         else countRemovalMatchesInFile fileLines (removeKeys operations))
        + (contextKeys operations).length := by
  intro m hm
  unfold contextScan at hm
  simp only [List.mem_filterMap] at hm
  obtain ⟨i, -, hi⟩ := hm
  by_cases hf : (findContextSequenceAt fileLines (contextKeys operations) i).1 = true
  · by_cases hr : (removeKeys operations).length = 0
    · simp only [hf, hr, if_true] at hi
      cases hi
      simp [matchScore, hr]
    · by_cases hv : countRemovalMatchesInFile fileLines (removeKeys operations)
          ≥ floorTimes07 (removeKeys operations).length
      · simp only [hf, hr, hv, if_true, if_false, decide_True] at hi
        cases hi
        simp [matchScore, hr]
      · simp only [hf, hr, hv, if_true, if_false, decide_False] at hi
        cases hi
  · simp only [hf, if_false] at hi
    cases hi

theorem removalProbe_score (fileLines : List Str) (operations : List Operation) (s : Nat) :
    ∀ m ∈ removalProbe fileLines operations s,
      matchScore m = (removeKeys operations).length := by
  intro m hm
  unfold removalProbe at hm
  simp only [List.mem_filterMap] at hm
  obtain ⟨i, -, hi⟩ := hm
  split at hi
  · cases hi; simp [matchScore]; assumption
  · cases hi

/-- Ranking never reorders the candidates: they all carry the same score. -/
theorem findAllContextMatches_unsorted (fileLines : List Str) (operations : List Operation)
    (s : Nat) (h : ¬ ((contextKeys operations).length = 0 ∧ (removeKeys operations).length = 0)) :
    findAllContextMatches fileLines operations s =
      if (contextKeys operations).length > 0 then contextScan fileLines operations s
      else removalProbe fileLines operations s := by
  unfold findAllContextMatches
  simp only [h, if_false]
  split
  · exact sortMatches_of_const_score _ _ (contextScan_score fileLines operations s)
  · exact sortMatches_of_const_score _ _ (removalProbe_score fileLines operations s)

end DiffApplier

namespace DiffApplier

theorem attempt_scenario1 (a b c x : Str) :
    attemptApplyHunk [a, b, c]
      [⟨OpType.context, a⟩, ⟨OpType.remove, b⟩, ⟨OpType.add, x⟩, ⟨OpType.context, c⟩] 0
      = { result := [a, x, c], success := true, errorReason := none } := by
  simp [attemptApplyHunk, attemptLoop, searchForward, firstInRange, List.range', spliceRemove,
    spliceInsert]

theorem findContextSequence_scenario1 (a b c : Str) :
    (findContextSequenceAt [a, b, c]
      [normalizeLineForMatching a, normalizeLineForMatching c] 0).1 = true := by
  by_cases hbc : normalizeLineForMatching b = normalizeLineForMatching c
  · simp [findContextSequenceAt, findContextSequenceLoop, skipToContext, List.takeWhile, hbc]
  · simp [findContextSequenceAt, findContextSequenceLoop, skipToContext, List.takeWhile, hbc]

theorem contextScan_scenario1 (a b c x : Str) :
    ∃ m rest, m.startPos = 0 ∧ contextScan [a, b, c]
      [⟨OpType.context, a⟩, ⟨OpType.remove, b⟩, ⟨OpType.add, x⟩, ⟨OpType.context, c⟩] 0
      = m :: rest := by
  have h07 : floorTimes07 1 = 0 := by decide
  have hk : contextKeys [⟨OpType.context, a⟩, ⟨OpType.remove, b⟩, ⟨OpType.add, x⟩,
      ⟨OpType.context, c⟩] = [normalizeLineForMatching a, normalizeLineForMatching c] := by
    simp [contextKeys, List.filter]
  have hr : removeKeys [⟨OpType.context, a⟩, ⟨OpType.remove, b⟩, ⟨OpType.add, x⟩,
      ⟨OpType.context, c⟩] = [normalizeLineForMatching b] := by
    simp [removeKeys, List.filter]
  unfold contextScan
  rw [hk, hr]
  simp only [List.length_cons, List.length_nil, List.range', List.filterMap_cons,
    findContextSequence_scenario1, h07]
  simp

end DiffApplier

namespace DiffApplier

/-- C1 (scenario 1): on the buffer `[a, b, c]`, a hunk without header context and
with the operations context `a`, remove `b`, add `x`, context `c` yields the
buffer `[a, x, c]`, reported as applied (`success`, not `skipped`), for all
strings `a`, `b`, `c`, `x`. -/
theorem applyHunk_scenario1 (a b c x : Str) (lineNumber : Option Nat) :
    applyHunk [a, b, c]
      { operations := [⟨OpType.context, a⟩, ⟨OpType.remove, b⟩, ⟨OpType.add, x⟩,
          ⟨OpType.context, c⟩],
        headerContext := none, lineNumber := lineNumber }
      = { result := [a, x, c], success := true, skipped := false, errorReason := none } := by
  obtain ⟨m, rest, hm, hscan⟩ := contextScan_scenario1 a b c x
  have hk : contextKeys [⟨OpType.context, a⟩, ⟨OpType.remove, b⟩, ⟨OpType.add, x⟩,
      ⟨OpType.context, c⟩] = [normalizeLineForMatching a, normalizeLineForMatching c] := by
    simp [contextKeys, List.filter]
  have hfound : findAllContextMatches [a, b, c]
      [⟨OpType.context, a⟩, ⟨OpType.remove, b⟩, ⟨OpType.add, x⟩, ⟨OpType.context, c⟩] 0
      = m :: rest := by
    rw [findAllContextMatches_unsorted _ _ _ (by simp [hk]), hk, ← hscan]
    simp
  unfold applyHunk
  simp only [findAnchor, hfound]
  simp [isContextOnlyHunk, List.filter, tryMatches, hm, attempt_scenario1]

end DiffApplier

namespace DiffApplier

/-! ## Bounded searches -/

theorem firstInRange_some {lo hi : Nat} {p : Nat → Bool} {i : Nat}
    (h : firstInRange lo hi p = some i) : lo ≤ i ∧ i < hi ∧ p i = true := by
  unfold firstInRange at h
  have hp := List.find?_some h
  have hmem := List.mem_of_find?_eq_some h
  rw [List.mem_range'_1] at hmem
  exact ⟨hmem.1, by omega, hp⟩

theorem firstInRange_none {lo hi : Nat} {p : Nat → Bool}
    (h : ∀ j, lo ≤ j → j < hi → p j = false) : firstInRange lo hi p = none := by
  unfold firstInRange
  rw [List.find?_eq_none]
  intro j hj
  rw [List.mem_range'_1] at hj
  simp [h j hj.1 (by omega)]

theorem findAnchor_le (fileLines : List Str) (headerContext : Option Str) :
    findAnchor fileLines headerContext ≤ fileLines.length := by
  unfold findAnchor
  cases headerContext with
  | none => simp
  | some h =>
    simp only
    split
    · simp
    · split
      · rename_i i hi
        have := firstInRange_some hi
        omega
      · split
        · rename_i i hi
          have := firstInRange_some hi
          omega
        · simp

/-! ## Pure additions -/

theorem foldl_spliceInsert (adds : List Operation) (buffer : List Str) (p : Nat)
    (hp : p ≤ buffer.length) :
    adds.reverse.foldl (fun res op => spliceInsert res p op.line) buffer
      = buffer.take p ++ adds.map (fun op => op.line) ++ buffer.drop p := by
  induction adds with
  | nil => simp
  | cons a rest ih =>
    have hlen : (buffer.take p).length = p := by simp [hp]
    rw [List.reverse_cons, List.foldl_append, ih]
    simp only [List.foldl_cons, List.foldl_nil, spliceInsert, List.map_cons]
    rw [List.append_assoc, List.take_append_eq_append_take, List.drop_append_eq_append_drop]
    have hd : List.drop p (List.take p buffer) = [] := by
      rw [List.drop_eq_nil_iff]; simp
    have ht : List.take p (List.take p buffer) = List.take p buffer := by
      rw [List.take_take]; simp
    simp [hlen, hd, ht]

theorem filter_eq_self_of_all {α : Type} (p : α → Bool) (l : List α)
    (h : ∀ x ∈ l, p x = true) : l.filter p = l :=
  List.filter_eq_self.mpr h

theorem filter_eq_nil_of_none {α : Type} (p : α → Bool) (l : List α)
    (h : ∀ x ∈ l, p x = false) : l.filter p = [] := by
  rw [List.filter_eq_nil_iff]
  intro x hx
  simp [h x hx]

/-- C2 (pure addition): for a non-empty operation list made of `add` operations only,
`applyHunk` reports an applied hunk whose buffer is the old one with the added
lines, in order, inserted as one block at the anchor `p = findAnchor B headerContext`
(`p` lies inside the buffer); hence the length grows by the number of operations. -/
theorem applyHunk_pure_addition (B : List Str) (hunk : Hunk)
    (hne : hunk.operations ≠ [])
    (hadd : ∀ op ∈ hunk.operations, op.type = OpType.add) :
    applyHunk B hunk =
      { result := B.take (findAnchor B hunk.headerContext)
          ++ hunk.operations.map (fun op => op.line)
          ++ B.drop (findAnchor B hunk.headerContext),
        success := true, skipped := false, errorReason := none }
    ∧ findAnchor B hunk.headerContext ≤ B.length
    ∧ (applyHunk B hunk).result.length = B.length + hunk.operations.length
    ∧ ((applyHunk B hunk).result.drop (findAnchor B hunk.headerContext)).take
        hunk.operations.length = hunk.operations.map (fun op => op.line) := by
  have hp := findAnchor_le B hunk.headerContext
  have hctxonly : isContextOnlyHunk hunk.operations = false := by
    cases hops : hunk.operations with
    | nil => exact absurd hops hne
    | cons op rest =>
      have := hadd op (by rw [hops]; exact List.mem_cons_self _ _)
      simp [isContextOnlyHunk, this]
  have hfc : hunk.operations.filter (fun op => op.type = OpType.context) = [] :=
    filter_eq_nil_of_none _ _ (fun op hop => by simp [hadd op hop])
  have hfr : hunk.operations.filter (fun op => op.type = OpType.remove) = [] :=
    filter_eq_nil_of_none _ _ (fun op hop => by simp [hadd op hop])
  have hfa : hunk.operations.filter (fun op => op.type = OpType.add) = hunk.operations :=
    filter_eq_self_of_all _ _ (fun op hop => by simp [hadd op hop])
  have hlen : hunk.operations.length > 0 := List.length_pos.mpr hne
  have heq : applyHunk B hunk =
      { result := B.take (findAnchor B hunk.headerContext)
          ++ hunk.operations.map (fun op => op.line)
          ++ B.drop (findAnchor B hunk.headerContext),
        success := true, skipped := false, errorReason := none } := by
    unfold applyHunk
    simp only [hctxonly, hfc, hfr, hfa, List.length_nil, hlen, true_and, if_true,
      foldl_spliceInsert _ _ _ hp]
    simp
  refine ⟨heq, hp, ?_, ?_⟩
  · rw [heq]
    simp only [List.length_append, List.length_take, List.length_drop, List.length_map]
    omega
  · rw [heq]
    simp only
    rw [List.append_assoc, List.drop_append_eq_append_drop]
    have hd : List.drop (findAnchor B hunk.headerContext)
        (List.take (findAnchor B hunk.headerContext) B) = [] := by
      rw [List.drop_eq_nil_iff]; simp
    have hl : (hunk.operations.map (fun op => op.line)).length = hunk.operations.length := by
      simp
    simp only [hd, List.nil_append, List.length_take, Nat.min_eq_left hp, Nat.sub_self,
      List.drop_zero]
    rw [← hl, List.take_left]

/-- Witness for C2: two lines are added behind the line that the header context names. -/
theorem applyHunk_pure_addition_witness :
    applyHunk ["a".toList, "b".toList]
        { operations := [⟨OpType.add, "x".toList⟩, ⟨OpType.add, "y".toList⟩],
          headerContext := some "a".toList, lineNumber := none }
      = { result := ["a".toList, "x".toList, "y".toList, "b".toList],
          success := true, skipped := false, errorReason := none } := by
  have h := (applyHunk_pure_addition ["a".toList, "b".toList]
    { operations := [⟨OpType.add, "x".toList⟩, ⟨OpType.add, "y".toList⟩],
      headerContext := some "a".toList, lineNumber := none }
    (by simp) (by simp)).1
  rw [h]
  decide

end DiffApplier

namespace DiffApplier

/-! ## Context-only hunks -/

/-- C3 (context-only hunks): when every operation of the hunk is a context
operation, `applyHunk` returns the buffer unchanged, reported as skipped and
successful, whatever the context lines and the header context are; the outcome
does not count as failed. -/
theorem applyHunk_context_only (B : List Str) (hunk : Hunk)
    (hctx : ∀ op ∈ hunk.operations, op.type = OpType.context) :
    applyHunk B hunk = { result := B, success := true, skipped := true, errorReason := none }
    ∧ (applyHunk B hunk).failed = false := by
  have h : isContextOnlyHunk hunk.operations = true := by
    simp only [isContextOnlyHunk, List.all_eq_true, decide_eq_true_eq]
    exact hctx
  have heq : applyHunk B hunk
      = { result := B, success := true, skipped := true, errorReason := none } := by
    unfold applyHunk
    simp [h]
  exact ⟨heq, by rw [heq]; rfl⟩

/-- Witness for C3: the context line does not occur in the buffer and the header
context names nothing, and the hunk is skipped all the same. -/
theorem applyHunk_context_only_witness :
    applyHunk ["a".toList]
        { operations := [⟨OpType.context, "zzz".toList⟩], headerContext := some "q".toList,
          lineNumber := some 7 }
      = { result := ["a".toList], success := true, skipped := true, errorReason := none }
    ∧ (applyHunk ["a".toList]
        { operations := [⟨OpType.context, "zzz".toList⟩], headerContext := some "q".toList,
          lineNumber := some 7 }).failed = false :=
  applyHunk_context_only ["a".toList]
    { operations := [⟨OpType.context, "zzz".toList⟩], headerContext := some "q".toList,
      lineNumber := some 7 }
    (by simp)

/-! ## Atomic failure -/

theorem attemptLoop_failure (fileLines : List Str) (operations : List Operation) :
    ∀ (result : List Str) (currentPos appliedChanges : Nat),
      (appliedChanges = 0 → result = fileLines) →
      (attemptLoop fileLines operations result currentPos appliedChanges).success = false →
      (attemptLoop fileLines operations result currentPos appliedChanges).result = fileLines := by
  induction operations with
  | nil =>
    intro result currentPos appliedChanges hinv hfail
    simp only [attemptLoop, decide_eq_false_iff_not, Nat.not_lt, Nat.le_zero] at hfail
    simpa [attemptLoop] using hinv hfail
  | cons operation rest ih =>
    intro result currentPos appliedChanges hinv hfail
    unfold attemptLoop at hfail ⊢
    cases htype : operation.type with
    | context =>
      simp only [htype] at hfail ⊢
      cases hf : searchForward result (normalizeLineForMatching operation.line) currentPos 10 with
      | some searchPos =>
        simp only [hf] at hfail ⊢
        exact ih _ _ _ hinv hfail
      | none =>
        simp only [hf] at hfail ⊢
        cases hb : searchBackward result (normalizeLineForMatching operation.line)
            currentPos 3 with
        | some searchPos =>
          simp only [hb] at hfail ⊢
          exact ih _ _ _ hinv hfail
        | none => simp only [hb]
    | remove =>
      simp only [htype] at hfail ⊢
      cases hf : searchForward result (normalizeLineForMatching operation.line) currentPos 5 with
      | some searchPos =>
        simp only [hf] at hfail ⊢
        exact ih _ _ _ (fun h => absurd h (Nat.succ_ne_zero _)) hfail
      | none =>
        simp only [hf] at hfail ⊢
        cases hb : searchBackward result (normalizeLineForMatching operation.line)
            currentPos 2 with
        | some searchPos =>
          simp only [hb] at hfail ⊢
          exact ih _ _ _ (fun h => absurd h (Nat.succ_ne_zero _)) hfail
        | none => simp only [hb]
    | add =>
      simp only [htype] at hfail ⊢
      exact ih _ _ _ (fun h => absurd h (Nat.succ_ne_zero _)) hfail

theorem attemptApplyHunk_failure (B : List Str) (operations : List Operation) (startPos : Nat)
    (hfail : (attemptApplyHunk B operations startPos).success = false) :
    (attemptApplyHunk B operations startPos).result = B :=
  attemptLoop_failure B operations B startPos 0 (fun _ => rfl) hfail

theorem tryMatches_failure (B : List Str) (operations : List Operation) (ms : List Match)
    (hfail : (tryMatches B operations ms).success = false) :
    (tryMatches B operations ms).result = B := by
  induction ms with
  | nil => rfl
  | cons m rest ih =>
    unfold tryMatches at hfail ⊢
    by_cases hs : (attemptApplyHunk B operations m.startPos).success = true
    · simp [hs] at hfail
    · simp only [hs, if_false] at hfail ⊢
      exact ih hfail

theorem applyHunk_failure (B : List Str) (hunk : Hunk)
    (hfail : (applyHunk B hunk).success = false) : (applyHunk B hunk).result = B := by
  unfold applyHunk at hfail ⊢
  by_cases hctx : isContextOnlyHunk hunk.operations = true
  · simp [hctx] at hfail
  · by_cases hpure : (hunk.operations.filter (fun op => op.type = OpType.context)).length = 0 ∧
        (hunk.operations.filter (fun op => op.type = OpType.remove)).length = 0 ∧
        (hunk.operations.filter (fun op => op.type = OpType.add)).length > 0
    · simp [hctx, hpure] at hfail
    · by_cases hnone :
          (findAllContextMatches B hunk.operations (findAnchor B hunk.headerContext)).length = 0
      · simp only [hctx, hpure, hnone, if_false, if_true, Bool.false_eq_true]
      · simp only [hctx, hpure, hnone, if_false, Bool.false_eq_true] at hfail ⊢
        exact tryMatches_failure _ _ _ hfail

/-- C4 (atomic failure): whenever `attemptApplyHunk` returns `success = false`, the
buffer it returns is the caller's buffer `B`, for every operation list and start
offset; and whenever `applyHunk` returns `success = false`, the buffer it returns
is `B`. -/
theorem failure_is_atomic (B : List Str) :
    (∀ (operations : List Operation) (startPos : Nat),
      (attemptApplyHunk B operations startPos).success = false →
      (attemptApplyHunk B operations startPos).result = B)
    ∧ (∀ hunk : Hunk, (applyHunk B hunk).success = false → (applyHunk B hunk).result = B) :=
  ⟨fun operations startPos h => attemptApplyHunk_failure B operations startPos h,
   fun hunk h => applyHunk_failure B hunk h⟩

/-- Witness for C4: an attempt that inserts a line, deletes a line and then misses
a context line fails and returns the untouched buffer; so does the hunk. -/
theorem failure_is_atomic_witness :
    (attemptApplyHunk ["a".toList, "b".toList]
        [⟨OpType.add, "x".toList⟩, ⟨OpType.remove, "a".toList⟩, ⟨OpType.context, "q".toList⟩]
        0).success = false
    ∧ (attemptApplyHunk ["a".toList, "b".toList]
        [⟨OpType.add, "x".toList⟩, ⟨OpType.remove, "a".toList⟩, ⟨OpType.context, "q".toList⟩]
        0).result = ["a".toList, "b".toList]
    ∧ (applyHunk ["a".toList, "b".toList]
        { operations := [⟨OpType.context, "b".toList⟩, ⟨OpType.remove, "q".toList⟩],
          headerContext := none, lineNumber := none }).success = false
    ∧ (applyHunk ["a".toList, "b".toList]
        { operations := [⟨OpType.context, "b".toList⟩, ⟨OpType.remove, "q".toList⟩],
          headerContext := none, lineNumber := none }).result = ["a".toList, "b".toList] :=
  ⟨by decide,
   (failure_is_atomic ["a".toList, "b".toList]).1 _ _ (by decide),
   by decide,
   (failure_is_atomic ["a".toList, "b".toList]).2 _ (by decide)⟩

end DiffApplier

namespace DiffApplier

/-! ## Candidate fallback -/

theorem tryMatches_eq_find (B : List Str) (operations : List Operation) (ms : List Match) :
    tryMatches B operations ms =
      match ms.find? (fun m => (attemptApplyHunk B operations m.startPos).success) with
      | some m =>
        { result := (attemptApplyHunk B operations m.startPos).result,
          success := (attemptApplyHunk B operations m.startPos).success,
          skipped := false,
          errorReason := (attemptApplyHunk B operations m.startPos).errorReason }
      | none =>
        { result := B, success := false, skipped := false,
          errorReason := some "All context matches failed during application".toList } := by
  induction ms with
  | nil => rfl
  | cons m rest ih =>
    unfold tryMatches
    by_cases hs : (attemptApplyHunk B operations m.startPos).success = true
    · simp [hs]
    · simp only [hs, if_false, List.find?_cons]
      rw [ih]
      simp [hs]

theorem not_pure_addition_of_mem (operations : List Operation)
    (hadd : ∃ op ∈ operations, op.type ≠ OpType.add) :
    ¬ ((operations.filter (fun op => op.type = OpType.context)).length = 0 ∧
        (operations.filter (fun op => op.type = OpType.remove)).length = 0 ∧
        (operations.filter (fun op => op.type = OpType.add)).length > 0) := by
  obtain ⟨op, hmem, hop⟩ := hadd
  rintro ⟨hc, hr, -⟩
  rw [List.length_eq_zero, List.filter_eq_nil_iff] at hc hr
  have h1 := hc op hmem
  have h2 := hr op hmem
  cases htype : op.type with
  | context => simp [htype] at h1
  | remove => simp [htype] at h2
  | add => exact hop htype

theorem not_context_only_of_mem (operations : List Operation)
    (hctx : ∃ op ∈ operations, op.type ≠ OpType.context) :
    ¬ isContextOnlyHunk operations = true := by
  obtain ⟨op, hmem, hop⟩ := hctx
  intro h
  simp only [isContextOnlyHunk, List.all_eq_true, decide_eq_true_eq] at h
  exact hop (h op hmem)

/-- C5 (fallback over the candidates): for a hunk that is neither context-only nor a
pure addition, with `cands = findAllContextMatches B ops (findAnchor B headerContext)`:
if `cands` is empty the hunk fails with "No context matches found"; otherwise the
outcome is that of `attemptApplyHunk` at the first candidate, in list order, at
which the attempt succeeds (reported with `skipped = false`); and if the attempt
fails at every candidate the hunk fails with "All context matches failed during
application". -/
theorem applyHunk_tries_candidates_in_order (B : List Str) (hunk : Hunk)
    (hctx : ∃ op ∈ hunk.operations, op.type ≠ OpType.context)
    (hadd : ∃ op ∈ hunk.operations, op.type ≠ OpType.add) :
    applyHunk B hunk =
      if findAllContextMatches B hunk.operations (findAnchor B hunk.headerContext) = [] then
        { result := B, success := false, skipped := false,
          errorReason := some "No context matches found".toList }
      else
        match (findAllContextMatches B hunk.operations (findAnchor B hunk.headerContext)).find?
            (fun m => (attemptApplyHunk B hunk.operations m.startPos).success) with
        | some m =>
          { result := (attemptApplyHunk B hunk.operations m.startPos).result,
            success := true,
            skipped := false,
            errorReason := (attemptApplyHunk B hunk.operations m.startPos).errorReason }
        | none =>
          { result := B, success := false, skipped := false,
            errorReason := some "All context matches failed during application".toList } := by
  have h1 := not_context_only_of_mem _ hctx
  have h2 := not_pure_addition_of_mem _ hadd
  unfold applyHunk
  simp only [h1, h2, if_false, Bool.false_eq_true, tryMatches_eq_find]
  by_cases hnil : findAllContextMatches B hunk.operations (findAnchor B hunk.headerContext) = []
  · simp only [hnil, if_true, List.length_nil]
  · have hlen : ¬ (findAllContextMatches B hunk.operations
        (findAnchor B hunk.headerContext)).length = 0 := by
      rw [List.length_eq_zero]; exact hnil
    simp only [hnil, hlen, if_false]
    cases hfind : (findAllContextMatches B hunk.operations
        (findAnchor B hunk.headerContext)).find?
        (fun m => (attemptApplyHunk B hunk.operations m.startPos).success) with
    | none => rfl
    | some m =>
      have hs := List.find?_some hfind
      simp only at hs
      simp only [hs]

/-- Witness for C5: the scan finds the candidates 0 and 1; the attempt at 0 cannot
find the line to remove within its window, the attempt at 1 succeeds. -/
theorem applyHunk_tries_candidates_in_order_witness :
    applyHunk ["a".toList, "a".toList, "1".toList, "2".toList, "3".toList, "4".toList,
        "b".toList]
      { operations := [⟨OpType.context, "a".toList⟩, ⟨OpType.remove, "b".toList⟩],
        headerContext := none, lineNumber := none }
    = { result := ["a".toList, "a".toList, "1".toList, "2".toList, "3".toList, "4".toList],
        success := true, skipped := false, errorReason := none } := by
  rw [applyHunk_tries_candidates_in_order _ _ ⟨⟨OpType.remove, "b".toList⟩, by simp, by simp⟩
    ⟨⟨OpType.context, "a".toList⟩, by simp, by simp⟩]
  decide

end DiffApplier

namespace DiffApplier

/-! ## Probe centers are offsets -/

theorem countRemovalLoop_empty_range (fileLines : List Str) (lo hi : Nat) (hle : hi ≤ lo)
    (keys : List Str) :
    ∀ (used : List Nat) (n : Nat), countRemovalLoop fileLines lo hi keys used n = n := by
  induction keys with
  | nil => intro used n; rfl
  | cons k rest ih =>
    intro used n
    unfold countRemovalLoop
    rw [firstInRange_none (fun j h1 h2 => absurd (Nat.lt_of_le_of_lt h1 h2) (by omega))]
    exact ih used n

/-- A probe center that finds all removal keys (of which there is at least one) is
not negative, so recording `pos.toNat` records `pos`. -/
theorem removalProbe_center_nonneg (fileLines : List Str) (keys : List Str) (s : Nat)
    (hkeys : keys ≠ []) (pos : Int) (hpos : pos ∈ searchPositions fileLines s)
    (hall : countRemovalMatches fileLines keys pos 10 = keys.length) : 0 ≤ pos := by
  have hlen : keys.length ≠ 0 := fun h => hkeys (List.length_eq_zero.mp h)
  cases hfl : fileLines with
  | nil =>
    exfalso
    rw [hfl] at hall
    unfold countRemovalMatches at hall
    simp only [hlen, if_false] at hall
    rw [countRemovalLoop_empty_range] at hall
    · exact hlen hall.symm
    · simp only [List.length_nil, Nat.cast_zero]
      omega
  | cons l rest =>
    rw [hfl] at hpos
    simp only [searchPositions, List.length_cons, List.mem_cons, List.mem_singleton,
      List.not_mem_nil, or_false, Nat.cast_add, Nat.cast_one] at hpos
    omega

end DiffApplier

namespace DiffApplier

/-! ## All-or-nothing per file -/

theorem hunkLoop_counts (hunks : List Hunk) :
    ∀ (i : Nat) (st : HunkLoopState),
      (hunkLoop hunks i st).failedHunks = st.failedHunks +
          ((hunkOutcomes hunks st.fileLines).filter (fun o => o.failed)).length
      ∧ (hunkLoop hunks i st).skippedHunks = st.skippedHunks +
          ((hunkOutcomes hunks st.fileLines).filter (fun o => o.skipped)).length
      ∧ (hunkLoop hunks i st).successfulHunks = st.successfulHunks +
          ((hunkOutcomes hunks st.fileLines).filter (fun o => !o.skipped && o.success)).length := by
  induction hunks with
  | nil => intro i st; simp [hunkLoop, hunkOutcomes]
  | cons hunk rest ih =>
    intro i st
    simp only [hunkLoop, hunkOutcomes]
    obtain ⟨h1, h2, h3⟩ := ih (i + 1) (hunkLoopStep st i hunk)
    rw [h1, h2, h3]
    cases hsk : (applyHunk st.fileLines hunk).skipped <;>
      cases hsu : (applyHunk st.fileLines hunk).success <;>
      simp [hunkLoopStep, hsk, hsu, ApplyOutcome.failed, List.filter_cons] <;> omega

theorem filter_length_eq_zero_iff {α : Type} (p : α → Bool) (l : List α) :
    (l.filter p).length = 0 ↔ ∀ x ∈ l, p x = false := by
  rw [List.length_eq_zero, List.filter_eq_nil_iff]
  simp

theorem filter_length_pos_iff {α : Type} (p : α → Bool) (l : List α) :
    (l.filter p).length > 0 ↔ ∃ x ∈ l, p x = true := by
  rw [gt_iff_lt, List.length_pos, ne_eq, List.filter_eq_nil_iff]
  simp

theorem hunkLoop_fileLines (hunks : List Hunk) :
    ∀ (i : Nat) (st : HunkLoopState),
      (hunkLoop hunks i st).fileLines = patchedLines hunks st.fileLines := by
  induction hunks with
  | nil => intro i st; rfl
  | cons hunk rest ih =>
    intro i st
    simp only [hunkLoop, patchedLines]
    rw [ih (i + 1) (hunkLoopStep st i hunk)]
    cases hsk : (applyHunk st.fileLines hunk).skipped <;>
      cases hsu : (applyHunk st.fileLines hunk).success <;>
      simp [hunkLoopStep, hsk, hsu]

/-- C6 (all-or-nothing per file): processing an existing file writes new content if
and only if no hunk's `applyHunk` outcome was a failure and at least one hunk was
applied or skipped; the content written is then the text of the buffer that the
applied hunks leave (with the line break that closes the original, if any), and
the status is SUCCESS.  If any hunk fails, nothing is written (the content stays
the original one) and the status is FAILED, whatever the other hunks did: the
record still counts the hunks that applied.  The outcomes are those of the hunks
in sorted order, each against the buffer left by the hunks before it. -/
theorem processExistingFile_all_or_nothing (originalContent : Str) (hunks : List Hunk) :
    (((processExistingFile originalContent hunks).1.isSome = true) ↔
      ((∀ o ∈ hunkOutcomes (sortHunksByLineNumber hunks) (splitLines originalContent),
          o.failed = false)
        ∧ (∃ o ∈ hunkOutcomes (sortHunksByLineNumber hunks) (splitLines originalContent),
          o.failed = false)))
    ∧ (∀ w, (processExistingFile originalContent hunks).1 = some w →
        w = joinLines (patchedLines (sortHunksByLineNumber hunks) (splitLines originalContent))
              ++ (if endsWith ['\n'] originalContent then ['\n'] else [])
        ∧ (processExistingFile originalContent hunks).2.status = FileStatus.SUCCESS)
    ∧ ((processExistingFile originalContent hunks).1 = none →
        (processExistingFile originalContent hunks).2.status = FileStatus.FAILED)
    ∧ ((∃ o ∈ hunkOutcomes (sortHunksByLineNumber hunks) (splitLines originalContent),
          o.failed = true) →
        (processExistingFile originalContent hunks).1 = none
        ∧ ((processExistingFile originalContent hunks).1).getD originalContent = originalContent
        ∧ (processExistingFile originalContent hunks).2.status = FileStatus.FAILED
        ∧ (processExistingFile originalContent hunks).2.hunksApplied
            = ((hunkOutcomes (sortHunksByLineNumber hunks) (splitLines originalContent)).filter
                (fun o => !o.skipped && o.success)).length) := by
  obtain ⟨h1, h2, h3⟩ := hunkLoop_counts (sortHunksByLineNumber hunks) 0
    { fileLines := splitLines originalContent, successfulHunks := 0, failedHunks := 0,
      skippedHunks := 0, failedHunkDetails := [] }
  have h4 := hunkLoop_fileLines (sortHunksByLineNumber hunks) 0
    { fileLines := splitLines originalContent, successfulHunks := 0, failedHunks := 0,
      skippedHunks := 0, failedHunkDetails := [] }
  simp only [Nat.zero_add] at h1 h2 h3 h4
  have hfail0 : (hunkLoop (sortHunksByLineNumber hunks) 0
      { fileLines := splitLines originalContent, successfulHunks := 0, failedHunks := 0,
        skippedHunks := 0, failedHunkDetails := [] }).failedHunks = 0 ↔
      ∀ o ∈ hunkOutcomes (sortHunksByLineNumber hunks) (splitLines originalContent),
        o.failed = false := by
    rw [h1]; exact filter_length_eq_zero_iff _ _
  have hsome : ((hunkLoop (sortHunksByLineNumber hunks) 0
      { fileLines := splitLines originalContent, successfulHunks := 0, failedHunks := 0,
        skippedHunks := 0, failedHunkDetails := [] }).successfulHunks > 0 ∨
      (hunkLoop (sortHunksByLineNumber hunks) 0
      { fileLines := splitLines originalContent, successfulHunks := 0, failedHunks := 0,
        skippedHunks := 0, failedHunkDetails := [] }).skippedHunks > 0) ↔
      ∃ o ∈ hunkOutcomes (sortHunksByLineNumber hunks) (splitLines originalContent),
        o.failed = false := by
    rw [h2, h3, filter_length_pos_iff, filter_length_pos_iff]
    constructor
    · rintro (⟨o, ho, hp⟩ | ⟨o, ho, hp⟩)
      · refine ⟨o, ho, ?_⟩
        simp only [Bool.and_eq_true, Bool.not_eq_true'] at hp
        simp [ApplyOutcome.failed, hp.1, hp.2]
      · exact ⟨o, ho, by simp [ApplyOutcome.failed, hp]⟩
    · rintro ⟨o, ho, hp⟩
      cases hsk : o.skipped
      · left
        refine ⟨o, ho, ?_⟩
        simp only [ApplyOutcome.failed, hsk, Bool.not_false, Bool.true_and,
          Bool.not_eq_false'] at hp
        simp [hsk, hp]
      · right
        exact ⟨o, ho, hsk⟩
  refine ⟨?_, ?_, ?_, ?_⟩
  · rw [← hfail0, ← hsome]
    unfold processExistingFile
    simp only
    split
    · rename_i hc
      simp only [Option.isSome_some, true_iff]
      exact hc
    · rename_i hc
      split <;> simp only [Option.isSome_none, Bool.false_eq_true, false_iff] <;> exact hc
  · intro w hw
    unfold processExistingFile at hw ⊢
    simp only at hw ⊢
    split at hw
    · rename_i hc
      simp only [Option.some.injEq] at hw
      rw [if_pos hc]
      rw [h4] at hw
      exact ⟨hw.symm, rfl⟩
    · split at hw <;> cases hw
  · intro hn
    unfold processExistingFile at hn ⊢
    simp only at hn ⊢
    split at hn
    · cases hn
    · rename_i hc
      rw [if_neg hc]
      split <;> rfl
  · rintro ⟨o, ho, hp⟩
    have hne : ¬ (hunkLoop (sortHunksByLineNumber hunks) 0
      { fileLines := splitLines originalContent, successfulHunks := 0, failedHunks := 0,
        skippedHunks := 0, failedHunkDetails := [] }).failedHunks = 0 := by
      rw [hfail0]
      intro hall
      rw [hall o ho] at hp
      exact Bool.false_ne_true hp
    have hpos : (hunkLoop (sortHunksByLineNumber hunks) 0
      { fileLines := splitLines originalContent, successfulHunks := 0, failedHunks := 0,
        skippedHunks := 0, failedHunkDetails := [] }).failedHunks > 0 := Nat.pos_of_ne_zero hne
    unfold processExistingFile
    simp only [hne, false_and, if_false, hpos, if_true, Option.getD_none, true_and]
    exact h3

/-- Witness for C6: the hunk at line 1 applies, the hunk at line 5 fails; nothing is
written and the file is reported FAILED with one applied hunk.  Without the
failing hunk the content written is the patched text `a`, `c`, not the original. -/
theorem processExistingFile_all_or_nothing_witness :
    (processExistingFile "a\nb\nc".toList
        [{ operations := [⟨OpType.context, "a".toList⟩, ⟨OpType.remove, "b".toList⟩],
           headerContext := none, lineNumber := some 1 },
         { operations := [⟨OpType.remove, "zzz".toList⟩],
           headerContext := none, lineNumber := some 5 }]).1 = none
    ∧ (processExistingFile "a\nb\nc".toList
        [{ operations := [⟨OpType.context, "a".toList⟩, ⟨OpType.remove, "b".toList⟩],
           headerContext := none, lineNumber := some 1 },
         { operations := [⟨OpType.remove, "zzz".toList⟩],
           headerContext := none, lineNumber := some 5 }]).2.hunksApplied = 1
    ∧ (processExistingFile "a\nb\nc".toList
        [{ operations := [⟨OpType.context, "a".toList⟩, ⟨OpType.remove, "b".toList⟩],
           headerContext := none, lineNumber := some 1 }]).1 = some "a\nc".toList
    ∧ "a\nc".toList
        = joinLines (patchedLines (sortHunksByLineNumber
            [{ operations := [⟨OpType.context, "a".toList⟩, ⟨OpType.remove, "b".toList⟩],
               headerContext := none, lineNumber := some 1 }]) (splitLines "a\nb\nc".toList))
          ++ (if endsWith ['\n'] "a\nb\nc".toList then ['\n'] else []) := by
  refine ⟨((processExistingFile_all_or_nothing "a\nb\nc".toList
        [{ operations := [⟨OpType.context, "a".toList⟩, ⟨OpType.remove, "b".toList⟩],
           headerContext := none, lineNumber := some 1 },
         { operations := [⟨OpType.remove, "zzz".toList⟩],
           headerContext := none, lineNumber := some 5 }]).2.2.2 ?_).1, by decide, by decide,
    ((processExistingFile_all_or_nothing "a\nb\nc".toList
        [{ operations := [⟨OpType.context, "a".toList⟩, ⟨OpType.remove, "b".toList⟩],
           headerContext := none, lineNumber := some 1 }]).2.1 "a\nc".toList (by decide)).1⟩
  exact ⟨{ result := ["a".toList, "b".toList, "c".toList], success := false, skipped := false,
           errorReason := some "No context matches found".toList }, by decide, by decide⟩

end DiffApplier

namespace DiffApplier

/-! ## Ordering of the hunks -/

theorem compareHunks_le_iff (a b : Hunk) : compareHunks a b ≤ 0 ↔ HunkOrdered a b := by
  unfold compareHunks HunkOrdered
  cases a.lineNumber <;> cases b.lineNumber <;> simp

theorem HunkOrdered.total {a b : Hunk} (h : ¬ HunkOrdered a b) : HunkOrdered b a := by
  unfold HunkOrdered at h ⊢
  cases ha : a.lineNumber <;> cases hb : b.lineNumber <;> simp_all
  omega

theorem HunkOrdered.trans {a b c : Hunk} (h1 : HunkOrdered a b) (h2 : HunkOrdered b c) :
    HunkOrdered a c := by
  unfold HunkOrdered at h1 h2 ⊢
  cases ha : a.lineNumber <;> cases hb : b.lineNumber <;> cases hc : c.lineNumber <;>
    simp_all
  omega

theorem HunkOrdered.lineNumber_ne {a b : Hunk} (h : ¬ HunkOrdered a b) :
    a.lineNumber ≠ b.lineNumber := by
  intro heq
  apply h
  unfold HunkOrdered
  rw [heq]
  cases b.lineNumber <;> simp

theorem HunkOrdered.congr_right {a b c : Hunk} (h : b.lineNumber = c.lineNumber) :
    HunkOrdered a b ↔ HunkOrdered a c := by
  unfold HunkOrdered
  rw [h]

theorem mem_insertHunk (h y : Hunk) (acc : List Hunk) :
    y ∈ insertHunk h acc ↔ y = h ∨ y ∈ acc := by
  induction acc with
  | nil => simp [insertHunk]
  | cons x xs ih =>
    unfold insertHunk
    split
    · simp only [List.mem_cons, ih]
      tauto
    · simp only [List.mem_cons]

theorem insertHunk_perm (h : Hunk) (acc : List Hunk) : (insertHunk h acc).Perm (acc ++ [h]) := by
  induction acc with
  | nil => simp [insertHunk]
  | cons x xs ih =>
    unfold insertHunk
    split
    · exact List.Perm.cons x ih
    · exact (List.perm_append_singleton h (x :: xs)).symm

theorem insertHunk_pairwise (h : Hunk) (acc : List Hunk) (hacc : acc.Pairwise HunkOrdered) :
    (insertHunk h acc).Pairwise HunkOrdered := by
  induction acc with
  | nil => simp [insertHunk]
  | cons x xs ih =>
    rw [List.pairwise_cons] at hacc
    unfold insertHunk
    by_cases hx : compareHunks x h ≤ 0
    · simp only [hx, if_true, List.pairwise_cons]
      refine ⟨?_, ih hacc.2⟩
      intro y hy
      rcases (mem_insertHunk h y xs).mp hy with rfl | hy
      · exact (compareHunks_le_iff _ _).mp hx
      · exact hacc.1 y hy
    · simp only [hx, if_false, List.pairwise_cons]
      have hhx : HunkOrdered h x := HunkOrdered.total (fun hc => hx ((compareHunks_le_iff _ _).mpr hc))
      refine ⟨?_, hacc.1, hacc.2⟩
      intro y hy
      rcases List.mem_cons.mp hy with rfl | hy
      · exact hhx
      · exact HunkOrdered.trans hhx (hacc.1 y hy)

theorem insertHunk_filter (k : Option Nat) (h : Hunk) (acc : List Hunk)
    (hacc : acc.Pairwise HunkOrdered) :
    (insertHunk h acc).filter (fun x => x.lineNumber = k)
      = acc.filter (fun x => x.lineNumber = k) ++ [h].filter (fun x => x.lineNumber = k) := by
  induction acc with
  | nil => simp [insertHunk]
  | cons x xs ih =>
    rw [List.pairwise_cons] at hacc
    unfold insertHunk
    by_cases hx : compareHunks x h ≤ 0
    · simp only [hx, if_true, List.filter_cons, ih hacc.2]
      split <;> simp
    · simp only [hx, if_false]
      have hnot : ¬ HunkOrdered x h := fun hc => hx ((compareHunks_le_iff _ _).mpr hc)
      by_cases hk : h.lineNumber = k
      · have hnil : (x :: xs).filter (fun y => y.lineNumber = k) = [] := by
          rw [List.filter_eq_nil_iff]
          intro y hy
          simp only [decide_eq_true_eq]
          intro hyk
          rcases List.mem_cons.mp hy with rfl | hy
          · exact HunkOrdered.lineNumber_ne hnot (hyk.trans hk.symm)
          · exact hnot ((HunkOrdered.congr_right (hyk.trans hk.symm)).mp (hacc.1 y hy))
        rw [List.filter_cons_of_pos (by simpa using hk), hnil]
        simp [hk]
      · rw [List.filter_cons_of_neg (by simpa using hk)]
        simp [hk]

theorem foldl_insertHunk (hunks : List Hunk) :
    ∀ acc : List Hunk, acc.Pairwise HunkOrdered →
      (hunks.foldl (fun acc h => insertHunk h acc) acc).Pairwise HunkOrdered
      ∧ (hunks.foldl (fun acc h => insertHunk h acc) acc).Perm (acc ++ hunks)
      ∧ ∀ k : Option Nat,
          (hunks.foldl (fun acc h => insertHunk h acc) acc).filter (fun x => x.lineNumber = k)
            = acc.filter (fun x => x.lineNumber = k)
              ++ hunks.filter (fun x => x.lineNumber = k) := by
  induction hunks with
  | nil => intro acc hacc; simp [hacc]
  | cons h rest ih =>
    intro acc hacc
    obtain ⟨h1, h2, h3⟩ := ih (insertHunk h acc) (insertHunk_pairwise h acc hacc)
    refine ⟨h1, ?_, ?_⟩
    · refine h2.trans ?_
      have := (insertHunk_perm h acc).append_right rest
      simpa using this
    · intro k
      have hsplit : h :: rest = [h] ++ rest := rfl
      rw [List.foldl_cons, h3 k, insertHunk_filter k h acc hacc, List.append_assoc, hsplit,
        List.filter_append]

/-- C7 (bottom-to-top order): `sortHunksByLineNumber` returns a permutation of its
input in which defined line numbers come first, in non-increasing order, and
undefined ones last; hunks with the same line number (which compare equal) keep
their input order; hunks with the line numbers 5, 40, 12 come out as 40, 12, 5,
and the orchestrator attempts them in that order, as the indices of its failure
records show. -/
theorem sortHunksByLineNumber_spec (hunks : List Hunk) :
    (sortHunksByLineNumber hunks).Perm hunks
    ∧ (sortHunksByLineNumber hunks).Pairwise HunkOrdered
    ∧ (∀ k : Option Nat,
        (sortHunksByLineNumber hunks).filter (fun x => x.lineNumber = k)
          = hunks.filter (fun x => x.lineNumber = k))
    ∧ (∀ (o1 o2 o3 : List Operation) (c1 c2 c3 : Option Str),
        sortHunksByLineNumber
          [{ operations := o1, headerContext := c1, lineNumber := some 5 },
           { operations := o2, headerContext := c2, lineNumber := some 40 },
           { operations := o3, headerContext := c3, lineNumber := some 12 }]
        = [{ operations := o2, headerContext := c2, lineNumber := some 40 },
           { operations := o3, headerContext := c3, lineNumber := some 12 },
           { operations := o1, headerContext := c1, lineNumber := some 5 }])
    ∧ ((processExistingFile "a".toList
          [{ operations := [⟨OpType.remove, "x".toList⟩], headerContext := none,
             lineNumber := some 5 },
           { operations := [⟨OpType.remove, "y".toList⟩], headerContext := none,
             lineNumber := some 40 },
           { operations := [⟨OpType.remove, "z".toList⟩], headerContext := none,
             lineNumber := some 12 }]).2.failedHunks.map
          (fun ds => ds.map (fun d => (d.hunkIndex, d.lineNumber)))
        = some [(0, some 40), (1, some 12), (2, some 5)]) := by
  obtain ⟨h1, h2, h3⟩ := foldl_insertHunk hunks [] List.Pairwise.nil
  refine ⟨by simpa using h2, h1, fun k => by simpa using h3 k, ?_, by decide⟩
  intro o1 o2 o3 c1 c2 c3
  simp [sortHunksByLineNumber, insertHunk, compareHunks]

end DiffApplier

namespace DiffApplier

/-! ## New files -/

theorem foldl_push_add (ops : List Operation) :
    ∀ res : List Str,
      ops.foldl (fun res operation =>
        if operation.type = OpType.add then res ++ [operation.line] else res) res
      = res ++ (ops.filter (fun op => op.type = OpType.add)).map (fun op => op.line) := by
  induction ops with
  | nil => intro res; simp
  | cons op rest ih =>
    intro res
    rw [List.foldl_cons, ih]
    by_cases h : op.type = OpType.add <;> simp [h, List.filter_cons]

theorem foldl_count_add (ops : List Operation) :
    ∀ n : Nat,
      ops.foldl (fun n operation => if operation.type = OpType.add then n + 1 else n) n
      = n + (ops.filter (fun op => op.type = OpType.add)).length := by
  induction ops with
  | nil => intro n; simp
  | cons op rest ih =>
    intro n
    rw [List.foldl_cons, ih]
    by_cases h : op.type = OpType.add <;> simp [h, List.filter_cons]
    omega

theorem foldl_hunks_push (hunks : List Hunk) :
    ∀ res : List Str,
      hunks.foldl (fun res hunk =>
        hunk.operations.foldl (fun res operation =>
          if operation.type = OpType.add then res ++ [operation.line] else res) res) res
      = res ++ (hunks.map addLines).flatten := by
  induction hunks with
  | nil => intro res; simp
  | cons hunk rest ih =>
    intro res
    rw [List.foldl_cons, ih, foldl_push_add]
    simp [addLines]

theorem foldl_hunks_count (hunks : List Hunk) :
    ∀ n : Nat,
      hunks.foldl (fun n hunk =>
        hunk.operations.foldl (fun n operation =>
          if operation.type = OpType.add then n + 1 else n) n) n
      = n + ((hunks.map addLines).flatten).length := by
  induction hunks with
  | nil => intro n; simp
  | cons hunk rest ih =>
    intro n
    rw [List.foldl_cons, ih, foldl_count_add]
    simp [addLines]
    omega

theorem createNewFile_eq (hunks : List Hunk) :
    createNewFile hunks
      = ((hunks.map addLines).flatten, decide (((hunks.map addLines).flatten).length > 0)) := by
  unfold createNewFile
  simp only [foldl_hunks_push, foldl_hunks_count, List.nil_append, Nat.zero_add]

set_option maxRecDepth 100000 in
/-- C8 (new files): `createNewFile` returns the lines of the `add` operations of the
hunks, in the given order of hunks and operations (other operations contribute
nothing), with `success` exactly when there is an `add` operation; the content
written is these lines joined by `\n` plus a final `\n`, with status CREATED.  The
diff `--- /dev/null`, `+++ b/new.txt` with the add lines `line1`, `line2` parses to
the file change `new.txt` marked as new, and yields the content `line1\nline2\n`. -/
theorem createNewFile_spec (hunks : List Hunk) :
    (createNewFile hunks).1 = (hunks.map addLines).flatten
    ∧ ((createNewFile hunks).2 = true ↔
        ∃ hunk ∈ hunks, ∃ op ∈ hunk.operations, op.type = OpType.add)
    ∧ processNewFile hunks =
        (if (createNewFile hunks).2 then
          (some (joinLines (hunks.map addLines).flatten ++ ['\n']),
           { status := FileStatus.CREATED, hunksApplied := hunks.length,
             totalHunks := hunks.length, hunksSkipped := 0, error := none,
             failedHunks := none })
         else
          (none,
           { status := FileStatus.FAILED, hunksApplied := 0, totalHunks := hunks.length,
             hunksSkipped := 0, error := some "No content to write".toList,
             failedHunks := none }))
    ∧ parseDiff "--- /dev/null\n+++ b/new.txt\n@@ -0,0 +1,2 @@\n+line1\n+line2\n".toList
        = [{ filename := "new.txt".toList,
             hunks := [{ operations := [⟨OpType.add, "line1".toList⟩,
                                        ⟨OpType.add, "line2".toList⟩],
                         headerContext := none, lineNumber := some 0 }],
             isNewFile := true }]
    ∧ processNewFile [{ operations := [⟨OpType.add, "line1".toList⟩,
                                       ⟨OpType.add, "line2".toList⟩],
                        headerContext := none, lineNumber := some 0 }]
        = (some "line1\nline2\n".toList,
           { status := FileStatus.CREATED, hunksApplied := 1, totalHunks := 1,
             hunksSkipped := 0, error := none, failedHunks := none }) := by
  refine ⟨by rw [createNewFile_eq], ?_, ?_, by decide, by decide⟩
  · rw [createNewFile_eq]
    simp only [decide_eq_true_eq, gt_iff_lt, List.length_pos, ne_eq]
    constructor
    · intro hne
      obtain ⟨l, hl⟩ := List.exists_mem_of_ne_nil _ hne
      rw [List.mem_flatten] at hl
      obtain ⟨ls, hls, hmem⟩ := hl
      rw [List.mem_map] at hls
      obtain ⟨hunk, hh, rfl⟩ := hls
      simp only [addLines, List.mem_map, List.mem_filter, decide_eq_true_eq] at hmem
      obtain ⟨op, ⟨hop, htype⟩, -⟩ := hmem
      exact ⟨hunk, hh, op, hop, htype⟩
    · rintro ⟨hunk, hh, op, hop, htype⟩ hnil
      have : op.line ∈ (hunks.map addLines).flatten := by
        rw [List.mem_flatten]
        refine ⟨addLines hunk, List.mem_map_of_mem _ hh, ?_⟩
        simp only [addLines, List.mem_map, List.mem_filter, decide_eq_true_eq]
        exact ⟨op, ⟨hop, htype⟩, rfl⟩
      rw [hnil] at this
      exact List.not_mem_nil _ this
  · unfold processNewFile
    rw [createNewFile_eq]
    by_cases h : ((hunks.map addLines).flatten).length > 0 <;> simp [h]

end DiffApplier

namespace DiffApplier

/-! ## Removals that match nothing -/

theorem countRemovalLoop_le (fileLines : List Str) (lo hi : Nat) (keys : List Str) :
    ∀ (used : List Nat) (n : Nat),
      countRemovalLoop fileLines lo hi keys used n ≤ n + keys.length := by
  induction keys with
  | nil => intro used n; simp [countRemovalLoop]
  | cons k rest ih =>
    intro used n
    unfold countRemovalLoop
    split
    · have := ih (‹Nat› :: used) (n + 1)
      simp only [List.length_cons]
      omega
    · have := ih used n
      simp only [List.length_cons]
      omega

theorem countRemovalLoop_lt (fileLines : List Str) (lo hi : Nat) (keys : List Str)
    (hmiss : ∃ k ∈ keys, ∀ l ∈ fileLines, normalizeLineForMatching l ≠ k) :
    ∀ (used : List Nat) (n : Nat),
      countRemovalLoop fileLines lo hi keys used n < n + keys.length := by
  induction keys with
  | nil =>
    obtain ⟨k, hk, -⟩ := hmiss
    exact absurd hk (List.not_mem_nil _)
  | cons k rest ih =>
    intro used n
    obtain ⟨k0, hk0, hno⟩ := hmiss
    rcases List.mem_cons.mp hk0 with rfl | hrest
    · have hnone : firstInRange lo hi (fun j =>
          !used.contains j &&
          (match fileLines[j]? with
           | some l => !l.isEmpty && normalizeLineForMatching l == k0
           | none => false)) = none := by
        apply firstInRange_none
        intro j _ _
        cases hj : fileLines[j]? with
        | none => simp
        | some l =>
          have hl : l ∈ fileLines := List.getElem?_mem hj
          have := hno l hl
          simp [this]
      unfold countRemovalLoop
      rw [hnone]
      have := countRemovalLoop_le fileLines lo hi rest used n
      simp only [List.length_cons]
      omega
    · unfold countRemovalLoop
      split
      · have := ih ⟨k0, hrest, hno⟩ (‹Nat› :: used) (n + 1)
        simp only [List.length_cons]
        omega
      · have := ih ⟨k0, hrest, hno⟩ used n
        simp only [List.length_cons]
        omega

theorem countRemovalMatches_lt (fileLines : List Str) (keys : List Str) (center range : Int)
    (hmiss : ∃ k ∈ keys, ∀ l ∈ fileLines, normalizeLineForMatching l ≠ k) :
    countRemovalMatches fileLines keys center range < keys.length := by
  unfold countRemovalMatches
  have hpos : keys.length ≠ 0 := by
    obtain ⟨k, hk, -⟩ := hmiss
    exact Nat.pos_iff_ne_zero.mp (List.length_pos_of_mem hk)
  simp only [hpos, if_false]
  have := countRemovalLoop_lt fileLines
    (max 0 (center - range)).toNat (min (fileLines.length : Int) (center + range)).toNat
    keys hmiss [] 0
  omega

theorem removalProbe_nil_of_missing (fileLines : List Str) (operations : List Operation)
    (s : Nat)
    (hmiss : ∃ k ∈ removeKeys operations, ∀ l ∈ fileLines, normalizeLineForMatching l ≠ k) :
    removalProbe fileLines operations s = [] := by
  unfold removalProbe
  rw [List.filterMap_eq_nil_iff]
  intro pos _
  have := countRemovalMatches_lt fileLines (removeKeys operations) pos 10 hmiss
  simp only [ite_eq_right_iff]
  intro h
  omega

/-- C9, as amended (scenario 3): for a hunk without context operations that has a
remove operation whose normalized line equals the normalized form of no line of
the buffer `B`, `applyHunk` fails (neither successful nor skipped), returns `B`
unchanged, and reports the fixed reason "No context matches found". -/
theorem applyHunk_missing_removal (B : List Str) (hunk : Hunk)
    (hnoctx : ∀ op ∈ hunk.operations, op.type ≠ OpType.context)
    (hmiss : ∃ op ∈ hunk.operations, op.type = OpType.remove ∧
      ∀ l ∈ B, normalizeLineForMatching l ≠ normalizeLineForMatching op.line) :
    applyHunk B hunk =
      { result := B, success := false, skipped := false,
        errorReason := some "No context matches found".toList } := by
  obtain ⟨op, hop, htype, hno⟩ := hmiss
  have h1 := not_context_only_of_mem hunk.operations ⟨op, hop, hnoctx op hop⟩
  have h2 := not_pure_addition_of_mem hunk.operations ⟨op, hop, by simp [htype]⟩
  have hck : contextKeys hunk.operations = [] := by
    unfold contextKeys
    rw [filter_eq_nil_of_none _ _ (fun o ho => by simpa using hnoctx o ho)]
    rfl
  have hkey : normalizeLineForMatching op.line ∈ removeKeys hunk.operations := by
    unfold removeKeys
    rw [List.mem_map]
    exact ⟨op, List.mem_filter.mpr ⟨hop, by simpa using htype⟩, rfl⟩
  have hrk : ¬ (removeKeys hunk.operations).length = 0 :=
    Nat.pos_iff_ne_zero.mp (List.length_pos_of_mem hkey)
  have hfound : findAllContextMatches B hunk.operations (findAnchor B hunk.headerContext)
      = [] := by
    rw [findAllContextMatches_unsorted _ _ _ (fun h => hrk h.2), hck]
    simp only [List.length_nil, gt_iff_lt, Nat.lt_irrefl, if_false]
    exact removalProbe_nil_of_missing _ _ _ ⟨_, hkey, hno⟩
  unfold applyHunk
  simp only [h1, h2, hfound, List.length_nil, if_true, if_false, Bool.false_eq_true]

/-- Witness for C9: removing `zzz` from the buffer `[a]`. -/
theorem applyHunk_missing_removal_witness :
    applyHunk ["a".toList]
        { operations := [⟨OpType.remove, "zzz".toList⟩], headerContext := none,
          lineNumber := none }
      = { result := ["a".toList], success := false, skipped := false,
          errorReason := some "No context matches found".toList } :=
  applyHunk_missing_removal ["a".toList]
    { operations := [⟨OpType.remove, "zzz".toList⟩], headerContext := none, lineNumber := none }
    (by simp)
    ⟨⟨OpType.remove, "zzz".toList⟩, by simp, rfl, by decide⟩

/-- Counterexample to C9 as stated: removing `zzz`, which occurs nowhere in the
buffer `[a]`, fails with a reason that does not contain the text `zzz` of the
remove operation; the reason is "No context matches found". -/
theorem applyHunk_missing_removal_reason_counterexample :
    (∀ op ∈ [(⟨OpType.remove, "zzz".toList⟩ : Operation)], op.type ≠ OpType.context)
    ∧ (∀ l ∈ ["a".toList],
        normalizeLineForMatching l ≠ normalizeLineForMatching "zzz".toList)
    ∧ (applyHunk ["a".toList]
        { operations := [⟨OpType.remove, "zzz".toList⟩], headerContext := none,
          lineNumber := none }).errorReason = some "No context matches found".toList
    ∧ ¬ (∃ r, (applyHunk ["a".toList]
          { operations := [⟨OpType.remove, "zzz".toList⟩], headerContext := none,
            lineNumber := none }).errorReason = some r
          ∧ includes "zzz".toList r = true) := by
  refine ⟨by simp, by decide, by decide, ?_⟩
  rintro ⟨r, hr, hinc⟩
  have h : (applyHunk ["a".toList]
        { operations := [⟨OpType.remove, "zzz".toList⟩], headerContext := none,
          lineNumber := none }).errorReason = some "No context matches found".toList := by
    decide
  rw [h] at hr
  cases hr
  revert hinc
  decide

end DiffApplier

namespace DiffApplier

/-! ## Lines of a text -/

theorem splitLines_ne_nil (t : Str) : splitLines t ≠ [] := by
  induction t with
  | nil => simp [splitLines]
  | cons c cs ih =>
    unfold splitLines
    split
    · simp
    · split <;> simp

theorem splitLines_no_newline (t : Str) : ∀ l ∈ splitLines t, '\n' ∉ l := by
  induction t with
  | nil => simp [splitLines]
  | cons c cs ih =>
    intro l hl
    unfold splitLines at hl
    split at hl
    · rcases List.mem_cons.mp hl with rfl | h
      · simp
      · exact ih l h
    · rename_i hc
      split at hl
      · rename_i l0 ls heq
        rcases List.mem_cons.mp hl with rfl | h
        · have := ih l0 (by rw [heq]; exact List.mem_cons_self _ _)
          simp only [List.mem_cons, not_or]
          exact ⟨fun h => hc h.symm, this⟩
        · exact ih l (by rw [heq]; exact List.mem_cons_of_mem _ h)
      · simp only [List.mem_singleton] at hl
        rw [hl]
        simp only [List.mem_singleton]
        exact fun h => hc h.symm

theorem splitLines_append_newline (l rest : Str) (hl : '\n' ∉ l) :
    splitLines (l ++ '\n' :: rest) = l :: splitLines rest := by
  induction l with
  | nil => simp [splitLines]
  | cons c cs ih =>
    simp only [List.mem_cons, not_or] at hl
    have hc : ¬ c = '\n' := fun h => hl.1 h.symm
    rw [List.cons_append, splitLines]
    simp only [hc, if_false, ih hl.2]

theorem splitLines_of_no_newline (l : Str) (hl : '\n' ∉ l) : splitLines l = [l] := by
  induction l with
  | nil => simp [splitLines]
  | cons c cs ih =>
    simp only [List.mem_cons, not_or] at hl
    have hc : ¬ c = '\n' := fun h => hl.1 h.symm
    simp only [splitLines, hc, if_false, ih hl.2]

theorem splitLines_joinLines (ls : List Str) (hne : ls ≠ []) (hl : ∀ l ∈ ls, '\n' ∉ l) :
    splitLines (joinLines ls) = ls := by
  induction ls with
  | nil => exact absurd rfl hne
  | cons l rest ih =>
    cases rest with
    | nil => simpa [joinLines] using splitLines_of_no_newline l (hl l (List.mem_cons_self _ _))
    | cons l2 rest2 =>
      simp only [joinLines]
      rw [splitLines_append_newline _ _ (hl l (List.mem_cons_self _ _)),
        ih (by simp) (fun x hx => hl x (List.mem_cons_of_mem _ hx))]

theorem diffLines_plusHeaders (t : Str) :
    diffLines (plusHeaders t) =
      (splitLines t).map (fun l => replaceNbsp (if isPlainHeader l then '+' :: l else l)) := by
  unfold diffLines plusHeaders
  rw [splitLines_joinLines]
  · rw [List.map_map]; rfl
  · simpa using splitLines_ne_nil t
  · intro l hl
    rw [List.mem_map] at hl
    obtain ⟨l0, hl0, rfl⟩ := hl
    have := splitLines_no_newline t l0 hl0
    split
    · simp only [List.mem_cons, not_or]
      exact ⟨by decide, this⟩
    · exact this

end DiffApplier

namespace DiffApplier

theorem processLine_plus_hunkHeader (st : ParseState) (r : Str) :
    processLine st ('+' :: '@' :: '@' :: r) = processLine st ('@' :: '@' :: r) := by
  simp [processLine, isFileHeader, startsWith, afterPlusRun, plusRunLength, stripPlusRun]

theorem processLine_plus_devNull (st : ParseState) (r : Str) :
    processLine st ('+' :: ("--- /dev/null".toList ++ r))
      = processLine st ("--- /dev/null".toList ++ r) := by
  simp [processLine, isFileHeader, fileHeaderInfo, startsWith, afterPlusRun, plusRunLength,
    stripPlusRun]

end DiffApplier

namespace DiffApplier

theorem dotPlus_cons (c : Char) (r : Str) (hc : isLineTerminator c = false) :
    dotPlus (c :: r) = some (c :: r.takeWhile (fun d => !isLineTerminator d)) := by
  simp [dotPlus, List.takeWhile, hc]

theorem processLine_plus_oldFile (st : ParseState) (r : Str)
    (hr : r = [] ∨ ∃ c r1, r = c :: r1 ∧ isLineTerminator c = false) :
    processLine st ('+' :: ("--- a/".toList ++ r))
      = processLine st ("--- a/".toList ++ r) := by
  rcases hr with rfl | ⟨c, r1, rfl, hc⟩
  · simp [processLine, isFileHeader, fileHeaderInfo, startsWith, afterPlusRun, plusRunLength,
      stripPlusRun, searchLiteralGroup, dotPlus]
  · simp [processLine, isFileHeader, fileHeaderInfo, startsWith, afterPlusRun, plusRunLength,
      stripPlusRun, searchLiteralGroup, dotPlus_cons c r1 hc]

theorem processLine_plus_newFile (st : ParseState) (r : Str)
    (hr : r = [] ∨ ∃ c r1, r = c :: r1 ∧ isLineTerminator c = false) :
    processLine st ('+' :: ("+++ b/".toList ++ r))
      = processLine st ("+++ b/".toList ++ r) := by
  rcases hr with rfl | ⟨c, r1, rfl, hc⟩
  · simp [processLine, isFileHeader, fileHeaderInfo, startsWith, afterPlusRun, plusRunLength,
      stripPlusRun, searchLiteralGroup, dotPlus]
  · simp [processLine, isFileHeader, fileHeaderInfo, startsWith, afterPlusRun, plusRunLength,
      stripPlusRun, searchLiteralGroup, dotPlus_cons c r1 hc]

end DiffApplier

namespace DiffApplier

/-! ## Trimming and header prefixes -/

theorem dropWhile_append_cons (p : Char → Bool) (xs : Str) (c : Char) (q : Str)
    (hc : p c = false) : (xs ++ c :: q).dropWhile p = xs.dropWhile p ++ c :: q := by
  induction xs with
  | nil => simp [List.dropWhile, hc]
  | cons x rest ih =>
    by_cases hx : p x = true
    · simp [List.dropWhile, hx, ih]
    · simp [List.dropWhile, hx]

theorem trimEnd_append_cons (p0 : Str) (c : Char) (r : Str) (hc : isWhiteSpace c = false) :
    trimEnd (p0 ++ c :: r) = p0 ++ c :: trimEnd r := by
  unfold trimEnd
  rw [List.reverse_append, List.reverse_cons, List.append_assoc, List.singleton_append,
    dropWhile_append_cons _ _ _ _ hc]
  simp

theorem isWhiteSpace_replace (c : Char) :
    isWhiteSpace (if c.toNat = 0xA0 then ' ' else c) = isWhiteSpace c := by
  by_cases h : c.toNat = 0xA0
  · simp [h, isWhiteSpace]
  · simp [h]

theorem isLineTerminator_replace (c : Char) :
    isLineTerminator (if c.toNat = 0xA0 then ' ' else c) = isLineTerminator c := by
  by_cases h : c.toNat = 0xA0
  · simp [h, isLineTerminator]
  · simp [h]

theorem trimEnd_replaceNbsp (s : Str) : trimEnd (replaceNbsp s) = replaceNbsp (trimEnd s) := by
  have hf : (isWhiteSpace ∘ fun c : Char => if c.toNat = 0xA0 then ' ' else c) = isWhiteSpace :=
    funext isWhiteSpace_replace
  unfold trimEnd replaceNbsp
  rw [← List.map_reverse, List.dropWhile_map, hf, ← List.map_reverse]

theorem startsWith_eq_true (p s : Str) (h : startsWith p s = true) :
    s = p ++ s.drop p.length := by
  unfold startsWith at h
  have hp : p = s.take p.length := by simpa using h
  conv_lhs => rw [← List.take_append_drop p.length s, ← hp]

theorem trimEnd_replaceNbsp_plus (l : Str) :
    trimEnd (replaceNbsp ('+' :: l)) = '+' :: trimEnd (replaceNbsp l) := by
  have h : replaceNbsp ('+' :: l) = [] ++ '+' :: replaceNbsp l := by
    simp [replaceNbsp]
  rw [h, trimEnd_append_cons [] '+' _ (by decide)]
  rfl

theorem nameStart_cases (r : Str)
    (h : (match trimEnd r with
      | [] => true
      | c :: _ => !isLineTerminator c) = true) :
    replaceNbsp (trimEnd r) = [] ∨
      ∃ c r1, replaceNbsp (trimEnd r) = c :: r1 ∧ isLineTerminator c = false := by
  cases ht : trimEnd r with
  | nil => left; simp [replaceNbsp]
  | cons c r1 =>
    right
    rw [ht] at h
    refine ⟨if c.toNat = 0xA0 then ' ' else c, replaceNbsp r1, by simp [replaceNbsp], ?_⟩
    rw [isLineTerminator_replace]
    simpa using h

theorem parseLine_plus (st : ParseState) (l : Str) (hh : isPlainHeader l = true)
    (hok : nameStartOk l = true) :
    parseLine st (replaceNbsp ('+' :: l)) = parseLine st (replaceNbsp l) := by
  unfold parseLine
  rw [trimEnd_replaceNbsp_plus, trimEnd_replaceNbsp]
  unfold isPlainHeader at hh
  simp only [Bool.or_eq_true] at hh
  rcases hh with ((h | h) | h) | h
  · have hl := startsWith_eq_true _ _ h
    have hr := nameStart_cases (l.drop 6) (by
      simpa only [nameStartOk, h, Bool.true_or, if_true] using hok)
    have ht : trimEnd l = "--- a/".toList ++ trimEnd (l.drop 6) := by
      conv_lhs => rw [hl]
      exact trimEnd_append_cons "--- a".toList '/' _ (by decide)
    rw [ht]
    have hrep : replaceNbsp ("--- a/".toList ++ trimEnd (l.drop 6))
        = "--- a/".toList ++ replaceNbsp (trimEnd (l.drop 6)) := by
      simp [replaceNbsp]
    rw [hrep]
    exact processLine_plus_oldFile st _ hr
  · have hl := startsWith_eq_true _ _ h
    have ht : trimEnd l = "--- /dev/null".toList ++ trimEnd (l.drop 13) := by
      conv_lhs => rw [hl]
      exact trimEnd_append_cons "--- /dev/nul".toList 'l' _ (by decide)
    rw [ht]
    have hrep : replaceNbsp ("--- /dev/null".toList ++ trimEnd (l.drop 13))
        = "--- /dev/null".toList ++ replaceNbsp (trimEnd (l.drop 13)) := by
      simp [replaceNbsp]
    rw [hrep]
    exact processLine_plus_devNull st _
  · have hl := startsWith_eq_true _ _ h
    have hr := nameStart_cases (l.drop 6) (by
      simpa only [nameStartOk, h, Bool.or_true, if_true] using hok)
    have ht : trimEnd l = "+++ b/".toList ++ trimEnd (l.drop 6) := by
      conv_lhs => rw [hl]
      exact trimEnd_append_cons "+++ b".toList '/' _ (by decide)
    rw [ht]
    have hrep : replaceNbsp ("+++ b/".toList ++ trimEnd (l.drop 6))
        = "+++ b/".toList ++ replaceNbsp (trimEnd (l.drop 6)) := by
      simp [replaceNbsp]
    rw [hrep]
    exact processLine_plus_newFile st _ hr
  · have hl := startsWith_eq_true _ _ h
    have ht : trimEnd l = '@' :: '@' :: trimEnd (l.drop 2) := by
      conv_lhs => rw [hl]
      exact trimEnd_append_cons "@".toList '@' _ (by decide)
    rw [ht]
    have hrep : replaceNbsp ('@' :: '@' :: trimEnd (l.drop 2))
        = '@' :: '@' :: replaceNbsp (trimEnd (l.drop 2)) := by
      simp [replaceNbsp]
    rw [hrep]
    exact processLine_plus_hunkHeader st _

theorem foldl_parseLine_plus (ls : List Str) (hok : ∀ l ∈ ls, nameStartOk l = true) :
    ∀ st : ParseState,
      (ls.map (fun l => replaceNbsp (if isPlainHeader l then '+' :: l else l))).foldl
          parseLine st
        = (ls.map replaceNbsp).foldl parseLine st := by
  induction ls with
  | nil => intro st; rfl
  | cons l rest ih =>
    intro st
    simp only [List.map_cons, List.foldl_cons]
    have hstep : parseLine st (replaceNbsp (if isPlainHeader l then '+' :: l else l))
        = parseLine st (replaceNbsp l) := by
      by_cases hh : isPlainHeader l = true
      · simp only [hh, if_true]
        exact parseLine_plus st l hh (hok l (List.mem_cons_self _ _))
      · simp only [hh, if_false, Bool.false_eq_true]
    rw [hstep]
    exact ih (fun x hx => hok x (List.mem_cons_of_mem _ hx)) _

/-- C10 (scenario 4): for every diff text whose header lines `--- a/X` and `+++ b/Y`
carry a name (the text behind the prefix, trailing white space aside, does not
begin with a line-terminator character), putting a single `+` in front of every
header line of the forms `--- a/X`, `--- /dev/null`, `+++ b/Y` and `@@ ...` leaves the
result of `parseDiff` unchanged: the same files, flags, hunks, line numbers, header
contexts and operations. -/
theorem parseDiff_plusHeaders (t : Str) (hok : ∀ l ∈ splitLines t, nameStartOk l = true) :
    parseDiff (plusHeaders t) = parseDiff t := by
  unfold parseDiff
  rw [diffLines_plusHeaders, foldl_parseLine_plus _ hok]
  rfl

end DiffApplier

namespace DiffApplier

set_option maxRecDepth 100000 in
/-- Witness for C10: a diff for `foo.txt` and the same diff with `+` in front of its
three header lines. -/
theorem parseDiff_plusHeaders_witness :
    plusHeaders "--- a/foo.txt\n+++ b/foo.txt\n@@ -1,2 +1,2 @@\n a\n-b\n+c".toList
        = "+--- a/foo.txt\n++++ b/foo.txt\n+@@ -1,2 +1,2 @@\n a\n-b\n+c".toList
    ∧ parseDiff (plusHeaders "--- a/foo.txt\n+++ b/foo.txt\n@@ -1,2 +1,2 @@\n a\n-b\n+c".toList)
        = parseDiff "--- a/foo.txt\n+++ b/foo.txt\n@@ -1,2 +1,2 @@\n a\n-b\n+c".toList
    ∧ parseDiff "--- a/foo.txt\n+++ b/foo.txt\n@@ -1,2 +1,2 @@\n a\n-b\n+c".toList
        = [{ filename := "foo.txt".toList,
             hunks := [{ operations := [⟨OpType.context, "a".toList⟩,
                                        ⟨OpType.remove, "b".toList⟩,
                                        ⟨OpType.add, "c".toList⟩],
                         headerContext := none, lineNumber := some 1 }],
             isNewFile := false }] :=
  ⟨by decide,
   parseDiff_plusHeaders "--- a/foo.txt\n+++ b/foo.txt\n@@ -1,2 +1,2 @@\n a\n-b\n+c".toList
     (by decide),
   by decide⟩

set_option maxRecDepth 100000 in
/-- The condition on the names, evaluated where it fails: on the line `--- a/`
followed by a carriage return and the text `--- a/x`, no name stands behind the
prefix.  The line is searched for the pattern `--- a/(.+)` at any position and
yields the file name `x`; with a `+` in front the pattern is anchored at the start
of the line, fails there, and the name stays `unknown`. -/
theorem parseDiff_plusHeaders_lineTerminator :
    plusHeaders "--- a/\r--- a/x\n+y".toList = "+--- a/\r--- a/x\n+y".toList
    ∧ parseDiff "--- a/\r--- a/x\n+y".toList
        = [{ filename := "x".toList,
             hunks := [{ operations := [⟨OpType.add, "y".toList⟩], headerContext := none,
                         lineNumber := none }],
             isNewFile := false }]
    ∧ parseDiff "+--- a/\r--- a/x\n+y".toList
        = [{ filename := "unknown".toList,
             hunks := [{ operations := [⟨OpType.add, "y".toList⟩], headerContext := none,
                         lineNumber := none }],
             isNewFile := false }]
    ∧ parseDiff (plusHeaders "--- a/\r--- a/x\n+y".toList)
        ≠ parseDiff "--- a/\r--- a/x\n+y".toList := by
  refine ⟨by decide, by decide, by decide, by decide⟩

end DiffApplier

namespace DiffApplier

/-! ## Whitespace invariance -/

theorem keys_congr (t : OpType) (ops1 ops2 : List Operation)
    (h : SameUpToWhiteSpace ops1 ops2) :
    (ops1.filter (fun op => op.type = t)).map (fun op => normalizeLineForMatching op.line)
      = (ops2.filter (fun op => op.type = t)).map
          (fun op => normalizeLineForMatching op.line) := by
  unfold SameUpToWhiteSpace at h
  induction h with
  | nil => rfl
  | @cons a b l1 l2 hab _ ih =>
    by_cases ha : a.type = t
    · have hb : b.type = t := hab.1 ▸ ha
      simp only [List.filter_cons, ha, hb, decide_True, if_true, List.map_cons, hab.2, ih]
    · have hb : ¬ b.type = t := hab.1 ▸ ha
      simp only [List.filter_cons, ha, hb, decide_False, if_false, Bool.false_eq_true, ih]

theorem contextKeys_congr (ops1 ops2 : List Operation) (h : SameUpToWhiteSpace ops1 ops2) :
    contextKeys ops1 = contextKeys ops2 :=
  keys_congr OpType.context ops1 ops2 h

theorem removeKeys_congr (ops1 ops2 : List Operation) (h : SameUpToWhiteSpace ops1 ops2) :
    removeKeys ops1 = removeKeys ops2 :=
  keys_congr OpType.remove ops1 ops2 h

theorem findAllContextMatches_congr (B : List Str) (ops1 ops2 : List Operation) (s : Nat)
    (h : SameUpToWhiteSpace ops1 ops2) :
    findAllContextMatches B ops1 s = findAllContextMatches B ops2 s := by
  have hc := contextKeys_congr ops1 ops2 h
  have hr := removeKeys_congr ops1 ops2 h
  have hl : ops1.length = ops2.length := List.Forall₂.length_eq h
  unfold findAllContextMatches contextScan removalProbe
  rw [hc, hr, hl]

/-- C19 (whitespace invariance of the locator): for every buffer, every start
offset and every two operation lists of equal length whose operations have
pairwise the same type and pairwise equal `normalizeLineForMatching` keys,
`findAllContextMatches` returns the same candidate list (offsets, counts, order). -/
theorem findAllContextMatches_whitespace_invariant (B : List Str) (s : Nat)
    (ops1 ops2 : List Operation) (h : SameUpToWhiteSpace ops1 ops2) :
    findAllContextMatches B ops1 s = findAllContextMatches B ops2 s :=
  findAllContextMatches_congr B ops1 ops2 s h

/-- Witness for C19: a context and a remove operation written with different
spacing find the same candidates in a three-line buffer. -/
theorem findAllContextMatches_whitespace_invariant_witness :
    findAllContextMatches ["f(x);".toList, "b".toList, "f(x);".toList]
        [⟨OpType.context, "f( x ) ;".toList⟩, ⟨OpType.remove, "  b".toList⟩] 0
      = findAllContextMatches ["f(x);".toList, "b".toList, "f(x);".toList]
        [⟨OpType.context, "\tf (x);".toList⟩, ⟨OpType.remove, "b  ".toList⟩] 0
    ∧ (findAllContextMatches ["f(x);".toList, "b".toList, "f(x);".toList]
        [⟨OpType.context, "f( x ) ;".toList⟩, ⟨OpType.remove, "  b".toList⟩] 0).map
          (fun m => m.startPos) = [0, 1, 2] :=
  ⟨findAllContextMatches_whitespace_invariant _ 0 _ _
    (List.Forall₂.cons ⟨rfl, by decide⟩ (List.Forall₂.cons ⟨rfl, by decide⟩ List.Forall₂.nil)),
   by decide⟩

end DiffApplier

namespace DiffApplier

theorem SameUpToMatchedWhiteSpace.weaken {ops1 ops2 : List Operation}
    (h : SameUpToMatchedWhiteSpace ops1 ops2) : SameUpToWhiteSpace ops1 ops2 :=
  List.Forall₂.imp (fun _ _ hab => ⟨hab.1, hab.2.1⟩) h

theorem attemptLoop_congr (fileLines : List Str) (ops1 ops2 : List Operation)
    (h : SameUpToMatchedWhiteSpace ops1 ops2) :
    ∀ (result : List Str) (currentPos appliedChanges : Nat),
      (attemptLoop fileLines ops1 result currentPos appliedChanges).success
        = (attemptLoop fileLines ops2 result currentPos appliedChanges).success
      ∧ (attemptLoop fileLines ops1 result currentPos appliedChanges).result
        = (attemptLoop fileLines ops2 result currentPos appliedChanges).result := by
  unfold SameUpToMatchedWhiteSpace at h
  induction h with
  | nil => intro result currentPos appliedChanges; exact ⟨rfl, rfl⟩
  | @cons a b l1 l2 hab _ ih =>
    intro result currentPos appliedChanges
    obtain ⟨htype, hkey, hline⟩ := hab
    cases ha : a.type with
    | context =>
      have hb : b.type = OpType.context := by rw [← htype, ha]
      simp only [attemptLoop, ha, hb, hkey]
      cases searchForward result (normalizeLineForMatching b.line) currentPos 10 with
      | some p => exact ih _ _ _
      | none =>
        cases searchBackward result (normalizeLineForMatching b.line) currentPos 3 with
        | some p => exact ih _ _ _
        | none => exact ⟨rfl, rfl⟩
    | remove =>
      have hb : b.type = OpType.remove := by rw [← htype, ha]
      simp only [attemptLoop, ha, hb, hkey]
      cases searchForward result (normalizeLineForMatching b.line) currentPos 5 with
      | some p => exact ih _ _ _
      | none =>
        cases searchBackward result (normalizeLineForMatching b.line) currentPos 2 with
        | some p => exact ih _ _ _
        | none => exact ⟨rfl, rfl⟩
    | add =>
      have hb : b.type = OpType.add := by rw [← htype, ha]
      simp only [attemptLoop, ha, hb, hline ha]
      exact ih _ _ _

theorem attemptLoop_success_reason (fileLines : List Str) (operations : List Operation) :
    ∀ (result : List Str) (currentPos appliedChanges : Nat),
      (attemptLoop fileLines operations result currentPos appliedChanges).success = true →
      (attemptLoop fileLines operations result currentPos appliedChanges).errorReason = none := by
  induction operations with
  | nil => intro result currentPos appliedChanges _; rfl
  | cons op rest ih =>
    intro result currentPos appliedChanges
    cases hop : op.type with
    | context =>
      simp only [attemptLoop, hop]
      cases searchForward result (normalizeLineForMatching op.line) currentPos 10 with
      | some p => exact ih _ _ _
      | none =>
        cases searchBackward result (normalizeLineForMatching op.line) currentPos 3 with
        | some p => exact ih _ _ _
        | none => intro h; exact absurd h (by simp)
    | remove =>
      simp only [attemptLoop, hop]
      cases searchForward result (normalizeLineForMatching op.line) currentPos 5 with
      | some p => exact ih _ _ _
      | none =>
        cases searchBackward result (normalizeLineForMatching op.line) currentPos 2 with
        | some p => exact ih _ _ _
        | none => intro h; exact absurd h (by simp)
    | add =>
      simp only [attemptLoop, hop]
      exact ih _ _ _

theorem tryMatches_congr (B : List Str) (ops1 ops2 : List Operation)
    (h : SameUpToMatchedWhiteSpace ops1 ops2) (ms : List Match) :
    tryMatches B ops1 ms = tryMatches B ops2 ms := by
  induction ms with
  | nil => rfl
  | cons m rest ih =>
    obtain ⟨hs, hr⟩ := attemptLoop_congr B ops1 ops2 h B m.startPos 0
    unfold tryMatches
    simp only [attemptApplyHunk]
    rw [← hs, ← hr, ih]
    by_cases hsucc : (attemptLoop B ops1 B m.startPos 0).success = true
    · have e1 := attemptLoop_success_reason B ops1 B m.startPos 0 hsucc
      have e2 := attemptLoop_success_reason B ops2 B m.startPos 0 (hs ▸ hsucc)
      simp only [hsucc, if_true, e1, e2]
    · simp only [hsucc, if_false, Bool.false_eq_true]

theorem filter_type_congr (t : OpType) (ops1 ops2 : List Operation)
    (h : SameUpToMatchedWhiteSpace ops1 ops2) :
    (ops1.filter (fun op => op.type = t)).length = (ops2.filter (fun op => op.type = t)).length := by
  unfold SameUpToMatchedWhiteSpace at h
  induction h with
  | nil => rfl
  | @cons a b l1 l2 hab _ ih =>
    by_cases ha : a.type = t
    · have hb : b.type = t := hab.1 ▸ ha
      simp only [List.filter_cons, ha, hb, decide_True, if_true, List.length_cons, ih]
    · have hb : ¬ b.type = t := hab.1 ▸ ha
      simp only [List.filter_cons, ha, hb, decide_False, if_false, Bool.false_eq_true, ih]

theorem addLines_congr (ops1 ops2 : List Operation) (h : SameUpToMatchedWhiteSpace ops1 ops2) :
    (ops1.filter (fun op => op.type = OpType.add)).map (fun op => op.line)
      = (ops2.filter (fun op => op.type = OpType.add)).map (fun op => op.line) := by
  unfold SameUpToMatchedWhiteSpace at h
  induction h with
  | nil => rfl
  | @cons a b l1 l2 hab _ ih =>
    by_cases ha : a.type = OpType.add
    · have hb : b.type = OpType.add := hab.1 ▸ ha
      simp only [List.filter_cons, ha, hb, decide_True, if_true, List.map_cons, hab.2.2 ha, ih]
    · have hb : ¬ b.type = OpType.add := hab.1 ▸ ha
      simp only [List.filter_cons, ha, hb, decide_False, if_false, Bool.false_eq_true, ih]

theorem isContextOnlyHunk_congr (ops1 ops2 : List Operation)
    (h : SameUpToMatchedWhiteSpace ops1 ops2) :
    isContextOnlyHunk ops1 = isContextOnlyHunk ops2 := by
  unfold SameUpToMatchedWhiteSpace at h
  unfold isContextOnlyHunk
  induction h with
  | nil => rfl
  | @cons a b l1 l2 hab _ ih =>
    simp only [List.all_cons, hab.1, ih]

theorem foldl_spliceInsert_lines (adds : List Operation) (p : Nat) (B : List Str) :
    adds.reverse.foldl (fun res op => spliceInsert res p op.line) B
      = (adds.map (fun op => op.line)).reverse.foldl (fun res l => spliceInsert res p l) B := by
  rw [← List.map_reverse, List.foldl_map]

/-- C20, as amended (whitespace invariance of the outcome): for every buffer and
every two hunks with the same header context whose operations have pairwise the
same type and pairwise equal `normalizeLineForMatching` keys, and whose `add`
operations carry pairwise the same text, `applyHunk` produces identical outcomes:
the same result buffer, success flag, skipped flag and errorReason. -/
theorem applyHunk_whitespace_invariant (B : List Str) (h1 h2 : Hunk)
    (hctx : h1.headerContext = h2.headerContext)
    (hops : SameUpToMatchedWhiteSpace h1.operations h2.operations) :
    applyHunk B h1 = applyHunk B h2 := by
  unfold applyHunk
  simp only [foldl_spliceInsert_lines]
  rw [isContextOnlyHunk_congr _ _ hops, hctx,
    filter_type_congr OpType.context _ _ hops, filter_type_congr OpType.remove _ _ hops,
    filter_type_congr OpType.add _ _ hops, addLines_congr _ _ hops,
    findAllContextMatches_congr B _ _ _ hops.weaken, tryMatches_congr B _ _ hops]

/-- Witness for C20 as amended: the context and remove lines are spaced differently,
the added line is the same; both hunks turn `[f(x);, b]` into `[f(x);, new]`. -/
theorem applyHunk_whitespace_invariant_witness :
    applyHunk ["f(x);".toList, "b".toList]
        { operations := [⟨OpType.context, "f( x ) ;".toList⟩, ⟨OpType.remove, "  b".toList⟩,
            ⟨OpType.add, "new".toList⟩],
          headerContext := none, lineNumber := some 1 }
      = applyHunk ["f(x);".toList, "b".toList]
        { operations := [⟨OpType.context, "\tf (x);".toList⟩, ⟨OpType.remove, "b  ".toList⟩,
            ⟨OpType.add, "new".toList⟩],
          headerContext := none, lineNumber := some 2 }
    ∧ (applyHunk ["f(x);".toList, "b".toList]
        { operations := [⟨OpType.context, "f( x ) ;".toList⟩, ⟨OpType.remove, "  b".toList⟩,
            ⟨OpType.add, "new".toList⟩],
          headerContext := none, lineNumber := some 1 }).result
        = ["f(x);".toList, "new".toList] :=
  ⟨applyHunk_whitespace_invariant _ _ _ rfl
    (List.Forall₂.cons ⟨rfl, by decide, by decide⟩
      (List.Forall₂.cons ⟨rfl, by decide, by decide⟩
        (List.Forall₂.cons ⟨rfl, rfl, fun _ => rfl⟩ List.Forall₂.nil))),
   by decide⟩

/-- Counterexample to C20 as stated: the added lines `x` and ` x` have the same type
and the same matching key, but each hunk inserts its own text, so the result
buffers differ. -/
theorem applyHunk_whitespace_invariant_counterexample :
    SameUpToWhiteSpace [⟨OpType.add, "x".toList⟩] [⟨OpType.add, " x".toList⟩]
    ∧ (applyHunk ["a".toList]
        { operations := [⟨OpType.add, "x".toList⟩], headerContext := none,
          lineNumber := none }).result = ["x".toList, "a".toList]
    ∧ (applyHunk ["a".toList]
        { operations := [⟨OpType.add, " x".toList⟩], headerContext := none,
          lineNumber := none }).result = [" x".toList, "a".toList]
    ∧ applyHunk ["a".toList]
        { operations := [⟨OpType.add, "x".toList⟩], headerContext := none, lineNumber := none }
      ≠ applyHunk ["a".toList]
        { operations := [⟨OpType.add, " x".toList⟩], headerContext := none,
          lineNumber := none } :=
  ⟨List.Forall₂.cons ⟨rfl, by decide⟩ List.Forall₂.nil, by decide, by decide, by decide⟩

end DiffApplier

namespace DiffApplier

/-! ## The parsing step by kind of line -/

theorem processLine_eq_stepByKind (st : ParseState) (line : Str) :
    processLine st line = stepByKind st line := by
  unfold processLine stepByKind
  by_cases h1 : isFileHeader line = true
  · simp only [h1, if_true, finishParse]
  · simp only [h1, if_false, Bool.false_eq_true]
    by_cases h2 : isPlusFileLine line = true
    · have h2c : (startsWith "+++ b/".toList line ||
          (afterPlusRun "++ b/".toList line).isSome) = true := h2
      simp only [h2, h2c, if_true, plusFileName]
    · have h2c : ¬ (startsWith "+++ b/".toList line ||
          (afterPlusRun "++ b/".toList line).isSome) = true := h2
      simp only [h2, h2c, if_false, Bool.false_eq_true]
      by_cases h3 : startsWith "new file mode".toList line = true
      · simp only [h3, if_true]
      · simp only [h3, if_false, Bool.false_eq_true]
        by_cases h4 : isHunkHeaderLine line = true
        · have h4c : (startsWith "@@".toList line || startsWith "+@@".toList line) = true := h4
          simp only [h4, h4c, if_true, hunkHeaderInfo]
          cases matchHunkHeader (stripPlusRun line) with
          | none => rfl
          | some g => rfl
        · have h4c : ¬ (startsWith "@@".toList line || startsWith "+@@".toList line) = true :=
            h4
          simp only [h4, h4c, if_false, Bool.false_eq_true]
          have h1c := h1
          have h2d := h2
          have h4d := h4
          simp only [isFileHeader, Bool.or_eq_true, not_or, Bool.not_eq_true] at h1c
          simp only [isPlusFileLine, Bool.or_eq_true, not_or, Bool.not_eq_true] at h2d
          simp only [isHunkHeaderLine, Bool.or_eq_true, not_or, Bool.not_eq_true] at h4d
          obtain ⟨⟨⟨⟨-, ha⟩, hd⟩, -⟩, -⟩ := h1c
          have hform : isNotContent line = ((afterPlusRun "--- ".toList line).isSome ||
              (afterPlusRun "++ ".toList line).isSome) := by
            unfold isNotContent
            simp only [Bool.not_eq_true] at h1 h2 h4
            rw [h1, h2, h4]
            simp only [Bool.false_or, Bool.or_assoc]
          cases line with
          | nil => simp [lineOperation]
          | cons m content =>
            simp only [lineOperation, hform, ha, hd, h2d.1, h4d.2, Bool.false_or]
            by_cases hs : ((afterPlusRun "--- ".toList (m :: content)).isSome ||
                (afterPlusRun "++ ".toList (m :: content)).isSome) = true
            · simp only [hs, if_true, Bool.true_eq_false, and_false, if_false, ite_self]
            · have hs2 : ((afterPlusRun "--- ".toList (m :: content)).isSome ||
                  (afterPlusRun "++ ".toList (m :: content)).isSome) = false := by
                simpa using hs
              simp only [hs2, if_false, Bool.false_eq_true, and_true]
              by_cases hm1 : m = ' '
              · subst hm1
                simp [startsWith, markerType]
              · by_cases hm2 : m = '+'
                · subst hm2
                  simp [startsWith, markerType]
                · by_cases hm3 : m = '-'
                  · subst hm3
                    simp [startsWith, markerType]
                  · have e1 : startsWith " ".toList (m :: content) = false := by
                      simp [startsWith, Ne.symm hm1]
                    have e2 : startsWith "+".toList (m :: content) = false := by
                      simp [startsWith, Ne.symm hm2]
                    have e3 : startsWith "-".toList (m :: content) = false := by
                      simp [startsWith, Ne.symm hm3]
                    simp [e1, e2, e3, hm1, hm2, hm3]

end DiffApplier

namespace DiffApplier

/-! ## Nothing empty is recorded -/

theorem finishCurrentHunk_nonEmpty (cf : Option FileChange) (ops : List Operation)
    (ctx : Option Str) (ln : Option Nat) (h : ∀ f, cf = some f → HunksNonEmpty f) :
    ∀ f, finishCurrentHunk cf ops ctx ln = some f → HunksNonEmpty f := by
  intro f hf
  cases cf with
  | none => simp [finishCurrentHunk] at hf
  | some f0 =>
    have h0 := h f0 rfl
    unfold finishCurrentHunk at hf
    by_cases hops : ops.length > 0
    · simp only [hops, if_true, Option.some.injEq] at hf
      subst hf
      intro hk hmem
      simp only [List.mem_append, List.mem_singleton] at hmem
      rcases hmem with hmem | rfl
      · exact h0 hk hmem
      · exact List.length_pos.mp hops
    · simp only [hops, if_false, Option.some.injEq] at hf
      subst hf
      exact h0

theorem finishCurrentFile_nonEmpty (files : List FileChange) (cf : Option FileChange)
    (hfiles : ∀ f ∈ files, f.hunks ≠ [] ∧ HunksNonEmpty f)
    (hcf : ∀ f, cf = some f → HunksNonEmpty f) :
    ∀ f ∈ finishCurrentFile files cf, f.hunks ≠ [] ∧ HunksNonEmpty f := by
  intro f hf
  cases cf with
  | none => exact hfiles f (by simpa [finishCurrentFile] using hf)
  | some f0 =>
    unfold finishCurrentFile at hf
    by_cases hh : f0.hunks.length > 0
    · simp only [hh, if_true, List.mem_append, List.mem_singleton] at hf
      rcases hf with hf | rfl
      · exact hfiles f hf
      · exact ⟨List.length_pos.mp hh, hcf f rfl⟩
    · simp only [hh, if_false] at hf
      exact hfiles f hf

theorem finishParse_nonEmpty (st : ParseState) (h : RecordsNonEmpty st) :
    ∀ f ∈ finishParse st, f.hunks ≠ [] ∧ HunksNonEmpty f :=
  finishCurrentFile_nonEmpty _ _ h.1 (finishCurrentHunk_nonEmpty _ _ _ _ h.2)

theorem stepByKind_nonEmpty (st : ParseState) (line : Str) (h : RecordsNonEmpty st) :
    RecordsNonEmpty (stepByKind st line) := by
  unfold stepByKind
  split
  · refine ⟨finishParse_nonEmpty st h, ?_⟩
    intro f hf
    simp only [Option.some.injEq] at hf
    subst hf
    intro hk hmem
    simp at hmem
  · split
    · split
      · rename_i g f hg hf
        refine ⟨h.1, ?_⟩
        intro f' hf'
        simp only [Option.some.injEq] at hf'
        subst hf'
        exact h.2 f hf
      · exact h
    · split
      · split
        · rename_i f hf
          refine ⟨h.1, ?_⟩
          intro f' hf'
          simp only [Option.some.injEq] at hf'
          subst hf'
          exact h.2 f hf
        · exact h
      · split
        · exact ⟨h.1, finishCurrentHunk_nonEmpty _ _ _ _ h.2⟩
        · split
          · exact ⟨h.1, h.2⟩
          · exact h

theorem foldl_parseLine_nonEmpty (ls : List Str) :
    ∀ st : ParseState, RecordsNonEmpty st → RecordsNonEmpty (ls.foldl parseLine st) := by
  induction ls with
  | nil => intro st h; exact h
  | cons l rest ih =>
    intro st h
    rw [List.foldl_cons]
    apply ih
    unfold parseLine
    rw [processLine_eq_stepByKind]
    exact stepByKind_nonEmpty st _ h

/-- C12 (nothing empty is recorded): for every diff text, every FileChange returned
by `parseDiff` has at least one hunk, and every hunk of every returned FileChange
has at least one operation. -/
theorem parseDiff_records_nothing_empty (diffText : Str) :
    ∀ f ∈ parseDiff diffText, f.hunks ≠ [] ∧ ∀ h ∈ f.hunks, h.operations ≠ [] := by
  unfold parseDiff
  apply finishParse_nonEmpty
  apply foldl_parseLine_nonEmpty
  exact ⟨fun f hf => absurd hf (List.not_mem_nil f), fun f hf => by simp [initialParseState] at hf⟩

end DiffApplier

namespace DiffApplier

set_option maxRecDepth 100000 in
/-- Witness for C12: in a text with a file `f` that has two hunk headers, the first
without operations, and a file `g` without any operation, the only file returned
is `f` with the one hunk that has operations. -/
theorem parseDiff_records_nothing_empty_witness :
    parseDiff "--- a/f\n@@ -1 +1 @@\n@@ -5 +5 @@\n-a\n+b\n--- a/g\n+++ b/g\n@@ -1 +1 @@".toList
      = [⟨"f".toList,
          [⟨[⟨OpType.remove, "a".toList⟩, ⟨OpType.add, "b".toList⟩], none, some 5⟩], false⟩]
    ∧ (⟨"f".toList,
          [⟨[⟨OpType.remove, "a".toList⟩, ⟨OpType.add, "b".toList⟩], none, some 5⟩], false⟩
        : FileChange).hunks ≠ []
    ∧ ∀ h ∈ (⟨"f".toList,
          [⟨[⟨OpType.remove, "a".toList⟩, ⟨OpType.add, "b".toList⟩], none, some 5⟩], false⟩
        : FileChange).hunks, h.operations ≠ [] :=
  ⟨by decide,
   parseDiff_records_nothing_empty
     "--- a/f\n@@ -1 +1 @@\n@@ -5 +5 @@\n-a\n+b\n--- a/g\n+++ b/g\n@@ -1 +1 @@".toList
     ⟨"f".toList,
       [⟨[⟨OpType.remove, "a".toList⟩, ⟨OpType.add, "b".toList⟩], none, some 5⟩], false⟩
     (by decide)⟩

end DiffApplier

namespace DiffApplier

/-! ## What the matchers return is part of the line -/

theorem trimEnd_subset (s : Str) : trimEnd s ⊆ s := by
  intro c hc
  unfold trimEnd at hc
  rw [List.mem_reverse] at hc
  have := (List.dropWhile_suffix isWhiteSpace).subset hc
  exact List.mem_reverse.mp this

theorem trim_subset (s : Str) : trim s ⊆ s := by
  intro c hc
  have h1 := trimEnd_subset _ hc
  exact (List.dropWhile_suffix isWhiteSpace).subset h1

theorem stripPlusRun_subset (s : Str) : stripPlusRun s ⊆ s :=
  (List.dropWhile_suffix _).subset

theorem dotPlus_subset {s g : Str} (h : dotPlus s = some g) : g ⊆ s := by
  unfold dotPlus at h
  simp only at h
  split at h
  · cases h
  · cases h
    exact (List.takeWhile_prefix _).subset

theorem afterPlusRun_subset {lit s r : Str} (h : afterPlusRun lit s = some r) : r ⊆ s := by
  unfold afterPlusRun at h
  split at h
  · cases h
    intro c hc
    exact stripPlusRun_subset s (List.mem_of_mem_drop hc)
  · cases h

theorem searchLiteralGroup_subset (lit : Str) {s g : Str}
    (h : searchLiteralGroup lit s = some g) : g ⊆ s := by
  induction s with
  | nil => simp [searchLiteralGroup] at h
  | cons c cs ih =>
    unfold searchLiteralGroup at h
    split at h
    · rename_i g0 hg0
      cases h
      split at hg0
      · intro x hx
        exact List.mem_of_mem_drop (dotPlus_subset hg0 hx)
      · cases hg0
    · intro x hx
      exact List.mem_cons_of_mem _ (ih h hx)

theorem lastSplit_subset (sep : Str) {s g1 g2 : Str} (h : lastSplit sep s = some (g1, g2)) :
    g2 ⊆ s := by
  induction s generalizing g1 g2 with
  | nil => simp [lastSplit] at h
  | cons c cs ih =>
    unfold lastSplit at h
    split at h
    · rename_i a b hab
      cases h
      intro x hx
      exact List.mem_cons_of_mem _ (ih hab hx)
    · split at h
      · cases h
        intro x hx
        exact List.mem_cons_of_mem _ (List.mem_of_mem_drop hx)
      · cases h

theorem matchDiffGit_subset {s g1 g2 : Str} (h : matchDiffGit s = some (g1, g2)) : g2 ⊆ s := by
  induction s with
  | nil => simp [matchDiffGit] at h
  | cons c cs ih =>
    unfold matchDiffGit at h
    split at h
    · rename_i g0 hg0
      cases h
      split at hg0
      · intro x hx
        have h1 := lastSplit_subset _ hg0 hx
        exact List.mem_of_mem_drop ((List.takeWhile_prefix _).subset h1)
      · cases hg0
    · intro x hx
      exact List.mem_cons_of_mem _ (ih h hx)

theorem matchRange_subset {s d r : Str} (h : matchRange s = some (d, r)) : r ⊆ s := by
  unfold matchRange at h
  simp only at h
  split at h
  · cases h
  · split at h
    · rename_i r1 hr1
      cases h
      intro x hx
      have h1 : x ∈ ',' :: r1 := List.mem_cons_of_mem _ ((List.dropWhile_suffix _).subset hx)
      rw [← hr1] at h1
      exact (List.dropWhile_suffix _).subset h1
    · cases h
      exact (List.dropWhile_suffix _).subset

theorem matchHunkHeaderAt_subset {s g1 g : Str} {g3 : Option Str}
    (h : matchHunkHeaderAt s = some (g1, g3)) (hg : g3 = some g) : g ⊆ s := by
  unfold matchHunkHeaderAt at h
  split at h
  · split at h
    · cases h
    · rename_i a r1 hr1
      split at h
      · split at h
        · cases h
        · rename_i b r2 hr2
          split at h
          · cases h
            intro x hx
            have h1 := dotPlus_subset hg hx
            have h2 := (List.dropWhile_suffix _).subset h1
            have h3 := List.mem_of_mem_drop h2
            have h4 := matchRange_subset hr2 h3
            have h5 := List.mem_of_mem_drop h4
            have h6 := matchRange_subset hr1 h5
            exact List.mem_of_mem_drop h6
          · cases h
      · cases h
  · cases h

theorem matchHunkHeader_subset {s g1 g : Str} {g3 : Option Str}
    (h : matchHunkHeader s = some (g1, g3)) (hg : g3 = some g) : g ⊆ s := by
  induction s with
  | nil => simp [matchHunkHeader] at h
  | cons c cs ih =>
    unfold matchHunkHeader at h
    split at h
    · rename_i g0 hg0
      cases h
      exact matchHunkHeaderAt_subset hg0 hg
    · intro x hx
      exact List.mem_cons_of_mem _ (ih h hx)

end DiffApplier

namespace DiffApplier

/-! ## Non-breaking spaces -/

theorem NoNbsp.subset {s g : Str} (hs : NoNbsp s) (h : g ⊆ s) : NoNbsp g :=
  fun c hc => hs c (h hc)

theorem noNbsp_replaceNbsp (l : Str) : NoNbsp (replaceNbsp l) := by
  intro c hc
  unfold replaceNbsp at hc
  rw [List.mem_map] at hc
  obtain ⟨d, -, rfl⟩ := hc
  by_cases hd : d.toNat = 0xA0
  · simp only [hd, if_true]; decide
  · simp only [hd, if_false]; exact hd

theorem replaceNbsp_of_noNbsp (l : Str) (h : NoNbsp l) : replaceNbsp l = l := by
  unfold replaceNbsp
  conv_rhs => rw [← List.map_id l]
  apply List.map_congr_left
  intro c hc
  simp [h c hc]

theorem replaceNbsp_idem (l : Str) : replaceNbsp (replaceNbsp l) = replaceNbsp l :=
  replaceNbsp_of_noNbsp _ (noNbsp_replaceNbsp l)

theorem splitLines_replaceNbsp (t : Str) :
    splitLines (replaceNbsp t) = (splitLines t).map replaceNbsp := by
  induction t with
  | nil => rfl
  | cons c cs ih =>
    have hcons : replaceNbsp (c :: cs)
        = (if c.toNat = 0xA0 then ' ' else c) :: replaceNbsp cs := rfl
    rw [hcons]
    by_cases hc : c = '\n'
    · subst hc
      have : (if '\n'.toNat = 0xA0 then ' ' else '\n') = '\n' := by decide
      rw [this, splitLines, splitLines]
      simp only [if_true, ih, List.map_cons]
      rfl
    · have hne : ¬ (if c.toNat = 0xA0 then ' ' else c) = '\n' := by
        by_cases hn : c.toNat = 0xA0
        · simp only [hn, if_true]; decide
        · simp only [hn, if_false]; exact hc
      rw [splitLines, splitLines]
      simp only [hc, hne, if_false, ih]
      cases hsp : splitLines cs with
      | nil => exact absurd hsp (splitLines_ne_nil cs)
      | cons l ls => rfl

theorem diffLines_replaceNbsp (t : Str) : diffLines (replaceNbsp t) = diffLines t := by
  unfold diffLines
  rw [splitLines_replaceNbsp, List.map_map]
  apply List.map_congr_left
  intro l _
  exact replaceNbsp_idem l

theorem noNbsp_unknown : NoNbsp "unknown".toList := by
  intro c hc
  simp only [String.toList, List.mem_cons, List.mem_singleton, List.not_mem_nil, or_false] at hc
  rcases hc with rfl | rfl | rfl | rfl | rfl | rfl | rfl <;> decide

theorem noNbsp_fileHeaderInfo (line : Str) (h : NoNbsp line) :
    NoNbsp (fileHeaderInfo line).1 := by
  unfold fileHeaderInfo
  split
  · simp only
    split
    · rename_i g1 g2 hg
      exact h.subset (matchDiffGit_subset hg)
    · exact noNbsp_unknown
  · split
    · simp only
      cases hs : searchLiteralGroup "--- a/".toList line with
      | none => exact noNbsp_unknown
      | some g => exact h.subset (searchLiteralGroup_subset _ hs)
    · split
      · exact noNbsp_unknown
      · split
        · simp only
          cases ha : afterPlusRun "--- a/".toList line with
          | none => exact noNbsp_unknown
          | some r =>
            cases hd : dotPlus r with
            | none => simpa [hd] using noNbsp_unknown
            | some g =>
              have : NoNbsp g := h.subset (fun c hc => afterPlusRun_subset ha (dotPlus_subset hd hc))
              simpa [hd] using this
        · split <;> exact noNbsp_unknown

theorem noNbsp_plusFileName (line : Str) (h : NoNbsp line) {g : Str}
    (hg : plusFileName line = some g) : NoNbsp g := by
  unfold plusFileName at hg
  by_cases hsw : startsWith "+++ b/".toList line = true
  · simp only [hsw, if_true] at hg
    exact h.subset (searchLiteralGroup_subset _ hg)
  · simp only [hsw, if_false, Bool.false_eq_true] at hg
    cases ha : afterPlusRun "++ b/".toList line with
    | none => rw [ha] at hg; cases hg
    | some r =>
      rw [ha, Option.some_bind] at hg
      exact h.subset (fun c hc => afterPlusRun_subset ha (dotPlus_subset hg hc))

theorem noNbsp_hunkHeaderInfo (line : Str) (h : NoNbsp line) {c : Str}
    (hc : (hunkHeaderInfo line).2 = some c) : NoNbsp c := by
  unfold hunkHeaderInfo at hc
  split at hc
  · rename_i g1 g3 hm
    simp only [Option.map_eq_some'] at hc
    obtain ⟨g, hg, rfl⟩ := hc
    exact h.subset (fun x hx =>
      stripPlusRun_subset line (matchHunkHeader_subset hm hg (trim_subset g hx)))
  · cases hc

theorem noNbsp_lineOperation (line : Str) (h : NoNbsp line) {op : Operation}
    (hop : lineOperation line = some op) : NoNbsp op.line := by
  unfold lineOperation at hop
  split at hop
  · cases hop
  · split at hop
    · cases hop
      exact h.subset (fun c hc => List.mem_cons_of_mem _ hc)
    · cases hop

theorem finishCurrentHunk_noNbsp (st : ParseState) (h : StateNoNbsp st) :
    ∀ f, finishCurrentHunk st.currentFile st.currentOperations st.currentHeaderContext
      st.currentLineNumber = some f → FileNoNbsp f := by
  intro f hf
  obtain ⟨-, hcf, hops, hctx⟩ := h
  cases hcur : st.currentFile with
  | none => simp [finishCurrentHunk, hcur] at hf
  | some f0 =>
    have h0 := hcf f0 hcur
    rw [hcur] at hf
    unfold finishCurrentHunk at hf
    by_cases hlen : st.currentOperations.length > 0
    · simp only [hlen, if_true, Option.some.injEq] at hf
      subst hf
      refine ⟨h0.1, ?_⟩
      intro hk hmem
      simp only [List.mem_append, List.mem_singleton] at hmem
      rcases hmem with hmem | rfl
      · exact h0.2 hk hmem
      · exact ⟨hctx, hops⟩
    · simp only [hlen, if_false, Option.some.injEq] at hf
      subst hf
      exact h0

theorem finishParse_noNbsp (st : ParseState) (h : StateNoNbsp st) :
    ∀ f ∈ finishParse st, FileNoNbsp f := by
  intro f hf
  unfold finishParse finishCurrentFile at hf
  split at hf
  · rename_i f0 hf0
    split at hf
    · simp only [List.mem_append, List.mem_singleton] at hf
      rcases hf with hf | rfl
      · exact h.1 f hf
      · exact finishCurrentHunk_noNbsp st h f hf0
    · exact h.1 f hf
  · exact h.1 f hf

theorem stepByKind_noNbsp (st : ParseState) (line : Str) (hl : NoNbsp line)
    (h : StateNoNbsp st) : StateNoNbsp (stepByKind st line) := by
  unfold stepByKind
  split
  · refine ⟨finishParse_noNbsp st h, ?_, ?_, ?_⟩
    · intro f hf
      simp only [Option.some.injEq] at hf
      subst hf
      exact ⟨noNbsp_fileHeaderInfo line hl, fun hk hmem => by simp at hmem⟩
    · intro op hop; simp at hop
    · intro c hc; simp at hc
  · split
    · split
      · rename_i g f hg hf
        refine ⟨h.1, ?_, h.2.2.1, h.2.2.2⟩
        intro f' hf'
        simp only [Option.some.injEq] at hf'
        subst hf'
        exact ⟨noNbsp_plusFileName line hl hg, (h.2.1 f hf).2⟩
      · exact h
    · split
      · split
        · rename_i f hf
          refine ⟨h.1, ?_, h.2.2.1, h.2.2.2⟩
          intro f' hf'
          simp only [Option.some.injEq] at hf'
          subst hf'
          exact h.2.1 f hf
        · exact h
      · split
        · refine ⟨h.1, finishCurrentHunk_noNbsp st h, ?_, ?_⟩
          · intro op hop; simp at hop
          · intro c hc; exact noNbsp_hunkHeaderInfo line hl hc
        · split
          · rename_i op hop
            refine ⟨h.1, h.2.1, ?_, h.2.2.2⟩
            intro o ho
            simp only [List.mem_append, List.mem_singleton] at ho
            rcases ho with ho | rfl
            · exact h.2.2.1 o ho
            · exact noNbsp_lineOperation line hl hop
          · exact h

theorem foldl_parseLine_noNbsp (ls : List Str) (hls : ∀ l ∈ ls, NoNbsp l) :
    ∀ st : ParseState, StateNoNbsp st → StateNoNbsp (ls.foldl parseLine st) := by
  induction ls with
  | nil => intro st h; exact h
  | cons l rest ih =>
    intro st h
    rw [List.foldl_cons]
    apply ih (fun x hx => hls x (List.mem_cons_of_mem _ hx))
    unfold parseLine
    rw [processLine_eq_stepByKind]
    exact stepByKind_noNbsp st _
      ((hls l (List.mem_cons_self _ _)).subset (trimEnd_subset l)) h

/-- C17 (non-breaking spaces): for every diff text `t`, `parseDiff t` equals
`parseDiff t'` where `t'` is `t` with every non-breaking space (U+00A0) replaced by
a regular space; and no file name, header context or operation line of the
output contains a non-breaking space. -/
theorem parseDiff_nbsp (t : Str) :
    parseDiff (replaceNbsp t) = parseDiff t
    ∧ ∀ f ∈ parseDiff t,
        NoNbsp f.filename ∧
        ∀ h ∈ f.hunks, (∀ c, h.headerContext = some c → NoNbsp c) ∧
          ∀ op ∈ h.operations, NoNbsp op.line := by
  refine ⟨by unfold parseDiff; rw [diffLines_replaceNbsp], ?_⟩
  unfold parseDiff
  apply finishParse_noNbsp
  apply foldl_parseLine_noNbsp
  · intro l hl
    unfold diffLines at hl
    rw [List.mem_map] at hl
    obtain ⟨l0, -, rfl⟩ := hl
    exact noNbsp_replaceNbsp l0
  · refine ⟨fun f hf => absurd hf (List.not_mem_nil f), fun f hf => ?_, fun op hop => ?_,
      fun c hc => ?_⟩
    · simp [initialParseState] at hf
    · simp [initialParseState] at hop
    · simp [initialParseState] at hc

end DiffApplier

namespace DiffApplier

/-! ## Content lines -/

theorem isNotContent_false {line : Str} (h : isNotContent line = false) :
    isFileHeader line = false ∧ isPlusFileLine line = false ∧ isHunkHeaderLine line = false := by
  unfold isNotContent at h
  simp only [Bool.or_eq_false_iff] at h
  exact ⟨h.1.1.1.1, h.1.1.1.2, h.1.1.2⟩

theorem startsWith_cons_ne (p : Str) (c d : Char) (r : Str) (h : c ≠ d) :
    startsWith (c :: p) (d :: r) = false := by
  simp [startsWith, h]

theorem stepByKind_operation (st : ParseState) (line : Str) (op : Operation)
    (hop : lineOperation line = some op) :
    stepByKind st line = { st with currentOperations := st.currentOperations ++ [op] } := by
  unfold lineOperation at hop
  cases line with
  | nil => cases hop
  | cons m content =>
    simp only at hop
    split at hop
    · rename_i hcond
      obtain ⟨hm, hform⟩ := hcond
      obtain ⟨h1, h2, h4⟩ := isNotContent_false hform
      have h3 : startsWith "new file mode".toList (m :: content) = false := by
        apply startsWith_cons_ne
        rcases hm with rfl | rfl | rfl <;> decide
      have hop2 : lineOperation (m :: content) = some op := by
        simp only [lineOperation, hm, hform, and_self, if_true]
        exact hop
      unfold stepByKind
      simp only [h1, h2, h3, h4, if_false, Bool.false_eq_true, hop2]
    · cases hop

theorem lineOperation_cons (m : Char) (content : Str) (hm : m = ' ' ∨ m = '+' ∨ m = '-')
    (hform : isNotContent (m :: content) = false) :
    lineOperation (m :: content) = some ⟨markerType m, content⟩ := by
  simp only [lineOperation, hm, hform, and_self, if_true]

theorem foldl_parseLine_operations (ls : List Str) (ops : List Operation)
    (h : List.Forall₂ (fun l op => lineOperation (trimEnd l) = some op) ls ops) :
    ∀ st : ParseState,
      ls.foldl parseLine st = { st with currentOperations := st.currentOperations ++ ops } := by
  induction h with
  | nil => intro st; simp
  | @cons l op ls1 ops1 hop _ ih =>
    intro st
    rw [List.foldl_cons, ih]
    unfold parseLine
    rw [processLine_eq_stepByKind, stepByKind_operation st _ op hop]
    simp

theorem startsWith_stripPlusRun_of_hunkHeader (line : Str)
    (h : isHunkHeaderLine line = true) : startsWith "@@".toList (stripPlusRun line) = true := by
  unfold isHunkHeaderLine at h
  simp only [Bool.or_eq_true] at h
  rcases h with h | h
  · have hl := startsWith_eq_true _ _ h
    rw [hl]
    simp [stripPlusRun, startsWith]
  · have hl := startsWith_eq_true _ _ h
    rw [hl]
    simp [stripPlusRun, startsWith]

theorem isNotContent_of_headerForm {line : Str} (hform : isHeaderForm line = false)
    (hskip : isSkipPattern line = false) : isNotContent line = false := by
  unfold isHeaderForm at hform
  unfold isSkipPattern at hskip
  simp only [Bool.or_eq_false_iff] at hform hskip
  have h3 : isHunkHeaderLine line = false := by
    cases hh : isHunkHeaderLine line with
    | false => rfl
    | true =>
      have := startsWith_stripPlusRun_of_hunkHeader line hh
      rw [hform.1.2] at this
      cases this
  unfold isNotContent
  simp only [hform.1.1.1, hform.1.1.2, h3, hskip.1, hskip.2, Bool.or_self]

theorem lineOperation_of_content {line : Str} {op : Operation} (h : ContentLine line op) :
    lineOperation line = some op := by
  obtain ⟨m, content, hm, hline, hform, hskip, rfl⟩ := h
  have hnc := isNotContent_of_headerForm hform hskip
  rw [hline] at hnc ⊢
  exact lineOperation_cons m content hm hnc

/-- C13, as amended (content lines): let `L` be a line read while a file is in
progress, and `line` its text after the replacement of non-breaking spaces and
the removal of trailing white space.  If `line` begins with ` `, `+` or `-`, is not
one of the header forms (`diff --git`, `--- a/`, `--- /dev/null`, `+++ b/`, `@@`, each
also with a run of `+` in front) and is not a run of `+` followed by `--- ` or `++ `,
the parser appends exactly one operation to the hunk in progress, of type context,
add or remove respectively, whose text is `line` without its first character; the
next flush records the operations collected so far, this one last.  A run of such
lines is collected in input order. -/
theorem parseLine_records_operation (st : ParseState) (f : FileChange)
    (hfile : st.currentFile = some f) (L : Str) :
    (∀ (m : Char) (content : Str), (m = ' ' ∨ m = '+' ∨ m = '-') →
      trimEnd (replaceNbsp L) = m :: content →
      isHeaderForm (trimEnd (replaceNbsp L)) = false →
      isSkipPattern (trimEnd (replaceNbsp L)) = false →
      parseLine st (replaceNbsp L)
        = { st with currentOperations := st.currentOperations ++ [⟨markerType m, content⟩] }
      ∧ finishCurrentHunk (parseLine st (replaceNbsp L)).currentFile
          (parseLine st (replaceNbsp L)).currentOperations
          (parseLine st (replaceNbsp L)).currentHeaderContext
          (parseLine st (replaceNbsp L)).currentLineNumber
        = some { f with hunks := f.hunks ++
            [{ operations := st.currentOperations ++ [⟨markerType m, content⟩],
               headerContext := st.currentHeaderContext,
               lineNumber := st.currentLineNumber }] })
    ∧ (∀ (ls : List Str) (ops : List Operation),
        List.Forall₂ (fun l op => ContentLine (trimEnd l) op) ls ops →
        (ls.foldl parseLine st).currentOperations = st.currentOperations ++ ops) := by
  refine ⟨?_, ?_⟩
  · intro m content hm hline hform hskip
    have hstep : parseLine st (replaceNbsp L)
        = { st with currentOperations := st.currentOperations ++ [⟨markerType m, content⟩] } := by
      unfold parseLine
      rw [processLine_eq_stepByKind]
      apply stepByKind_operation
      have hnc := isNotContent_of_headerForm hform hskip
      rw [hline] at hnc ⊢
      exact lineOperation_cons m content hm hnc
    refine ⟨hstep, ?_⟩
    rw [hstep]
    simp [finishCurrentHunk, hfile]
  · intro ls ops h
    rw [foldl_parseLine_operations ls ops (h.imp (fun _ _ hlo => lineOperation_of_content hlo))]

end DiffApplier

namespace DiffApplier

/-- Witness for C13 as amended: behind the header `--- a/f`, the line `+foo ` (with a
trailing space) adds the operation `add foo`. -/
theorem parseLine_records_operation_witness :
    parseLine
        { files := [], currentFile := some ⟨"f".toList, [], false⟩, currentOperations := [],
          currentHeaderContext := none, currentLineNumber := none, isNewFile := false }
        (replaceNbsp "+foo ".toList)
      = { files := [], currentFile := some ⟨"f".toList, [], false⟩,
          currentOperations := [] ++ [⟨markerType '+', "foo".toList⟩],
          currentHeaderContext := none, currentLineNumber := none, isNewFile := false } :=
  ((parseLine_records_operation
      { files := [], currentFile := some ⟨"f".toList, [], false⟩, currentOperations := [],
        currentHeaderContext := none, currentLineNumber := none, isNewFile := false }
      ⟨"f".toList, [], false⟩ rfl "+foo ".toList).1
    '+' "foo".toList (Or.inr (Or.inl rfl)) (by decide) (by decide) (by decide)).1

set_option maxRecDepth 100000 in
/-- Counterexample to C13 as stated: in the text `--- a/f`, `+foo ` (trailing space),
` ` (a blank context line), `-b`, the line `+foo ` is recorded with the text `foo`,
not with its literal text `foo `, and the line ` `, which begins with a space and
is no header form, is not recorded at all. -/
theorem parseDiff_literal_text_counterexample :
    parseDiff "--- a/f\n+foo ".toList
        = [{ filename := "f".toList,
             hunks := [{ operations := [⟨OpType.add, "foo".toList⟩],
                         headerContext := none, lineNumber := none }],
             isNewFile := false }]
    ∧ parseDiff "--- a/f\n+foo \n \n-b".toList
        = [{ filename := "f".toList,
             hunks := [{ operations := [⟨OpType.add, "foo".toList⟩,
                                        ⟨OpType.remove, "b".toList⟩],
                         headerContext := none, lineNumber := none }],
             isNewFile := false }]
    ∧ isHeaderForm "+foo ".toList = false
    ∧ isHeaderForm " ".toList = false
    ∧ parseDiff "--- a/f\n+foo \n \n-b".toList
        ≠ [{ filename := "f".toList,
             hunks := [{ operations := [⟨OpType.add, "foo ".toList⟩,
                                        ⟨OpType.context, "".toList⟩,
                                        ⟨OpType.remove, "b".toList⟩],
                         headerContext := none, lineNumber := none }],
             isNewFile := false }] := by
  refine ⟨by decide, by decide, by decide, by decide, by decide⟩

set_option maxRecDepth 100000 in
/-- The lines that the amended C13 leaves out, evaluated: the added lines `--- Foo`
and `++ xs` (written `+--- Foo`, `+++ xs`) match the skip list of the content branch
and are dropped, although they are no header forms; the hunk keeps `context a` and
`add y`. -/
theorem parseDiff_skipped_additions :
    parseDiff "--- a/f\n+++ b/f\n@@ -1,2 +1,4 @@\n a\n+--- Foo\n+++ xs\n+y".toList
        = [{ filename := "f".toList,
             hunks := [{ operations := [⟨OpType.context, "a".toList⟩,
                                        ⟨OpType.add, "y".toList⟩],
                         headerContext := none, lineNumber := some 1 }],
             isNewFile := false }]
    ∧ isHeaderForm "+--- Foo".toList = false ∧ isSkipPattern "+--- Foo".toList = true
    ∧ isHeaderForm "+++ xs".toList = false ∧ isSkipPattern "+++ xs".toList = true := by
  refine ⟨by decide, by decide, by decide, by decide, by decide⟩

end DiffApplier

namespace DiffApplier

/-! ## Number values -/

theorem bitLength_zero (fuel : Nat) : bitLength fuel 0 = 0 := by
  cases fuel <;> simp [bitLength]

theorem bitLength_eq (k : Nat) :
    ∀ (fuel n : Nat), n ≤ fuel → 2 ^ k ≤ n → n < 2 ^ (k + 1) → bitLength fuel n = k + 1 := by
  induction k with
  | zero =>
    intro fuel n hf h1 h2
    have hn : n = 1 := by omega
    subst hn
    cases fuel with
    | zero => omega
    | succ f => simp [bitLength, bitLength_zero]
  | succ k ih =>
    intro fuel n hf h1 h2
    have h2k : 0 < 2 ^ k := Nat.two_pow_pos _
    have e1 : 2 ^ (k + 1) = 2 * 2 ^ k := by rw [pow_succ]; ring
    have e2 : 2 ^ (k + 1 + 1) = 2 * 2 ^ (k + 1) := by rw [pow_succ]; ring
    cases fuel with
    | zero => omega
    | succ f =>
      have hn0 : n ≠ 0 := by omega
      simp only [bitLength, hn0, if_false]
      rw [ih f (n / 2) (by omega) (by omega) (by omega)]

theorem bitLength_self (n : Nat) (hn : n ≠ 0) : bitLength n n = Nat.log 2 n + 1 :=
  bitLength_eq (Nat.log 2 n) n n (Nat.le_refl n) (Nat.pow_log_le_self 2 hn)
    (Nat.lt_pow_succ_log_self (by decide) n)

theorem bitLength_of_bounds (n k : Nat) (h1 : 2 ^ k ≤ n) (h2 : n < 2 ^ (k + 1)) :
    bitLength n n = k + 1 :=
  bitLength_eq k n n (Nat.le_refl n) h1 h2

theorem pow2_eq (e : Nat) : pow2 e = 2 ^ e := by
  induction e with
  | zero => rfl
  | succ k ih => rw [pow2, ih, pow_succ, Nat.mul_comm]

theorem roundShift_of_dvd (r e : Nat) : roundShift (r * 2 ^ e) e = r := by
  have h2 : 0 < 2 ^ e := Nat.two_pow_pos _
  unfold roundShift
  rw [pow2_eq, Nat.mul_mod_left, Nat.mul_div_cancel _ h2]
  simp [h2]

theorem infinity_eq_pow : ∃ n, n = 256 * 4 ∧ infinity = 2 ^ n :=
  ⟨256 * 4, rfl, (pow_mul 2 256 4).symm⟩

theorem two_pow_lt (k n : Nat) (h : k < n) : 2 ^ k < 2 ^ n :=
  Nat.pow_lt_pow_right (by decide) h

theorem pow_lt_infinity (k : Nat) (hk : k < 1024) : 2 ^ k < infinity := by
  obtain ⟨n, hn, hinf⟩ := infinity_eq_pow
  rw [hinf]
  exact two_pow_lt k n (by omega)

/-- A number with at most 53 significant binary digits below `2^1024` is a double. -/
theorem toDouble_mul_pow (r e : Nat) (h1 : 2 ^ 52 ≤ r) (h2 : r < 2 ^ 53)
    (hlt : r * 2 ^ e < infinity) : toDouble (r * 2 ^ e) = r * 2 ^ e := by
  have hb : bitLength (r * 2 ^ e) (r * 2 ^ e) = (52 + e) + 1 := by
    apply bitLength_of_bounds
    · rw [pow_add]; exact Nat.mul_le_mul_right _ h1
    · have : 2 ^ (52 + e + 1) = 2 ^ 53 * 2 ^ e := by rw [← pow_add]; congr 1; omega
      rw [this]
      exact Nat.mul_lt_mul_of_pos_right h2 (Nat.two_pow_pos _)
  have he : 52 + e + 1 - 53 = e := by omega
  unfold toDouble
  rw [hb, he, pow2_eq, roundShift_of_dvd, if_pos hlt]

theorem toDouble_of_lt (x : Nat) (hx : x < 2 ^ 53) : toDouble x = x := by
  have hinf : (2 : Nat) ^ 53 < infinity := pow_lt_infinity 53 (by decide)
  have hb : bitLength x x - 53 = 0 := by
    by_cases h0 : x = 0
    · subst h0; rfl
    · rw [bitLength_self x h0]
      have : Nat.log 2 x < 53 := Nat.log_lt_of_lt_pow h0 hx
      omega
  unfold toDouble
  rw [hb]
  have hr : roundShift x 0 = x := by
    have := roundShift_of_dvd x 0
    simpa using this
  rw [hr, pow2_eq]
  simp only [pow_zero, Nat.mul_one]
  rw [if_pos (lt_trans hx hinf)]

theorem toDouble_of_le (x : Nat) (hx : x ≤ 2 ^ 53) : toDouble x = x := by
  rcases Nat.lt_or_ge x (2 ^ 53) with h | h
  · exact toDouble_of_lt x h
  · have : x = 2 ^ 52 * 2 ^ 1 := by omega
    rw [this]
    apply toDouble_mul_pow _ _ (Nat.le_refl _) (by decide)
    rw [← pow_add]
    exact pow_lt_infinity _ (by decide)

theorem toDouble_infinity : toDouble infinity = infinity := by
  obtain ⟨n, hn, hinf⟩ := infinity_eq_pow
  have hb : bitLength infinity infinity = n + 1 :=
    bitLength_of_bounds _ _ (le_of_eq hinf.symm) (by rw [hinf]; exact two_pow_lt n (n + 1) (by omega))
  have e : infinity = 2 ^ 52 * 2 ^ (n + 1 - 53) := by
    rw [hinf, ← pow_add]
    congr 1
    omega
  unfold toDouble
  split
  · rename_i h
    rw [hb, pow2_eq] at h
    rw [e, roundShift_of_dvd, ← e] at h
    exact absurd h (Nat.lt_irrefl _)
  · rfl

theorem roundShift_bounds (x e : Nat) :
    x / 2 ^ e ≤ roundShift x e ∧ roundShift x e ≤ x / 2 ^ e + 1 := by
  unfold roundShift
  rw [pow2_eq]
  split
  · omega
  · split <;> omega

/-- The rounding is idempotent: a Number value is its own Number value. -/
theorem toDouble_idem (x : Nat) : toDouble (toDouble x) = toDouble x := by
  by_cases hx : x < 2 ^ 53
  · rw [toDouble_of_lt x hx]
    exact toDouble_of_lt x hx
  · have hx0 : x ≠ 0 := by
      rintro rfl
      exact hx (Nat.two_pow_pos _)
    have hL : 53 ≤ Nat.log 2 x := by
      by_contra hc
      exact hx (lt_of_lt_of_le (Nat.lt_pow_succ_log_self (by decide) x)
        (Nat.pow_le_pow_right (by decide) (by omega)))
    obtain ⟨e, he⟩ : ∃ e, Nat.log 2 x = 52 + e := ⟨Nat.log 2 x - 52, by omega⟩
    have hb : bitLength x x - 53 = e := by
      rw [bitLength_self x hx0, he]; omega
    have hlo : 2 ^ (52 + e) ≤ x := he ▸ Nat.pow_log_le_self 2 hx0
    have hhi : x < 2 ^ (52 + e + 1) := he ▸ Nat.lt_pow_succ_log_self (by decide) x
    have h2e : 0 < 2 ^ e := Nat.two_pow_pos _
    have hq1 : 2 ^ 52 ≤ x / 2 ^ e := by
      rw [Nat.le_div_iff_mul_le h2e, ← pow_add]; exact hlo
    have hq2 : x / 2 ^ e < 2 ^ 53 := by
      rw [Nat.div_lt_iff_lt_mul h2e, ← pow_add]
      have : 53 + e = 52 + e + 1 := by omega
      rw [this]; exact hhi
    obtain ⟨hr1, hr2⟩ := roundShift_bounds x e
    have hval : toDouble x = if roundShift x e * 2 ^ e < infinity then roundShift x e * 2 ^ e
        else infinity := by
      unfold toDouble
      rw [hb, pow2_eq]
    rw [hval]
    split
    · rename_i hlt
      by_cases hr : roundShift x e < 2 ^ 53
      · exact toDouble_mul_pow _ _ (le_trans hq1 hr1) hr hlt
      · have hreq : roundShift x e = 2 ^ 53 := by omega
        have e2 : roundShift x e * 2 ^ e = 2 ^ 52 * 2 ^ (e + 1) := by
          rw [hreq, ← pow_add, ← pow_add]; congr 1; omega
        rw [e2] at hlt ⊢
        exact toDouble_mul_pow _ _ (Nat.le_refl _) (by decide) hlt
    · exact toDouble_infinity

theorem toDouble_le_infinity (x : Nat) : toDouble x ≤ infinity := by
  unfold toDouble
  split
  · rename_i h; exact Nat.le_of_lt h
  · exact Nat.le_refl _

set_option maxRecDepth 100000 in
/-- The values of `parseInt` on some numerals: leading zeros, the integers around
`2^53` (ties go to the even double), the largest numeral that is read as a finite
number (it gives the largest double, `2^1024 - 2^971`) and the smallest that is read
as `Infinity`. -/
theorem parseInt_values :
    parseInt "0012".toList = 12
    ∧ parseInt "9007199254740992".toList = 9007199254740992
    ∧ parseInt "9007199254740993".toList = 9007199254740992
    ∧ parseInt "9007199254740995".toList = 9007199254740996
    ∧ parseInt (showNat (infinity - pow2 970 - 1)) = infinity - pow2 971
    ∧ parseInt (showNat (infinity - pow2 970)) = infinity
    ∧ parseInt ('2' :: List.replicate 308 '0') = infinity := by
  refine ⟨by decide, by decide, by decide, by decide, by decide, by decide, by decide⟩

end DiffApplier

namespace DiffApplier

/-! ## Hunk headers -/

theorem stepByKind_hunkHeader (st : ParseState) (line : Str)
    (h : isHunkHeaderLine line = true) :
    stepByKind st line =
      { st with
        currentFile := finishCurrentHunk st.currentFile st.currentOperations
          st.currentHeaderContext st.currentLineNumber,
        currentOperations := [],
        currentLineNumber := (hunkHeaderInfo line).1,
        currentHeaderContext := (hunkHeaderInfo line).2 } := by
  have hcases : (∃ r, line = '@' :: '@' :: r) ∨ (∃ r, line = '+' :: '@' :: '@' :: r) := by
    unfold isHunkHeaderLine at h
    simp only [Bool.or_eq_true] at h
    rcases h with h | h
    · left; exact ⟨_, startsWith_eq_true _ _ h⟩
    · right; exact ⟨_, startsWith_eq_true _ _ h⟩
  have h1 : isFileHeader line = false := by
    rcases hcases with ⟨r, rfl⟩ | ⟨r, rfl⟩ <;>
      simp [isFileHeader, startsWith, afterPlusRun, plusRunLength, stripPlusRun]
  have h2 : isPlusFileLine line = false := by
    rcases hcases with ⟨r, rfl⟩ | ⟨r, rfl⟩ <;>
      simp [isPlusFileLine, startsWith, afterPlusRun, plusRunLength, stripPlusRun]
  have h3 : startsWith "new file mode".toList line = false := by
    rcases hcases with ⟨r, rfl⟩ | ⟨r, rfl⟩ <;> simp [startsWith]
  unfold stepByKind
  simp only [h1, h2, h3, h, if_true, if_false, Bool.false_eq_true]

theorem takeWhile_append_stop {p : Char → Bool} (a : Str) (y : Char) (r : Str)
    (ha : ∀ x ∈ a, p x = true) (hy : p y = false) :
    (a ++ y :: r).takeWhile p = a := by
  induction a with
  | nil => simp [List.takeWhile, hy]
  | cons x xs ih =>
    have hx := ha x (List.mem_cons_self _ _)
    rw [List.cons_append, List.takeWhile_cons_of_pos hx,
      ih (fun z hz => ha z (List.mem_cons_of_mem _ hz))]

theorem dropWhile_append_stop {p : Char → Bool} (a : Str) (y : Char) (r : Str)
    (ha : ∀ x ∈ a, p x = true) (hy : p y = false) :
    (a ++ y :: r).dropWhile p = y :: r := by
  induction a with
  | nil => simp [List.dropWhile, hy]
  | cons x xs ih =>
    have hx := ha x (List.mem_cons_self _ _)
    rw [List.cons_append, List.dropWhile_cons_of_pos hx,
      ih (fun z hz => ha z (List.mem_cons_of_mem _ hz))]

theorem takeWhile_eq_self {p : Char → Bool} (a : Str) (ha : ∀ x ∈ a, p x = true) :
    a.takeWhile p = a := by
  induction a with
  | nil => rfl
  | cons x xs ih =>
    rw [List.takeWhile_cons_of_pos (ha x (List.mem_cons_self _ _)),
      ih (fun z hz => ha z (List.mem_cons_of_mem _ hz))]

/-- The part `(\d+),?\d*` on a run of digits `a`, optionally followed by a comma and
further digits, in front of a space. -/
theorem matchRange_form (a bs r : Str) (ha : a ≠ []) (hda : ∀ x ∈ a, isDigit x = true)
    (hbs : bs = [] ∨ ∃ b, bs = ',' :: b ∧ ∀ x ∈ b, isDigit x = true) :
    matchRange (a ++ bs ++ ' ' :: r) = some (a, ' ' :: r) := by
  have hsp : isDigit ' ' = false := by decide
  have hco : isDigit ',' = false := by decide
  unfold matchRange
  rcases hbs with rfl | ⟨b, rfl, hdb⟩
  · simp only [List.append_nil, takeWhile_append_stop a ' ' r hda hsp,
      dropWhile_append_stop a ' ' r hda hsp]
    cases a with
    | nil => exact absurd rfl ha
    | cons x xs => simp
  · have e1 : a ++ ',' :: b ++ ' ' :: r = a ++ ',' :: (b ++ ' ' :: r) := by simp
    simp only [e1, takeWhile_append_stop a ',' _ hda hco, dropWhile_append_stop a ',' _ hda hco,
      dropWhile_append_stop b ' ' r hdb hsp]
    cases a with
    | nil => exact absurd rfl ha
    | cons x xs => simp

theorem dotPlus_of_no_terminator (s : Str) (hs : s ≠ [])
    (hlt : ∀ x ∈ s, isLineTerminator x = false) : dotPlus s = some s := by
  unfold dotPlus
  have : s.takeWhile (fun c => !isLineTerminator c) = s :=
    takeWhile_eq_self s (fun x hx => by simp [hlt x hx])
  simp only [this]
  cases s with
  | nil => exact absurd rfl hs
  | cons x xs => simp

theorem trimStart_idem (s : Str) : trimStart (trimStart s) = trimStart s := by
  unfold trimStart
  induction s with
  | nil => rfl
  | cons x xs ih =>
    by_cases hx : isWhiteSpace x = true
    · simp only [List.dropWhile, hx]; exact ih
    · simp only [List.dropWhile, hx]

theorem trim_trimStart (s : Str) : trim (trimStart s) = trim s := by
  unfold trim
  rw [trimStart_idem]

/-- The hunk-header pattern on a line of the form `@@ -a[,b] +c[,d] @@ text`. -/
theorem matchHunkHeader_form (a bs c ds rest : Str)
    (ha : a ≠ []) (hda : ∀ x ∈ a, isDigit x = true)
    (hbs : bs = [] ∨ ∃ b, bs = ',' :: b ∧ ∀ x ∈ b, isDigit x = true)
    (hc : c ≠ []) (hdc : ∀ x ∈ c, isDigit x = true)
    (hds : ds = [] ∨ ∃ d, ds = ',' :: d ∧ ∀ x ∈ d, isDigit x = true) :
    matchHunkHeader ("@@ -".toList ++ a ++ bs ++ " +".toList ++ c ++ ds ++ " @@".toList ++ rest)
      = some (a, dotPlus (rest.dropWhile isWhiteSpace)) := by
  have e1 : "@@ -".toList ++ a ++ bs ++ " +".toList ++ c ++ ds ++ " @@".toList ++ rest
      = '@' :: '@' :: ' ' :: '-' ::
          (a ++ bs ++ ' ' :: ('+' :: (c ++ ds ++ ' ' :: ('@' :: '@' :: rest)))) := by
    simp
  rw [e1]
  unfold matchHunkHeader matchHunkHeaderAt
  simp only [startsWith, String.toList, List.length_cons, List.length_nil, List.take,
    beq_self_eq_true, if_true, List.drop, matchRange_form a bs _ ha hda hbs,
    matchRange_form c ds _ hc hdc hds]

end DiffApplier

namespace DiffApplier

theorem finishCurrentHunk_some (f : FileChange) (ops : List Operation) (ctx : Option Str)
    (ln : Option Nat) :
    finishCurrentHunk (some f) ops ctx ln
      = some (if ops.length > 0 then
          { f with hunks := f.hunks ++
            [{ operations := ops, headerContext := ctx, lineNumber := ln }] }
        else f) := by
  by_cases h : ops.length > 0
  · simp only [finishCurrentHunk, h, if_true]
  · simp only [finishCurrentHunk, h, if_false]

theorem hunkHeaderInfo_form (line a bs c ds rest : Str)
    (ha : a ≠ []) (hda : ∀ x ∈ a, isDigit x = true)
    (hbs : bs = [] ∨ ∃ b, bs = ',' :: b ∧ ∀ x ∈ b, isDigit x = true)
    (hc : c ≠ []) (hdc : ∀ x ∈ c, isDigit x = true)
    (hds : ds = [] ∨ ∃ d, ds = ',' :: d ∧ ∀ x ∈ d, isDigit x = true)
    (hrest : ∀ x ∈ rest, isLineTerminator x = false)
    (hline : stripPlusRun line
      = "@@ -".toList ++ a ++ bs ++ " +".toList ++ c ++ ds ++ " @@".toList ++ rest) :
    hunkHeaderInfo line
      = (some (parseInt a), if trimStart rest = [] then none else some (trim rest)) := by
  unfold hunkHeaderInfo
  rw [hline, matchHunkHeader_form a bs c ds rest ha hda hbs hc hdc hds]
  simp only
  by_cases hts : trimStart rest = []
  · have : rest.dropWhile isWhiteSpace = [] := hts
    simp only [this, hts, if_true]
    rfl
  · have hne : rest.dropWhile isWhiteSpace ≠ [] := hts
    have hlt : ∀ x ∈ rest.dropWhile isWhiteSpace, isLineTerminator x = false :=
      fun x hx => hrest x ((List.dropWhile_suffix _).subset hx)
    rw [dotPlus_of_no_terminator _ hne hlt]
    simp only [hts, if_false, Option.map_some']
    have : trim (rest.dropWhile isWhiteSpace) = trim rest := trim_trimStart rest
    rw [this]

theorem matchRange_some {s d r : Str} (h : matchRange s = some (d, r)) :
    ∃ bs, d ≠ [] ∧ (∀ x ∈ d, isDigit x = true) ∧ IsOptionalCount bs ∧ s = d ++ bs ++ r := by
  unfold matchRange at h
  simp only at h
  have hsplit : s = s.takeWhile isDigit ++ s.dropWhile isDigit :=
    (List.takeWhile_append_dropWhile isDigit s).symm
  have hdig : ∀ x ∈ s.takeWhile isDigit, isDigit x = true :=
    fun x hx => List.mem_takeWhile_imp hx
  split at h
  · cases h
  · rename_i hne
    have hd0 : s.takeWhile isDigit ≠ [] := by
      intro hnil
      rw [hnil] at hne
      exact hne rfl
    split at h
    · rename_i r1 hr1
      simp only [Option.some.injEq, Prod.mk.injEq] at h
      obtain ⟨rfl, rfl⟩ := h
      refine ⟨',' :: r1.takeWhile isDigit, hd0, hdig,
        Or.inr ⟨_, rfl, fun x hx => List.mem_takeWhile_imp hx⟩, ?_⟩
      conv_lhs => rw [hsplit, hr1]
      simp [List.takeWhile_append_dropWhile]
    · simp only [Option.some.injEq, Prod.mk.injEq] at h
      obtain ⟨rfl, rfl⟩ := h
      refine ⟨[], hd0, hdig, Or.inl rfl, ?_⟩
      simp

theorem matchHunkHeaderAt_some {s g1 : Str} {g3 : Option Str}
    (h : matchHunkHeaderAt s = some (g1, g3)) : ∃ text, HunkHeaderForm s g1 text := by
  unfold matchHunkHeaderAt at h
  split at h
  · rename_i h0
    have hs0 := startsWith_eq_true _ _ h0
    split at h
    · cases h
    · rename_i a r1 hm1
      obtain ⟨bs, ha, hda, hbs, hs1⟩ := matchRange_some hm1
      split at h
      · rename_i h1
        have hs2 := startsWith_eq_true _ _ h1
        split at h
        · cases h
        · rename_i c r2 hm2
          obtain ⟨ds, hc, hdc, hds, hs3⟩ := matchRange_some hm2
          split at h
          · rename_i h2
            have hs4 := startsWith_eq_true _ _ h2
            simp only [Option.some.injEq, Prod.mk.injEq] at h
            obtain ⟨rfl, -⟩ := h
            refine ⟨r2.drop 3, bs, c, ds, ha, hda, hbs, hc, hdc, hds, ?_⟩
            have e4 : r2 = " @@".toList ++ r2.drop 3 := hs4
            have e3 : r1 = " +".toList ++ (c ++ ds ++ (" @@".toList ++ r2.drop 3)) := by
              conv_lhs => rw [hs2]
              have : List.drop " +".toList.length r1 = List.drop 2 r1 := rfl
              rw [this, hs3, ← e4]
            have e1 : s = "@@ -".toList ++ (a ++ bs ++ r1) := by
              conv_lhs => rw [hs0]
              have : List.drop "@@ -".toList.length s = List.drop 4 s := rfl
              rw [this, hs1]
            rw [e1, e3]
            simp only [List.append_assoc]
          · cases h
      · cases h
  · cases h

theorem matchHunkHeader_some {s g1 : Str} {g3 : Option Str}
    (h : matchHunkHeader s = some (g1, g3)) :
    ∃ pre s1 text, s = pre ++ s1 ∧ HunkHeaderForm s1 g1 text := by
  induction s with
  | nil => simp [matchHunkHeader] at h
  | cons c cs ih =>
    unfold matchHunkHeader at h
    split at h
    · rename_i g hg
      simp only [Option.some.injEq] at h
      subst h
      obtain ⟨text, hform⟩ := matchHunkHeaderAt_some hg
      exact ⟨[], c :: cs, text, rfl, hform⟩
    · obtain ⟨pre, s1, text, hs, hform⟩ := ih h
      exact ⟨c :: pre, s1, text, by rw [hs]; rfl, hform⟩

/-- The header information of a line in which the form `@@ -a[,b] +c[,d] @@` occurs
nowhere. -/
theorem hunkHeaderInfo_none (line : Str)
    (h : ∀ pre s1 a text : Str, stripPlusRun line = pre ++ s1 → ¬ HunkHeaderForm s1 a text) :
    hunkHeaderInfo line = (none, none) := by
  unfold hunkHeaderInfo
  split
  · rename_i g1 g3 hm
    obtain ⟨pre, s1, text, hs, hform⟩ := matchHunkHeader_some hm
    exact absurd hform (h pre s1 g1 text hs)
  · rfl

theorem includes_append (p pre rest : Str) : includes p (pre ++ (p ++ rest)) = true := by
  induction pre with
  | nil =>
    cases hp : p ++ rest with
    | nil =>
      have : p = [] := (List.append_eq_nil.mp hp).1
      simp [includes, this]
    | cons c cs =>
      have hs : startsWith p (c :: cs) = true := by
        rw [← hp]
        simp [startsWith]
      simp [includes, hs]
  | cons c cs ih =>
    rw [List.cons_append]
    unfold includes
    rw [ih, Bool.or_true]

/-- A line that holds the form of a hunk header somewhere contains the text `@@ -`. -/
theorem includes_of_hunkHeaderForm {line pre s1 a text : Str} (hs : line = pre ++ s1)
    (hform : HunkHeaderForm s1 a text) : includes "@@ -".toList line = true := by
  obtain ⟨bs, c, ds, -, -, -, -, -, -, rfl⟩ := hform
  rw [hs]
  simp only [List.append_assoc]
  exact includes_append _ _ _

/-- The header information of a line of the form `@@ -a[,b] +c[,d] @@text`. -/
theorem hunkHeaderInfo_of_form (line a text : Str)
    (hform : HunkHeaderForm (stripPlusRun line) a text)
    (htext : ∀ x ∈ text, isLineTerminator x = false) :
    hunkHeaderInfo line
      = (some (toDouble (decimalValue a)),
         if trimStart text = [] then none else some (trim text)) := by
  obtain ⟨bs, c, ds, ha, hda, hbs, hc, hdc, hds, hline⟩ := hform
  exact hunkHeaderInfo_form line a bs c ds text ha hda hbs hc hdc hds htext hline

/-- C15, as amended (hunk headers): let a file `f` be in progress and `L` be a line
that the parser reads as a hunk header (`@@` or `+@@`).  The line adds no FileChange
and closes the previous hunk of `f` (recording it if it has operations); the
operations `ops` of the content lines that follow are recorded, at the next flush,
as a further hunk of the same file carrying the header's line number and header
context.  For a header of the form `@@ -a[,b] +c[,d] @@ text` these are the Number
value of the integer `a`, which is `a` itself up to `2^53`, and `text` trimmed
(absent when there is no text); when that form occurs nowhere in the line, both
are absent and the hunk is recorded all the same. -/
theorem hunkHeader_opens_hunk (st : ParseState) (f : FileChange)
    (hfile : st.currentFile = some f) (L : Str)
    (hhead : isHunkHeaderLine (trimEnd L) = true)
    (body : List Str) (ops : List Operation)
    (hbody : List.Forall₂ (fun l op => ContentLine (trimEnd l) op) body ops)
    (hops : ops ≠ []) :
    (parseLine st L).files = st.files
    ∧ (parseLine st L).currentFile
        = some (if st.currentOperations.length > 0 then
            { f with hunks := f.hunks ++
              [{ operations := st.currentOperations,
                 headerContext := st.currentHeaderContext,
                 lineNumber := st.currentLineNumber }] }
          else f)
    ∧ (body.foldl parseLine (parseLine st L)).files = st.files
    ∧ finishCurrentHunk (body.foldl parseLine (parseLine st L)).currentFile
          (body.foldl parseLine (parseLine st L)).currentOperations
          (body.foldl parseLine (parseLine st L)).currentHeaderContext
          (body.foldl parseLine (parseLine st L)).currentLineNumber
        = some { filename := f.filename,
                 hunks := (if st.currentOperations.length > 0 then
                     f.hunks ++ [{ operations := st.currentOperations,
                                   headerContext := st.currentHeaderContext,
                                   lineNumber := st.currentLineNumber }]
                   else f.hunks)
                   ++ [{ operations := ops,
                         headerContext := (hunkHeaderInfo (trimEnd L)).2,
                         lineNumber := (hunkHeaderInfo (trimEnd L)).1 }],
                 isNewFile := f.isNewFile }
    ∧ (∀ a text : Str, HunkHeaderForm (stripPlusRun (trimEnd L)) a text →
        (∀ x ∈ text, isLineTerminator x = false) →
        hunkHeaderInfo (trimEnd L)
            = (some (toDouble (decimalValue a)),
               if trimStart text = [] then none else some (trim text))
        ∧ (decimalValue a ≤ 2 ^ 53 →
            (hunkHeaderInfo (trimEnd L)).1 = some (decimalValue a)))
    ∧ ((∀ pre s1 a text : Str, stripPlusRun (trimEnd L) = pre ++ s1 →
          ¬ HunkHeaderForm s1 a text) →
        hunkHeaderInfo (trimEnd L) = (none, none)) := by
  have hstep : parseLine st L =
      { st with
        currentFile := finishCurrentHunk st.currentFile st.currentOperations
          st.currentHeaderContext st.currentLineNumber,
        currentOperations := [],
        currentLineNumber := (hunkHeaderInfo (trimEnd L)).1,
        currentHeaderContext := (hunkHeaderInfo (trimEnd L)).2 } := by
    unfold parseLine
    rw [processLine_eq_stepByKind, stepByKind_hunkHeader st _ hhead]
  have hlen : ops.length > 0 := List.length_pos.mpr hops
  have hbody2 : List.Forall₂ (fun l op => lineOperation (trimEnd l) = some op) body ops :=
    hbody.imp (fun _ _ h => lineOperation_of_content h)
  refine ⟨by rw [hstep], ?_, ?_, ?_, ?_, ?_⟩
  · rw [hstep, hfile, finishCurrentHunk_some]
  · rw [foldl_parseLine_operations body ops hbody2, hstep]
  · rw [foldl_parseLine_operations body ops hbody2, hstep, hfile, finishCurrentHunk_some]
    simp only [List.nil_append, finishCurrentHunk_some, hlen, if_true]
    split <;> rfl
  · intro a text hform htext
    have hinfo := hunkHeaderInfo_of_form (trimEnd L) a text hform htext
    refine ⟨hinfo, fun hle => ?_⟩
    rw [hinfo, toDouble_of_le _ hle]
  · exact hunkHeaderInfo_none (trimEnd L)

end DiffApplier

namespace DiffApplier

set_option maxRecDepth 100000 in
/-- Witness for C15 as amended: in the file `f`, with the operation `remove x`
pending, the header `@@ -12,3 +14,4 @@ function foo() {` closes the pending hunk and
opens the hunk of the lines ` a`, `+b`, with line number 12 and context
`function foo() {`; the header `@@ see below`, in which the form occurs nowhere,
carries neither. -/
theorem hunkHeader_opens_hunk_witness :
    finishCurrentHunk
        ([" a".toList, "+b".toList].foldl parseLine
          (parseLine
            { files := [], currentFile := some ⟨"f".toList, [], false⟩,
              currentOperations := [⟨OpType.remove, "x".toList⟩],
              currentHeaderContext := none, currentLineNumber := none, isNewFile := false }
            "@@ -12,3 +14,4 @@ function foo() \x7b  ".toList)).currentFile
        ([" a".toList, "+b".toList].foldl parseLine
          (parseLine
            { files := [], currentFile := some ⟨"f".toList, [], false⟩,
              currentOperations := [⟨OpType.remove, "x".toList⟩],
              currentHeaderContext := none, currentLineNumber := none, isNewFile := false }
            "@@ -12,3 +14,4 @@ function foo() \x7b  ".toList)).currentOperations
        ([" a".toList, "+b".toList].foldl parseLine
          (parseLine
            { files := [], currentFile := some ⟨"f".toList, [], false⟩,
              currentOperations := [⟨OpType.remove, "x".toList⟩],
              currentHeaderContext := none, currentLineNumber := none, isNewFile := false }
            "@@ -12,3 +14,4 @@ function foo() \x7b  ".toList)).currentHeaderContext
        ([" a".toList, "+b".toList].foldl parseLine
          (parseLine
            { files := [], currentFile := some ⟨"f".toList, [], false⟩,
              currentOperations := [⟨OpType.remove, "x".toList⟩],
              currentHeaderContext := none, currentLineNumber := none, isNewFile := false }
            "@@ -12,3 +14,4 @@ function foo() \x7b  ".toList)).currentLineNumber
      = some { filename := "f".toList,
               hunks := [{ operations := [⟨OpType.remove, "x".toList⟩], headerContext := none,
                           lineNumber := none },
                         { operations := [⟨OpType.context, "a".toList⟩,
                                          ⟨OpType.add, "b".toList⟩],
                           headerContext := some "function foo() \x7b".toList,
                           lineNumber := some 12 }],
               isNewFile := false }
    ∧ (hunkHeaderInfo (trimEnd "@@ -12,3 +14,4 @@ function foo() \x7b  ".toList)).1
      = some (decimalValue "12".toList)
    ∧ hunkHeaderInfo (trimEnd "@@ see below".toList) = (none, none) := by
  have T := hunkHeader_opens_hunk
    { files := [], currentFile := some ⟨"f".toList, [], false⟩,
      currentOperations := [⟨OpType.remove, "x".toList⟩],
      currentHeaderContext := none, currentLineNumber := none, isNewFile := false }
    ⟨"f".toList, [], false⟩ rfl "@@ -12,3 +14,4 @@ function foo() \x7b  ".toList (by decide)
    [" a".toList, "+b".toList] [⟨OpType.context, "a".toList⟩, ⟨OpType.add, "b".toList⟩]
    (List.Forall₂.cons ⟨' ', "a".toList, Or.inl rfl, by decide, by decide, by decide, rfl⟩
      (List.Forall₂.cons ⟨'+', "b".toList, Or.inr (Or.inl rfl), by decide, by decide, by decide,
        rfl⟩ List.Forall₂.nil))
    (by simp)
  refine ⟨?_, ?_, ?_⟩
  · rw [T.2.2.2.1]
    decide
  · exact (T.2.2.2.2.1 "12".toList " function foo() \x7b".toList
      ⟨",3".toList, "14".toList, ",4".toList, by simp, by decide,
        Or.inr ⟨"3".toList, rfl, by decide⟩, by simp, by decide,
        Or.inr ⟨"4".toList, rfl, by decide⟩, by decide⟩
      (by decide)).2 (by decide)
  · exact (hunkHeader_opens_hunk
      { files := [], currentFile := some ⟨"f".toList, [], false⟩,
        currentOperations := [⟨OpType.remove, "x".toList⟩],
        currentHeaderContext := none, currentLineNumber := none, isNewFile := false }
      ⟨"f".toList, [], false⟩ rfl "@@ see below".toList (by decide)
      ["+b".toList] [⟨OpType.add, "b".toList⟩]
      (List.Forall₂.cons ⟨'+', "b".toList, Or.inr (Or.inl rfl), by decide, by decide, by decide,
        rfl⟩ List.Forall₂.nil)
      (by simp)).2.2.2.2.2
      (fun pre s1 a text hs hform => by
        have hinc := includes_of_hunkHeaderForm hs hform
        revert hinc
        decide)

set_option maxRecDepth 100000 in
/-- Counterexample to C15 as stated.  The header `@@ -9007199254740993 +1 @@` has the
form of the claim with `a` the integer 9007199254740993, and the line number
recorded is 9007199254740992: `parseInt` returns a Number, and the integer is not
one.  The line `@@ bogus @@ -7 +8 @@ tail` does not have the form of the claim (its
fourth character is not `-`), and the hunk it opens has the line number 7 and the
header context `tail`: the pattern is searched for at every position of the line. -/
theorem hunkHeader_opens_hunk_counterexample :
    HunkHeaderForm "@@ -9007199254740993 +1 @@".toList "9007199254740993".toList []
    ∧ decimalValue "9007199254740993".toList = 9007199254740993
    ∧ parseDiff "--- a/f\n@@ -9007199254740993 +1 @@\n+x".toList
        = [{ filename := "f".toList,
             hunks := [{ operations := [⟨OpType.add, "x".toList⟩], headerContext := none,
                         lineNumber := some 9007199254740992 }],
             isNewFile := false }]
    ∧ (∀ a text : Str, ¬ HunkHeaderForm "@@ bogus @@ -7 +8 @@ tail".toList a text)
    ∧ parseDiff "--- a/f\n@@ bogus @@ -7 +8 @@ tail\n+x".toList
        = [{ filename := "f".toList,
             hunks := [{ operations := [⟨OpType.add, "x".toList⟩],
                         headerContext := some "tail".toList, lineNumber := some 7 }],
             isNewFile := false }] := by
  refine ⟨⟨[], "1".toList, [], by simp, by decide, Or.inl rfl, by simp, by decide, Or.inl rfl,
    by decide⟩, by decide, by decide, ?_, by decide⟩
  rintro a text ⟨bs, c, ds, -, -, -, -, -, -, hs⟩
  simp only [String.toList, List.cons_append, List.nil_append, List.cons.injEq] at hs
  exact absurd hs.2.2.2.1 (by decide)

end DiffApplier

namespace DiffApplier

/-! ## File sections and the name of a file -/

theorem stepByKind_fileHeader_inSection (st : ParseState) (line : Str)
    (h : isFileHeader line = true) :
    InSection (stepByKind st line) (finishParse st) (fileHeaderInfo line).1
      (fileHeaderInfo line).2 false := by
  unfold stepByKind
  simp only [h, if_true]
  exact ⟨rfl, _, rfl, rfl, fun hn => hn, fun hb => absurd hb (by simp)⟩

theorem stepByKind_sectionLine (st : ParseState) (line : Str) (files : List FileChange)
    (name : Str) (isNew hasOps : Bool) (hline : isSectionLine line = true)
    (h : InSection st files name isNew hasOps) :
    InSection (stepByKind st line) files name isNew
      (hasOps || (lineOperation line).isSome) := by
  obtain ⟨hfiles, f, hf, hname, hnew, hops⟩ := h
  unfold isSectionLine at hline
  simp only [Bool.and_eq_true, Bool.not_eq_true'] at hline
  obtain ⟨h1, h2⟩ := hline
  unfold stepByKind
  simp only [h1, h2, if_false, Bool.false_eq_true]
  by_cases h3 : startsWith "new file mode".toList line = true
  · have hnoop : lineOperation line = none := by
      cases line with
      | nil => rfl
      | cons m content =>
        have hm : m = 'n' := by
          have := startsWith_eq_true _ _ h3
          simp only [String.toList, List.cons_append, List.cons.injEq] at this
          exact this.1
        subst hm
        simp [lineOperation]
    simp only [h3, if_true, hf, hnoop, Option.isSome_none, Bool.or_false]
    exact ⟨hfiles, _, rfl, hname, fun _ => rfl, hops⟩
  · simp only [h3, if_false, Bool.false_eq_true]
    by_cases h4 : isHunkHeaderLine line = true
    · have hnoop : lineOperation line = none := by
        cases line with
        | nil => rfl
        | cons m content =>
          have : isNotContent (m :: content) = true := by
            unfold isNotContent
            simp [h4]
          simp [lineOperation, this]
      simp only [h4, if_true, hnoop, Option.isSome_none, Bool.or_false, hf,
        finishCurrentHunk_some]
      refine ⟨hfiles, _, rfl, ?_, ?_, ?_⟩
      · split <;> exact hname
      · intro hn
        split <;> exact hnew hn
      · intro hb
        right
        rcases hops hb with ho | hh
        · have : st.currentOperations.length > 0 := List.length_pos.mpr ho
          simp [this]
        · split
          · simp
          · exact hh
    · simp only [h4, if_false, Bool.false_eq_true]
      cases hop : lineOperation line with
      | none =>
        simp only [Option.isSome_none, Bool.or_false]
        exact ⟨hfiles, f, hf, hname, hnew, hops⟩
      | some op =>
        simp only [Option.isSome_some, Bool.or_true]
        exact ⟨hfiles, f, hf, hname, hnew, fun _ => Or.inl (by simp)⟩

theorem foldl_parseLine_section (ls : List Str) (files : List FileChange) (name : Str)
    (isNew : Bool) (hls : ∀ l ∈ ls, isSectionLine (trimEnd l) = true) :
    ∀ (st : ParseState) (hasOps : Bool), InSection st files name isNew hasOps →
      InSection (ls.foldl parseLine st) files name isNew
        (hasOps || ls.any (fun l => (lineOperation (trimEnd l)).isSome)) := by
  induction ls with
  | nil => intro st hasOps h; simpa using h
  | cons l rest ih =>
    intro st hasOps h
    rw [List.foldl_cons, List.any_cons, ← Bool.or_assoc]
    apply ih (fun x hx => hls x (List.mem_cons_of_mem _ hx))
    unfold parseLine
    rw [processLine_eq_stepByKind]
    exact stepByKind_sectionLine st _ files name isNew hasOps
      (hls l (List.mem_cons_self _ _)) h

theorem plusFileName_form (Y : Str) (hY : Y ≠ [])
    (hlt : ∀ c ∈ Y, isLineTerminator c = false) :
    isFileHeader ("+++ b/".toList ++ Y) = false
    ∧ isPlusFileLine ("+++ b/".toList ++ Y) = true
    ∧ plusFileName ("+++ b/".toList ++ Y) = some Y := by
  refine ⟨?_, ?_, ?_⟩
  · simp [isFileHeader, startsWith, afterPlusRun, plusRunLength, stripPlusRun]
  · simp [isPlusFileLine, startsWith]
  · have hd := dotPlus_of_no_terminator Y hY hlt
    simp [plusFileName, startsWith, searchLiteralGroup, hd]

theorem stepByKind_plusFile_inSection (st : ParseState) (files : List FileChange)
    (name Y : Str) (isNew hasOps : Bool) (hY : Y ≠ [])
    (hlt : ∀ c ∈ Y, isLineTerminator c = false)
    (h : InSection st files name isNew hasOps) :
    InSection (stepByKind st ("+++ b/".toList ++ Y)) files Y isNew hasOps := by
  obtain ⟨hfiles, f, hf, -, hnew, hops⟩ := h
  obtain ⟨h1, h2, h3⟩ := plusFileName_form Y hY hlt
  unfold stepByKind
  simp only [h1, h2, h3, hf, if_true, if_false, Bool.false_eq_true]
  exact ⟨hfiles, _, rfl, rfl, hnew, hops⟩

theorem finishCurrentFile_some (files : List FileChange) (g : FileChange)
    (hg : g.hunks ≠ []) : finishCurrentFile files (some g) = files ++ [g] := by
  simp only [finishCurrentFile, List.length_pos.mpr hg, if_true]

theorem finishParse_inSection (st : ParseState) (files : List FileChange) (name : Str)
    (isNew : Bool) (h : InSection st files name isNew true) :
    ∃ hunks isNewFile, finishParse st = files ++ [⟨name, hunks, isNewFile⟩] ∧ hunks ≠ []
      ∧ (isNew = true → isNewFile = true) := by
  obtain ⟨hfiles, f, hf, hname, hnew, hops⟩ := h
  have key : ∀ g : FileChange, g.filename = name → g.hunks ≠ [] →
      (isNew = true → g.isNewFile = true) → finishCurrentFile files (some g) = files ++ [g] →
      ∃ hunks isNewFile, finishCurrentFile files (some g) = files ++ [⟨name, hunks, isNewFile⟩]
        ∧ hunks ≠ [] ∧ (isNew = true → isNewFile = true) := by
    intro g hgn hgh hgnew hfin
    refine ⟨g.hunks, g.isNewFile, ?_, hgh, hgnew⟩
    rw [hfin, ← hgn]
  unfold finishParse
  rw [hf, finishCurrentHunk_some, hfiles]
  by_cases hlen : st.currentOperations.length > 0
  · simp only [hlen, if_true]
    exact key _ hname (by simp) hnew (finishCurrentFile_some _ _ (by simp))
  · simp only [hlen, if_false]
    have hh : f.hunks ≠ [] := by
      rcases hops rfl with ho | hh
      · exact absurd (List.length_pos.mpr ho) hlen
      · exact hh
    exact key f hname hh hnew (finishCurrentFile_some _ _ hh)

theorem stepByKind_files_grow (st : ParseState) (line : Str) :
    ∃ more, (stepByKind st line).files = st.files ++ more := by
  unfold stepByKind
  split
  · simp only [finishParse, finishCurrentFile]
    split
    · split
      · exact ⟨_, rfl⟩
      · exact ⟨[], by simp⟩
    · exact ⟨[], by simp⟩
  · refine ⟨[], ?_⟩
    simp only [List.append_nil]
    split
    · split <;> rfl
    · split
      · split <;> rfl
      · split
        · rfl
        · split <;> rfl

theorem finishParse_files_grow (st : ParseState) : ∃ more, finishParse st = st.files ++ more := by
  simp only [finishParse, finishCurrentFile]
  split
  · split
    · exact ⟨_, rfl⟩
    · exact ⟨[], by simp⟩
  · exact ⟨[], by simp⟩

theorem foldl_parseLine_files_grow (ls : List Str) :
    ∀ st : ParseState, ∃ more, finishParse (ls.foldl parseLine st) = st.files ++ more := by
  induction ls with
  | nil => intro st; exact finishParse_files_grow st
  | cons l rest ih =>
    intro st
    rw [List.foldl_cons]
    obtain ⟨m1, h1⟩ := ih (parseLine st l)
    have hstep : ∃ m0, (parseLine st l).files = st.files ++ m0 := by
      unfold parseLine
      rw [processLine_eq_stepByKind]
      exact stepByKind_files_grow st _
    obtain ⟨m0, h0⟩ := hstep
    exact ⟨m0 ++ m1, by rw [h1, h0, List.append_assoc]⟩

end DiffApplier

namespace DiffApplier

theorem fileHeaderInfo_devNull (line : Str)
    (h : startsWith "--- /dev/null".toList line = true) : (fileHeaderInfo line).2 = true := by
  have hl := startsWith_eq_true _ _ h
  rw [hl]
  simp [fileHeaderInfo, startsWith]

theorem any_append_true {α : Type} (p : α → Bool) (l1 l2 : List α)
    (h : ∃ x ∈ l1 ++ l2, p x = true) : (l1.any p || l2.any p) = true := by
  obtain ⟨x, hx, hp⟩ := h
  rcases List.mem_append.mp hx with h1 | h2
  · have : l1.any p = true := List.any_eq_true.mpr ⟨x, h1, hp⟩
    simp [this]
  · have : l2.any p = true := List.any_eq_true.mpr ⟨x, h2, hp⟩
    simp [this]

/-- C14, as amended (file names): let the lines of a diff text contain a file section:
a file header `h` (`diff --git ...`, `--- a/X`, `--- /dev/null`, or a variant with `+` in
front), then lines that neither start nor name a file, then a line `+++ b/Y` with
a name `Y` (non-empty, free of line terminators, read without trailing white
space), then again lines that neither start nor name a file (no further `+++ b/`
line), up to the next file header or the end of the text; and let one of these
lines be an operation.  Then
`parseDiff` records, right behind the files of the text before the section, a
FileChange with file name `Y` and at least one hunk; it is marked as a new file
when `h` is a `--- /dev/null` header. -/
theorem plusFile_names_the_file (t : Str) (pre mid body post : List Str) (h p Y : Str)
    (hlines : diffLines t = pre ++ h :: (mid ++ p :: (body ++ post)))
    (hh : isFileHeader (trimEnd h) = true)
    (hmid : ∀ l ∈ mid, isSectionLine (trimEnd l) = true)
    (hp : trimEnd p = "+++ b/".toList ++ Y)
    (hY : Y ≠ []) (hlt : ∀ c ∈ Y, isLineTerminator c = false)
    (hbody : ∀ l ∈ body, isSectionLine (trimEnd l) = true)
    (hops : ∃ l ∈ mid ++ body, ∃ op, ContentLine (trimEnd l) op)
    (hpost : post = [] ∨ ∃ h2 rest, post = h2 :: rest ∧ isFileHeader (trimEnd h2) = true) :
    ∃ hunks isNewFile later,
      parseDiff t = parseLines pre ++ ⟨Y, hunks, isNewFile⟩ :: later
      ∧ hunks ≠ []
      ∧ (startsWith "--- /dev/null".toList (trimEnd h) = true → isNewFile = true) := by
  have s1 : InSection (parseLine (pre.foldl parseLine initialParseState) h)
      (parseLines pre) (fileHeaderInfo (trimEnd h)).1 (fileHeaderInfo (trimEnd h)).2 false := by
    unfold parseLine parseLines
    rw [processLine_eq_stepByKind]
    exact stepByKind_fileHeader_inSection _ _ hh
  have s2 := foldl_parseLine_section mid _ _ _ hmid _ _ s1
  have s3 : InSection
      (parseLine (mid.foldl parseLine (parseLine (pre.foldl parseLine initialParseState) h)) p)
      (parseLines pre) Y (fileHeaderInfo (trimEnd h)).2
      (false || mid.any (fun l => (lineOperation (trimEnd l)).isSome)) := by
    unfold parseLine
    rw [processLine_eq_stepByKind, hp]
    exact stepByKind_plusFile_inSection _ _ _ Y _ _ hY hlt s2
  have s4 := foldl_parseLine_section body _ _ _ hbody _ _ s3
  have hany : (false || mid.any (fun l => (lineOperation (trimEnd l)).isSome)
      || body.any (fun l => (lineOperation (trimEnd l)).isSome)) = true := by
    rw [Bool.false_or]
    obtain ⟨l, hl, op, hop⟩ := hops
    exact any_append_true _ mid body
      ⟨l, hl, by rw [lineOperation_of_content hop]; rfl⟩
  rw [hany] at s4
  obtain ⟨hunks, isNewFile, hfin, hne, hnew⟩ := finishParse_inSection _ _ _ _ s4
  have hdev : startsWith "--- /dev/null".toList (trimEnd h) = true → isNewFile = true :=
    fun hd => hnew (fileHeaderInfo_devNull _ hd)
  have hrun : parseDiff t = finishParse (post.foldl parseLine
      (body.foldl parseLine (parseLine (mid.foldl parseLine
        (parseLine (pre.foldl parseLine initialParseState) h)) p))) := by
    unfold parseDiff
    rw [hlines]
    simp only [List.foldl_append, List.foldl_cons]
  rcases hpost with rfl | ⟨h2, rest, rfl, hh2⟩
  · refine ⟨hunks, isNewFile, [], ?_, hne, hdev⟩
    rw [hrun, List.foldl_nil, hfin]
  · obtain ⟨more, hmore⟩ := foldl_parseLine_files_grow rest
      (parseLine (body.foldl parseLine (parseLine (mid.foldl parseLine
        (parseLine (pre.foldl parseLine initialParseState) h)) p)) h2)
    have hfiles : (parseLine (body.foldl parseLine (parseLine (mid.foldl parseLine
        (parseLine (pre.foldl parseLine initialParseState) h)) p)) h2).files
        = parseLines pre ++ [⟨Y, hunks, isNewFile⟩] := by
      rw [← hfin]
      unfold parseLine
      rw [processLine_eq_stepByKind _ (trimEnd h2)]
      exact (stepByKind_fileHeader_inSection _ _ hh2).1
    refine ⟨hunks, isNewFile, more, ?_, hne, hdev⟩
    rw [hrun, List.foldl_cons, hmore, hfiles]
    simp

end DiffApplier

namespace DiffApplier

set_option maxRecDepth 100000 in
/-- Witness for C14: a section `diff --git`, `index`, `--- a/old.txt`, `+++ b/new.txt`
with one hunk is recorded under the name `new.txt`; the section `--- /dev/null`,
`+++ b/made.txt` behind it is recorded under the name `made.txt` as a new file. -/
theorem plusFile_names_the_file_witness :
    (∃ hunks isNewFile later,
      parseDiff ("diff --git a/old.txt b/old.txt\nindex 123\n--- a/old.txt\n+++ b/new.txt\n" ++
          "@@ -1 +1 @@\n-a\n+b\n--- /dev/null\n+++ b/made.txt\n+x").toList
        = parseLines ["diff --git a/old.txt b/old.txt".toList, "index 123".toList]
            ++ ⟨"new.txt".toList, hunks, isNewFile⟩ :: later
      ∧ hunks ≠ []
      ∧ (startsWith "--- /dev/null".toList (trimEnd "--- a/old.txt".toList) = true →
          isNewFile = true))
    ∧ parseDiff ("diff --git a/old.txt b/old.txt\nindex 123\n--- a/old.txt\n+++ b/new.txt\n" ++
          "@@ -1 +1 @@\n-a\n+b\n--- /dev/null\n+++ b/made.txt\n+x").toList
      = [{ filename := "new.txt".toList,
           hunks := [{ operations := [⟨OpType.remove, "a".toList⟩, ⟨OpType.add, "b".toList⟩],
                       headerContext := none, lineNumber := some 1 }],
           isNewFile := false },
         { filename := "made.txt".toList,
           hunks := [{ operations := [⟨OpType.add, "x".toList⟩],
                       headerContext := none, lineNumber := none }],
           isNewFile := true }] :=
  ⟨plusFile_names_the_file
      ("diff --git a/old.txt b/old.txt\nindex 123\n--- a/old.txt\n+++ b/new.txt\n" ++
          "@@ -1 +1 @@\n-a\n+b\n--- /dev/null\n+++ b/made.txt\n+x").toList
      ["diff --git a/old.txt b/old.txt".toList, "index 123".toList] []
      ["@@ -1 +1 @@".toList, "-a".toList, "+b".toList]
      ["--- /dev/null".toList, "+++ b/made.txt".toList, "+x".toList]
      "--- a/old.txt".toList "+++ b/new.txt".toList "new.txt".toList
      (by decide) (by decide) (by decide) (by decide) (by decide) (by decide) (by decide)
      ⟨"-a".toList, by decide, ⟨OpType.remove, "a".toList⟩,
        '-', "a".toList, Or.inr (Or.inr rfl), by decide, by decide, by decide, rfl⟩
      (Or.inr ⟨"--- /dev/null".toList, ["+++ b/made.txt".toList, "+x".toList], rfl, by decide⟩),
   by decide⟩

set_option maxRecDepth 100000 in
/-- Counterexample to C14 as stated: the section `--- a/x`, `+++ b/y` with the hunk
` a`, `+++ b/z`, `+w`.  The line `+++ b/z` inside the hunk (the added line `++ b/z`) is
read as a `+++ b/` line: the file is recorded under the name `z`, not `y`, and the
line is no operation of the hunk. -/
theorem plusFile_names_the_file_counterexample :
    parseDiff "--- a/x\n+++ b/y\n@@ -1 +1,2 @@\n a\n+++ b/z\n+w".toList
        = [{ filename := "z".toList,
             hunks := [{ operations := [⟨OpType.context, "a".toList⟩,
                                        ⟨OpType.add, "w".toList⟩],
                         headerContext := none, lineNumber := some 1 }],
             isNewFile := false }]
    ∧ parseDiff "--- a/x\n+++ b/y\n@@ -1 +1,2 @@\n a\n+w".toList
        = [{ filename := "y".toList,
             hunks := [{ operations := [⟨OpType.context, "a".toList⟩,
                                        ⟨OpType.add, "w".toList⟩],
                         headerContext := none, lineNumber := some 1 }],
             isNewFile := false }] := by
  refine ⟨by decide, by decide⟩

end DiffApplier

namespace DiffApplier

/-! ## Runs of `+` in front of a hunk header -/

set_option maxRecDepth 100000 in
/-- C11 at the failing input: a hunk header with two `+` in front.  The well-formed
text and the text with `+@@` parse to the hunk `remove a, add b` with line number 1;
with `++@@` the header line is recorded as the add operation `+@@ -1,2 +1,2 @@` and
the hunk has no line number.  A file header with two `+` in front (`++--- a/f`) is
read as the file header. -/
theorem parseDiff_plusRun_hunkHeader :
    parseDiff "--- a/f\n@@ -1,2 +1,2 @@\n-a\n+b".toList
        = [{ filename := "f".toList,
             hunks := [{ operations := [⟨OpType.remove, "a".toList⟩, ⟨OpType.add, "b".toList⟩],
                         headerContext := none, lineNumber := some 1 }],
             isNewFile := false }]
    ∧ parseDiff "--- a/f\n+@@ -1,2 +1,2 @@\n-a\n+b".toList
        = parseDiff "--- a/f\n@@ -1,2 +1,2 @@\n-a\n+b".toList
    ∧ parseDiff "++--- a/f\n@@ -1,2 +1,2 @@\n-a\n+b".toList
        = parseDiff "--- a/f\n@@ -1,2 +1,2 @@\n-a\n+b".toList
    ∧ parseDiff "--- a/f\n++@@ -1,2 +1,2 @@\n-a\n+b".toList
        = [{ filename := "f".toList,
             hunks := [{ operations := [⟨OpType.add, "+@@ -1,2 +1,2 @@".toList⟩,
                                        ⟨OpType.remove, "a".toList⟩, ⟨OpType.add, "b".toList⟩],
                         headerContext := none, lineNumber := none }],
             isNewFile := false }]
    ∧ parseDiff "--- a/f\n++@@ -1,2 +1,2 @@\n-a\n+b".toList
        ≠ parseDiff "--- a/f\n@@ -1,2 +1,2 @@\n-a\n+b".toList := by
  refine ⟨by decide, by decide, by decide, by decide, by decide⟩

end DiffApplier

namespace DiffApplier

/-! ## The matching key -/

/-- The rendering that ignores the flag of the first token. -/
theorem renderFirst_flag (g1 g2 : Bool) (s : Str) :
    (match lineTokens g1 s with
      | [] => []
      | (_, c) :: rest => c :: renderTokens c rest)
    = (match lineTokens g2 s with
      | [] => []
      | (_, c) :: rest => c :: renderTokens c rest) := by
  induction s generalizing g1 g2 with
  | nil => rfl
  | cons c cs ih =>
    by_cases hc : isWhiteSpace c = true
    · simp only [lineTokens, hc, if_true]
    · simp only [lineTokens, hc, if_false, Bool.false_eq_true]

theorem normalizeSpec_trimStart (s : Str) : normalizeSpec (trimStart s) = normalizeSpec s := by
  unfold normalizeSpec trimStart
  induction s with
  | nil => rfl
  | cons c cs ih =>
    by_cases hc : isWhiteSpace c = true
    · rw [List.dropWhile_cons_of_pos hc, ih]
      simp only [lineTokens, hc, if_true]
      exact renderFirst_flag false true cs
    · rw [List.dropWhile_cons_of_neg hc]

theorem lineTokens_whiteSpace (g : Bool) (w : Str) (hw : ∀ c ∈ w, isWhiteSpace c = true) :
    lineTokens g w = [] := by
  induction w generalizing g with
  | nil => rfl
  | cons c cs ih =>
    simp only [lineTokens, hw c (List.mem_cons_self _ _), if_true]
    exact ih true (fun x hx => hw x (List.mem_cons_of_mem _ hx))

theorem lineTokens_append_whiteSpace (g : Bool) (xs w : Str)
    (hw : ∀ c ∈ w, isWhiteSpace c = true) : lineTokens g (xs ++ w) = lineTokens g xs := by
  induction xs generalizing g with
  | nil => simpa [lineTokens] using lineTokens_whiteSpace g w hw
  | cons c cs ih =>
    by_cases hc : isWhiteSpace c = true
    · rw [List.cons_append]
      simp only [lineTokens, hc, if_true]
      exact ih true
    · rw [List.cons_append]
      simp only [lineTokens, hc, if_false, Bool.false_eq_true]
      rw [ih false]

theorem trimEnd_append_tail (s : Str) :
    ∃ w, s = trimEnd s ++ w ∧ ∀ c ∈ w, isWhiteSpace c = true := by
  refine ⟨(s.reverse.takeWhile isWhiteSpace).reverse, ?_, ?_⟩
  · unfold trimEnd
    rw [← List.reverse_append, List.takeWhile_append_dropWhile, List.reverse_reverse]
  · intro c hc
    rw [List.mem_reverse] at hc
    exact (List.mem_takeWhile_imp hc)

theorem normalizeSpec_trimEnd (s : Str) : normalizeSpec (trimEnd s) = normalizeSpec s := by
  obtain ⟨w, hs, hw⟩ := trimEnd_append_tail s
  unfold normalizeSpec
  conv_rhs => rw [hs, lineTokens_append_whiteSpace false _ w hw]

theorem normalizeSpec_trim (s : Str) : normalizeSpec (trim s) = normalizeSpec s := by
  unfold trim
  rw [normalizeSpec_trimEnd, normalizeSpec_trimStart]

end DiffApplier

namespace DiffApplier

theorem dropWhile_head_false {p : Char → Bool} (l : Str) {c : Char} {r : Str}
    (h : l.dropWhile p = c :: r) : p c = false := by
  induction l with
  | nil => simp at h
  | cons x xs ih =>
    by_cases hx : p x = true
    · rw [List.dropWhile_cons_of_pos hx] at h
      exact ih h
    · rw [List.dropWhile_cons_of_neg hx] at h
      cases h
      simpa using hx

theorem trimEnd_last (s : Str) : ∀ c, (trimEnd s).getLast? = some c → isWhiteSpace c = false := by
  intro c hc
  unfold trimEnd at hc
  rw [List.getLast?_reverse] at hc
  cases hd : s.reverse.dropWhile isWhiteSpace with
  | nil => rw [hd] at hc; cases hc
  | cons x xs =>
    rw [hd] at hc
    simp only [List.head?_cons, Option.some.injEq] at hc
    subst hc
    exact dropWhile_head_false _ hd

theorem trim_head (s : Str) {c : Char} {cs : Str} (h : trim s = c :: cs) :
    isWhiteSpace c = false := by
  unfold trim at h
  obtain ⟨w, hs, -⟩ := trimEnd_append_tail (trimStart s)
  rw [h] at hs
  exact dropWhile_head_false s hs

theorem getLast?_cons_of_ne_nil (d : Char) (cs : Str) (h : cs ≠ []) :
    (d :: cs).getLast? = cs.getLast? := by
  cases cs with
  | nil => exact absurd rfl h
  | cons x xs => simp [List.getLast?_cons_cons]

/-- The two replacements of the source, run behind the character `p`, produce the
rendering of the tokens: in the state behind `p` itself, and in the state behind
`p` and a run of white space. -/
theorem strip_collapse_eq_render (cs : Str) :
    ∀ p : Char, (∀ c, cs.getLast? = some c → isWhiteSpace c = false) →
      stripAroundPunct (isPunct p) [] (collapseWhiteSpace false cs)
        = renderTokens p (lineTokens false cs)
      ∧ (cs ≠ [] →
          stripAroundPunct (isPunct p) (if isPunct p then [] else [' '])
              (collapseWhiteSpace true cs)
            = renderTokens p (lineTokens true cs)) := by
  have hsp1 : isPunct ' ' = false := by decide
  have hsp2 : isWhiteSpace ' ' = true := by decide
  induction cs with
  | nil =>
    intro p _
    exact ⟨rfl, fun h => absurd rfl h⟩
  | cons d cs ih =>
    intro p hlast
    by_cases hd : isWhiteSpace d = true
    · have hne : cs ≠ [] := by
        intro hnil
        subst hnil
        have := hlast d rfl
        rw [hd] at this
        exact Bool.noConfusion this
      have hlast2 : ∀ c, cs.getLast? = some c → isWhiteSpace c = false := by
        intro c hc
        exact hlast c (by rw [getLast?_cons_of_ne_nil d cs hne]; exact hc)
      have hB := (ih p hlast2).2 hne
      refine ⟨?_, fun _ => ?_⟩
      · simp only [collapseWhiteSpace, hd, if_true, Bool.false_eq_true, if_false, lineTokens]
        rw [← hB]
        by_cases hp : isPunct p = true
        · simp only [stripAroundPunct, hsp1, hsp2, hp, if_true, if_false, Bool.false_eq_true]
        · simp only [stripAroundPunct, hsp1, hsp2, hp, if_true, if_false, Bool.false_eq_true,
            List.nil_append]
      · simp only [collapseWhiteSpace, hd, if_true, lineTokens]
        exact hB
    · have hlast2 : ∀ c, cs.getLast? = some c → isWhiteSpace c = false := by
        intro c hc
        cases cs with
        | nil => cases hc
        | cons x xs => exact hlast c (by rw [getLast?_cons_of_ne_nil d _ (by simp)]; exact hc)
      have hA := (ih d hlast2).1
      refine ⟨?_, fun _ => ?_⟩
      · simp only [collapseWhiteSpace, hd, if_false, Bool.false_eq_true, lineTokens,
          renderTokens, Bool.false_and, List.singleton_append]
        rw [← hA]
        by_cases hpd : isPunct d = true
        · simp only [stripAroundPunct, hpd, if_true]
        · simp only [stripAroundPunct, hpd, hd, if_false, Bool.false_eq_true, List.nil_append]
      · simp only [collapseWhiteSpace, hd, if_false, Bool.false_eq_true, lineTokens,
          renderTokens, Bool.true_and]
        rw [← hA]
        by_cases hpd : isPunct d = true
        · simp only [stripAroundPunct, hpd, if_true, Bool.not_true, Bool.and_false,
            Bool.false_eq_true, if_false, List.singleton_append]
        · simp only [Bool.not_eq_true] at hpd
          by_cases hp : isPunct p = true
          · simp [stripAroundPunct, hpd, hd, hp]
          · simp only [Bool.not_eq_true] at hp
            simp [stripAroundPunct, hpd, hd, hp]

/-- The matching key of the source is the key in the words of the specification. -/
theorem normalizeLineForMatching_eq_spec (s : Str) :
    normalizeLineForMatching s = normalizeSpec s := by
  rw [← normalizeSpec_trim s]
  unfold normalizeLineForMatching normalizeSpec
  cases hu : trim s with
  | nil => rfl
  | cons c cs =>
    have hc : isWhiteSpace c = false := trim_head s hu
    have hlast : ∀ x, cs.getLast? = some x → isWhiteSpace x = false := by
      intro x hx
      have h1 := trimEnd_last (trimStart s) x
      have h2 : trimEnd (trimStart s) = c :: cs := hu
      rw [h2] at h1
      cases cs with
      | nil => cases hx
      | cons y ys => exact h1 (by rw [getLast?_cons_of_ne_nil c _ (by simp)]; exact hx)
    have hA := (strip_collapse_eq_render cs c hlast).1
    simp only [List.length_cons, Nat.lt_one_iff, Nat.add_one_ne_zero, if_false, lineTokens, hc,
      Bool.false_eq_true, collapseWhiteSpace]
    rw [← hA]
    by_cases hp : isPunct c = true
    · simp only [stripAroundPunct, hp, if_true]
    · simp only [stripAroundPunct, hp, hc, if_false, Bool.false_eq_true, List.nil_append]

end DiffApplier

namespace DiffApplier

theorem lineTokens_nonWhiteSpace (g : Bool) (s : Str) :
    ∀ t ∈ lineTokens g s, isWhiteSpace t.2 = false := by
  induction s generalizing g with
  | nil => intro t ht; cases ht
  | cons c cs ih =>
    by_cases hc : isWhiteSpace c = true
    · simp only [lineTokens, hc, if_true]
      exact ih true
    · simp only [lineTokens, hc, if_false, Bool.false_eq_true]
      intro t ht
      rcases List.mem_cons.mp ht with h | h
      · subst h
        simpa using hc
      · exact ih false t h

theorem lineTokens_chars (g : Bool) (s : Str) :
    (lineTokens g s).map Prod.snd = s.filter (fun c => !isWhiteSpace c) := by
  induction s generalizing g with
  | nil => rfl
  | cons c cs ih =>
    by_cases hc : isWhiteSpace c = true
    · simp only [lineTokens, hc, if_true]
      rw [ih true, List.filter_cons_of_neg (by simp [hc])]
    · simp only [lineTokens, hc, if_false, Bool.false_eq_true, List.map_cons]
      rw [ih false, List.filter_cons_of_pos (by simpa using hc)]

theorem lineTokens_eq_nil_iff (g : Bool) (s : Str) :
    lineTokens g s = [] ↔ s.all isWhiteSpace = true := by
  induction s generalizing g with
  | nil => simp [lineTokens]
  | cons c cs ih =>
    by_cases hc : isWhiteSpace c = true
    · simp only [lineTokens, hc, if_true, List.all_cons, Bool.true_and]
      exact ih true
    · simp only [lineTokens, hc, if_false, Bool.false_eq_true, List.all_cons]
      simp only [Bool.not_eq_true] at hc
      simp [hc]

theorem renderTokens_chars (p : Char) (ts : List (Bool × Char))
    (hts : ∀ t ∈ ts, isWhiteSpace t.2 = false) :
    (renderTokens p ts).filter (fun c => !isWhiteSpace c) = ts.map Prod.snd := by
  have hsp : isWhiteSpace ' ' = true := by decide
  induction ts generalizing p with
  | nil => rfl
  | cons t rest ih =>
    obtain ⟨g, c⟩ := t
    have hc : isWhiteSpace c = false := hts (g, c) (List.mem_cons_self _ _)
    have ih2 := ih c (fun t ht => hts t (List.mem_cons_of_mem _ ht))
    simp only [renderTokens, List.map_cons, List.filter_append]
    rw [ih2]
    split <;> simp [List.filter, hc, hsp]

theorem renderTokens_spaces (p : Char) (ts : List (Bool × Char))
    (hts : ∀ t ∈ ts, isWhiteSpace t.2 = false) :
    ∀ x ∈ renderTokens p ts, isWhiteSpace x = true → x = ' ' := by
  induction ts generalizing p with
  | nil => intro x hx; cases hx
  | cons t rest ih =>
    obtain ⟨g, c⟩ := t
    have hc : isWhiteSpace c = false := hts (g, c) (List.mem_cons_self _ _)
    have ih2 := ih c (fun t ht => hts t (List.mem_cons_of_mem _ ht))
    intro x hx hws
    simp only [renderTokens, List.mem_append] at hx
    rcases hx with hx | hx
    · split at hx
      · simp only [List.mem_cons, List.mem_singleton, List.not_mem_nil, or_false] at hx
        rcases hx with h | h
        · exact h
        · subst h; rw [hc] at hws; exact Bool.noConfusion hws
      · simp only [List.mem_singleton] at hx
        subst hx; rw [hc] at hws; exact Bool.noConfusion hws
    · exact ih2 x hx hws


theorem renderTokens_chain (p : Char) (hp : isWhiteSpace p = false) (ts : List (Bool × Char))
    (hts : ∀ t ∈ ts, isWhiteSpace t.2 = false) :
    List.Chain KeyNeighbours p (renderTokens p ts) := by
  have hsp : isPunct ' ' = false := by decide
  induction ts generalizing p with
  | nil => exact List.Chain.nil
  | cons t rest ih =>
    obtain ⟨g, c⟩ := t
    have hc : isWhiteSpace c = false := hts (g, c) (List.mem_cons_self _ _)
    have ih2 := ih c hc (fun t ht => hts t (List.mem_cons_of_mem _ ht))
    simp only [renderTokens]
    split
    · rename_i hcond
      simp only [Bool.and_eq_true, Bool.not_eq_true', Bool.not_eq_eq_eq_not, Bool.not_true]
        at hcond
      obtain ⟨⟨-, hpp⟩, hpc⟩ := hcond
      refine List.Chain.cons ?_ (List.Chain.cons ?_ ih2)
      · refine ⟨?_, ?_, ?_⟩
        · rintro ⟨h1, -⟩; rw [hp] at h1; exact Bool.noConfusion h1
        · intro h; rw [hpp] at h; exact Bool.noConfusion h
        · intro h; rw [hsp] at h; exact Bool.noConfusion h
      · refine ⟨?_, ?_, ?_⟩
        · rintro ⟨-, h1⟩; rw [hc] at h1; exact Bool.noConfusion h1
        · intro h; rw [hsp] at h; exact Bool.noConfusion h
        · intro h; rw [hpc] at h; exact Bool.noConfusion h
    · refine List.Chain.cons ?_ ih2
      refine ⟨?_, fun _ => hc, fun _ => hp⟩
      rintro ⟨h1, -⟩; rw [hp] at h1; exact Bool.noConfusion h1

theorem renderTokens_last (p : Char) (hp : isWhiteSpace p = false) (ts : List (Bool × Char))
    (hts : ∀ t ∈ ts, isWhiteSpace t.2 = false) :
    ∀ x, (p :: renderTokens p ts).getLast? = some x → isWhiteSpace x = false := by
  induction ts generalizing p with
  | nil =>
    intro x hx
    simp only [renderTokens, List.getLast?_singleton, Option.some.injEq] at hx
    subst hx; exact hp
  | cons t rest ih =>
    obtain ⟨g, c⟩ := t
    have hc : isWhiteSpace c = false := hts (g, c) (List.mem_cons_self _ _)
    have ih2 := ih c hc (fun t ht => hts t (List.mem_cons_of_mem _ ht))
    intro x hx
    apply ih2 x
    rw [← hx]
    simp only [renderTokens]
    split
    · show _ = (([p, ' '] : Str) ++ (c :: renderTokens c rest)).getLast?
      rw [List.getLast?_append_of_ne_nil _ (List.cons_ne_nil _ _)]
    · show _ = (([p] : Str) ++ (c :: renderTokens c rest)).getLast?
      rw [List.getLast?_append_of_ne_nil _ (List.cons_ne_nil _ _)]

/-- C18. The matching key of a line. The key is the one the specification describes:
the characters of the line that are not white space, in their order, with one space
between two neighbours exactly when white space stood between them in the line and
neither of the two is one of the characters { } ( ) ; , (normalizeSpec). The key is
empty exactly when the line consists of white space only. It neither starts nor ends
with white space, has no two white space characters in a row and none beside one of the
punctuation characters (KeyNeighbours), its only white space is the plain space, and
its characters other than white space are those of the line, in the same order. -/
theorem normalizeLineForMatching_spec (s : Str) :
    normalizeLineForMatching s = normalizeSpec s ∧
    (normalizeLineForMatching s = [] ↔ s.all isWhiteSpace = true) ∧
    (∀ c, (normalizeLineForMatching s).head? = some c → isWhiteSpace c = false) ∧
    (∀ c, (normalizeLineForMatching s).getLast? = some c → isWhiteSpace c = false) ∧
    List.Chain' KeyNeighbours (normalizeLineForMatching s) ∧
    (∀ c ∈ normalizeLineForMatching s, isWhiteSpace c = true → c = ' ') ∧
    (normalizeLineForMatching s).filter (fun c => !isWhiteSpace c)
      = s.filter (fun c => !isWhiteSpace c) := by
  have hts := lineTokens_nonWhiteSpace false s
  have hch := lineTokens_chars false s
  have hnil := lineTokens_eq_nil_iff false s
  rw [normalizeLineForMatching_eq_spec]
  refine ⟨rfl, ?_⟩
  unfold normalizeSpec
  cases hl : lineTokens false s with
  | nil =>
    rw [hl] at hnil hch
    refine ⟨⟨fun _ => hnil.mp rfl, fun _ => rfl⟩, ?_, ?_, List.chain'_nil, ?_, ?_⟩
    · intro c hc; cases hc
    · intro c hc; cases hc
    · intro c hc; cases hc
    · exact hch
  | cons t rest =>
    obtain ⟨g, c⟩ := t
    rw [hl] at hnil hch hts
    have hc : isWhiteSpace c = false := hts (g, c) (List.mem_cons_self _ _)
    have hrest : ∀ t ∈ rest, isWhiteSpace t.2 = false :=
      fun t ht => hts t (List.mem_cons_of_mem _ ht)
    refine ⟨⟨fun h => (by cases h), fun h => (by cases hnil.mpr h)⟩, ?_, ?_, ?_, ?_, ?_⟩
    · intro x hx
      simp only [List.head?_cons, Option.some.injEq] at hx
      subst hx; exact hc
    · exact renderTokens_last c hc rest hrest
    · exact renderTokens_chain c hc rest hrest
    · intro x hx hws
      rcases List.mem_cons.mp hx with h | h
      · subst h; rw [hc] at hws; exact Bool.noConfusion hws
      · exact renderTokens_spaces c rest hrest x h hws
    · rw [← hch, List.map_cons, List.filter_cons_of_pos (by simp [hc]),
        renderTokens_chars c rest hrest]

/-- An example of the key: runs of blanks and tabs, and the blanks around the
punctuation characters. -/
theorem normalizeLineForMatching_example :
    normalizeLineForMatching "  foo (  a ,b )  ;  x\t\ty \x7b \x7d ".toList = "foo(a,b);x y\x7b\x7d".toList := by
  decide

end DiffApplier

namespace DiffApplier

/-! ## Writing a parsed diff back and reading it again -/

theorem digitChar_isDigit (d : Nat) : isDigit (digitChar d) = true := by
  unfold digitChar
  split <;> decide

theorem digitChar_value (d : Nat) (hd : d < 10) : (digitChar d).toNat - 0x30 = d := by
  interval_cases d <;> rfl

theorem showNatAux_digits (fuel : Nat) :
    ∀ (n : Nat) (acc : Str), (∀ c ∈ acc, isDigit c = true) →
      ∀ c ∈ showNatAux fuel n acc, isDigit c = true := by
  induction fuel with
  | zero => intro n acc h; exact h
  | succ k ih =>
    intro n acc h
    unfold showNatAux
    split
    · intro c hc
      rcases List.mem_cons.mp hc with rfl | hc
      · exact digitChar_isDigit n
      · exact h c hc
    · apply ih
      intro c hc
      rcases List.mem_cons.mp hc with rfl | hc
      · exact digitChar_isDigit _
      · exact h c hc

theorem showNatAux_ne_nil (fuel n : Nat) (acc : Str) : showNatAux (fuel + 1) n acc ≠ [] := by
  induction fuel generalizing n acc with
  | zero =>
    unfold showNatAux
    split
    · exact List.cons_ne_nil _ _
    · simp [showNatAux]
  | succ k ih =>
    unfold showNatAux
    split
    · exact List.cons_ne_nil _ _
    · exact ih _ _

theorem showNatAux_value (fuel : Nat) :
    ∀ (n : Nat) (acc : Str), n < fuel →
      (showNatAux fuel n acc).foldl (fun m c => 10 * m + (c.toNat - 0x30)) 0
        = acc.foldl (fun m c => 10 * m + (c.toNat - 0x30)) n := by
  induction fuel with
  | zero => intro n acc h; exact absurd h (Nat.not_lt_zero n)
  | succ k ih =>
    intro n acc h
    unfold showNatAux
    split
    · rename_i h10
      simp only [List.foldl_cons, Nat.mul_zero, Nat.zero_add]
      rw [digitChar_value n h10]
    · rename_i h10
      rw [ih (n / 10) _ (by omega)]
      simp only [List.foldl_cons]
      rw [digitChar_value (n % 10) (Nat.mod_lt _ (by decide))]
      congr 1
      omega

theorem showNat_digits (n : Nat) : ∀ c ∈ showNat n, isDigit c = true :=
  showNatAux_digits (n + 1) n [] (fun c hc => absurd hc (List.not_mem_nil c))

theorem showNat_ne_nil (n : Nat) : showNat n ≠ [] := showNatAux_ne_nil n n []

theorem decimalValue_showNat (n : Nat) : decimalValue (showNat n) = n := by
  unfold decimalValue showNat
  rw [showNatAux_value (n + 1) n [] (Nat.lt_succ_self n)]
  rfl

theorem parseInt_showNat (n : Nat) (hn : toDouble n = n) : parseInt (showNat n) = n := by
  unfold parseInt
  rw [decimalValue_showNat, hn]

theorem hunkHeaderInfo_number (line : Str) :
    ∀ n, (hunkHeaderInfo line).1 = some n → toDouble n = n := by
  intro n hn
  unfold hunkHeaderInfo at hn
  split at hn
  · simp only [Option.some.injEq] at hn
    subst hn
    exact toDouble_idem _
  · cases hn

theorem trimEnd_eq_self (s : Str) (h : ∀ c, s.getLast? = some c → isWhiteSpace c = false) :
    trimEnd s = s := by
  rcases List.eq_nil_or_concat s with rfl | ⟨p, c, rfl⟩
  · rfl
  · have hc : isWhiteSpace c = false := h c (by simp)
    have h2 := trimEnd_append_cons p c [] hc
    simpa [trimEnd] using h2

theorem trimEnd_idem (s : Str) : trimEnd (trimEnd s) = trimEnd s :=
  trimEnd_eq_self _ (trimEnd_last s)

theorem trimEnd_append_of_trimmed (p s : Str) (hs : s ≠ []) (h : trimEnd s = s) :
    trimEnd (p ++ s) = p ++ s := by
  apply trimEnd_eq_self
  intro c hc
  rw [List.getLast?_append_of_ne_nil _ hs] at hc
  have := trimEnd_last s c
  rw [h] at this
  exact this hc

theorem trimEnd_of_suffix {g line : Str} (hline : trimEnd line = line) (hg : g ≠ [])
    (hsuf : g <:+ line) : trimEnd g = g := by
  obtain ⟨p, rfl⟩ := hsuf
  apply trimEnd_eq_self
  intro c hc
  have := trimEnd_last (p ++ g) c
  rw [hline, List.getLast?_append_of_ne_nil _ hg] at this
  exact this hc

/-- A non-empty end of a trimmed line without line terminators is a name. -/
theorem nameOk_of_suffix {g line : Str} (hline : trimEnd line = line)
    (hlt : ∀ c ∈ line, isLineTerminator c = false) (hg : g ≠ []) (hsuf : g <:+ line) :
    NameOk g :=
  ⟨hg, fun c hc => hlt c (hsuf.subset hc), trimEnd_of_suffix hline hg hsuf⟩

theorem nameOk_unknown : NameOk "unknown".toList := by
  refine ⟨by decide, by decide, by decide⟩

theorem dotPlus_eq {s g : Str} (hlt : ∀ c ∈ s, isLineTerminator c = false)
    (h : dotPlus s = some g) : g = s ∧ g ≠ [] := by
  unfold dotPlus at h
  have hs : s.takeWhile (fun c => !isLineTerminator c) = s :=
    takeWhile_eq_self s (fun x hx => by simp [hlt x hx])
  simp only [hs] at h
  by_cases he : s.isEmpty = true
  · simp [he] at h
  · simp only [he, if_false, Option.some.injEq, Bool.false_eq_true] at h
    subst h
    exact ⟨rfl, by simpa using he⟩

theorem searchLiteralGroup_suffix (lit : Str) {s g : Str}
    (hlt : ∀ c ∈ s, isLineTerminator c = false)
    (h : searchLiteralGroup lit s = some g) : g ≠ [] ∧ g <:+ s := by
  induction s with
  | nil => simp [searchLiteralGroup] at h
  | cons c cs ih =>
    unfold searchLiteralGroup at h
    split at h
    · rename_i g0 hg0
      simp only [Option.some.injEq] at h
      subst h
      by_cases hsw : startsWith lit (c :: cs) = true
      · simp only [hsw, if_true] at hg0
        have hd : ∀ x ∈ (c :: cs).drop lit.length, isLineTerminator x = false :=
          fun x hx => hlt x (List.mem_of_mem_drop hx)
        obtain ⟨he, hne⟩ := dotPlus_eq hd hg0
        exact ⟨hne, he ▸ List.drop_suffix _ _⟩
      · simp [hsw] at hg0
    · obtain ⟨h1, h2⟩ := ih (fun x hx => hlt x (List.mem_cons_of_mem _ hx)) h
      exact ⟨h1, h2.trans (List.suffix_cons c cs)⟩

theorem afterPlusRun_suffix {lit s r : Str} (h : afterPlusRun lit s = some r) : r <:+ s := by
  unfold afterPlusRun at h
  split at h
  · simp only [Option.some.injEq] at h
    subst h
    exact (List.drop_suffix _ _).trans (List.dropWhile_suffix _)
  · cases h

theorem lastSplit_suffix (sep : Str) {s g1 g2 : Str} (h : lastSplit sep s = some (g1, g2)) :
    g2 ≠ [] ∧ g2 <:+ s := by
  induction s generalizing g1 g2 with
  | nil => simp [lastSplit] at h
  | cons c cs ih =>
    unfold lastSplit at h
    split at h
    · rename_i a b hab
      simp only [Option.some.injEq, Prod.mk.injEq] at h
      obtain ⟨-, rfl⟩ := h
      obtain ⟨h1, h2⟩ := ih hab
      exact ⟨h1, h2.trans (List.suffix_cons c cs)⟩
    · split at h
      · rename_i hc
        simp only [Option.some.injEq, Prod.mk.injEq] at h
        obtain ⟨-, rfl⟩ := h
        simp only [Bool.and_eq_true, Bool.not_eq_true', List.isEmpty_eq_false] at hc
        refine ⟨?_, (List.drop_suffix _ _).trans (List.suffix_cons c cs)⟩
        intro hnil
        rw [hnil] at hc
        simp at hc
      · cases h

theorem matchDiffGit_suffix {s g1 g2 : Str} (hlt : ∀ c ∈ s, isLineTerminator c = false)
    (h : matchDiffGit s = some (g1, g2)) : g2 ≠ [] ∧ g2 <:+ s := by
  induction s with
  | nil => simp [matchDiffGit] at h
  | cons c cs ih =>
    unfold matchDiffGit at h
    split at h
    · rename_i g0 hg0
      simp only [Option.some.injEq] at h
      subst h
      by_cases hsw : startsWith "diff --git a/".toList (c :: cs) = true
      · simp only [hsw, if_true] at hg0
        have hd : ∀ x ∈ (c :: cs).drop "diff --git a/".toList.length,
            (fun d => !isLineTerminator d) x = true :=
          fun x hx => by simp [hlt x (List.mem_of_mem_drop hx)]
        rw [takeWhile_eq_self _ hd] at hg0
        obtain ⟨h1, h2⟩ := lastSplit_suffix _ hg0
        exact ⟨h1, h2.trans (List.drop_suffix _ _)⟩
      · rw [if_neg hsw] at hg0
        cases hg0
    · obtain ⟨h1, h2⟩ := ih (fun x hx => hlt x (List.mem_cons_of_mem _ hx)) h
      exact ⟨h1, h2.trans (List.suffix_cons c cs)⟩

theorem nameOk_fileHeaderInfo (line : Str) (hline : trimEnd line = line)
    (hlt : ∀ c ∈ line, isLineTerminator c = false) : NameOk (fileHeaderInfo line).1 := by
  unfold fileHeaderInfo
  split
  · split
    · rename_i g1 g2 hm
      obtain ⟨h1, h2⟩ := matchDiffGit_suffix hlt hm
      exact nameOk_of_suffix hline hlt h1 h2
    · exact nameOk_unknown
  · split
    · cases hs : searchLiteralGroup "--- a/".toList line with
      | none => exact nameOk_unknown
      | some g =>
        obtain ⟨h1, h2⟩ := searchLiteralGroup_suffix _ hlt hs
        exact nameOk_of_suffix hline hlt h1 h2
    · split
      · exact nameOk_unknown
      · split
        · cases ha : afterPlusRun "--- a/".toList line with
          | none => exact nameOk_unknown
          | some r =>
            have hsuf := afterPlusRun_suffix ha
            cases hd : dotPlus r with
            | none =>
              simp only [Option.some_bind, hd, Option.getD_none]
              exact nameOk_unknown
            | some g =>
              obtain ⟨he, hne⟩ := dotPlus_eq (fun x hx => hlt x (hsuf.subset hx)) hd
              simp only [Option.some_bind, hd, Option.getD_some]
              exact nameOk_of_suffix hline hlt hne (he ▸ hsuf)
        · split
          · exact nameOk_unknown
          · exact nameOk_unknown

theorem nameOk_plusFileName (line : Str) (hline : trimEnd line = line)
    (hlt : ∀ c ∈ line, isLineTerminator c = false) {g : Str}
    (hg : plusFileName line = some g) : NameOk g := by
  unfold plusFileName at hg
  by_cases hsw : startsWith "+++ b/".toList line = true
  · simp only [hsw, if_true] at hg
    obtain ⟨h1, h2⟩ := searchLiteralGroup_suffix _ hlt hg
    exact nameOk_of_suffix hline hlt h1 h2
  · simp only [hsw, if_false, Bool.false_eq_true] at hg
    cases ha : afterPlusRun "++ b/".toList line with
    | none => rw [ha] at hg; cases hg
    | some r =>
      rw [ha] at hg
      simp only [Option.some_bind] at hg
      have hsuf := afterPlusRun_suffix ha
      obtain ⟨he, hne⟩ := dotPlus_eq (fun x hx => hlt x (hsuf.subset hx)) hg
      exact nameOk_of_suffix hline hlt hne (he ▸ hsuf)

end DiffApplier

namespace DiffApplier

theorem matchHunkHeaderAt_group {s g1 g : Str}
    (h : matchHunkHeaderAt s = some (g1, some g)) :
    ∃ X : Str, dotPlus (X.dropWhile isWhiteSpace) = some g := by
  unfold matchHunkHeaderAt at h
  split at h
  · split at h
    · cases h
    · split at h
      · split at h
        · cases h
        · split at h
          · simp only [Option.some.injEq, Prod.mk.injEq] at h
            exact ⟨_, h.2⟩
          · cases h
      · cases h
  · cases h

theorem matchHunkHeader_group {s g1 g : Str}
    (h : matchHunkHeader s = some (g1, some g)) :
    ∃ X : Str, dotPlus (X.dropWhile isWhiteSpace) = some g := by
  induction s with
  | nil => simp [matchHunkHeader] at h
  | cons c cs ih =>
    unfold matchHunkHeader at h
    split at h
    · rename_i g0 hg0
      simp only [Option.some.injEq] at h
      subst h
      exact matchHunkHeaderAt_group hg0
    · exact ih h

theorem contextOk_of_dotPlus {X g : Str}
    (h : dotPlus (X.dropWhile isWhiteSpace) = some g) : ContextOk (trim g) := by
  unfold dotPlus at h
  simp only at h
  split at h
  · cases h
  · rename_i hne
    simp only [Option.some.injEq] at h
    have hlt : ∀ x ∈ g, isLineTerminator x = false := by
      intro x hx
      rw [← h] at hx
      simpa using List.mem_takeWhile_imp hx
    cases hz : X.dropWhile isWhiteSpace with
    | nil => rw [hz] at hne; simp at hne
    | cons c Z =>
      have hc : isWhiteSpace c = false := dropWhile_head_false X hz
      rw [hz] at h
      by_cases hcl : isLineTerminator c = true
      · rw [hz] at hne
        simp [List.takeWhile_cons, hcl] at hne
      · simp only [Bool.not_eq_true] at hcl
        have htw : (c :: Z).takeWhile (fun c => !isLineTerminator c)
            = c :: Z.takeWhile (fun c => !isLineTerminator c) := by
          simp [List.takeWhile_cons, hcl]
        rw [htw] at h
        subst h
        have htrim : trim (c :: Z.takeWhile (fun c => !isLineTerminator c))
            = c :: trimEnd (Z.takeWhile (fun c => !isLineTerminator c)) := by
          unfold trim trimStart
          rw [List.dropWhile_cons_of_neg (by simp [hc])]
          exact trimEnd_append_cons [] c _ hc
        rw [htrim]
        refine ⟨List.cons_ne_nil _ _, ?_, ?_, ?_⟩
        · intro x hx
          rcases List.mem_cons.mp hx with rfl | hx
          · exact hlt _ (List.mem_cons_self _ _)
          · exact hlt x (List.mem_cons_of_mem _ (trimEnd_subset _ hx))
        · unfold trimStart
          rw [List.dropWhile_cons_of_neg (by simp [hc])]
        · have := trimEnd_append_cons [] c
            (trimEnd (Z.takeWhile (fun c => !isLineTerminator c))) hc
          simp only [List.nil_append] at this
          rw [this, trimEnd_idem]

theorem contextOk_hunkHeaderInfo (line : Str) :
    ((hunkHeaderInfo line).1 = none → (hunkHeaderInfo line).2 = none) ∧
    ∀ c, (hunkHeaderInfo line).2 = some c → ContextOk c := by
  unfold hunkHeaderInfo
  split
  · rename_i g1 g3 hm
    refine ⟨fun h => (by cases h), ?_⟩
    intro c hc
    simp only [Option.map_eq_some'] at hc
    obtain ⟨g, hg, rfl⟩ := hc
    subst hg
    obtain ⟨X, hX⟩ := matchHunkHeader_group hm
    exact contextOk_of_dotPlus hX
  · exact ⟨fun _ => rfl, fun c hc => by cases hc⟩

theorem operationOk_lineOperation (line : Str) (hline : trimEnd line = line)
    (hnl : '\n' ∉ line) {op : Operation} (hop : lineOperation line = some op) :
    OperationOk op := by
  have hop0 := hop
  unfold lineOperation at hop
  split at hop
  · cases hop
  · rename_i m content
    split at hop
    · rename_i hcond
      simp only [Option.some.injEq] at hop
      have hser : serializeOperation op = m :: content := by
        subst hop
        rcases hcond.1 with rfl | rfl | rfl <;> rfl
      refine ⟨?_, ?_, ?_⟩
      · rw [hser]; exact hop0
      · rw [hser]; exact hline
      · subst hop
        exact fun hmem => hnl (List.mem_cons_of_mem _ hmem)
    · cases hop

theorem finishCurrentHunk_ok (st : ParseState) (h : StateOk st) :
    ∀ f, finishCurrentHunk st.currentFile st.currentOperations st.currentHeaderContext
      st.currentLineNumber = some f → FileOk f := by
  intro f hf
  obtain ⟨-, hcf, hops, hln, hctx, hnum⟩ := h
  cases hcur : st.currentFile with
  | none => simp [finishCurrentHunk, hcur] at hf
  | some f0 =>
    have h0 := hcf f0 hcur
    rw [hcur] at hf
    unfold finishCurrentHunk at hf
    by_cases hlen : st.currentOperations.length > 0
    · simp only [hlen, if_true, Option.some.injEq] at hf
      subst hf
      refine ⟨h0.1, ?_⟩
      intro hk hmem
      simp only [List.mem_append, List.mem_singleton] at hmem
      rcases hmem with hmem | rfl
      · exact h0.2 hk hmem
      · exact ⟨hln, hctx, hops, hnum⟩
    · simp only [hlen, if_false, Option.some.injEq] at hf
      subst hf
      exact h0

theorem finishParse_ok (st : ParseState) (h : StateOk st) :
    ∀ f ∈ finishParse st, FileOk f := by
  intro f hf
  unfold finishParse finishCurrentFile at hf
  split at hf
  · rename_i f0 hf0
    split at hf
    · simp only [List.mem_append, List.mem_singleton] at hf
      rcases hf with hf | rfl
      · exact h.1 f hf
      · exact finishCurrentHunk_ok st h f hf0
    · exact h.1 f hf
  · exact h.1 f hf

theorem stepByKind_ok (st : ParseState) (line : Str) (hline : trimEnd line = line)
    (hnl : '\n' ∉ line)
    (hhead : (isFileHeader line || isPlusFileLine line) = true →
      ∀ c ∈ line, isLineTerminator c = false)
    (h : StateOk st) : StateOk (stepByKind st line) := by
  unfold stepByKind
  split
  · rename_i hfh
    refine ⟨finishParse_ok st h, ?_, ?_, fun _ => rfl, ?_, ?_⟩
    · intro f hf
      simp only [Option.some.injEq] at hf
      subst hf
      exact ⟨nameOk_fileHeaderInfo line hline (hhead (by simp [hfh])),
        fun hk hmem => by simp at hmem⟩
    · intro op hop; simp at hop
    · intro c hc; simp at hc
    · intro n hn; simp at hn
  · split
    · rename_i hpf
      split
      · rename_i g f hg hf
        refine ⟨h.1, ?_, h.2.2.1, h.2.2.2.1, h.2.2.2.2⟩
        intro f' hf'
        simp only [Option.some.injEq] at hf'
        subst hf'
        exact ⟨nameOk_plusFileName line hline (hhead (by simp [hpf])) hg, (h.2.1 f hf).2⟩
      · exact h
    · split
      · split
        · rename_i f hf
          refine ⟨h.1, ?_, h.2.2.1, h.2.2.2.1, h.2.2.2.2⟩
          intro f' hf'
          simp only [Option.some.injEq] at hf'
          subst hf'
          exact h.2.1 f hf
        · exact h
      · split
        · refine ⟨h.1, finishCurrentHunk_ok st h, ?_, ?_, ?_, ?_⟩
          · intro op hop; simp at hop
          · exact (contextOk_hunkHeaderInfo line).1
          · exact (contextOk_hunkHeaderInfo line).2
          · exact hunkHeaderInfo_number line
        · split
          · rename_i op hop
            refine ⟨h.1, h.2.1, ?_, h.2.2.2.1, h.2.2.2.2⟩
            intro o ho
            simp only [List.mem_append, List.mem_singleton] at ho
            rcases ho with ho | rfl
            · exact h.2.2.1 o ho
            · exact operationOk_lineOperation line hline hnl hop
          · exact h

theorem foldl_parseLine_ok (ls : List Str) (hnl : ∀ l ∈ ls, '\n' ∉ l)
    (hhead : ∀ l ∈ ls, (isFileHeader (trimEnd l) || isPlusFileLine (trimEnd l)) = true →
      ∀ c ∈ trimEnd l, isLineTerminator c = false) :
    ∀ st : ParseState, StateOk st → StateOk (ls.foldl parseLine st) := by
  induction ls with
  | nil => intro st h; exact h
  | cons l rest ih =>
    intro st h
    rw [List.foldl_cons]
    apply ih (fun x hx => hnl x (List.mem_cons_of_mem _ hx))
      (fun x hx => hhead x (List.mem_cons_of_mem _ hx))
    unfold parseLine
    rw [processLine_eq_stepByKind]
    exact stepByKind_ok st _ (trimEnd_idem l)
      (fun hmem => hnl l (List.mem_cons_self _ _) (trimEnd_subset l hmem))
      (hhead l (List.mem_cons_self _ _)) h

end DiffApplier

namespace DiffApplier

theorem serializeHunkHeader_isHeader (h : Hunk) :
    isHunkHeaderLine (serializeHunkHeader h) = true := by
  unfold serializeHunkHeader
  cases h.lineNumber <;> simp [isHunkHeaderLine, startsWith]

theorem serializeHunkHeader_trimmed (h : Hunk) (hok : HunkOk h) :
    trimEnd (serializeHunkHeader h) = serializeHunkHeader h := by
  unfold serializeHunkHeader
  cases h.lineNumber with
  | none => exact (by decide : trimEnd "@@".toList = "@@".toList)
  | some n =>
    cases hc : h.headerContext with
    | none =>
      simp only [List.append_nil]
      exact trimEnd_append_of_trimmed _ _ (by decide) (by decide)
    | some c =>
      obtain ⟨hne, -, -, hte⟩ := hok.2.1 c hc
      simp only
      have h1 : trimEnd (' ' :: c) = ' ' :: c :=
        trimEnd_append_of_trimmed [' '] c hne hte
      exact trimEnd_append_of_trimmed _ _ (List.cons_ne_nil _ _) h1

theorem serializeHunkHeader_info (h : Hunk) (hok : HunkOk h) :
    hunkHeaderInfo (serializeHunkHeader h) = (h.lineNumber, h.headerContext) := by
  cases hln : h.lineNumber with
  | none =>
    have hctx := hok.1 hln
    unfold serializeHunkHeader
    rw [hln, hctx]
    decide
  | some n =>
    have hline : stripPlusRun (serializeHunkHeader h)
        = "@@ -".toList ++ showNat n ++ [] ++ " +".toList ++ showNat n ++ [] ++ " @@".toList ++
            (match h.headerContext with
             | some c => ' ' :: c
             | none => []) := by
      unfold serializeHunkHeader
      rw [hln]
      cases h.headerContext <;> simp [stripPlusRun]
    have hrest : ∀ x ∈ (match h.headerContext with
             | some c => ' ' :: c
             | none => ([] : Str)), isLineTerminator x = false := by
      intro x hx
      cases hc : h.headerContext with
      | none => rw [hc] at hx; cases hx
      | some c =>
        rw [hc] at hx
        rcases List.mem_cons.mp hx with rfl | hx
        · decide
        · exact (hok.2.1 c hc).2.1 x hx
    rw [hunkHeaderInfo_form _ (showNat n) [] (showNat n) [] _ (showNat_ne_nil n)
      (showNat_digits n) (Or.inl rfl) (showNat_ne_nil n) (showNat_digits n) (Or.inl rfl)
      hrest hline, parseInt_showNat n (hok.2.2.2 n hln)]
    cases hc : h.headerContext with
    | none => rfl
    | some c =>
      obtain ⟨hne, -, hts, hte⟩ := hok.2.1 c hc
      have h1 : trimStart (' ' :: c) = c := by
        unfold trimStart
        rw [List.dropWhile_cons_of_pos (by decide)]
        exact hts
      have h2 : trim (' ' :: c) = c := by
        unfold trim
        rw [h1, hte]
      simp only [h1, h2, hne, if_false]

theorem operations_lines (ops : List Operation) (hok : ∀ op ∈ ops, OperationOk op) :
    List.Forall₂ (fun l op => lineOperation (trimEnd l) = some op)
      (ops.map serializeOperation) ops := by
  induction ops with
  | nil => exact List.Forall₂.nil
  | cons op rest ih =>
    have h := hok op (List.mem_cons_self _ _)
    refine List.Forall₂.cons ?_ (ih (fun o ho => hok o (List.mem_cons_of_mem _ ho)))
    rw [h.2.1]
    exact h.1

/-- Reading the lines of a hunk appends the hunk to the file in progress. -/
theorem foldl_parseLine_serializeHunk (h : Hunk) (hok : HunkOk h) (hne : h.operations ≠ [])
    (st : ParseState) (files : List FileChange) (f : FileChange)
    (hst : Pending st files f) :
    Pending ((serializeHunk h).foldl parseLine st) files
      { f with hunks := f.hunks ++ [h] } := by
  obtain ⟨hfiles, hpend⟩ := hst
  unfold serializeHunk
  rw [List.foldl_cons, foldl_parseLine_operations _ _ (operations_lines _ hok.2.2.1)]
  unfold parseLine
  rw [processLine_eq_stepByKind, serializeHunkHeader_trimmed h hok,
    stepByKind_hunkHeader _ _ (serializeHunkHeader_isHeader h), serializeHunkHeader_info h hok]
  refine ⟨hfiles, ?_⟩
  simp only [List.nil_append]
  rw [hpend, finishCurrentHunk_some]
  have hlen : h.operations.length > 0 := List.length_pos.mpr hne
  simp only [hlen, if_true]

theorem foldl_parseLine_serializeHunks (hs : List Hunk) :
    ∀ (st : ParseState) (files : List FileChange) (f : FileChange),
      (∀ h ∈ hs, HunkOk h ∧ h.operations ≠ []) → Pending st files f →
      Pending ((hs.map serializeHunk).flatten.foldl parseLine st) files
        { f with hunks := f.hunks ++ hs } := by
  induction hs with
  | nil =>
    intro st files f _ hst
    simpa using hst
  | cons h rest ih =>
    intro st files f hok hst
    rw [List.map_cons, List.flatten_cons, List.foldl_append]
    have h1 := foldl_parseLine_serializeHunk h (hok h (List.mem_cons_self _ _)).1
      (hok h (List.mem_cons_self _ _)).2 st files f hst
    have h2 := ih _ files _ (fun x hx => hok x (List.mem_cons_of_mem _ hx)) h1
    simpa [List.append_assoc] using h2

theorem serializeOldHeader_form (f : FileChange) (hname : NameOk f.filename) :
    trimEnd (serializeOldHeader f) = serializeOldHeader f
    ∧ isFileHeader (serializeOldHeader f) = true
    ∧ (fileHeaderInfo (serializeOldHeader f)).2 = f.isNewFile := by
  unfold serializeOldHeader
  cases hn : f.isNewFile with
  | true => simp only [if_true]; decide
  | false =>
    simp only [if_false, Bool.false_eq_true]
    refine ⟨trimEnd_append_of_trimmed _ _ hname.1 hname.2.2, ?_, ?_⟩
    · simp [isFileHeader, startsWith]
    · simp [fileHeaderInfo, startsWith]

/-- Reading the lines of a file records the file behind those recorded before. -/
theorem foldl_parseLine_serializeFile (f : FileChange) (hok : FileOk f)
    (hne : f.hunks ≠ []) (hops : ∀ h ∈ f.hunks, h.operations ≠ []) (st : ParseState) :
    finishParse ((serializeFile f).foldl parseLine st) = finishParse st ++ [f] := by
  obtain ⟨h1, h2, h3⟩ := serializeOldHeader_form f hok.1
  obtain ⟨-, h5, h6⟩ := plusFileName_form f.filename hok.1.1 hok.1.2.1
  have h4 : isFileHeader ("+++ b/".toList ++ f.filename) = false :=
    (plusFileName_form f.filename hok.1.1 hok.1.2.1).1
  have h7 : trimEnd ("+++ b/".toList ++ f.filename) = "+++ b/".toList ++ f.filename :=
    trimEnd_append_of_trimmed _ _ hok.1.1 hok.1.2.2
  have hstart : Pending
      (parseLine (parseLine st (serializeOldHeader f)) ("+++ b/".toList ++ f.filename))
      (finishParse st) { filename := f.filename, hunks := [], isNewFile := f.isNewFile } := by
    unfold parseLine
    rw [processLine_eq_stepByKind, processLine_eq_stepByKind, h1, h7]
    unfold stepByKind
    simp only [h2, h3, h4, h5, h6, if_true, if_false, Bool.false_eq_true]
    exact ⟨rfl, rfl⟩
  unfold serializeFile
  rw [List.foldl_cons, List.foldl_cons]
  have hp := foldl_parseLine_serializeHunks f.hunks _ _ _
    (fun h hh => ⟨hok.2 h hh, hops h hh⟩) hstart
  obtain ⟨hfiles, hpend⟩ := hp
  unfold finishParse
  rw [hpend, hfiles]
  simp only [List.nil_append]
  exact finishCurrentFile_some _ _ hne

theorem foldl_parseLine_serializeLines (fs : List FileChange) :
    ∀ st : ParseState,
      (∀ f ∈ fs, FileOk f ∧ f.hunks ≠ [] ∧ ∀ h ∈ f.hunks, h.operations ≠ []) →
      finishParse ((serializeLines fs).foldl parseLine st) = finishParse st ++ fs := by
  induction fs with
  | nil => intro st _; simp [serializeLines]
  | cons f rest ih =>
    intro st hok
    unfold serializeLines
    rw [List.map_cons, List.flatten_cons, List.foldl_append]
    have hf := hok f (List.mem_cons_self _ _)
    have h2 := ih ((serializeFile f).foldl parseLine st)
      (fun x hx => hok x (List.mem_cons_of_mem _ hx))
    unfold serializeLines at h2
    rw [h2, foldl_parseLine_serializeFile f hf.1 hf.2.1 hf.2.2 st]
    simp

end DiffApplier

namespace DiffApplier

theorem clean_of_isDigit (c : Char) (h : isDigit c = true) :
    c ≠ '\n' ∧ c.toNat ≠ 0xA0 := by
  unfold isDigit at h
  simp only [Bool.and_eq_true, decide_eq_true_eq] at h
  refine ⟨?_, by omega⟩
  rintro rfl
  revert h
  decide

theorem ne_newline_of_not_terminator (c : Char) (h : isLineTerminator c = false) :
    c ≠ '\n' := by
  rintro rfl
  revert h
  decide

theorem serializeHunkHeader_clean (h : Hunk) (hok : HunkOk h)
    (hnb : ∀ c, h.headerContext = some c → NoNbsp c) :
    ∀ c ∈ serializeHunkHeader h, c ≠ '\n' ∧ c.toNat ≠ 0xA0 := by
  unfold serializeHunkHeader
  cases h.lineNumber with
  | none => exact (by decide : ∀ c ∈ "@@".toList, c ≠ '\n' ∧ c.toNat ≠ 0xA0)
  | some n =>
    have hd : ∀ c ∈ showNat n, c ≠ '\n' ∧ c.toNat ≠ 0xA0 :=
      fun c hc => clean_of_isDigit c (showNat_digits n c hc)
    have hctx : ∀ c ∈ (match h.headerContext with
        | some c => ' ' :: c
        | none => ([] : Str)), c ≠ '\n' ∧ c.toNat ≠ 0xA0 := by
      intro x hx
      cases hc : h.headerContext with
      | none => rw [hc] at hx; cases hx
      | some c =>
        rw [hc] at hx
        rcases List.mem_cons.mp hx with rfl | hx
        · decide
        · exact ⟨ne_newline_of_not_terminator x ((hok.2.1 c hc).2.1 x hx), hnb c hc x hx⟩
    intro c hc
    simp only [List.mem_append] at hc
    rcases hc with ((((hc | hc) | hc) | hc) | hc) | hc
    · revert c; decide
    · exact hd c hc
    · revert c; decide
    · exact hd c hc
    · revert c; decide
    · exact hctx c hc

theorem serializeOperation_clean (op : Operation) (hok : OperationOk op)
    (hnb : NoNbsp op.line) : ∀ c ∈ serializeOperation op, c ≠ '\n' ∧ c.toNat ≠ 0xA0 := by
  intro c hc
  unfold serializeOperation at hc
  rcases List.mem_cons.mp hc with rfl | hc
  · cases op.type <;> decide
  · exact ⟨fun h => hok.2.2 (h ▸ hc), hnb c hc⟩

theorem name_clean (s : Str) (hok : NameOk s) (hnb : NoNbsp s) :
    ∀ c ∈ s, c ≠ '\n' ∧ c.toNat ≠ 0xA0 :=
  fun c hc => ⟨ne_newline_of_not_terminator c (hok.2.1 c hc), hnb c hc⟩

theorem serializeFile_clean (f : FileChange) (hok : FileOk f) (hnb : FileNoNbsp f) :
    ∀ l ∈ serializeFile f, ∀ c ∈ l, c ≠ '\n' ∧ c.toNat ≠ 0xA0 := by
  have hname := name_clean f.filename hok.1 hnb.1
  intro l hl
  unfold serializeFile at hl
  rcases List.mem_cons.mp hl with rfl | hl
  · unfold serializeOldHeader
    split
    · decide
    · intro c hc
      rcases List.mem_append.mp hc with hc2 | hc2
      · exact (by decide : ∀ c ∈ "--- a/".toList, c ≠ '\n' ∧ c.toNat ≠ 0xA0) c hc2
      · exact hname c hc2
  · rcases List.mem_cons.mp hl with rfl | hl
    · intro c hc
      rcases List.mem_append.mp hc with hc2 | hc2
      · exact (by decide : ∀ c ∈ "+++ b/".toList, c ≠ '\n' ∧ c.toNat ≠ 0xA0) c hc2
      · exact hname c hc2
    · rw [List.mem_flatten] at hl
      obtain ⟨ls, hls, hl⟩ := hl
      rw [List.mem_map] at hls
      obtain ⟨h, hh, rfl⟩ := hls
      unfold serializeHunk at hl
      rcases List.mem_cons.mp hl with rfl | hl
      · exact serializeHunkHeader_clean h (hok.2 h hh) (hnb.2 h hh).1
      · rw [List.mem_map] at hl
        obtain ⟨op, hop, rfl⟩ := hl
        exact serializeOperation_clean op ((hok.2 h hh).2.2.1 op hop) ((hnb.2 h hh).2 op hop)

theorem diffLines_serialize (fs : List FileChange) (hne : fs ≠ [])
    (hok : ∀ f ∈ fs, FileOk f) (hnb : ∀ f ∈ fs, FileNoNbsp f) :
    diffLines (serialize fs) = serializeLines fs := by
  have hclean : ∀ l ∈ serializeLines fs, ∀ c ∈ l, c ≠ '\n' ∧ c.toNat ≠ 0xA0 := by
    intro l hl
    unfold serializeLines at hl
    rw [List.mem_flatten] at hl
    obtain ⟨ls, hls, hl⟩ := hl
    rw [List.mem_map] at hls
    obtain ⟨f, hf, rfl⟩ := hls
    exact serializeFile_clean f (hok f hf) (hnb f hf) l hl
  have hlines : serializeLines fs ≠ [] := by
    cases fs with
    | nil => exact absurd rfl hne
    | cons f rest => simp [serializeLines, serializeFile]
  unfold diffLines serialize
  rw [splitLines_joinLines _ hlines (fun l hl hmem => (hclean l hl _ hmem).1 rfl)]
  conv_rhs => rw [← List.map_id (serializeLines fs)]
  apply List.map_congr_left
  intro l hl
  exact replaceNbsp_of_noNbsp l (fun c hc => (hclean l hl c hc).2)

/-- Reading what was written: a list of well-formed files comes back from its text. -/
theorem parseDiff_serialize (fs : List FileChange)
    (hok : ∀ f ∈ fs, FileOk f ∧ f.hunks ≠ [] ∧ ∀ h ∈ f.hunks, h.operations ≠ [])
    (hnb : ∀ f ∈ fs, FileNoNbsp f) : parseDiff (serialize fs) = fs := by
  by_cases hne : fs = []
  · subst hne
    decide
  · unfold parseDiff
    rw [diffLines_serialize fs hne (fun f hf => (hok f hf).1) hnb,
      foldl_parseLine_serializeLines fs initialParseState hok]
    rfl

theorem initialParseState_ok : StateOk initialParseState := by
  refine ⟨fun f hf => absurd hf (List.not_mem_nil f), fun f hf => ?_, fun op hop => ?_,
    fun _ => rfl, fun c hc => ?_, fun n hn => ?_⟩
  · simp [initialParseState] at hf
  · simp [initialParseState] at hop
  · simp [initialParseState] at hc
  · simp [initialParseState] at hn

theorem replaceNbsp_no_newline (l : Str) (h : '\n' ∉ l) : '\n' ∉ replaceNbsp l := by
  intro hmem
  unfold replaceNbsp at hmem
  rw [List.mem_map] at hmem
  obtain ⟨c, hc, he⟩ := hmem
  by_cases hn : c.toNat = 0xA0
  · simp only [hn, if_true] at he
    revert he
    decide
  · simp only [hn, if_false] at he
    exact h (he ▸ hc)

/-- The round trip for every diff text whose file-header and `+++ b/` lines, also those
with a run of `+` in front, contain no line terminator apart from trailing white
space. -/
theorem parseDiff_serialize_parseDiff (t : Str) (hwf : headersOnOneLine t = true) :
    parseDiff (serialize (parseDiff t)) = parseDiff t := by
  have hnl : ∀ l ∈ diffLines t, '\n' ∉ l := by
    intro l hl
    unfold diffLines at hl
    rw [List.mem_map] at hl
    obtain ⟨l0, hl0, rfl⟩ := hl
    exact replaceNbsp_no_newline l0 (splitLines_no_newline t l0 hl0)
  have hhead : ∀ l ∈ diffLines t,
      (isFileHeader (trimEnd l) || isPlusFileLine (trimEnd l)) = true →
        ∀ c ∈ trimEnd l, isLineTerminator c = false := by
    intro l hl hh c hc
    unfold headersOnOneLine at hwf
    rw [List.all_eq_true] at hwf
    have := hwf l hl
    rw [hh] at this
    simp only [Bool.not_true, Bool.false_or, List.all_eq_true, Bool.not_eq_true'] at this
    exact this c hc
  have hnbl : ∀ l ∈ diffLines t, NoNbsp l := by
    intro l hl
    unfold diffLines at hl
    rw [List.mem_map] at hl
    obtain ⟨l0, -, rfl⟩ := hl
    exact noNbsp_replaceNbsp l0
  have h1 : ∀ f ∈ parseDiff t, FileOk f :=
    finishParse_ok _ (foldl_parseLine_ok _ hnl hhead _ initialParseState_ok)
  have h2 : ∀ f ∈ parseDiff t, f.hunks ≠ [] ∧ HunksNonEmpty f :=
    finishParse_nonEmpty _ (foldl_parseLine_nonEmpty _ _
      ⟨fun f hf => absurd hf (List.not_mem_nil f),
       fun f hf => by simp [initialParseState] at hf⟩)
  have h3 : ∀ f ∈ parseDiff t, FileNoNbsp f := by
    apply finishParse_noNbsp
    apply foldl_parseLine_noNbsp _ hnbl
    refine ⟨fun f hf => absurd hf (List.not_mem_nil f), fun f hf => ?_, fun op hop => ?_,
      fun c hc => ?_⟩
    · simp [initialParseState] at hf
    · simp [initialParseState] at hop
    · simp [initialParseState] at hc
  exact parseDiff_serialize _ (fun f hf => ⟨h1 f hf, (h2 f hf).1, (h2 f hf).2⟩) h3

theorem headersOnOneLine_of_wellFormed (t : Str) (hwf : wellFormedHeaders t = true) :
    headersOnOneLine t = true := by
  unfold wellFormedHeaders at hwf
  unfold headersOnOneLine
  rw [List.all_eq_true] at hwf ⊢
  intro l hl
  have h := hwf l hl
  unfold isStandardHeader at h
  cases hfh : isFileHeader (trimEnd l) <;> cases hpf : isPlusFileLine (trimEnd l) <;>
    simp_all

/-- C16. Parser round trip. Let the diff text t contain only well-formed headers
(wellFormedHeaders: every line that the parser reads as a header is one of the
standard forms, without a + in front and without a line terminator inside), and
let serialize write every file as the line --- a/filename (or --- /dev/null for a
new file), the line +++ b/filename, and every hunk as an @@ header with its line
number and header context followed by its operations, each behind its marker
character, all in order. Then parsing the text written from parseDiff t gives
parseDiff t again: the same files, hunks and operations in the same order. -/
theorem parseDiff_serialize_roundtrip (t : Str) (hwf : wellFormedHeaders t = true) :
    parseDiff (serialize (parseDiff t)) = parseDiff t :=
  parseDiff_serialize_parseDiff t (headersOnOneLine_of_wellFormed t hwf)

end DiffApplier

namespace DiffApplier

set_option maxRecDepth 100000 in
/-- The round trip at a diff with a git header, a hunk with a header context, a hunk
without one whose line number is rounded to a double, and a new file whose
operations follow the file header directly. -/
theorem parseDiff_serialize_roundtrip_witness :
    wellFormedHeaders
        "diff --git a/s.js b/s.js\nindex 1..2\n--- a/s.js\n+++ b/s.js\n@@ -12,3 +12,4 @@  foo() \x7b \n c\n-old \n+new\n@@ -9007199254740993 +41 @@\n+t\n--- /dev/null\n+++ b/m.txt\n+x".toList
      = true
    ∧ parseDiff
        "diff --git a/s.js b/s.js\nindex 1..2\n--- a/s.js\n+++ b/s.js\n@@ -12,3 +12,4 @@  foo() \x7b \n c\n-old \n+new\n@@ -9007199254740993 +41 @@\n+t\n--- /dev/null\n+++ b/m.txt\n+x".toList
      = [⟨"s.js".toList,
          [⟨[⟨OpType.context, "c".toList⟩, ⟨OpType.remove, "old".toList⟩,
             ⟨OpType.add, "new".toList⟩], some "foo() \x7b".toList, some 12⟩,
           ⟨[⟨OpType.add, "t".toList⟩], none, some 9007199254740992⟩], false⟩,
         ⟨"m.txt".toList, [⟨[⟨OpType.add, "x".toList⟩], none, none⟩], true⟩]
    ∧ serialize (parseDiff
        "diff --git a/s.js b/s.js\nindex 1..2\n--- a/s.js\n+++ b/s.js\n@@ -12,3 +12,4 @@  foo() \x7b \n c\n-old \n+new\n@@ -9007199254740993 +41 @@\n+t\n--- /dev/null\n+++ b/m.txt\n+x".toList)
      = "--- a/s.js\n+++ b/s.js\n@@ -12 +12 @@ foo() \x7b\n c\n-old\n+new\n@@ -9007199254740992 +9007199254740992 @@\n+t\n--- /dev/null\n+++ b/m.txt\n@@\n+x".toList
    ∧ parseDiff (serialize (parseDiff
        "diff --git a/s.js b/s.js\nindex 1..2\n--- a/s.js\n+++ b/s.js\n@@ -12,3 +12,4 @@  foo() \x7b \n c\n-old \n+new\n@@ -9007199254740993 +41 @@\n+t\n--- /dev/null\n+++ b/m.txt\n+x".toList))
      = parseDiff
        "diff --git a/s.js b/s.js\nindex 1..2\n--- a/s.js\n+++ b/s.js\n@@ -12,3 +12,4 @@  foo() \x7b \n c\n-old \n+new\n@@ -9007199254740993 +41 @@\n+t\n--- /dev/null\n+++ b/m.txt\n+x".toList :=
  ⟨by decide, by decide, by decide, parseDiff_serialize_roundtrip _ (by decide)⟩

end DiffApplier

namespace DiffApplier

set_option maxRecDepth 100000 in
/-- The condition on the header lines is needed for the round trip: behind the git
header with the line separator U+2028 inside, the recorded name is the text up to
the separator and ends in a space, which the written header line loses when it
is read again. -/
theorem parseDiff_serialize_lineSeparator :
    headersOnOneLine "diff --git a/x b/y \u2028z\n+a".toList = false
    ∧ wellFormedHeaders "diff --git a/x b/y \u2028z\n+a".toList = false
    ∧ parseDiff "diff --git a/x b/y \u2028z\n+a".toList
        = [⟨"y ".toList, [⟨[⟨OpType.add, "a".toList⟩], none, none⟩], false⟩]
    ∧ parseDiff (serialize (parseDiff "diff --git a/x b/y \u2028z\n+a".toList))
        = [⟨"y".toList, [⟨[⟨OpType.add, "a".toList⟩], none, none⟩], false⟩] := by
  refine ⟨by decide, by decide, by decide, by decide⟩

end DiffApplier

namespace DiffApplier

/-! ## The content written back -/

theorem joinLines_cons_cons (c : Char) (l : Str) (ls : List Str) :
    joinLines ((c :: l) :: ls) = c :: joinLines (l :: ls) := by
  cases ls <;> rfl

theorem joinLines_splitLines (t : Str) : joinLines (splitLines t) = t := by
  induction t with
  | nil => rfl
  | cons c cs ih =>
    unfold splitLines
    split
    · rename_i hc
      subst hc
      cases hs : splitLines cs with
      | nil => exact absurd hs (splitLines_ne_nil cs)
      | cons l ls =>
        rw [hs] at ih
        show [] ++ '\n' :: joinLines (l :: ls) = '\n' :: cs
        rw [ih]
        rfl
    · split
      · rename_i l ls hs
        rw [hs] at ih
        rw [joinLines_cons_cons, ih]
      · rename_i hs
        exact absurd hs (splitLines_ne_nil cs)

theorem hunkLoop_context_only (hunks : List Hunk)
    (hctx : ∀ h ∈ hunks, isContextOnlyHunk h.operations = true) :
    ∀ (i : Nat) (st : HunkLoopState),
      hunkLoop hunks i st = { st with skippedHunks := st.skippedHunks + hunks.length } := by
  induction hunks with
  | nil => intro i st; rfl
  | cons h rest ih =>
    intro i st
    have hh := hctx h (List.mem_cons_self _ _)
    have hstep : hunkLoopStep st i h = { st with skippedHunks := st.skippedHunks + 1 } := by
      unfold hunkLoopStep applyHunk
      simp [hh]
    unfold hunkLoop
    rw [hstep, ih (fun x hx => hctx x (List.mem_cons_of_mem _ hx))]
    simp only [List.length_cons]
    congr 1
    omega

/-- What an existing file is written back as when the buffer behind the hunk loop
is the buffer the file was split into. -/
theorem processExistingFile_same_buffer (c : Str) (hunks : List Hunk) (w : Str)
    (hbuf : (hunkLoop (sortHunksByLineNumber hunks) 0
        { fileLines := splitLines c, successfulHunks := 0, failedHunks := 0,
          skippedHunks := 0, failedHunkDetails := [] }).fileLines = splitLines c)
    (hw : (processExistingFile c hunks).1 = some w) :
    w = c ++ (if endsWith ['\n'] c then ['\n'] else []) := by
  unfold processExistingFile at hw
  simp only at hw
  split at hw
  · simp only [Option.some.injEq] at hw
    rw [hbuf, joinLines_splitLines] at hw
    exact hw.symm
  · split at hw <;> cases hw

/-- C21, what the code does. When the buffer behind the hunk loop is the buffer
the content c was split into and the file is written, the content written is c
followed by one more newline if c ends in a newline: a content without a final
newline is written back as it is, a content with a final newline is written back
with two (the split keeps the empty text behind the final newline as a last
line, the join restores the newline, and a further one is appended). This is
the case in particular when the file has hunks and all of them are
context-only. -/
theorem processExistingFile_trailing_newline (c : Str) (hunks : List Hunk) :
    (∀ w : Str,
      (hunkLoop (sortHunksByLineNumber hunks) 0
        { fileLines := splitLines c, successfulHunks := 0, failedHunks := 0,
          skippedHunks := 0, failedHunkDetails := [] }).fileLines = splitLines c →
      (processExistingFile c hunks).1 = some w →
      (endsWith ['\n'] c = false → w = c) ∧
      (endsWith ['\n'] c = true → w = c ++ ['\n'] ∧ w ≠ c))
    ∧ (hunks ≠ [] → (∀ h ∈ hunks, isContextOnlyHunk h.operations = true) →
        (processExistingFile c hunks).1
          = some (c ++ (if endsWith ['\n'] c then ['\n'] else []))) := by
  refine ⟨?_, ?_⟩
  · intro w hbuf hw
    have h := processExistingFile_same_buffer c hunks w hbuf hw
    refine ⟨fun he => ?_, fun he => ?_⟩
    · rw [h, he]; simp
    · rw [h, he]
      simp
  · intro hne hctx
    have hperm := (foldl_insertHunk hunks [] List.Pairwise.nil).2.1
    have hsorted : ∀ h ∈ sortHunksByLineNumber hunks, isContextOnlyHunk h.operations = true := by
      intro h hh
      have : h ∈ [] ++ hunks := hperm.subset hh
      exact hctx h (by simpa using this)
    have hlen : (sortHunksByLineNumber hunks).length = hunks.length := by
      have := hperm.length_eq
      simpa using this
    have hpos : 0 < hunks.length := List.length_pos.mpr hne
    unfold processExistingFile
    simp only [hunkLoop_context_only _ hsorted, hlen, joinLines_splitLines]
    have hcond : (True ∧ (0 > 0 ∨ 0 + hunks.length > 0)) := ⟨trivial, Or.inr (by omega)⟩
    rw [if_pos hcond]

set_option maxRecDepth 100000 in
/-- C21 at the failing input: the content `a` with a final newline and one
context-only hunk. The file is written back with two newlines at the end; the
same content without the final newline is written back unchanged. -/
theorem processExistingFile_trailing_newline_witness :
    (processExistingFile "a\n".toList
        [{ operations := [⟨OpType.context, "a".toList⟩], headerContext := none,
           lineNumber := none }]).1 = some "a\n\n".toList
    ∧ (processExistingFile "a".toList
        [{ operations := [⟨OpType.context, "a".toList⟩], headerContext := none,
           lineNumber := none }]).1 = some "a".toList :=
  ⟨(processExistingFile_trailing_newline "a\n".toList
      [{ operations := [⟨OpType.context, "a".toList⟩], headerContext := none,
         lineNumber := none }]).2 (by decide) (by decide),
   (processExistingFile_trailing_newline "a".toList
      [{ operations := [⟨OpType.context, "a".toList⟩], headerContext := none,
         lineNumber := none }]).2 (by decide) (by decide)⟩

end DiffApplier

namespace DiffApplier

/-! ## The anchor -/

theorem find?_range'_eq_some (p : Nat → Bool) (n : Nat) :
    ∀ (lo i : Nat), (List.range' lo n).find? p = some i ↔
      lo ≤ i ∧ i < lo + n ∧ p i = true ∧ ∀ j, lo ≤ j → j < i → p j = false := by
  induction n with
  | zero =>
    intro lo i
    constructor
    · intro h
      simp at h
    · rintro ⟨h1, h2, -⟩
      omega
  | succ n ih =>
    intro lo i
    rw [List.range'_succ, List.find?_cons]
    cases hp : p lo with
    | true =>
      simp only [Option.some.injEq]
      constructor
      · rintro rfl
        exact ⟨Nat.le_refl _, by omega, hp, fun j h1 h2 => by omega⟩
      · rintro ⟨h1, -, -, h4⟩
        by_contra hne
        have := h4 lo (Nat.le_refl _) (by omega)
        rw [hp] at this
        exact Bool.noConfusion this
    | false =>
      simp only
      rw [ih (lo + 1) i]
      constructor
      · rintro ⟨h1, h2, h3, h4⟩
        refine ⟨by omega, by omega, h3, ?_⟩
        intro j hj1 hj2
        by_cases hj : j = lo
        · rw [hj]; exact hp
        · exact h4 j (by omega) hj2
      · rintro ⟨h1, h2, h3, h4⟩
        have hne : i ≠ lo := by
          rintro rfl
          rw [hp] at h3
          exact Bool.noConfusion h3
        exact ⟨by omega, by omega, h3, fun j hj1 hj2 => h4 j (by omega) hj2⟩

theorem firstInRange_eq_some (lo hi : Nat) (p : Nat → Bool) (i : Nat) :
    firstInRange lo hi p = some i ↔
      lo ≤ i ∧ i < hi ∧ p i = true ∧ ∀ j, lo ≤ j → j < i → p j = false := by
  unfold firstInRange
  rw [find?_range'_eq_some]
  constructor
  · rintro ⟨h1, h2, h3, h4⟩
    exact ⟨h1, by omega, h3, h4⟩
  · rintro ⟨h1, h2, h3, h4⟩
    exact ⟨h1, by omega, h3, h4⟩

theorem firstInRange_eq_none (lo hi : Nat) (p : Nat → Bool) :
    firstInRange lo hi p = none ↔ ∀ j, lo ≤ j → j < hi → p j = false := by
  constructor
  · intro h j h1 h2
    unfold firstInRange at h
    rw [List.find?_eq_none] at h
    have := h j (by rw [List.mem_range'_1]; omega)
    simpa using this
  · exact firstInRange_none

theorem startsWith_iff_prefix (p s : Str) : startsWith p s = true ↔ p <+: s := by
  unfold startsWith
  constructor
  · intro h
    have hp : p = s.take p.length := by simpa using h
    rw [hp]
    exact List.take_prefix _ _
  · rintro ⟨t, rfl⟩
    simp

/-- Embeds the meaning of `includes`: the text occurs as a contiguous part. -/
theorem includes_iff_infix (p s : Str) : includes p s = true ↔ p <:+: s := by
  induction s with
  | nil =>
    simp only [includes, List.isEmpty_iff]
    constructor
    · rintro rfl; exact List.infix_refl _
    · intro h; exact List.eq_nil_of_infix_nil h
  | cons c cs ih =>
    simp only [includes, Bool.or_eq_true, ih, startsWith_iff_prefix]
    rw [List.infix_cons_iff]

/-- The test of a scan over the lines of a buffer, as a property of the index. -/
theorem firstInRange_lines (B : List Str) (q : Str → Bool) (i : Nat) :
    firstInRange 0 B.length (lineTest B q) = some i
      ↔ FirstLineAt (fun l => q l = true) B i := by
  rw [firstInRange_eq_some]
  unfold lineTest
  constructor
  · rintro ⟨-, h2, h3, h4⟩
    refine ⟨?_, ?_⟩
    · cases hl : B[i]? with
      | none => rw [hl] at h3; exact Bool.noConfusion h3
      | some l => rw [hl] at h3; exact ⟨l, rfl, h3⟩
    · intro j hj l hl hq
      have := h4 j (Nat.zero_le _) hj
      rw [hl] at this
      simp only at this
      rw [hq] at this
      exact Bool.noConfusion this
  · rintro ⟨⟨l, hl, hq⟩, hmin⟩
    have hlt : i < B.length := by
      rcases Nat.lt_or_ge i B.length with h | h
      · exact h
      · rw [List.getElem?_eq_none h] at hl
        cases hl
    refine ⟨Nat.zero_le _, hlt, ?_, ?_⟩
    · rw [hl]; exact hq
    · intro j _ hj
      cases hlj : B[j]? with
      | none => rfl
      | some l2 =>
        have := hmin j hj l2 hlj
        simpa using this

theorem firstInRange_lines_none (B : List Str) (q : Str → Bool) :
    firstInRange 0 B.length (lineTest B q) = none
      ↔ ∀ l ∈ B, q l = false := by
  rw [firstInRange_eq_none]
  unfold lineTest
  constructor
  · intro h l hl
    obtain ⟨n, hn, rfl⟩ := List.getElem_of_mem hl
    have := h n (Nat.zero_le _) hn
    rw [List.getElem?_eq_getElem hn] at this
    exact this
  · intro h j _ hj
    rw [List.getElem?_eq_getElem hj]
    exact h _ (List.getElem_mem _)

theorem findAnchor_eq (B : List Str) (h : Str) (hne : h ≠ []) :
    findAnchor B (some h) =
      match firstInRange 0 B.length
          (lineTest B (fun l => normalizeLineForMatching l == normalizeLineForMatching h)) with
      | some i => i + 1
      | none =>
        match firstInRange 0 B.length
            (lineTest B (fun l =>
              includes (normalizeLineForMatching h) (normalizeLineForMatching l))) with
        | some i => i + 1
        | none => 0 := by
  have hemp : h.isEmpty = false := by
    cases h with
    | nil => exact absurd rfl hne
    | cons c cs => rfl
  unfold findAnchor
  simp only [hemp, Bool.false_eq_true, if_false]
  rfl

/-- C22. The anchor of a header context. Without a header context (null, or the
empty text, which the source treats alike) the anchor is 0. With a header
context h and k its matching key: if i is the smallest index of a line whose
key is exactly k, the anchor is i + 1, whatever the earlier lines contain;
if no line has the key k and i is the smallest index of a line whose key
contains k as a contiguous part, the anchor is i + 1; if no line's key contains
k, the anchor is 0. The anchor never exceeds the length of the buffer. -/
theorem findAnchor_spec (B : List Str) :
    findAnchor B none = 0
    ∧ findAnchor B (some []) = 0
    ∧ ∀ h : Str, h ≠ [] →
        (∀ i, FirstLineAt (fun l => normalizeLineForMatching l = normalizeLineForMatching h) B i →
          findAnchor B (some h) = i + 1)
        ∧ ((∀ l ∈ B, normalizeLineForMatching l ≠ normalizeLineForMatching h) →
            ∀ i, FirstLineAt
                (fun l => normalizeLineForMatching h <:+: normalizeLineForMatching l) B i →
              findAnchor B (some h) = i + 1)
        ∧ ((∀ l ∈ B, ¬ normalizeLineForMatching h <:+: normalizeLineForMatching l) →
            findAnchor B (some h) = 0)
        ∧ findAnchor B (some h) ≤ B.length := by
  refine ⟨rfl, rfl, ?_⟩
  intro h hne
  have hexact : ∀ i, FirstLineAt
      (fun l => normalizeLineForMatching l = normalizeLineForMatching h) B i ↔
      FirstLineAt (fun l => (normalizeLineForMatching l == normalizeLineForMatching h) = true)
        B i := by
    intro i
    simp only [FirstLineAt, beq_iff_eq]
  have hpart : ∀ i, FirstLineAt
      (fun l => normalizeLineForMatching h <:+: normalizeLineForMatching l) B i ↔
      FirstLineAt (fun l => includes (normalizeLineForMatching h)
        (normalizeLineForMatching l) = true) B i := by
    intro i
    simp only [FirstLineAt, includes_iff_infix]
  refine ⟨?_, ?_, ?_, findAnchor_le B (some h)⟩
  · intro i hi
    rw [hexact, ← firstInRange_lines] at hi
    rw [findAnchor_eq B h hne, hi]
  · intro hno i hi
    rw [hpart, ← firstInRange_lines] at hi
    have hnone := (firstInRange_lines_none B
      (fun l => normalizeLineForMatching l == normalizeLineForMatching h)).mpr
      (fun l hl => by simpa using hno l hl)
    rw [findAnchor_eq B h hne, hnone, hi]
  · intro hno
    have hnone2 := (firstInRange_lines_none B
      (fun l => includes (normalizeLineForMatching h) (normalizeLineForMatching l))).mpr
      (fun l hl => by
        have := hno l hl
        rw [← includes_iff_infix] at this
        simpa using this)
    have hnone := (firstInRange_lines_none B
      (fun l => normalizeLineForMatching l == normalizeLineForMatching h)).mpr
      (fun l hl => by
        have := hno l hl
        have hne2 : normalizeLineForMatching l ≠ normalizeLineForMatching h := by
          intro he
          exact this (he ▸ List.infix_refl _)
        simpa using hne2)
    rw [findAnchor_eq B h hne, hnone, hnone2]

/-- An example for C22: the first line contains the key of the header context, the
third line has exactly that key, and the anchor is behind the third line;
without the third line the anchor is behind the first. -/
theorem findAnchor_example :
    findAnchor ["  function foo( a ) \x7b  // x".toList, "b".toList, "function foo(a) \x7b".toList]
        (some "function foo(a) \x7b".toList) = 3
    ∧ findAnchor ["  function foo( a ) \x7b  // x".toList, "b".toList]
        (some "function foo(a) \x7b".toList) = 1
    ∧ findAnchor ["a".toList, "b".toList] (some "function foo(a) \x7b".toList) = 0 := by
  refine ⟨by decide, by decide, by decide⟩

end DiffApplier

namespace DiffApplier

/-! ## Agreement with strict patching -/

theorem searchForward_eq_some (result : List Str) (key : Str) (pos window i : Nat) :
    searchForward result key pos window = some i ↔
      pos ≤ i ∧ i < pos + window ∧
      (∃ l, result[i]? = some l ∧ normalizeLineForMatching l = key) ∧
      ∀ j, pos ≤ j → j < i → ∀ l, result[j]? = some l → normalizeLineForMatching l ≠ key := by
  unfold searchForward
  rw [firstInRange_eq_some]
  constructor
  · rintro ⟨h1, h2, h3, h4⟩
    have hlt : i < result.length := by omega
    rw [List.getElem?_eq_getElem hlt] at h3
    refine ⟨h1, by omega, ⟨result[i], List.getElem?_eq_getElem hlt, by simpa using h3⟩, ?_⟩
    intro j hj1 hj2 l hl
    have := h4 j hj1 hj2
    rw [hl] at this
    simpa using this
  · rintro ⟨h1, h2, ⟨l, hl, hk⟩, h4⟩
    have hlt : i < result.length := by
      rcases Nat.lt_or_ge i result.length with h | h
      · exact h
      · rw [List.getElem?_eq_none h] at hl
        cases hl
    refine ⟨h1, by omega, ?_, ?_⟩
    · rw [hl]
      simpa using hk
    · intro j hj1 hj2
      cases hlj : result[j]? with
      | none => rfl
      | some l2 => simpa using h4 j hj1 hj2 l2 hlj

theorem searchForward_at_cursor (result : List Str) (key : Str) (pos window : Nat) (l : Str)
    (hw : 0 < window) (hl : result[pos]? = some l) (hk : normalizeLineForMatching l = key) :
    searchForward result key pos window = some pos := by
  rw [searchForward_eq_some]
  exact ⟨Nat.le_refl _, by omega, ⟨l, hl, hk⟩, fun j h1 h2 => by omega⟩

theorem attemptLoop_of_strictReplay (fileLines : List Str) (ops : List Operation) :
    ∀ (result : List Str) (q n : Nat) (R : List Str),
      strictReplay ops result q = some R →
      attemptLoop fileLines ops result q n
        = { result := R,
            success := decide (n + (ops.filter (fun op => op.type ≠ OpType.context)).length > 0),
            errorReason := none } := by
  induction ops with
  | nil =>
    intro result q n R h
    simp only [strictReplay, Option.some.injEq] at h
    subst h
    simp [attemptLoop]
  | cons op rest ih =>
    intro result q n R h
    unfold strictReplay at h
    unfold attemptLoop
    cases ht : op.type with
    | context =>
      rw [ht] at h
      simp only at h ⊢
      cases hl : result[q]? with
      | none => rw [hl] at h; cases h
      | some l =>
        rw [hl] at h
        simp only at h
        split at h
        · rename_i hk
          rw [searchForward_at_cursor result _ q 10 l (by decide) hl hk]
          simp only
          rw [ih result (q + 1) n R h]
          simp [List.filter_cons, ht]
        · cases h
    | remove =>
      rw [ht] at h
      simp only at h ⊢
      cases hl : result[q]? with
      | none => rw [hl] at h; cases h
      | some l =>
        rw [hl] at h
        simp only at h
        split at h
        · rename_i hk
          rw [searchForward_at_cursor result _ q 5 l (by decide) hl hk]
          simp only
          rw [ih (spliceRemove result q) q (n + 1) R h]
          simp only [List.filter_cons, ht]
          simp
        · cases h
    | add =>
      rw [ht] at h
      simp only at h ⊢
      rw [ih _ (q + 1) (n + 1) R h]
      simp only [List.filter_cons, ht]
      simp

/-- C27. The applier agrees with strict patching. For every buffer B, offset p
and operation list with at least one add or remove operation: if the strict
replay of the operations at p succeeds with the buffer R (strictReplay: each
context or remove operation finds its key on the line under the cursor), then
attemptApplyHunk at p succeeds with exactly R. -/
theorem attemptApplyHunk_of_strictReplay (B : List Str) (ops : List Operation) (p : Nat)
    (R : List Str) (hchange : ∃ op ∈ ops, op.type ≠ OpType.context)
    (hstrict : strictReplay ops B p = some R) :
    attemptApplyHunk B ops p = { result := R, success := true, errorReason := none } := by
  unfold attemptApplyHunk
  rw [attemptLoop_of_strictReplay B ops B p 0 R hstrict]
  obtain ⟨op, hop, ht⟩ := hchange
  have hmem : op ∈ ops.filter (fun op => op.type ≠ OpType.context) :=
    List.mem_filter.mpr ⟨hop, by simpa using ht⟩
  have hpos := List.length_pos_of_mem hmem
  simp only [Nat.zero_add, hpos, decide_True]

/-- Witness for C27: on the buffer a, b, c the operations context a, remove b, add x,
context c replay strictly at offset 0 to a, x, c, and so does the applier. -/
theorem attemptApplyHunk_of_strictReplay_witness :
    strictReplay
        [⟨OpType.context, " a".toList⟩, ⟨OpType.remove, "b ".toList⟩, ⟨OpType.add, "x".toList⟩,
         ⟨OpType.context, "c".toList⟩]
        ["a".toList, "b".toList, "c".toList] 0
      = some ["a".toList, "x".toList, "c".toList]
    ∧ attemptApplyHunk ["a".toList, "b".toList, "c".toList]
        [⟨OpType.context, " a".toList⟩, ⟨OpType.remove, "b ".toList⟩, ⟨OpType.add, "x".toList⟩,
         ⟨OpType.context, "c".toList⟩] 0
      = { result := ["a".toList, "x".toList, "c".toList], success := true,
          errorReason := none } :=
  ⟨by decide,
   attemptApplyHunk_of_strictReplay ["a".toList, "b".toList, "c".toList]
     [⟨OpType.context, " a".toList⟩, ⟨OpType.remove, "b ".toList⟩, ⟨OpType.add, "x".toList⟩,
      ⟨OpType.context, "c".toList⟩] 0 ["a".toList, "x".toList, "c".toList]
     ⟨⟨OpType.add, "x".toList⟩, by decide, by decide⟩ (by decide)⟩

end DiffApplier

namespace DiffApplier

/-! ## The search windows of the applier -/

theorem searchForward_eq_some_iff (result : List Str) (key : Str) (pos window i : Nat) :
    searchForward result key pos window = some i ↔
      pos ≤ i ∧ i < pos + window ∧ HasKeyAt result key i ∧
      ∀ j, pos ≤ j → j < i → ¬ HasKeyAt result key j := by
  rw [searchForward_eq_some]
  constructor
  · rintro ⟨h1, h2, h3, h4⟩
    exact ⟨h1, h2, h3, fun j hj1 hj2 ⟨l, hl, hk⟩ => h4 j hj1 hj2 l hl hk⟩
  · rintro ⟨h1, h2, h3, h4⟩
    exact ⟨h1, h2, h3, fun j hj1 hj2 l hl hk => h4 j hj1 hj2 ⟨l, hl, hk⟩⟩

theorem searchForward_eq_none_iff (result : List Str) (key : Str) (pos window : Nat) :
    searchForward result key pos window = none ↔
      ∀ j, pos ≤ j → j < pos + window → ¬ HasKeyAt result key j := by
  unfold searchForward
  rw [firstInRange_eq_none]
  constructor
  · intro h j hj1 hj2 ⟨l, hl, hk⟩
    have hlt : j < result.length := by
      rcases Nat.lt_or_ge j result.length with h | h
      · exact h
      · rw [List.getElem?_eq_none h] at hl
        cases hl
    have := h j hj1 (by omega)
    rw [hl] at this
    simp only [beq_eq_false_iff_ne, ne_eq] at this
    exact this hk
  · intro h j hj1 hj2
    cases hl : result[j]? with
    | none => rfl
    | some l =>
      have := h j hj1 (by omega)
      simp only [beq_eq_false_iff_ne, ne_eq]
      exact fun hk => this ⟨l, hl, hk⟩

theorem backwardTest_iff (result : List Str) (key : Str) (j : Nat) :
    (match result[j]? with
      | some l => !l.isEmpty && normalizeLineForMatching l == key
      | none => false) = true ↔ HasKeyNonEmptyAt result key j := by
  cases hl : result[j]? with
  | none =>
    simp only [Bool.false_eq_true, false_iff]
    rintro ⟨l, hl2, -⟩
    rw [hl] at hl2
    cases hl2
  | some l =>
    simp only [Bool.and_eq_true, Bool.not_eq_true', List.isEmpty_eq_false, beq_iff_eq]
    constructor
    · rintro ⟨h1, h2⟩
      exact ⟨l, hl, h1, h2⟩
    · rintro ⟨l2, hl2, h1, h2⟩
      rw [hl] at hl2
      cases hl2
      exact ⟨h1, h2⟩

theorem searchBackward_eq_some_iff (result : List Str) (key : Str) (pos window i : Nat) :
    searchBackward result key pos window = some i ↔
      pos - window ≤ i ∧ i < pos ∧ HasKeyNonEmptyAt result key i ∧
      ∀ j, pos - window ≤ j → j < i → ¬ HasKeyNonEmptyAt result key j := by
  unfold searchBackward
  rw [firstInRange_eq_some]
  constructor
  · rintro ⟨h1, h2, h3, h4⟩
    refine ⟨h1, h2, (backwardTest_iff result key i).mp h3, ?_⟩
    intro j hj1 hj2 hh
    have h5 : true = false := ((backwardTest_iff result key j).mpr hh).symm.trans (h4 j hj1 hj2)
    exact Bool.noConfusion h5
  · rintro ⟨h1, h2, h3, h4⟩
    refine ⟨h1, h2, (backwardTest_iff result key i).mpr h3, ?_⟩
    intro j hj1 hj2
    by_contra hne
    simp only [Bool.not_eq_false] at hne
    exact h4 j hj1 hj2 ((backwardTest_iff result key j).mp hne)

theorem searchBackward_eq_none_iff (result : List Str) (key : Str) (pos window : Nat) :
    searchBackward result key pos window = none ↔
      ∀ j, pos - window ≤ j → j < pos → ¬ HasKeyNonEmptyAt result key j := by
  unfold searchBackward
  rw [firstInRange_eq_none]
  constructor
  · intro h j hj1 hj2 hh
    have h5 : true = false := ((backwardTest_iff result key j).mpr hh).symm.trans (h j hj1 hj2)
    exact Bool.noConfusion h5
  · intro h j hj1 hj2
    by_contra hne
    simp only [Bool.not_eq_false] at hne
    exact h j hj1 hj2 ((backwardTest_iff result key j).mp hne)

theorem attemptApplyHunk_context_add_eq (B : List Str) (p : Nat) (c x : Str) :
    attemptApplyHunk B [⟨OpType.context, c⟩, ⟨OpType.add, x⟩] p =
      match searchForward B (normalizeLineForMatching c) p 10 with
      | some j => { result := spliceInsert B (j + 1) x, success := true, errorReason := none }
      | none =>
        match searchBackward B (normalizeLineForMatching c) p 3 with
        | some j => { result := spliceInsert B (j + 1) x, success := true, errorReason := none }
        | none => { result := B, success := false, errorReason := some (contextNotFound c) } := by
  unfold attemptApplyHunk
  simp only [attemptLoop]
  cases searchForward B (normalizeLineForMatching c) p 10 with
  | some j => simp
  | none =>
    cases searchBackward B (normalizeLineForMatching c) p 3 with
    | some j => simp
    | none => simp

theorem attemptApplyHunk_remove_add_eq (B : List Str) (p : Nat) (r x : Str) :
    attemptApplyHunk B [⟨OpType.remove, r⟩, ⟨OpType.add, x⟩] p =
      match searchForward B (normalizeLineForMatching r) p 5 with
      | some j =>
        { result := spliceInsert (spliceRemove B j) j x, success := true, errorReason := none }
      | none =>
        match searchBackward B (normalizeLineForMatching r) p 2 with
        | some j =>
          { result := spliceInsert (spliceRemove B j) j x, success := true,
            errorReason := none }
        | none => { result := B, success := false, errorReason := some (removeNotFound r) } := by
  unfold attemptApplyHunk
  simp only [attemptLoop]
  cases searchForward B (normalizeLineForMatching r) p 5 with
  | some j => simp
  | none =>
    cases searchBackward B (normalizeLineForMatching r) p 2 with
    | some j => simp
    | none => simp

/-- C25, what the code does. For the operations context c, add x at offset p, with
k the key of c: if j is the smallest index in the forward window (p up to p + 10,
the end excluded) of a line with the key k, the attempt succeeds and inserts x at
j + 1; if the forward window has no such line and j is the smallest index in the
backward window (p - 3 up to p, the end excluded) of a line that is not the empty
text and has the key k, the attempt succeeds and inserts x at j + 1; if neither
window has such a line, the attempt fails, returns the buffer and names the
trimmed context line. An empty line in the backward window is passed over,
although the forward window accepts it. -/
theorem attemptApplyHunk_context_add (B : List Str) (p : Nat) (c x : Str) :
    (∀ j, p ≤ j → j < p + 10 → HasKeyAt B (normalizeLineForMatching c) j →
        (∀ i, p ≤ i → i < j → ¬ HasKeyAt B (normalizeLineForMatching c) i) →
        attemptApplyHunk B [⟨OpType.context, c⟩, ⟨OpType.add, x⟩] p
          = { result := spliceInsert B (j + 1) x, success := true, errorReason := none })
    ∧ ((∀ i, p ≤ i → i < p + 10 → ¬ HasKeyAt B (normalizeLineForMatching c) i) →
        ∀ j, p - 3 ≤ j → j < p → HasKeyNonEmptyAt B (normalizeLineForMatching c) j →
        (∀ i, p - 3 ≤ i → i < j → ¬ HasKeyNonEmptyAt B (normalizeLineForMatching c) i) →
        attemptApplyHunk B [⟨OpType.context, c⟩, ⟨OpType.add, x⟩] p
          = { result := spliceInsert B (j + 1) x, success := true, errorReason := none })
    ∧ ((∀ i, p ≤ i → i < p + 10 → ¬ HasKeyAt B (normalizeLineForMatching c) i) →
        (∀ i, p - 3 ≤ i → i < p → ¬ HasKeyNonEmptyAt B (normalizeLineForMatching c) i) →
        attemptApplyHunk B [⟨OpType.context, c⟩, ⟨OpType.add, x⟩] p
          = { result := B, success := false,
              errorReason := some ("Context line not found: \"".toList ++ trim c
                ++ "\"".toList) }) := by
  refine ⟨?_, ?_, ?_⟩
  · intro j h1 h2 h3 h4
    rw [attemptApplyHunk_context_add_eq,
      (searchForward_eq_some_iff B _ p 10 j).mpr ⟨h1, h2, h3, h4⟩]
  · intro hf j h1 h2 h3 h4
    rw [attemptApplyHunk_context_add_eq, (searchForward_eq_none_iff B _ p 10).mpr hf,
      (searchBackward_eq_some_iff B _ p 3 j).mpr ⟨h1, h2, h3, h4⟩]
  · intro hf hb
    rw [attemptApplyHunk_context_add_eq, (searchForward_eq_none_iff B _ p 10).mpr hf,
      (searchBackward_eq_none_iff B _ p 3).mpr hb]
    rfl

/-- C25 at the failing input: the buffer of an empty line and the line a, the
cursor at 1, a context operation with the empty text. The empty line is in the
backward window and has the key of the operation, but the attempt fails. When the
empty line is in the forward window (cursor at 0), the attempt succeeds. -/
theorem attemptApplyHunk_context_add_witness :
    HasKeyAt ["".toList, "a".toList] (normalizeLineForMatching "".toList) 0
    ∧ attemptApplyHunk ["".toList, "a".toList]
        [⟨OpType.context, "".toList⟩, ⟨OpType.add, "x".toList⟩] 1
      = { result := ["".toList, "a".toList], success := false,
          errorReason := some ("Context line not found: \"".toList ++ trim "".toList
            ++ "\"".toList) }
    ∧ attemptApplyHunk ["".toList, "a".toList]
        [⟨OpType.context, "".toList⟩, ⟨OpType.add, "x".toList⟩] 0
      = { result := ["".toList, "x".toList, "a".toList], success := true,
          errorReason := none } :=
  ⟨⟨"".toList, rfl, rfl⟩,
   (attemptApplyHunk_context_add ["".toList, "a".toList] 1 "".toList "x".toList).2.2
     (by
       intro i h1 h2 ⟨l, hl, hk⟩
       have hi : i = 1 := by
         rcases Nat.lt_or_ge i 2 with h | h
         · omega
         · rw [List.getElem?_eq_none (by simpa using h)] at hl
           cases hl
       subst hi
       simp only [List.getElem?_cons_succ, List.getElem?_cons_zero, Option.some.injEq] at hl
       subst hl
       revert hk
       decide)
     (by
       intro i h1 h2 ⟨l, hl, hne, hk⟩
       have hi : i = 0 := by omega
       subst hi
       simp only [List.getElem?_cons_zero, Option.some.injEq] at hl
       exact hne hl.symm),
   by decide⟩

end DiffApplier

namespace DiffApplier

theorem spliceInsert_spliceRemove (B : List Str) (j : Nat) (x : Str) (hj : j < B.length) :
    spliceInsert (spliceRemove B j) j x = B.set j x := by
  unfold spliceInsert spliceRemove
  have hlen : (B.take j).length = j := by
    rw [List.length_take]
    omega
  rw [List.take_append_eq_append_take, List.drop_append_eq_append_drop, hlen]
  simp only [Nat.sub_self, List.take_zero, List.append_nil, List.drop_zero]
  rw [List.take_take, Nat.min_self, List.drop_take, Nat.sub_self, List.take_zero,
    List.nil_append, List.set_eq_take_append_cons_drop]
  simp [hj]

theorem hasKeyAt_lt {B : List Str} {key : Str} {j : Nat} (h : HasKeyAt B key j) :
    j < B.length := by
  obtain ⟨l, hl, -⟩ := h
  rcases Nat.lt_or_ge j B.length with h | h
  · exact h
  · rw [List.getElem?_eq_none h] at hl
    cases hl

theorem hasKeyNonEmptyAt_lt {B : List Str} {key : Str} {j : Nat}
    (h : HasKeyNonEmptyAt B key j) : j < B.length := by
  obtain ⟨l, hl, -, hk⟩ := h
  exact hasKeyAt_lt ⟨l, hl, hk⟩

/-- C26, what the code does. For the operations remove r, add x at offset p, with k
the key of r: if j is the smallest index in the forward window (p up to p + 5, the
end excluded) of a line with the key k, the attempt succeeds and the line at j is
replaced by x; if the forward window has no such line and j is the smallest index
in the backward window (p - 2 up to p, the end excluded) of a line that is not the
empty text and has the key k, the attempt succeeds and the line at j is replaced
by x; if neither window has such a line, the attempt fails, returns the buffer
and names the trimmed line to remove. An empty line in the backward window is
passed over, although the forward window accepts it. -/
theorem attemptApplyHunk_remove_add (B : List Str) (p : Nat) (r x : Str) :
    (∀ j, p ≤ j → j < p + 5 → HasKeyAt B (normalizeLineForMatching r) j →
        (∀ i, p ≤ i → i < j → ¬ HasKeyAt B (normalizeLineForMatching r) i) →
        attemptApplyHunk B [⟨OpType.remove, r⟩, ⟨OpType.add, x⟩] p
          = { result := B.set j x, success := true, errorReason := none })
    ∧ ((∀ i, p ≤ i → i < p + 5 → ¬ HasKeyAt B (normalizeLineForMatching r) i) →
        ∀ j, p - 2 ≤ j → j < p → HasKeyNonEmptyAt B (normalizeLineForMatching r) j →
        (∀ i, p - 2 ≤ i → i < j → ¬ HasKeyNonEmptyAt B (normalizeLineForMatching r) i) →
        attemptApplyHunk B [⟨OpType.remove, r⟩, ⟨OpType.add, x⟩] p
          = { result := B.set j x, success := true, errorReason := none })
    ∧ ((∀ i, p ≤ i → i < p + 5 → ¬ HasKeyAt B (normalizeLineForMatching r) i) →
        (∀ i, p - 2 ≤ i → i < p → ¬ HasKeyNonEmptyAt B (normalizeLineForMatching r) i) →
        attemptApplyHunk B [⟨OpType.remove, r⟩, ⟨OpType.add, x⟩] p
          = { result := B, success := false,
              errorReason := some ("Line to remove not found: \"".toList ++ trim r
                ++ "\"".toList) }) := by
  refine ⟨?_, ?_, ?_⟩
  · intro j h1 h2 h3 h4
    rw [attemptApplyHunk_remove_add_eq,
      (searchForward_eq_some_iff B _ p 5 j).mpr ⟨h1, h2, h3, h4⟩]
    simp only
    rw [spliceInsert_spliceRemove B j x (hasKeyAt_lt h3)]
  · intro hf j h1 h2 h3 h4
    rw [attemptApplyHunk_remove_add_eq, (searchForward_eq_none_iff B _ p 5).mpr hf,
      (searchBackward_eq_some_iff B _ p 2 j).mpr ⟨h1, h2, h3, h4⟩]
    simp only
    rw [spliceInsert_spliceRemove B j x (hasKeyNonEmptyAt_lt h3)]
  · intro hf hb
    rw [attemptApplyHunk_remove_add_eq, (searchForward_eq_none_iff B _ p 5).mpr hf,
      (searchBackward_eq_none_iff B _ p 2).mpr hb]
    rfl

/-- C26 at the failing input: the buffer of an empty line and the line a, the
cursor at 1, the removal of an empty line. The empty line is in the backward
window and has the key of the operation, but the attempt fails. When the empty
line is in the forward window (cursor at 0), it is replaced. -/
theorem attemptApplyHunk_remove_add_witness :
    HasKeyAt ["".toList, "a".toList] (normalizeLineForMatching "".toList) 0
    ∧ attemptApplyHunk ["".toList, "a".toList]
        [⟨OpType.remove, "".toList⟩, ⟨OpType.add, "x".toList⟩] 1
      = { result := ["".toList, "a".toList], success := false,
          errorReason := some ("Line to remove not found: \"".toList ++ trim "".toList
            ++ "\"".toList) }
    ∧ attemptApplyHunk ["".toList, "a".toList]
        [⟨OpType.remove, "".toList⟩, ⟨OpType.add, "x".toList⟩] 0
      = { result := ["x".toList, "a".toList], success := true, errorReason := none } :=
  ⟨⟨"".toList, rfl, rfl⟩,
   (attemptApplyHunk_remove_add ["".toList, "a".toList] 1 "".toList "x".toList).2.2
     (by
       intro i h1 h2 ⟨l, hl, hk⟩
       have hi : i = 1 := by
         rcases Nat.lt_or_ge i 2 with h | h
         · omega
         · rw [List.getElem?_eq_none (by simpa using h)] at hl
           cases hl
       subst hi
       simp only [List.getElem?_cons_succ, List.getElem?_cons_zero, Option.some.injEq] at hl
       subst hl
       revert hk
       decide)
     (by
       intro i h1 h2 ⟨l, hl, hne, hk⟩
       have hi : i = 0 := by omega
       subst hi
       simp only [List.getElem?_cons_zero, Option.some.injEq] at hl
       exact hne hl.symm),
   by decide⟩

end DiffApplier

namespace DiffApplier

/-! ## Line conservation -/

theorem spliceInsert_perm (result : List Str) (q : Nat) (x : Str) :
    (spliceInsert result q x).Perm (x :: result) := by
  unfold spliceInsert
  have h := @List.perm_middle _ x (result.take q) (result.drop q)
  rw [List.take_append_drop] at h
  exact h

theorem spliceRemove_perm (result : List Str) (j : Nat) (l : Str) (hl : result[j]? = some l) :
    result.Perm (l :: spliceRemove result j) := by
  unfold spliceRemove
  have hlt : j < result.length := by
    rcases Nat.lt_or_ge j result.length with h | h
    · exact h
    · rw [List.getElem?_eq_none h] at hl
      cases hl
  have hget : result[j] = l := by
    rw [List.getElem?_eq_getElem hlt] at hl
    exact Option.some.inj hl
  have hsplit : result = result.take j ++ l :: result.drop (j + 1) := by
    conv_lhs => rw [← List.take_append_drop j result]
    rw [List.drop_eq_getElem_cons hlt, hget]
  conv_lhs => rw [hsplit]
  exact List.perm_middle

/-- The invariant of the replay loop behind C29: what the loop returns on success,
together with the lines it removed, is the working buffer together with the
lines still to add; every removed line has the key of its remove operation. -/
theorem attemptLoop_conserves (fileLines : List Str) (ops : List Operation) :
    ∀ (result : List Str) (q n : Nat),
      (attemptLoop fileLines ops result q n).success = true →
      ∃ removed : List Str,
        List.Forall₂ (fun l op => normalizeLineForMatching l = normalizeLineForMatching op.line)
          removed (ops.filter (fun op => op.type = OpType.remove))
        ∧ ((attemptLoop fileLines ops result q n).result ++ removed).Perm
            (result ++ (ops.filter (fun op => op.type = OpType.add)).map (fun op => op.line)) := by
  induction ops with
  | nil =>
    intro result q n _
    exact ⟨[], List.Forall₂.nil, by simp [attemptLoop]⟩
  | cons op rest ih =>
    intro result q n hs
    unfold attemptLoop at hs ⊢
    cases ht : op.type with
    | context =>
      rw [ht] at hs
      simp only at hs ⊢
      have hfr : (rest.filter (fun op => op.type = OpType.remove))
          = ((op :: rest).filter (fun op => op.type = OpType.remove)) := by
        simp [List.filter_cons, ht]
      have hfa : (rest.filter (fun op => op.type = OpType.add))
          = ((op :: rest).filter (fun op => op.type = OpType.add)) := by
        simp [List.filter_cons, ht]
      rw [← hfr, ← hfa]
      cases hf : searchForward result (normalizeLineForMatching op.line) q 10 with
      | some j =>
        rw [hf] at hs
        exact ih result (j + 1) n hs
      | none =>
        rw [hf] at hs
        simp only at hs ⊢
        cases hb : searchBackward result (normalizeLineForMatching op.line) q 3 with
        | some j =>
          rw [hb] at hs
          exact ih result (j + 1) n hs
        | none =>
          rw [hb] at hs
          exact Bool.noConfusion hs
    | remove =>
      rw [ht] at hs
      simp only at hs ⊢
      have hfr : ((op :: rest).filter (fun op => op.type = OpType.remove))
          = op :: (rest.filter (fun op => op.type = OpType.remove)) := by
        simp [List.filter_cons, ht]
      have hfa : (rest.filter (fun op => op.type = OpType.add))
          = ((op :: rest).filter (fun op => op.type = OpType.add)) := by
        simp [List.filter_cons, ht]
      rw [hfr, ← hfa]
      have key : ∀ j l, result[j]? = some l →
          normalizeLineForMatching l = normalizeLineForMatching op.line →
          (attemptLoop fileLines rest (spliceRemove result j) j (n + 1)).success = true →
          ∃ removed : List Str,
            List.Forall₂
              (fun l op => normalizeLineForMatching l = normalizeLineForMatching op.line)
              removed (op :: rest.filter (fun op => op.type = OpType.remove))
            ∧ ((attemptLoop fileLines rest (spliceRemove result j) j (n + 1)).result
                ++ removed).Perm
                (result ++ (rest.filter (fun op => op.type = OpType.add)).map
                  (fun op => op.line)) := by
        intro j l hl hk hs2
        obtain ⟨removed, hfor, hperm⟩ := ih (spliceRemove result j) j (n + 1) hs2
        refine ⟨l :: removed, List.Forall₂.cons hk hfor, ?_⟩
        refine List.perm_middle.trans ?_
        refine (List.Perm.cons l hperm).trans ?_
        rw [← List.cons_append]
        exact List.Perm.append_right _ (spliceRemove_perm result j l hl).symm
      cases hf : searchForward result (normalizeLineForMatching op.line) q 5 with
      | some j =>
        rw [hf] at hs
        obtain ⟨-, -, ⟨l, hl, hk⟩, -⟩ := (searchForward_eq_some _ _ _ _ _).mp hf
        exact key j l hl hk hs
      | none =>
        rw [hf] at hs
        simp only at hs ⊢
        cases hb : searchBackward result (normalizeLineForMatching op.line) q 2 with
        | some j =>
          rw [hb] at hs
          obtain ⟨-, -, ⟨l, hl, -, hk⟩, -⟩ := (searchBackward_eq_some_iff _ _ _ _ _).mp hb
          exact key j l hl hk hs
        | none =>
          rw [hb] at hs
          exact Bool.noConfusion hs
    | add =>
      rw [ht] at hs
      simp only at hs ⊢
      have hfr : (rest.filter (fun op => op.type = OpType.remove))
          = ((op :: rest).filter (fun op => op.type = OpType.remove)) := by
        simp [List.filter_cons, ht]
      have hfa : ((op :: rest).filter (fun op => op.type = OpType.add))
          = op :: (rest.filter (fun op => op.type = OpType.add)) := by
        simp [List.filter_cons, ht]
      rw [← hfr, hfa]
      obtain ⟨removed, hfor, hperm⟩ := ih (spliceInsert result q op.line) (q + 1) (n + 1) hs
      refine ⟨removed, hfor, hperm.trans ?_⟩
      rw [List.map_cons]
      refine (List.Perm.append_right _ (spliceInsert_perm result q op.line)).trans ?_
      rw [List.cons_append]
      exact List.perm_middle.symm

theorem forall₂_keys {removed : List Str} {ops : List Operation}
    (h : List.Forall₂ (fun l op => normalizeLineForMatching l = normalizeLineForMatching op.line)
      removed ops) :
    removed.map normalizeLineForMatching = ops.map (fun op => normalizeLineForMatching op.line) := by
  induction h with
  | nil => rfl
  | cons hab _ ih => simp [hab, ih]

/-- C29. Line conservation. If attemptApplyHunk succeeds on the buffer B with the
result R, then there are lines removed, one for each remove operation and with
the key of that operation, such that R together with the removed lines is, as a
multiset of lines, B together with the lines of the add operations: every line
of R is a line of B or the line of an add operation as it stands. Hence, as
multisets of keys, the keys of R plus the keys of the remove operations are the
keys of B plus the keys of the add operations, and the length of R plus the
number of remove operations is the length of B plus the number of add
operations. -/
theorem attemptApplyHunk_conserves (B : List Str) (ops : List Operation) (p : Nat)
    (hs : (attemptApplyHunk B ops p).success = true) :
    (∃ removed : List Str,
      List.Forall₂ (fun l op => normalizeLineForMatching l = normalizeLineForMatching op.line)
        removed (ops.filter (fun op => op.type = OpType.remove))
      ∧ (((attemptApplyHunk B ops p).result ++ removed : List Str) : Multiset Str)
          = ((B ++ (ops.filter (fun op => op.type = OpType.add)).map (fun op => op.line)
              : List Str) : Multiset Str))
    ∧ ((((attemptApplyHunk B ops p).result.map normalizeLineForMatching : List Str)
          : Multiset Str) + ((removeKeys ops : List Str) : Multiset Str)
        = ((B.map normalizeLineForMatching : List Str) : Multiset Str)
          + ((((ops.filter (fun op => op.type = OpType.add)).map
              (fun op => normalizeLineForMatching op.line) : List Str)) : Multiset Str))
    ∧ (attemptApplyHunk B ops p).result.length
          + (ops.filter (fun op => op.type = OpType.remove)).length
        = B.length + (ops.filter (fun op => op.type = OpType.add)).length := by
  unfold attemptApplyHunk at hs ⊢
  obtain ⟨removed, hfor, hperm⟩ := attemptLoop_conserves B ops B p 0 hs
  refine ⟨⟨removed, hfor, Multiset.coe_eq_coe.mpr hperm⟩, ?_, ?_⟩
  · have hk := forall₂_keys hfor
    have hp2 := hperm.map normalizeLineForMatching
    rw [List.map_append, List.map_append, hk, List.map_map] at hp2
    rw [Multiset.coe_add, Multiset.coe_add, Multiset.coe_eq_coe]
    exact hp2
  · have hl := hperm.length_eq
    have hlen := hfor.length_eq
    simp only [List.length_append, List.length_map] at hl
    omega

/-- Witness for C29: on the buffer a, b, c the operations context a, remove b,
add x, add y at offset 0 give a, x, y, c. -/
theorem attemptApplyHunk_conserves_witness :
    (attemptApplyHunk ["a".toList, "b".toList, "c".toList]
        [⟨OpType.context, "a".toList⟩, ⟨OpType.remove, " b".toList⟩, ⟨OpType.add, "x".toList⟩,
         ⟨OpType.add, "y".toList⟩] 0).result
      = ["a".toList, "x".toList, "y".toList, "c".toList]
    ∧ (attemptApplyHunk ["a".toList, "b".toList, "c".toList]
        [⟨OpType.context, "a".toList⟩, ⟨OpType.remove, " b".toList⟩, ⟨OpType.add, "x".toList⟩,
         ⟨OpType.add, "y".toList⟩] 0).result.length
          + ([⟨OpType.context, "a".toList⟩, ⟨OpType.remove, " b".toList⟩,
              ⟨OpType.add, "x".toList⟩, ⟨OpType.add, "y".toList⟩].filter
                (fun op : Operation => op.type = OpType.remove)).length
        = ["a".toList, "b".toList, "c".toList].length
          + ([⟨OpType.context, "a".toList⟩, ⟨OpType.remove, " b".toList⟩,
              ⟨OpType.add, "x".toList⟩, ⟨OpType.add, "y".toList⟩].filter
                (fun op : Operation => op.type = OpType.add)).length :=
  ⟨by decide,
   (attemptApplyHunk_conserves ["a".toList, "b".toList, "c".toList]
      [⟨OpType.context, "a".toList⟩, ⟨OpType.remove, " b".toList⟩, ⟨OpType.add, "x".toList⟩,
       ⟨OpType.add, "y".toList⟩] 0 (by decide)).2.2⟩

end DiffApplier

namespace DiffApplier

/-! ## The scan over the offsets of a hunk with context lines -/

theorem cons_sublist_append_of_not_mem {k : Str} {rest A M : List Str} (hk : k ∉ A) :
    List.Sublist (k :: rest) (A ++ M) ↔ List.Sublist (k :: rest) M := by
  induction A with
  | nil => simp
  | cons a A ih =>
    have hne : k ≠ a := fun h => hk (h ▸ List.mem_cons_self _ _)
    have hA : k ∉ A := fun h => hk (List.mem_cons_of_mem _ h)
    rw [List.cons_append, List.sublist_cons_iff]
    constructor
    · rintro (h | ⟨r, hr, -⟩)
      · exact (ih hA).mp h
      · cases hr
        exact absurd rfl hne
    · intro h
      exact Or.inl ((ih hA).mpr h)

theorem drop_length_takeWhile_eq (p : Str → Bool) (L : List Str) :
    L.drop (L.takeWhile p).length = L.dropWhile p := by
  induction L with
  | nil => rfl
  | cons x xs ih =>
    by_cases hx : p x = true
    · rw [List.takeWhile_cons_of_pos hx, List.dropWhile_cons_of_pos hx]
      exact ih
    · rw [List.takeWhile_cons_of_neg hx, List.dropWhile_cons_of_neg hx]
      rfl

/-- The greedy search of the source finds the context keys exactly when they occur,
in order, among the keys of the lines from the index on. -/
theorem findContextSequenceLoop_iff (B : List Str) (keys : List Str) :
    ∀ idx : Nat, (findContextSequenceLoop B keys idx).1 = true ↔
      List.Sublist keys ((B.drop idx).map normalizeLineForMatching) := by
  induction keys with
  | nil =>
    intro idx
    simp [findContextSequenceLoop]
  | cons k rest ih =>
    intro idx
    unfold findContextSequenceLoop
    simp only
    have hsplit := List.takeWhile_append_dropWhile
      (fun l => normalizeLineForMatching l != k) (B.drop idx)
    have hdrop : B.drop (skipToContext B k idx)
        = (B.drop idx).dropWhile (fun l => normalizeLineForMatching l != k) := by
      unfold skipToContext
      rw [← List.drop_drop]
      exact drop_length_takeWhile_eq _ _
    have htw : ∀ x ∈ ((B.drop idx).takeWhile (fun l => normalizeLineForMatching l != k)).map
        normalizeLineForMatching, x ≠ k := by
      intro x hx
      rw [List.mem_map] at hx
      obtain ⟨l, hl, rfl⟩ := hx
      simpa using List.mem_takeWhile_imp hl
    cases hD : (B.drop idx).dropWhile (fun l => normalizeLineForMatching l != k) with
    | nil =>
      have hge : skipToContext B k idx ≥ B.length := by
        rw [hD] at hdrop
        exact List.drop_eq_nil_iff.mp hdrop
      simp only [hge, if_true]
      constructor
      · intro h
        exact Bool.noConfusion h
      · intro h
        exfalso
        rw [hD, List.append_nil] at hsplit
        rw [← hsplit] at h
        exact htw k (h.subset (List.mem_cons_self _ _)) rfl
    | cons l L =>
      have hlt : ¬ skipToContext B k idx ≥ B.length := by
        intro hge
        rw [List.drop_eq_nil_iff.mpr hge] at hdrop
        rw [hD] at hdrop
        cases hdrop
      have hkl : normalizeLineForMatching l = k := by
        have := List.head_dropWhile_not (fun l => normalizeLineForMatching l != k) (B.drop idx)
          (by rw [hD]; exact List.cons_ne_nil _ _)
        simp only [hD, List.head_cons] at this
        simpa using this
      have hnext : B.drop (skipToContext B k idx + 1) = L := by
        rw [← List.drop_drop, hdrop, hD]
        rfl
      simp only [hlt, if_false]
      rw [ih (skipToContext B k idx + 1), hnext]
      conv_rhs => rw [← hsplit, hD, List.map_append, List.map_cons, hkl]
      rw [cons_sublist_append_of_not_mem (fun hmem => htw k hmem rfl), List.cons_sublist_cons]

theorem findContextSequenceAt_iff (B : List Str) (keys : List Str) (i : Nat) :
    (findContextSequenceAt B keys i).1 = true ↔
      List.Sublist keys ((B.drop i).map normalizeLineForMatching) := by
  unfold findContextSequenceAt
  split
  · rename_i h
    rw [List.length_eq_zero.mp h]
    simp
  · exact findContextSequenceLoop_iff B keys i

end DiffApplier

namespace DiffApplier

theorem filterMap_ite_eq_map_filter {α β : Type} (P : α → Bool) (mk : α → β) (l : List α) :
    l.filterMap (fun i => if P i = true then some (mk i) else none) = (l.filter P).map mk := by
  induction l with
  | nil => rfl
  | cons x xs ih =>
    by_cases hx : P x = true
    · simp [List.filterMap_cons, List.filter_cons, hx, ih]
    · simp [List.filterMap_cons, List.filter_cons, hx, ih]

theorem countRemovalMatchesInFile_nil (B : List Str) : countRemovalMatchesInFile B [] = 0 := rfl

/-- The scan as a filter over the offsets, in ascending order. -/
theorem contextScan_eq (B : List Str) (ops : List Operation) (s : Nat) :
    contextScan B ops s =
      ((List.range' s (B.length + 1 - (contextKeys ops).length - s)).filter
        (fun i => (findContextSequenceAt B (contextKeys ops) i).1 &&
          (decide ((removeKeys ops).length = 0) ||
            decide (countRemovalMatchesInFile B (removeKeys ops)
              ≥ floorTimes07 (removeKeys ops).length)))).map
        (fun i => { startPos := i, contextLines := (contextKeys ops).length,
                    removeMatches := countRemovalMatchesInFile B (removeKeys ops),
                    totalOperations := ops.length }) := by
  unfold contextScan
  simp only
  rw [← filterMap_ite_eq_map_filter]
  apply List.filterMap_congr
  intro i _
  by_cases hf : (findContextSequenceAt B (contextKeys ops) i).1 = true
  · by_cases hr : (removeKeys ops).length = 0
    · have hnil : removeKeys ops = [] := List.length_eq_zero.mp hr
      simp [hf, hr, hnil, countRemovalMatchesInFile_nil]
    · by_cases hv : countRemovalMatchesInFile B (removeKeys ops)
          ≥ floorTimes07 (removeKeys ops).length
      · simp [hf, hr, hv]
      · simp [hf, hr, hv]
  · simp [hf]

theorem contextScan_offsets (B : List Str) (ops : List Operation) (s : Nat) :
    (contextScan B ops s).map (fun m => m.startPos) =
      (List.range' s (B.length + 1 - (contextKeys ops).length - s)).filter
        (fun i => (findContextSequenceAt B (contextKeys ops) i).1 &&
          (decide ((removeKeys ops).length = 0) ||
            decide (countRemovalMatchesInFile B (removeKeys ops)
              ≥ floorTimes07 (removeKeys ops).length))) := by
  rw [contextScan_eq, List.map_map]
  exact List.map_id _

theorem findAllContextMatches_of_context (B : List Str) (ops : List Operation) (s : Nat)
    (hc : contextKeys ops ≠ []) : findAllContextMatches B ops s = contextScan B ops s := by
  have hlen : (contextKeys ops).length > 0 := List.length_pos.mpr hc
  have h : ¬ ((contextKeys ops).length = 0 ∧ (removeKeys ops).length = 0) := by
    intro h
    omega
  rw [findAllContextMatches_unsorted B ops s h]
  simp only [hlen, if_true]

/-- C23, what the code does. For an operation list with c context operations,
c at least 1, and r remove operations: the offsets of the candidates of
findAllContextMatches from the start offset s are exactly the i from s on with
i + c within the buffer such that the context keys occur in order among the keys
of the lines from index i on and such that r = 0 or the count of
countRemovalMatchesInFile reaches the threshold; the offsets are in ascending
order; each candidate records c, the count and the number of operations. The
threshold is the value of Math.floor(r * 0.7) in double arithmetic (floorTimes07):
0 for r = 1, the whole part of 7 r / 10 for every r below 90, and 62 for r = 90.
With one remove operation every offset with the context keys is a candidate. -/
theorem findAllContextMatches_context_candidates (B : List Str) (ops : List Operation)
    (s : Nat) (hc : contextKeys ops ≠ []) :
    (∀ i, i ∈ (findAllContextMatches B ops s).map (fun m => m.startPos) ↔
      s ≤ i ∧ i + (contextKeys ops).length ≤ B.length ∧
      List.Sublist (contextKeys ops) ((B.drop i).map normalizeLineForMatching) ∧
      ((removeKeys ops).length = 0 ∨
        floorTimes07 (removeKeys ops).length
          ≤ countRemovalMatchesInFile B (removeKeys ops)))
    ∧ ((findAllContextMatches B ops s).map (fun m => m.startPos)).Pairwise (fun a b => a < b)
    ∧ (∀ m ∈ findAllContextMatches B ops s,
        m.contextLines = (contextKeys ops).length ∧
        m.removeMatches = countRemovalMatchesInFile B (removeKeys ops) ∧
        m.totalOperations = ops.length)
    ∧ ((removeKeys ops).length = 1 →
        ∀ i, i ∈ (findAllContextMatches B ops s).map (fun m => m.startPos) ↔
          s ≤ i ∧ i + (contextKeys ops).length ≤ B.length ∧
          List.Sublist (contextKeys ops) ((B.drop i).map normalizeLineForMatching))
    ∧ floorTimes07 1 = 0
    ∧ (∀ r < 90, floorTimes07 r = 7 * r / 10)
    ∧ floorTimes07 90 = 62 := by
  have hlen : (contextKeys ops).length > 0 := List.length_pos.mpr hc
  have hmem : ∀ i, i ∈ (findAllContextMatches B ops s).map (fun m => m.startPos) ↔
      s ≤ i ∧ i + (contextKeys ops).length ≤ B.length ∧
      List.Sublist (contextKeys ops) ((B.drop i).map normalizeLineForMatching) ∧
      ((removeKeys ops).length = 0 ∨
        floorTimes07 (removeKeys ops).length
          ≤ countRemovalMatchesInFile B (removeKeys ops)) := by
    intro i
    rw [findAllContextMatches_of_context B ops s hc, contextScan_offsets, List.mem_filter,
      List.mem_range'_1]
    simp only [Bool.and_eq_true, Bool.or_eq_true, decide_eq_true_eq, findContextSequenceAt_iff,
      ge_iff_le]
    constructor
    · rintro ⟨⟨h1, h2⟩, h3, h4⟩
      exact ⟨h1, by omega, h3, h4⟩
    · rintro ⟨h1, h2, h3, h4⟩
      exact ⟨⟨h1, by omega⟩, h3, h4⟩
  refine ⟨hmem, ?_, ?_, ?_, by decide, by decide, by decide⟩
  · rw [findAllContextMatches_of_context B ops s hc, contextScan_offsets]
    exact (List.pairwise_lt_range' s _).sublist (List.filter_sublist _)
  · intro m hm
    rw [findAllContextMatches_of_context B ops s hc, contextScan_eq, List.mem_map] at hm
    obtain ⟨i, -, rfl⟩ := hm
    exact ⟨rfl, rfl, rfl⟩
  · intro hr i
    rw [hmem i, hr]
    have h0 : floorTimes07 1 = 0 := by decide
    rw [h0]
    simp

end DiffApplier

namespace DiffApplier

set_option maxRecDepth 100000 in
/-- C23 at a failing input: the buffer a, empty line, empty line and the hunk
context a, remove empty line, remove empty line. The context key occurs from
offset 0 on and both removal keys are keys of lines of the buffer, but the count
of the source is 0 (it passes over empty lines), below the threshold 1, and no
candidate is returned. -/
theorem findAllContextMatches_context_candidates_witness :
    findAllContextMatches ["a".toList, "".toList, "".toList]
        [⟨OpType.context, "a".toList⟩, ⟨OpType.remove, "".toList⟩, ⟨OpType.remove, "".toList⟩] 0
      = []
    ∧ ["a".toList, "".toList, "".toList].map normalizeLineForMatching
      = ["a".toList, "".toList, "".toList]
    ∧ removeKeys
        [⟨OpType.context, "a".toList⟩, ⟨OpType.remove, "".toList⟩, ⟨OpType.remove, "".toList⟩]
      = ["".toList, "".toList]
    ∧ countRemovalMatchesInFile ["a".toList, "".toList, "".toList] ["".toList, "".toList] = 0
    ∧ floorTimes07 2 = 1
    ∧ (0 ∈ (findAllContextMatches ["a".toList, "".toList, "".toList]
        [⟨OpType.context, "a".toList⟩, ⟨OpType.remove, "".toList⟩,
         ⟨OpType.remove, "".toList⟩] 0).map (fun m => m.startPos) ↔
      0 ≤ 0 ∧ 0 + (contextKeys
        [⟨OpType.context, "a".toList⟩, ⟨OpType.remove, "".toList⟩,
         ⟨OpType.remove, "".toList⟩]).length ≤ ["a".toList, "".toList, "".toList].length ∧
      List.Sublist (contextKeys
        [⟨OpType.context, "a".toList⟩, ⟨OpType.remove, "".toList⟩, ⟨OpType.remove, "".toList⟩])
        ((["a".toList, "".toList, "".toList].drop 0).map normalizeLineForMatching) ∧
      ((removeKeys
        [⟨OpType.context, "a".toList⟩, ⟨OpType.remove, "".toList⟩,
         ⟨OpType.remove, "".toList⟩]).length = 0 ∨
        floorTimes07 (removeKeys
          [⟨OpType.context, "a".toList⟩, ⟨OpType.remove, "".toList⟩,
           ⟨OpType.remove, "".toList⟩]).length
          ≤ countRemovalMatchesInFile ["a".toList, "".toList, "".toList]
              (removeKeys
                [⟨OpType.context, "a".toList⟩, ⟨OpType.remove, "".toList⟩,
                 ⟨OpType.remove, "".toList⟩]))) :=
  ⟨by decide, by decide, by decide, by decide, by decide,
   (findAllContextMatches_context_candidates ["a".toList, "".toList, "".toList]
      [⟨OpType.context, "a".toList⟩, ⟨OpType.remove, "".toList⟩, ⟨OpType.remove, "".toList⟩] 0
      (by decide)).1 0⟩

set_option maxRecDepth 1000000 in
/-- C23 at a second failing input, the threshold: a hunk with the context line c
and 90 removals of the line x, on a buffer of 62 lines x followed by the line c.
From offset 62 the candidate is accepted with 62 of the 90 removal keys matched,
although 7 tenths of 90 are 63: Math.floor(90 * 0.7) is 62 in double arithmetic. -/
theorem findAllContextMatches_threshold_ninety :
    findAllContextMatches (List.replicate 62 "x".toList ++ ["c".toList])
        (⟨OpType.context, "c".toList⟩ :: List.replicate 90 ⟨OpType.remove, "x".toList⟩) 62
      = [{ startPos := 62, contextLines := 1, removeMatches := 62, totalOperations := 91 }]
    ∧ 7 * 90 / 10 = 63 := by
  refine ⟨by decide, by decide⟩

end DiffApplier

namespace DiffApplier

/-! ## The order of the candidates -/

theorem filter_range'_downward (P : Nat → Bool) (s : Nat) :
    ∀ n : Nat, (∀ i j, s ≤ j → j ≤ i → i < s + n → P i = true → P j = true) →
      (List.range' s n).filter P = List.range' s ((List.range' s n).filter P).length := by
  intro n
  induction n with
  | zero => intro _; rfl
  | succ n ih =>
    intro hdown
    rw [List.range'_concat, List.filter_append, Nat.one_mul]
    by_cases hp : P (s + n) = true
    · have hall : (List.range' s n).filter P = List.range' s n := by
        rw [List.filter_eq_self]
        intro j hj
        rw [List.mem_range'_1] at hj
        exact hdown (s + n) j hj.1 (by omega) (by omega) hp
      rw [hall]
      simp only [List.filter_cons, hp, if_true, List.filter_nil, List.length_append,
        List.length_range', List.length_singleton]
      rw [List.range'_concat, Nat.one_mul]
    · simp only [List.filter_cons, hp, if_false, List.filter_nil, List.append_nil,
        Bool.false_eq_true]
      exact ih (fun i j h1 h2 h3 h4 => hdown i j h1 h2 (by omega) h4)

theorem sublist_drop_of_le (B : List Str) (keys : List Str) (i j : Nat) (hji : j ≤ i)
    (h : List.Sublist keys ((B.drop i).map normalizeLineForMatching)) :
    List.Sublist keys ((B.drop j).map normalizeLineForMatching) :=
  h.trans ((List.drop_sublist_drop_left B hji).map _)

theorem contextScan_offsets_range (B : List Str) (ops : List Operation) (s : Nat) :
    (contextScan B ops s).map (fun m => m.startPos)
      = List.range' s (contextScan B ops s).length := by
  have hlen : (contextScan B ops s).length
      = ((contextScan B ops s).map (fun m => m.startPos)).length := by
    rw [List.length_map]
  rw [hlen, contextScan_offsets]
  apply filter_range'_downward
  intro i j _ hji _ hi
  simp only [Bool.and_eq_true] at hi ⊢
  refine ⟨?_, hi.2⟩
  rw [findContextSequenceAt_iff] at hi ⊢
  exact sublist_drop_of_le B _ i j hji hi.1

/-- C28. Ranking never reorders. All candidates of one call of
findAllContextMatches carry the same score, and the list returned is the list in
discovery order: the single candidate of a pure addition, the scan over the
offsets for a hunk with context operations, the probe centers otherwise. With
context operations the offsets of the candidates are the consecutive numbers s,
s + 1, ... in ascending order, so a candidate at i means a candidate at every
offset from s to i, and the first candidate, if there is one, is at the start
offset s. For a hunk with context operations that is not context-only, applyHunk
searches from the anchor, and with any candidate its first attempt is at the
anchor. -/
theorem findAllContextMatches_never_reorders (B : List Str) (ops : List Operation) (s : Nat) :
    (∀ m1 ∈ findAllContextMatches B ops s, ∀ m2 ∈ findAllContextMatches B ops s,
      matchScore m1 = matchScore m2)
    ∧ findAllContextMatches B ops s =
        (if (contextKeys ops).length = 0 ∧ (removeKeys ops).length = 0 then
          [{ startPos := s, contextLines := 0, removeMatches := 0,
             totalOperations := ops.length }]
         else if (contextKeys ops).length > 0 then contextScan B ops s
         else removalProbe B ops s)
    ∧ (contextKeys ops ≠ [] →
        (findAllContextMatches B ops s).map (fun m => m.startPos)
          = List.range' s (findAllContextMatches B ops s).length
        ∧ (∀ i ∈ (findAllContextMatches B ops s).map (fun m => m.startPos),
            ∀ j, s ≤ j → j ≤ i →
              j ∈ (findAllContextMatches B ops s).map (fun m => m.startPos))
        ∧ (∀ m rest, findAllContextMatches B ops s = m :: rest → m.startPos = s))
    ∧ (∀ hunk : Hunk, hunk.operations = ops → contextKeys ops ≠ [] →
        isContextOnlyHunk ops = false →
        ∀ m rest, findAllContextMatches B ops (findAnchor B hunk.headerContext) = m :: rest →
          m.startPos = findAnchor B hunk.headerContext
          ∧ applyHunk B hunk =
              (if (attemptApplyHunk B ops (findAnchor B hunk.headerContext)).success then
                { result := (attemptApplyHunk B ops (findAnchor B hunk.headerContext)).result,
                  success := true, skipped := false,
                  errorReason :=
                    (attemptApplyHunk B ops (findAnchor B hunk.headerContext)).errorReason }
               else tryMatches B ops rest)) := by
  have hrange : ∀ s : Nat, contextKeys ops ≠ [] →
      (findAllContextMatches B ops s).map (fun m => m.startPos)
        = List.range' s (findAllContextMatches B ops s).length := by
    intro s hc
    rw [findAllContextMatches_of_context B ops s hc]
    exact contextScan_offsets_range B ops s
  have hhead : ∀ s : Nat, contextKeys ops ≠ [] →
      ∀ m rest, findAllContextMatches B ops s = m :: rest → m.startPos = s := by
    intro s hc m rest hm
    have h := hrange s hc
    rw [hm] at h
    simp only [List.map_cons, List.length_cons, List.range'_succ, List.cons.injEq] at h
    exact h.1
  refine ⟨?_, ?_, ?_, ?_⟩
  · intro m1 h1 m2 h2
    by_cases h : (contextKeys ops).length = 0 ∧ (removeKeys ops).length = 0
    · unfold findAllContextMatches at h1 h2
      simp only [h, and_self, if_true, List.mem_singleton] at h1 h2
      rw [h1, h2]
    · rw [findAllContextMatches_unsorted B ops s h] at h1 h2
      by_cases hc : (contextKeys ops).length > 0
      · rw [if_pos hc] at h1 h2
        rw [contextScan_score B ops s m1 h1, contextScan_score B ops s m2 h2]
      · rw [if_neg hc] at h1 h2
        rw [removalProbe_score B ops s m1 h1, removalProbe_score B ops s m2 h2]
  · by_cases h : (contextKeys ops).length = 0 ∧ (removeKeys ops).length = 0
    · unfold findAllContextMatches
      simp only [h, and_self, if_true]
    · rw [findAllContextMatches_unsorted B ops s h]
      simp only [h, if_false]
  · intro hc
    refine ⟨hrange s hc, ?_, hhead s hc⟩
    intro i hi j hj1 hj2
    rw [hrange s hc, List.mem_range'_1] at hi ⊢
    omega
  · intro hunk hops hc hnot m rest hm
    have hstart := hhead _ hc m rest hm
    refine ⟨hstart, ?_⟩
    have hcl : (hunk.operations.filter (fun op => op.type = OpType.context)).length ≠ 0 := by
      rw [hops]
      intro h0
      apply hc
      unfold contextKeys
      rw [List.length_eq_zero.mp h0]
      rfl
    unfold applyHunk
    simp only [hops, hnot, Bool.false_eq_true, if_false, hcl, false_and, hm, List.length_cons,
      Nat.add_one_ne_zero, tryMatches, hstart]
    split <;> simp_all

end DiffApplier

namespace DiffApplier

/-! ## Counting the removal keys -/

theorem removalTest_iff (B : List Str) (key : Str) (j : Nat) :
    removalTest B key j = true ↔ HasKeyNonEmptyAt B key j := by
  unfold removalTest
  exact backwardTest_iff B key j

theorem removalTest_key_unique (B : List Str) (v w : Str) (j : Nat)
    (hv : removalTest B v j = true) (hw : removalTest B w j = true) : v = w := by
  obtain ⟨l, hl, -, hk⟩ := (removalTest_iff B v j).mp hv
  obtain ⟨l2, hl2, -, hk2⟩ := (removalTest_iff B w j).mp hw
  rw [hl] at hl2
  cases hl2
  rw [← hk, ← hk2]

theorem countRemovalLoop_cons (B : List Str) (lo hi : Nat) (k : Str) (rest : List Str)
    (used : List Nat) (m : Nat) :
    countRemovalLoop B lo hi (k :: rest) used m =
      match firstInRange lo hi (fun j => !used.contains j && removalTest B k j) with
      | some j => countRemovalLoop B lo hi rest (j :: used) (m + 1)
      | none => countRemovalLoop B lo hi rest used m := by
  rfl

theorem countP_exclude (l : List Nat) (hl : l.Nodup) (j : Nat) (p : Nat → Bool)
    (hj : j ∈ l) (hp : p j = true) :
    l.countP (fun i => !(i == j) && p i) + 1 = l.countP p := by
  induction l with
  | nil => cases hj
  | cons x xs ih =>
    have hnd := List.nodup_cons.mp hl
    by_cases hx : x = j
    · subst hx
      have hrest : xs.countP (fun i => !(i == x) && p i) = xs.countP p := by
        apply List.countP_congr
        intro i hi
        have hne : i ≠ x := fun h => hnd.1 (h ▸ hi)
        simp [hne]
      simp [List.countP_cons, hp, hrest]
    · have hjx : j ∈ xs := by
        rcases List.mem_cons.mp hj with h | h
        · exact absurd h.symm hx
        · exact h
      have := ih hnd.2 hjx
      by_cases hpx : p x = true
      · have hb : (x == j) = false := by simpa using hx
        simp only [List.countP_cons, hb, hpx, Bool.not_false, Bool.and_self, if_true]
        omega
      · have hpf : p x = false := by simpa using hpx
        simp only [List.countP_cons, hpf, Bool.and_false, Bool.false_eq_true, if_false,
          Nat.add_zero]
        exact this

theorem available_found (B : List Str) (lo hi : Nat) (used : List Nat) (k : Str) (j : Nat)
    (h : firstInRange lo hi (fun j => !used.contains j && removalTest B k j) = some j) :
    available B lo hi (j :: used) k + 1 = available B lo hi used k
    ∧ (∀ w, w ≠ k → available B lo hi (j :: used) w = available B lo hi used w)
    ∧ lo ≤ j ∧ j < hi ∧ j ∉ used ∧ HasKeyNonEmptyAt B k j := by
  obtain ⟨h1, h2, h3⟩ := firstInRange_some h
  simp only [Bool.and_eq_true, Bool.not_eq_true', List.contains_eq_any_beq, List.any_eq_false,
    beq_iff_eq] at h3
  have hnot : j ∉ used := fun hm => h3.1 j hm rfl
  have hmem : j ∈ List.range' lo (hi - lo) := by
    rw [List.mem_range'_1]
    omega
  have hpred : ∀ w, (fun i => !(j :: used).contains i && removalTest B w i)
      = (fun i => !(i == j) && (!used.contains i && removalTest B w i)) := by
    intro w
    funext i
    simp only [List.contains_cons, Bool.not_or, Bool.and_assoc]
  refine ⟨?_, ?_, h1, h2, hnot, (removalTest_iff B k j).mp h3.2⟩
  · unfold available
    rw [hpred k]
    apply countP_exclude _ (List.nodup_range' lo (hi - lo)) j _ hmem
    simp only [Bool.and_eq_true, Bool.not_eq_true', h3.2, and_true]
    simpa using hnot
  · intro w hw
    unfold available
    rw [hpred w]
    apply List.countP_congr
    intro i _
    by_cases hij : i = j
    · subst hij
      have hfalse : removalTest B w i = false := by
        by_contra hne
        simp only [Bool.not_eq_false] at hne
        exact hw (removalTest_key_unique B w k i hne h3.2)
      simp [hfalse]
    · simp [hij]

theorem available_none (B : List Str) (lo hi : Nat) (used : List Nat) (k : Str)
    (h : firstInRange lo hi (fun j => !used.contains j && removalTest B k j) = none) :
    available B lo hi used k = 0 := by
  unfold available
  rw [List.countP_eq_zero]
  intro j hj
  rw [List.mem_range'_1] at hj
  have := (firstInRange_eq_none lo hi _).mp h j hj.1 (by omega)
  simp only [this, Bool.false_eq_true, not_false_eq_true]

/-- The count of the removal loop: for each key value, the keys of that value
are matched while non-empty unused lines with that key are left. -/
theorem countRemovalLoop_formula (B : List Str) (lo hi : Nat) (S : Finset Str)
    (keys : List Str) :
    (∀ k ∈ keys, k ∈ S) →
    ∀ (used : List Nat) (m : Nat),
      countRemovalLoop B lo hi keys used m
        = m + Finset.sum S (fun v => min (keys.count v) (available B lo hi used v)) := by
  induction keys with
  | nil =>
    intro _ used m
    simp [countRemovalLoop]
  | cons k rest ih =>
    intro hS used m
    have hk : k ∈ S := hS k (List.mem_cons_self _ _)
    have hrest : ∀ x ∈ rest, x ∈ S := fun x hx => hS x (List.mem_cons_of_mem _ hx)
    rw [countRemovalLoop_cons]
    rw [← Finset.add_sum_erase S _ hk]
    cases hf : firstInRange lo hi (fun j => !used.contains j && removalTest B k j) with
    | some j =>
      obtain ⟨ha, hother, -⟩ := available_found B lo hi used k j hf
      simp only
      rw [ih hrest (j :: used) (m + 1), ← Finset.add_sum_erase S _ hk]
      have hsum : Finset.sum (S.erase k)
            (fun v => min (rest.count v) (available B lo hi (j :: used) v))
          = Finset.sum (S.erase k)
            (fun v => min ((k :: rest).count v) (available B lo hi used v)) := by
        apply Finset.sum_congr rfl
        intro v hv
        have hvk : v ≠ k := (Finset.mem_erase.mp hv).1
        rw [hother v hvk, List.count_cons_of_ne hvk]
      rw [hsum, List.count_cons_self]
      omega
    | none =>
      have ha := available_none B lo hi used k hf
      simp only
      rw [ih hrest used m, ← Finset.add_sum_erase S _ hk]
      have hsum : Finset.sum (S.erase k)
            (fun v => min (rest.count v) (available B lo hi used v))
          = Finset.sum (S.erase k)
            (fun v => min ((k :: rest).count v) (available B lo hi used v)) := by
        apply Finset.sum_congr rfl
        intro v hv
        have hvk : v ≠ k := (Finset.mem_erase.mp hv).1
        rw [List.count_cons_of_ne hvk]
      rw [hsum, ha]
      simp

end DiffApplier

namespace DiffApplier

theorem removalTest_eq_lineTest (B : List Str) (v : Str) :
    removalTest B v = lineTest B (fun l => !l.isEmpty && normalizeLineForMatching l == v) := by
  funext j
  unfold removalTest lineTest
  cases B[j]? <;> rfl

theorem countP_range'_lineTest (f : Str → Bool) (B : List Str) :
    ∀ pre : List Str,
      (List.range' pre.length B.length).countP (lineTest (pre ++ B) f) = B.countP f := by
  induction B with
  | nil => intro pre; rfl
  | cons x xs ih =>
    intro pre
    have hget : (pre ++ x :: xs)[pre.length]? = some x := by
      rw [List.getElem?_append_right (Nat.le_refl _)]
      simp
    have hx : lineTest (pre ++ x :: xs) f pre.length = f x := by
      unfold lineTest
      rw [hget]
    have hpre : pre ++ x :: xs = (pre ++ [x]) ++ xs := by simp
    have hlen : (pre ++ [x]).length = pre.length + 1 := by simp
    have := ih (pre ++ [x])
    rw [← hpre, hlen] at this
    rw [List.length_cons, List.range'_succ, List.countP_cons, List.countP_cons, hx, this]

theorem available_whole (B : List Str) (v : Str) :
    available B 0 B.length [] v = linesWithKey B v := by
  unfold available linesWithKey
  have h := countP_range'_lineTest (fun l => !l.isEmpty && normalizeLineForMatching l == v) B []
  simp only [List.length_nil, List.nil_append] at h
  rw [← h, removalTest_eq_lineTest]
  simp

theorem matchedCount_eq_sum (keys : List Str) (lines : Str → Nat) :
    matchedCount keys lines
      = Finset.sum keys.toFinset (fun v => min (keys.count v) (lines v)) := by
  unfold matchedCount
  rw [← List.sum_toFinset _ (List.nodup_dedup keys)]
  have hfin : keys.dedup.toFinset = keys.toFinset := by
    ext v
    simp
  rw [hfin]

theorem countRemovalMatchesInFile_eq (B : List Str) (keys : List Str) :
    countRemovalMatchesInFile B keys = matchedCount keys (linesWithKey B) := by
  rw [matchedCount_eq_sum]
  unfold countRemovalMatchesInFile
  split
  · rename_i h
    rw [List.length_eq_zero.mp h]
    rfl
  · rw [countRemovalLoop_formula B 0 B.length keys.toFinset keys
      (fun k hk => List.mem_toFinset.mpr hk) [] 0, Nat.zero_add]
    apply Finset.sum_congr rfl
    intro v _
    rw [available_whole]

/-- What the greedy loop has matched: a selection of the keys, assigned to distinct
unused indices of the range. -/
theorem countRemovalLoop_matching (B : List Str) (lo hi : Nat) (keys : List Str) :
    ∀ (used : List Nat) (m : Nat),
      ∃ (sel : List Str) (js : List Nat),
        List.Sublist sel keys ∧ (∀ j ∈ js, j ∉ used) ∧ MatchedTo B lo hi sel js ∧
        countRemovalLoop B lo hi keys used m = m + sel.length := by
  induction keys with
  | nil =>
    intro used m
    exact ⟨[], [], List.Sublist.slnil, fun j hj => absurd hj (List.not_mem_nil j),
      ⟨List.nodup_nil, List.Forall₂.nil⟩, rfl⟩
  | cons k rest ih =>
    intro used m
    rw [countRemovalLoop_cons]
    cases hf : firstInRange lo hi (fun j => !used.contains j && removalTest B k j) with
    | some j =>
      obtain ⟨-, -, h1, h2, h3, h4⟩ := available_found B lo hi used k j hf
      obtain ⟨sel, js, hsub, hused, ⟨hnd, hfor⟩, hcount⟩ := ih (j :: used) (m + 1)
      refine ⟨k :: sel, j :: js, hsub.cons₂ k, ?_, ⟨?_, List.Forall₂.cons ⟨h1, h2, h4⟩ hfor⟩, ?_⟩
      · intro i hi
        rcases List.mem_cons.mp hi with rfl | hi
        · exact h3
        · exact fun hu => hused i hi (List.mem_cons_of_mem _ hu)
      · exact List.nodup_cons.mpr ⟨fun hj => hused j hj (List.mem_cons_self _ _), hnd⟩
      · show countRemovalLoop B lo hi rest (j :: used) (m + 1) = m + (k :: sel).length
        rw [hcount, List.length_cons]
        omega
    | none =>
      obtain ⟨sel, js, hsub, hused, hm, hcount⟩ := ih used m
      exact ⟨sel, js, hsub.cons k, hused, hm, hcount⟩

theorem forall₂_count (B : List Str) (lo hi : Nat) (v : Str) (sel : List Str) (js : List Nat)
    (h : List.Forall₂ (fun k j => lo ≤ j ∧ j < hi ∧ HasKeyNonEmptyAt B k j) sel js) :
    sel.count v = js.countP (removalTest B v) := by
  induction h with
  | nil => rfl
  | @cons k j ks js hkj _ ih =>
    have htest : removalTest B k j = true := (removalTest_iff B k j).mpr hkj.2.2
    by_cases hkv : k = v
    · subst hkv
      rw [List.count_cons_self, List.countP_cons, ih]
      simp [htest]
    · have hfalse : ¬ removalTest B v j = true := by
        intro hv
        exact hkv (removalTest_key_unique B k v j htest hv)
      rw [List.count_cons_of_ne (Ne.symm hkv), List.countP_cons, ih]
      simp [hfalse]

/-- A selection of keys that is assigned to distinct lines of the range has, for
each key value, at most as many keys as the range has lines for it. -/
theorem matchedTo_count_le (B : List Str) (lo hi : Nat) (sel : List Str) (js : List Nat)
    (h : MatchedTo B lo hi sel js) (v : Str) :
    sel.count v ≤ available B lo hi [] v := by
  obtain ⟨hnd, hfor⟩ := h
  rw [forall₂_count B lo hi v sel js hfor]
  unfold available
  rw [List.countP_eq_length_filter, List.countP_eq_length_filter]
  apply List.Subperm.length_le
  apply List.subperm_of_subset (hnd.filter _)
  intro j hj
  rw [List.mem_filter] at hj ⊢
  refine ⟨?_, by simpa using hj.2⟩
  have hall : ∀ j ∈ js, lo ≤ j ∧ j < hi := by
    clear hj
    induction hfor with
    | nil => intro j hj; cases hj
    | @cons k j0 ks js0 hkj _ ih =>
      intro j hj
      rcases List.mem_cons.mp hj with rfl | hj
      · exact ⟨hkj.1, hkj.2.1⟩
      · exact ih (List.nodup_cons.mp hnd).2 j hj
  have := hall j hj.1
  rw [List.mem_range'_1]
  omega

theorem sum_count_toFinset (S : Finset Str) (sel : List Str) (hS : ∀ k ∈ sel, k ∈ S) :
    Finset.sum S (fun v => sel.count v) = sel.length := by
  induction sel with
  | nil => simp
  | cons k rest ih =>
    have hk : k ∈ S := hS k (List.mem_cons_self _ _)
    have hstep : ∀ v, (k :: rest).count v = rest.count v + (if v = k then 1 else 0) := by
      intro v
      rw [List.count_cons]
      by_cases hvk : v = k
      · subst hvk
        simp
      · have : (k == v) = false := by
          simp only [beq_eq_false_iff_ne, ne_eq]
          exact fun h => hvk h.symm
        simp [hvk, this]
    simp only [hstep]
    rw [Finset.sum_add_distrib, ih (fun x hx => hS x (List.mem_cons_of_mem _ hx)),
      Finset.sum_ite_eq' S k (fun _ => 1)]
    simp [hk]

/-- No selection of the keys that is matched to distinct lines is longer than the
count of the loop. -/
theorem matchedTo_length_le (B : List Str) (lo hi : Nat) (keys sel : List Str) (js : List Nat)
    (hsub : List.Sublist sel keys) (h : MatchedTo B lo hi sel js) :
    sel.length ≤ countRemovalLoop B lo hi keys [] 0 := by
  rw [countRemovalLoop_formula B lo hi keys.toFinset keys
    (fun k hk => List.mem_toFinset.mpr hk) [] 0, Nat.zero_add,
    ← sum_count_toFinset keys.toFinset sel (fun k hk => List.mem_toFinset.mpr (hsub.subset hk))]
  apply Finset.sum_le_sum
  intro v _
  exact Nat.le_min.mpr ⟨hsub.count_le v, matchedTo_count_le B lo hi sel js h v⟩

/-- The loop counts all keys exactly when all keys can be matched to distinct lines
of the range. -/
theorem countRemovalLoop_all_iff (B : List Str) (lo hi : Nat) (keys : List Str) :
    countRemovalLoop B lo hi keys [] 0 = keys.length ↔ ∃ js, MatchedTo B lo hi keys js := by
  constructor
  · intro h
    obtain ⟨sel, js, hsub, -, hm, hcount⟩ := countRemovalLoop_matching B lo hi keys [] 0
    rw [h, Nat.zero_add] at hcount
    have := hsub.eq_of_length hcount.symm
    subst this
    exact ⟨js, hm⟩
  · rintro ⟨js, hm⟩
    have h1 := matchedTo_length_le B lo hi keys keys js (List.Sublist.refl _) hm
    have h2 := countRemovalLoop_le B lo hi keys [] 0
    omega

end DiffApplier

namespace DiffApplier

theorem countRemovalMatchesInFile_eq_loop (B : List Str) (keys : List Str) :
    countRemovalMatchesInFile B keys = countRemovalLoop B 0 B.length keys [] 0 := by
  unfold countRemovalMatchesInFile
  split
  · rename_i h
    rw [List.length_eq_zero.mp h]
    rfl
  · rfl

theorem matchedTo_length_le_range (B : List Str) (lo hi : Nat) (sel : List Str) (js : List Nat)
    (h : MatchedTo B lo hi sel js) : sel.length ≤ hi - lo := by
  obtain ⟨hnd, hfor⟩ := h
  rw [hfor.length_eq]
  have hsub : js ⊆ List.range' lo (hi - lo) := by
    clear hnd
    induction hfor with
    | nil => intro j hj; cases hj
    | @cons k j0 ks js0 hkj _ ih =>
      intro j hj
      rcases List.mem_cons.mp hj with rfl | hj
      · rw [List.mem_range'_1]
        omega
      · exact ih hj
  have := (List.subperm_of_subset hnd hsub).length_le
  simpa using this

/-- C30. The count of countRemovalMatchesInFile. It is the sum, over the distinct
key values v, of the smaller of the number of keys equal to v and the number of
non-empty lines of the buffer whose key is v (matchedCount with linesWithKey).
It is the maximum number of keys that can be matched to distinct non-empty lines
with an equal key: no selection of the keys that is assigned to distinct such lines
is longer, and one selection of that length is. The count exceeds neither the
number of keys nor the length of the buffer, and it is the same for every
reordering of the keys. -/
theorem countRemovalMatchesInFile_spec (B : List Str) (keys : List Str) :
    countRemovalMatchesInFile B keys = matchedCount keys (linesWithKey B)
    ∧ (∀ (sel : List Str) (js : List Nat), List.Sublist sel keys →
        MatchedTo B 0 B.length sel js → sel.length ≤ countRemovalMatchesInFile B keys)
    ∧ (∃ (sel : List Str) (js : List Nat), List.Sublist sel keys ∧
        MatchedTo B 0 B.length sel js ∧ sel.length = countRemovalMatchesInFile B keys)
    ∧ countRemovalMatchesInFile B keys ≤ keys.length
    ∧ countRemovalMatchesInFile B keys ≤ B.length
    ∧ (∀ keys2 : List Str, keys.Perm keys2 →
        countRemovalMatchesInFile B keys2 = countRemovalMatchesInFile B keys) := by
  obtain ⟨sel, js, hsub, -, hm, hcount⟩ := countRemovalLoop_matching B 0 B.length keys [] 0
  rw [Nat.zero_add] at hcount
  refine ⟨countRemovalMatchesInFile_eq B keys, ?_, ⟨sel, js, hsub, hm, ?_⟩, ?_, ?_, ?_⟩
  · intro sel2 js2 hsub2 hm2
    rw [countRemovalMatchesInFile_eq_loop]
    exact matchedTo_length_le B 0 B.length keys sel2 js2 hsub2 hm2
  · rw [countRemovalMatchesInFile_eq_loop, hcount]
  · rw [countRemovalMatchesInFile_eq_loop]
    have := countRemovalLoop_le B 0 B.length keys [] 0
    omega
  · rw [countRemovalMatchesInFile_eq_loop, hcount]
    have := matchedTo_length_le_range B 0 B.length sel js hm
    omega
  · intro keys2 hperm
    rw [countRemovalMatchesInFile_eq, countRemovalMatchesInFile_eq, matchedCount_eq_sum,
      matchedCount_eq_sum, List.toFinset_eq_of_perm _ _ hperm]
    apply Finset.sum_congr rfl
    intro v _
    have hc : keys2.count v = keys.count v := (hperm.countP_eq (fun x => x == v)).symm
    rw [hc]

/-- An example for C30: three keys x, one key y, one key z and one empty key on a
buffer with two lines of the key x, one line of the key y and one empty line give
the count 2 + 1 + 0 + 0. -/
theorem countRemovalMatchesInFile_example :
    countRemovalMatchesInFile ["x".toList, "".toList, " x ".toList, "y".toList]
        ["x".toList, "x".toList, "y".toList, "x".toList, "z".toList, "".toList] = 3
    ∧ matchedCount ["x".toList, "x".toList, "y".toList, "x".toList, "z".toList, "".toList]
        (linesWithKey ["x".toList, "".toList, " x ".toList, "y".toList]) = 3 := by
  refine ⟨by decide, by decide⟩

end DiffApplier

namespace DiffApplier

/-! ## The probe centers of a hunk without context lines -/

theorem forall₂_imp_of_mem {R S : Str → Nat → Prop} {keys : List Str} {js : List Nat}
    (h : List.Forall₂ R keys js) (himp : ∀ k ∈ keys, ∀ j, R k j → S k j) :
    List.Forall₂ S keys js := by
  induction h with
  | nil => exact List.Forall₂.nil
  | @cons k j ks js hkj _ ih =>
    exact List.Forall₂.cons (himp k (List.mem_cons_self _ _) j hkj)
      (ih (fun k hk j hr => himp k (List.mem_cons_of_mem _ hk) j hr))

theorem normalizeLineForMatching_nil : normalizeLineForMatching [] = [] := rfl

theorem hasKeyNonEmptyAt_iff_of_ne (B : List Str) (k : Str) (j : Nat) (hk : k ≠ []) :
    HasKeyNonEmptyAt B k j ↔ HasKeyAt B k j := by
  constructor
  · rintro ⟨l, hl, -, hkey⟩
    exact ⟨l, hl, hkey⟩
  · rintro ⟨l, hl, hkey⟩
    refine ⟨l, hl, ?_, hkey⟩
    rintro rfl
    rw [normalizeLineForMatching_nil] at hkey
    exact hk hkey.symm

/-- A probe center is accepted exactly when all keys can be matched to distinct
non-empty lines of its window, which begins 10 lines before the center and ends
before the tenth line behind it. -/
theorem countRemovalMatches_all_iff (B : List Str) (keys : List Str) (p : Int)
    (hkeys : keys ≠ []) :
    countRemovalMatches B keys p 10 = keys.length ↔
      ∃ js : List Nat, js.Nodup ∧
        List.Forall₂ (fun (k : Str) (j : Nat) => p - 10 ≤ (j : Int) ∧ (j : Int) < p + 10 ∧
          HasKeyNonEmptyAt B k j) keys js := by
  have hlen : keys.length ≠ 0 := fun h => hkeys (List.length_eq_zero.mp h)
  unfold countRemovalMatches
  simp only [hlen, if_false]
  rw [countRemovalLoop_all_iff]
  constructor
  · rintro ⟨js, hnd, hfor⟩
    refine ⟨js, hnd, hfor.imp ?_⟩
    rintro k j ⟨h1, h2, h3⟩
    refine ⟨by omega, by omega, h3⟩
  · rintro ⟨js, hnd, hfor⟩
    refine ⟨js, hnd, hfor.imp ?_⟩
    rintro k j ⟨h1, h2, h3⟩
    have hlt := hasKeyNonEmptyAt_lt h3
    refine ⟨by omega, by omega, h3⟩

theorem findAllContextMatches_of_removals (B : List Str) (ops : List Operation) (s : Nat)
    (hc : contextKeys ops = []) (hr : removeKeys ops ≠ []) :
    findAllContextMatches B ops s = removalProbe B ops s := by
  have hlen : (removeKeys ops).length ≠ 0 := fun h => hr (List.length_eq_zero.mp h)
  have h : ¬ ((contextKeys ops).length = 0 ∧ (removeKeys ops).length = 0) := fun h => hlen h.2
  rw [findAllContextMatches_unsorted B ops s h, hc]
  simp

/-- C24, as amended. For an operation list without context operations and with at
least one remove operation, all removal keys non-empty: findAllContextMatches
returns, in the order of the five probe centers s, max(0, s - 5), max(0, s - 10),
min(length - 1, s + 5), min(length - 1, s + 10), one candidate for every accepted
center, hence at most five; a center p is accepted exactly when all removal keys
can be matched to distinct lines of the buffer at indices j with
p - 10 ≤ j < p + 10, each line with the key matched to it; every candidate is at
a probe center and records no context lines and all removal keys as matched. -/
theorem findAllContextMatches_removal_probe (B : List Str) (ops : List Operation) (s : Nat)
    (hc : contextKeys ops = []) (hr : removeKeys ops ≠ [])
    (hne : ∀ k ∈ removeKeys ops, k ≠ []) :
    findAllContextMatches B ops s =
        (searchPositions B s).filterMap (fun p =>
          if countRemovalMatches B (removeKeys ops) p 10 = (removeKeys ops).length then
            some { startPos := p.toNat, contextLines := 0,
                   removeMatches := (removeKeys ops).length, totalOperations := ops.length }
          else none)
    ∧ (∀ p : Int, countRemovalMatches B (removeKeys ops) p 10 = (removeKeys ops).length ↔
        ∃ js : List Nat, js.Nodup ∧
          List.Forall₂ (fun (k : Str) (j : Nat) =>
              p - 10 ≤ (j : Int) ∧ (j : Int) < p + 10 ∧ HasKeyAt B k j)
            (removeKeys ops) js)
    ∧ (findAllContextMatches B ops s).length ≤ 5
    ∧ (∀ m ∈ findAllContextMatches B ops s,
        (m.startPos : Int) ∈ searchPositions B s ∧
        countRemovalMatches B (removeKeys ops) (m.startPos : Int) 10 = (removeKeys ops).length ∧
        m.contextLines = 0 ∧ m.removeMatches = (removeKeys ops).length ∧
        m.totalOperations = ops.length) := by
  have heq : findAllContextMatches B ops s =
        (searchPositions B s).filterMap (fun p =>
          if countRemovalMatches B (removeKeys ops) p 10 = (removeKeys ops).length then
            some { startPos := p.toNat, contextLines := 0,
                   removeMatches := (removeKeys ops).length, totalOperations := ops.length }
          else none) := by
    rw [findAllContextMatches_of_removals B ops s hc hr]
    unfold removalProbe
    apply List.filterMap_congr
    intro p _
    simp only
    split
    · rename_i h
      rw [h]
    · rfl
  refine ⟨heq, ?_, ?_, ?_⟩
  · intro p
    rw [countRemovalMatches_all_iff B _ p hr]
    constructor
    · rintro ⟨js, hnd, hfor⟩
      have h2 : List.Forall₂ (fun (k : Str) (j : Nat) =>
          p - 10 ≤ (j : Int) ∧ (j : Int) < p + 10 ∧ HasKeyAt B k j) (removeKeys ops) js :=
        forall₂_imp_of_mem hfor (fun k hk j h =>
          ⟨h.1, h.2.1, (hasKeyNonEmptyAt_iff_of_ne B k j (hne k hk)).mp h.2.2⟩)
      exact ⟨js, hnd, h2⟩
    · rintro ⟨js, hnd, hfor⟩
      have h2 : List.Forall₂ (fun (k : Str) (j : Nat) =>
          p - 10 ≤ (j : Int) ∧ (j : Int) < p + 10 ∧ HasKeyNonEmptyAt B k j)
          (removeKeys ops) js :=
        forall₂_imp_of_mem hfor (fun k hk j h =>
          ⟨h.1, h.2.1, (hasKeyNonEmptyAt_iff_of_ne B k j (hne k hk)).mpr h.2.2⟩)
      exact ⟨js, hnd, h2⟩
  · rw [heq]
    exact (List.length_filterMap_le _ _).trans (by simp [searchPositions])
  · intro m hm
    rw [heq, List.mem_filterMap] at hm
    obtain ⟨p, hp, hm⟩ := hm
    split at hm
    · rename_i hacc
      simp only [Option.some.injEq] at hm
      subst hm
      have hnn := removalProbe_center_nonneg B (removeKeys ops) s hr p hp hacc
      have hcast : ((p.toNat : Nat) : Int) = p := Int.toNat_of_nonneg hnn
      refine ⟨?_, ?_, rfl, rfl, rfl⟩
      · show ((p.toNat : Nat) : Int) ∈ searchPositions B s
        rw [hcast]
        exact hp
      · show countRemovalMatches B (removeKeys ops) ((p.toNat : Nat) : Int) 10
          = (removeKeys ops).length
        rw [hcast]
        exact hacc
    · cases hm

/-- Witness for C24 as amended: a buffer of ten lines a and the line x at index 10,
the removal of x, searched from offset 0. The centers are 0, 0, 0, 5 and 10; the
windows of 5 and 10 hold the line x, and the candidates are at 5 and 10. -/
theorem findAllContextMatches_removal_probe_witness :
    findAllContextMatches (List.replicate 10 "a".toList ++ ["x".toList])
        [⟨OpType.remove, "x".toList⟩] 0
      = (searchPositions (List.replicate 10 "a".toList ++ ["x".toList]) 0).filterMap (fun p =>
          if countRemovalMatches (List.replicate 10 "a".toList ++ ["x".toList])
              (removeKeys [⟨OpType.remove, "x".toList⟩]) p 10
              = (removeKeys [⟨OpType.remove, "x".toList⟩]).length then
            some { startPos := p.toNat, contextLines := 0,
                   removeMatches := (removeKeys [⟨OpType.remove, "x".toList⟩]).length,
                   totalOperations := [(⟨OpType.remove, "x".toList⟩ : Operation)].length }
          else none)
    ∧ searchPositions (List.replicate 10 "a".toList ++ ["x".toList]) 0 = [0, 0, 0, 5, 10] :=
  ⟨(findAllContextMatches_removal_probe (List.replicate 10 "a".toList ++ ["x".toList])
      [⟨OpType.remove, "x".toList⟩] 0 (by decide) (by decide) (by decide)).1,
   by decide⟩

set_option maxRecDepth 100000 in
/-- Counterexample to C24 as stated: on the buffer of ten lines a and the line x at
index 10, the hunk that removes x is searched from offset 0. The line x is at
distance 10 from the probe center 0, so the center 0 is accepted by the claim; the
window of the source ends before index 10, and the candidates are at 5 and 10
only. Besides, the removal of an empty line finds no candidate on a buffer that
begins with an empty line: the count passes over empty lines. -/
theorem findAllContextMatches_removal_probe_counterexample :
    findAllContextMatches (List.replicate 10 "a".toList ++ ["x".toList])
        [⟨OpType.remove, "x".toList⟩] 0
      = [{ startPos := 5, contextLines := 0, removeMatches := 1, totalOperations := 1 },
         { startPos := 10, contextLines := 0, removeMatches := 1, totalOperations := 1 }]
    ∧ (0 : Int) ∈ searchPositions (List.replicate 10 "a".toList ++ ["x".toList]) 0
    ∧ HasKeyAt (List.replicate 10 "a".toList ++ ["x".toList])
        (normalizeLineForMatching "x".toList) 10
    ∧ ((10 : Int) - 0).natAbs ≤ 10
    ∧ ¬ (∃ m ∈ findAllContextMatches (List.replicate 10 "a".toList ++ ["x".toList])
          [⟨OpType.remove, "x".toList⟩] 0, m.startPos = 0)
    ∧ findAllContextMatches ["".toList, "a".toList] [⟨OpType.remove, "".toList⟩] 0 = []
    ∧ HasKeyAt ["".toList, "a".toList] (normalizeLineForMatching "".toList) 0 := by
  refine ⟨by decide, by decide, ⟨"x".toList, by decide, by decide⟩, by decide, by decide,
    by decide, ⟨"".toList, by decide, by decide⟩⟩

end DiffApplier
